import Mathlib

/-!
VHDPOP: bindings engine and orderings engine

A shallow embedding of `bindings.cpp`, `terms.h` and `orderings.cpp` of the
VHDPOP planner, and theorems about it.

Conventions of the embedding.

* A call that throws (`logic_error`, `bad_cast`) or reads a container out of
  range yields `Except.error`; a null pointer result is `none`.
* A chain (`Chain<T>`) is a list whose head is the newest cell.  A pointer into
  a chain is the pair of its address and its pointee; the address of a cell is
  the length of the chain that starts at it, which is unique among the cells of
  one chain and of every chain that extends it by consing.
* `size_t` is `Nat`; where the source subtracts, the subtraction is modulo
  `2 ^ 64`.  `int` is `Int`.
-/

namespace VHDPOP

/-! ## Faults -/

/-- What makes a call leave without a result. -/
inductive Fault where
  | logic_error
  | bad_cast
  | out_of_range
  | runtime_error
  | signed_overflow
deriving DecidableEq, Repr

deriving instance DecidableEq for Except

/-! ## terms.h -/

/-- A term (terms.h): objects have a non-negative index, variables a negative one.
`Object` and `Variable` carry the same index and convert to `Term` implicitly. -/
structure Term where
  index : Int
deriving DecidableEq, Repr

abbrev Object := Term
abbrev Variable := Term

/-- Source: `Term::is_object`. -/
def Term.is_object (t : Term) : Bool := decide (0 ≤ t.index)

/-- Source: `Term::is_variable`. -/
def Term.is_variable (t : Term) : Bool := decide (t.index < 0)

/-- Source: `Term::as_object`, throws `bad_cast` on a variable. -/
def Term.as_object (t : Term) : Except Fault Object :=
  if t.is_object then .ok t else .error .bad_cast

/-- Source: `Term::as_variable`, throws `bad_cast` on an object. -/
def Term.as_variable (t : Term) : Except Fault Variable :=
  if t.is_variable then .ok t else .error .bad_cast

/-- Source: `operator==(const Term&, const Term&)`. -/
def Term.eq (t1 t2 : Term) : Bool := decide (t1.index = t2.index)

/-- Source: `operator!=(const Term&, const Term&)`; its body is
`return t1.index == t2.index;`. -/
def Term.ne (t1 t2 : Term) : Bool := decide (t1.index = t2.index)

/-- Source: `operator<(const Term&, const Term&)`. -/
def Term.lt (t1 t2 : Term) : Bool := decide (t1.index < t2.index)

/-! ## The static type and term tables, as the bindings engine reads them -/

/-- A type is its index (types.h). -/
abbrev Ty := Int

/-- The static tables read by the bindings engine: `TypeTable::is_subtype`
and `TermTable::type`.  They are a parameter of every operation below. -/
structure Tables where
  is_subtype : Ty → Ty → Bool
  type : Term → Ty

/-- Source: `TypeTable::is_compatible`. -/
def Tables.is_compatible (tb : Tables) (t1 t2 : Ty) : Bool :=
  tb.is_subtype t1 t2 || tb.is_subtype t2 t1

/-- Source: `TypeTable::most_specific`. -/
def Tables.most_specific (tb : Tables) (t1 t2 : Ty) : Option Ty :=
  if tb.is_subtype t1 t2 then some t1
  else if tb.is_subtype t2 t1 then some t2
  else none

/-- Source: `TermTable::compatible_objects`, over the objects of the problem
in the order of the table. -/
def Tables.compatible_objects (tb : Tables) (objects : List Object) (t : Ty) : List Object :=
  objects.filter (fun o => tb.is_subtype (tb.type o) t)

/-! ## bindings.h: bindings, object sets -/

/-- A variable with its step id (`StepVariable`). -/
abbrev StepVariable := Variable × Nat

/-- Equality of step variables, as `set<StepVariable>::find` and the loops of
`VarSet::includes` decide it. -/
def StepVariable.same (a b : StepVariable) : Bool := a.1.eq b.1 && decide (a.2 = b.2)

/-- Source: `class Binding`. -/
structure Binding where
  var : Variable
  var_id : Nat
  term : Term
  term_id : Nat
  equality : Bool
deriving DecidableEq, Repr

abbrev BindingList := List Binding

/-- An `ObjectSet` (`set<Object>`): kept ascending by index, without duplicates. -/
abbrev ObjectSet := List Object

/-- Source: `set<Object>::insert`. -/
def ObjectSet.insert : ObjectSet → Object → ObjectSet
  | [], o => [o]
  | x :: xs, o =>
    if o.lt x then o :: x :: xs
    else if x.lt o then x :: ObjectSet.insert xs o
    else x :: xs

/-- Source: `set<Object>::find(o) != end()`. -/
def ObjectSet.contains (s : ObjectSet) (o : Object) : Bool :=
  s.any (fun x => !x.lt o && !o.lt x)

/-- Source: `set<Object>::erase(o)`. -/
def ObjectSet.erase (s : ObjectSet) (o : Object) : ObjectSet :=
  s.filter (fun x => x.lt o || o.lt x)

/-- Source: `std::set_intersection` over two ascending ranges. -/
def ObjectSet.set_intersection : ObjectSet → ObjectSet → ObjectSet
  | [], _ => []
  | x :: xs, ys =>
    let rec go (x : Object) (rest : ObjectSet → ObjectSet) : ObjectSet → ObjectSet
      | [] => []
      | y :: ys =>
        if x.lt y then rest (y :: ys)
        else if y.lt x then go x rest ys
        else x :: rest ys
    go x (ObjectSet.set_intersection xs) ys

/-! ## ActionDomain -/

/-- Source: `class ActionDomain`: the list of parameter tuples. -/
structure ActionDomain where
  tuples : List (List Object)
deriving DecidableEq, Repr

/-- Source: `ActionDomain::size`. -/
def ActionDomain.size (d : ActionDomain) : Nat := d.tuples.length

/-- Source: `ActionDomain::get_projection`; throws when a tuple is shorter than the column. -/
def ActionDomain.get_projection (d : ActionDomain) (column : Nat) : Except Fault ObjectSet :=
  d.tuples.foldlM
    (fun (acc : ObjectSet) (tuple : List Object) =>
      match tuple[column]? with
      | none => .error .logic_error
      | some o => .ok (ObjectSet.insert acc o))
    []

/-- Source: `ActionDomain::projection_size`. -/
def ActionDomain.projection_size (d : ActionDomain) (column : Nat) : Except Fault Nat :=
  match d.get_projection column with
  | .error e => .error e
  | .ok s => .ok s.length

/-- The pointer an `ActionDomain` restriction returns: null, the receiver
itself, or a newly allocated domain. -/
inductive DomainPtr where
  | null
  | this
  | fresh (d : ActionDomain)
deriving DecidableEq, Repr

/-- The loop shared by the four restriction functions: the tuples whose column
passes `keep`, in order; throws when a tuple is shorter than the column. -/
def ActionDomain.select (d : ActionDomain) (keep : Object → Bool) (column : Nat) :
    Except Fault (List (List Object)) :=
  d.tuples.foldlM
    (fun (acc : List (List Object)) (tuple : List Object) =>
      match tuple[column]? with
      | none => .error .logic_error
      | some o => .ok (if keep o then acc ++ [tuple] else acc))
    []

/-- The tail shared by the four restriction functions: null for no tuple, the
receiver when every tuple was kept, else the new domain. -/
def ActionDomain.finish (d : ActionDomain) (kept : List (List Object)) : DomainPtr :=
  if kept.isEmpty then .null
  else if kept.length = d.size then .this
  else .fresh ⟨kept⟩

/-- Source: `ActionDomain::get_restricted_domain(const Object&, size_t)`. -/
def ActionDomain.get_restricted_domain (d : ActionDomain) (obj : Object) (column : Nat) :
    Except Fault DomainPtr :=
  match d.select (fun o => o.eq obj) column with
  | .error e => .error e
  | .ok kept => .ok (d.finish kept)

/-- Source: `ActionDomain::get_restricted_domain(const ObjectSet&, size_t)`. -/
def ActionDomain.get_restricted_domain_set (d : ActionDomain) (objs : ObjectSet) (column : Nat) :
    Except Fault DomainPtr :=
  match d.select (fun o => ObjectSet.contains objs o) column with
  | .error e => .error e
  | .ok kept => .ok (d.finish kept)

/-- Source: `ActionDomain::get_excluded_domain(const Object&, size_t)`; the test
it applies is `tuple[column] != obj` with the `operator!=` of terms.h. -/
def ActionDomain.get_excluded_domain (d : ActionDomain) (obj : Object) (column : Nat) :
    Except Fault DomainPtr :=
  match d.select (fun o => o.ne obj) column with
  | .error e => .error e
  | .ok kept => .ok (d.finish kept)

/-! ## StepDomain -/

/-- Source: `class StepDomain`. -/
structure StepDomain where
  id : Nat
  parameters : List Variable
  domain : ActionDomain
deriving DecidableEq, Repr

/-- A non-null `const StepDomain*` into the step-domain chain; like `VarSetPtr` it stands
for the cell the code means, where the sources take the address of a copy of its head. -/
structure StepDomainPtr where
  addr : Nat
  sd : StepDomain
deriving DecidableEq, Repr

/-- Source: `StepDomain::index_of`; `none` stands for `-1`. -/
def StepDomain.index_of (sd : StepDomain) (var : Variable) : Option Nat :=
  let i := sd.parameters.findIdx (fun p => p.eq var)
  if i < sd.parameters.length then some i else none

/-- Source: `StepDomain::includes`; the tuple is indexed without a range check. -/
def StepDomain.includes (sd : StepDomain) (obj : Object) (column : Nat) : Except Fault Bool :=
  sd.domain.tuples.foldr
    (fun (tuple : List Object) (rest : Except Fault Bool) =>
      match tuple[column]? with
      | none => .error .out_of_range
      | some o => if o.eq obj then .ok true else rest)
    (.ok false)

/-- Source: `StepDomain::get_projection`. -/
def StepDomain.get_projection (sd : StepDomain) (column : Nat) : Except Fault ObjectSet :=
  sd.domain.get_projection column

/-- Source: `StepDomain::get_projection_size`. -/
def StepDomain.get_projection_size (sd : StepDomain) (column : Nat) : Except Fault Nat :=
  sd.domain.projection_size column

/-- The tail shared by the `StepDomain` restriction functions: null, the
receiver (`ad == domain`), or a new cell consed onto the chain `sdc`. -/
def StepDomainPtr.rechain (self : StepDomainPtr) (sdc : List StepDomain) :
    DomainPtr → Option StepDomainPtr × List StepDomain
  | .null => (none, sdc)
  | .this => (some self, sdc)
  | .fresh ad =>
    let sd : StepDomain := ⟨self.sd.id, self.sd.parameters, ad⟩
    (some ⟨sdc.length + 1, sd⟩, sd :: sdc)

/-- Source: `StepDomain::get_restricted_domain(sdc, const Object&, column)`. -/
def StepDomainPtr.get_restricted_domain (self : StepDomainPtr) (sdc : List StepDomain)
    (obj : Object) (column : Nat) : Except Fault (Option StepDomainPtr × List StepDomain) :=
  match self.sd.domain.get_restricted_domain obj column with
  | .error e => .error e
  | .ok ad => .ok (self.rechain sdc ad)

/-- Source: `StepDomain::get_restricted_domain(sdc, const ObjectSet&, column)`. -/
def StepDomainPtr.get_restricted_domain_set (self : StepDomainPtr) (sdc : List StepDomain)
    (objs : ObjectSet) (column : Nat) : Except Fault (Option StepDomainPtr × List StepDomain) :=
  match self.sd.domain.get_restricted_domain_set objs column with
  | .error e => .error e
  | .ok ad => .ok (self.rechain sdc ad)

/-- Source: `StepDomain::get_excluded_domain(sdc, const Object&, column)`. -/
def StepDomainPtr.get_excluded_domain (self : StepDomainPtr) (sdc : List StepDomain)
    (obj : Object) (column : Nat) : Except Fault (Option StepDomainPtr × List StepDomain) :=
  match self.sd.domain.get_excluded_domain obj column with
  | .error e => .error e
  | .ok ad => .ok (self.rechain sdc ad)

/-- Source: `find_step_domain`: the first step domain of the chain with the
step id, if it has the variable; `none` is the pair `(0, 0)`. -/
def find_step_domain : List StepDomain → Variable → Nat → Option (StepDomainPtr × Nat)
  | [], _, _ => none
  | sd :: tl, var, step_id =>
    if step_id > 0 then
      if sd.id = step_id then
        match sd.index_of var with
        | some column => some (⟨tl.length + 1, sd⟩, column)
        | none => none
      else find_step_domain tl var step_id
    else none

/-! ## VarSet -/

/-- Source: `class VarSet`.  The constant is stored by value here; the address of
the private copy every `VarSet` object makes of it (`new Object(*constant)`) is
`VarSetPtr.constant_ptr`. -/
structure VarSet where
  constant : Option Object
  cd_set : List StepVariable
  ncd_set : List StepVariable
  type : Ty
deriving DecidableEq, Repr

/-- A non-null `const VarSet*` into the varset chain.  The sources obtain such a pointer as
the address of a copy of the head of a cell (`&vsc->get_head()`, with `Chain<T>::get_head`
returning the head by value, or `&vs` for a local copy `vs`); the pointer stands here for the
cell the code means, and what a compiled program reads through the address of the copy is
outside this model. -/
structure VarSetPtr where
  addr : Nat
  vs : VarSet
deriving DecidableEq, Repr

/-- Pointer equality of two possibly null chain pointers. -/
def VarSetPtr.same : Option VarSetPtr → Option VarSetPtr → Bool
  | none, none => true
  | some p, some q => decide (p.addr = q.addr)
  | _, _ => false

/-- Pointer equality of two possibly null step-domain pointers. -/
def StepDomainPtr.same : Option StepDomainPtr → Option StepDomainPtr → Bool
  | none, none => true
  | some p, some q => decide (p.addr = q.addr)
  | _, _ => false

/-- The member `constant` of the pointee, a `const Object*`: every `VarSet`
object, and every copy of one, allocates its own `Object`, so the pointer of
two `VarSet` objects agree only when both are null or the objects are one. -/
def VarSetPtr.constant_ptr (p : VarSetPtr) : Option Nat :=
  match p.vs.constant with
  | none => none
  | some _ => some p.addr

/-- Source: `VarSet::includes(const Object&)`. -/
def VarSet.includes_obj (vs : VarSet) (obj : Object) : Bool :=
  match vs.constant with
  | none => false
  | some c => c.eq obj

/-- Source: `VarSet::includes(const Variable&, size_t)`. -/
def VarSet.includes (vs : VarSet) (var : Variable) (step_id : Nat) : Bool :=
  vs.cd_set.any (fun sv => sv.1.eq var && decide (sv.2 = step_id))

/-- Source: `VarSet::excludes`. -/
def VarSet.excludes (vs : VarSet) (var : Variable) (step_id : Nat) : Bool :=
  vs.ncd_set.any (fun sv => sv.1.eq var && decide (sv.2 = step_id))

/-- Cons a new `VarSet` onto the chain (`vsc = new Chain<VarSet>(vs, vsc);
return &vsc->get_head();`); the pointer returned stands for the new cell, see `VarSetPtr`. -/
def push_varset (vsc : List VarSet) (vs : VarSet) : Option VarSetPtr × List VarSet :=
  (some ⟨vsc.length + 1, vs⟩, vs :: vsc)

/-- Source: `VarSet::add(vsc, const Object&)`. -/
def VarSetPtr.add_obj (tb : Tables) (self : VarSetPtr) (vsc : List VarSet) (obj : Object) :
    Option VarSetPtr × List VarSet :=
  match self.vs.constant with
  | some c => (if c.eq obj then some self else none, vsc)
  | none =>
    let ot := tb.type obj
    if tb.is_subtype ot self.vs.type then
      push_varset vsc ⟨some obj, self.vs.cd_set, self.vs.ncd_set, ot⟩
    else (none, vsc)

/-- Source: `VarSet::add(vsc, const Variable&, size_t)`. -/
def VarSetPtr.add_var (tb : Tables) (self : VarSetPtr) (vsc : List VarSet)
    (var : Variable) (step_id : Nat) : Option VarSetPtr × List VarSet :=
  if self.vs.excludes var step_id then (none, vsc)
  else
    let tt : Option Ty :=
      match self.vs.constant with
      | some _ =>
        if !tb.is_subtype self.vs.type (tb.type var) then none else some self.vs.type
      | none => tb.most_specific self.vs.type (tb.type var)
    match tt with
    | none => (none, vsc)
    | some t =>
      push_varset vsc ⟨self.vs.constant, (var, step_id) :: self.vs.cd_set, self.vs.ncd_set, t⟩

/-- Source: `VarSet::add(vsc, const Term&, size_t)`. -/
def VarSetPtr.add (tb : Tables) (self : VarSetPtr) (vsc : List VarSet)
    (term : Term) (step_id : Nat) : Option VarSetPtr × List VarSet :=
  if term.is_object then self.add_obj tb vsc term
  else self.add_var tb vsc term step_id

/-- Source: `VarSet::restrict`. -/
def VarSetPtr.restrict (self : VarSetPtr) (vsc : List VarSet)
    (var : Variable) (step_id : Nat) : Option VarSetPtr × List VarSet :=
  push_varset vsc ⟨self.vs.constant, self.vs.cd_set, (var, step_id) :: self.vs.ncd_set,
    self.vs.type⟩

/-- The first loop of `VarSet::combine`: cons the members of `vs.cd_set` onto
the receiver's cd-set, or null when the receiver excludes one of them. -/
def VarSet.combine_cd (self : VarSet) : List StepVariable → List StepVariable →
    Option (List StepVariable)
  | [], comb_cd => some comb_cd
  | sv :: vc, comb_cd =>
    if self.excludes sv.1 sv.2 then none
    else VarSet.combine_cd self vc (sv :: comb_cd)

/-- The second loop of `VarSet::combine`: cons the members of `vs.ncd_set` the
receiver does not exclude yet, or null when the receiver includes one of them. -/
def VarSet.combine_ncd (self : VarSet) : List StepVariable → List StepVariable →
    Option (List StepVariable)
  | [], comb_ncd => some comb_ncd
  | sv :: vc, comb_ncd =>
    if self.includes sv.1 sv.2 then none
    else if !self.excludes sv.1 sv.2 then VarSet.combine_ncd self vc (sv :: comb_ncd)
    else VarSet.combine_ncd self vc comb_ncd

/-- Source: `VarSet::combine`.  The test on the constants is
`constant != vs.constant`, a comparison of the two `const Object*` members. -/
def VarSetPtr.combine (tb : Tables) (self : VarSetPtr) (vsc : List VarSet) (vs : VarSetPtr) :
    Option VarSetPtr × List VarSet :=
  let head : Option (Option Object × Ty) :=
    match self.vs.constant with
    | some c =>
      match vs.vs.constant with
      | some _ =>
        if self.constant_ptr ≠ vs.constant_ptr then none else some (some c, self.vs.type)
      | none =>
        if !tb.is_subtype self.vs.type vs.vs.type then none else some (some c, self.vs.type)
    | none =>
      match vs.vs.constant with
      | some c2 =>
        if !tb.is_subtype vs.vs.type self.vs.type then none else some (some c2, vs.vs.type)
      | none =>
        match tb.most_specific self.vs.type vs.vs.type with
        | none => none
        | some tt => some (none, tt)
  match head with
  | none => (none, vsc)
  | some (comb_obj, tt) =>
    match VarSet.combine_cd self.vs vs.vs.cd_set self.vs.cd_set with
    | none => (none, vsc)
    | some comb_cd =>
      match VarSet.combine_ncd self.vs vs.vs.ncd_set self.vs.ncd_set with
      | none => (none, vsc)
      | some comb_ncd => push_varset vsc ⟨comb_obj, comb_cd, comb_ncd, tt⟩

/-- Source: `VarSet::make`. -/
def VarSet.make (tb : Tables) (vsc : List VarSet) (b : Binding) (reverse : Bool) :
    Option VarSetPtr × List VarSet :=
  if b.equality then
    let cd_set : List StepVariable := [(b.var, b.var_id)]
    if b.term.is_object then
      push_varset vsc ⟨some b.term, cd_set, [], tb.type b.term⟩
    else
      match tb.most_specific (tb.type b.var) (tb.type b.term) with
      | none => (none, vsc)
      | some tt => push_varset vsc ⟨none, (b.term, b.term_id) :: cd_set, [], tt⟩
  else if reverse then
    let ncd_set : List StepVariable := [(b.var, b.var_id)]
    if b.term.is_object then
      push_varset vsc ⟨some b.term, [], ncd_set, tb.type b.term⟩
    else
      push_varset vsc ⟨none, [(b.term, b.term_id)], ncd_set, tb.type b.term⟩
  else
    if b.term.is_object then (none, vsc)
    else
      push_varset vsc ⟨none, [(b.var, b.var_id)], [(b.term, b.term_id)], tb.type b.var⟩

/-- Source: `find_varset(varsets, const Object&)`. -/
def find_varset_obj : List VarSet → Object → Option VarSetPtr
  | [], _ => none
  | vs :: tl, obj =>
    if vs.includes_obj obj then some ⟨tl.length + 1, vs⟩ else find_varset_obj tl obj

/-- Source: `find_varset(varsets, const Variable&, size_t)`. -/
def find_varset : List VarSet → Variable → Nat → Option VarSetPtr
  | [], _, _ => none
  | vs :: tl, var, step_id =>
    if vs.includes var step_id then some ⟨tl.length + 1, vs⟩ else find_varset tl var step_id

/-! ## Bindings -/

/-- Source: `class Bindings`. -/
structure Bindings where
  varsets : List VarSet
  high_step_id : Nat
  step_domains : List StepDomain
deriving DecidableEq, Repr

/-- Source: `Bindings::EMPTY`. -/
def Bindings.EMPTY : Bindings := ⟨[], 0, []⟩

/-- Source: `Bindings::get_binding`. -/
def Bindings.get_binding (b : Bindings) (term : Term) (step_id : Nat) : Term :=
  if term.is_variable then
    let vs := if step_id ≤ b.high_step_id then find_varset b.varsets term step_id else none
    match vs with
    | some p =>
      match p.vs.constant with
      | some c => c
      | none => term
    | none => term
  else term

/-- The loop of `Bindings::get_domain` over the ncd-set of the varset of the
variable: erase the constant of the varset of every excluded step variable. -/
def Bindings.erase_excluded (b : Bindings) : List StepVariable → ObjectSet → ObjectSet
  | [], objs => objs
  | sv :: vc, objs =>
    let vs2 := if sv.2 ≤ b.high_step_id then find_varset b.varsets sv.1 sv.2 else none
    match vs2 with
    | some p =>
      match p.vs.constant with
      | some c => Bindings.erase_excluded b vc (ObjectSet.erase objs c)
      | none => Bindings.erase_excluded b vc objs
    | none => Bindings.erase_excluded b vc objs

/-- Source: `Bindings::get_domain`; `objects` are the objects of the problem. -/
def Bindings.get_domain (tb : Tables) (b : Bindings) (var : Variable) (step_id : Nat)
    (objects : List Object) : Except Fault ObjectSet :=
  match find_step_domain b.step_domains var step_id with
  | some (sd, column) => sd.sd.get_projection column
  | none =>
    let objs : ObjectSet :=
      (tb.compatible_objects objects (tb.type var)).foldl ObjectSet.insert []
    let vs := if step_id ≤ b.high_step_id then find_varset b.varsets var step_id else none
    match vs with
    | some p => .ok (Bindings.erase_excluded b p.vs.ncd_set objs)
    | none => .ok objs

/-- Source: `add_domain_bindings`; `ex_column = none` is the default `UINT_MAX`. -/
def add_domain_bindings (bindings : BindingList) (old_sd new_sd : StepDomain)
    (ex_column : Option Nat) : Except Fault BindingList :=
  (List.range old_sd.parameters.length).foldlM
    (fun (acc : BindingList) (c : Nat) =>
      if some c = ex_column then .ok acc
      else
        match new_sd.get_projection_size c with
        | .error e => .error e
        | .ok n1 =>
          if n1 ≠ 1 then .ok acc
          else
            match old_sd.get_projection_size c with
            | .error e => .error e
            | .ok n0 =>
              if n0 > 1 then
                match new_sd.parameters[c]?, new_sd.get_projection c with
                | some p, .ok (o :: _) => .ok (acc ++ [⟨p, new_sd.id, o, 0, true⟩])
                | _, _ => .error .out_of_range
              else .ok acc)
    bindings

/-- The local variables of `Bindings::add(const BindingList&, bool)` that are
carried from one binding to the next. -/
structure AddState where
  varsets_new : List VarSet
  high_step_new : Nat
  high_step_vars : List StepVariable
  step_domains_new : List StepDomain
  new_binds : BindingList
deriving DecidableEq, Repr

/-- The lookup of the varset of a step variable in `Bindings::add`: the chain
`chain` is searched when the step id is not above `high_step_id` or the step
variable is in `high_step_vars`; otherwise the step variable is recorded and
the result is null. -/
def AddState.lookup (b : Bindings) (st : AddState) (chain : List VarSet)
    (var : Variable) (var_id : Nat) : Option VarSetPtr × AddState :=
  if var_id ≤ b.high_step_id || st.high_step_vars.any (fun sv => StepVariable.same sv (var, var_id))
  then (find_varset chain var var_id, st)
  else
    (none,
      { st with
        high_step_new := if var_id > st.high_step_new then var_id else st.high_step_new
        high_step_vars := (var, var_id) :: st.high_step_vars })

/-- The loop-carried variables of the restriction loop of the equality branch. -/
structure RestrictState where
  step_domains_new : List StepDomain
  new_binds : BindingList
  intersection : Option ObjectSet
deriving DecidableEq, Repr

/-- The body `if (var != 0) { ... }` of the restriction loop of the equality
branch, for one step variable; `second` tells whether `phase > 4`.  The result
`none` is the `return 0` of an emptied domain. -/
def restrict_step (obj : Option Object) (second : Bool) (rs : RestrictState)
    (sv : StepVariable) : Except Fault (Option RestrictState) :=
  match find_step_domain rs.step_domains_new sv.1 sv.2 with
  | none => .ok (some rs)
  | some (sd, column) =>
    match obj with
    | some o =>
      match sd.get_restricted_domain rs.step_domains_new o column with
      | .error e => .error e
      | .ok (none, _) => .ok none
      | .ok (some new_sd, sdc) =>
        if !StepDomainPtr.same (some sd) (some new_sd) then
          match add_domain_bindings rs.new_binds sd.sd new_sd.sd (some column) with
          | .error e => .error e
          | .ok nb => .ok (some { rs with step_domains_new := sdc, new_binds := nb })
        else .ok (some { rs with step_domains_new := sdc })
    | none =>
      if second then
        match rs.intersection with
        | none => .error .out_of_range
        | some inter =>
          match sd.get_restricted_domain_set rs.step_domains_new inter column with
          | .error e => .error e
          | .ok (none, _) => .ok none
          | .ok (some new_sd, sdc) =>
            if !StepDomainPtr.same (some sd) (some new_sd) then
              match add_domain_bindings rs.new_binds sd.sd new_sd.sd none with
              | .error e => .error e
              | .ok nb => .ok (some { rs with step_domains_new := sdc, new_binds := nb })
            else .ok (some { rs with step_domains_new := sdc })
      else
        match sd.sd.get_projection column with
        | .error e => .error e
        | .ok set2 =>
          match rs.intersection with
          | none => .ok (some { rs with intersection := some set2 })
          | some inter =>
            let cut := ObjectSet.set_intersection inter set2
            if cut.isEmpty then .ok none
            else .ok (some { rs with intersection := some cut })

/-- The restriction loop over a list of step variables, in order. -/
def restrict_pass (obj : Option Object) (second : Bool) :
    List StepVariable → RestrictState → Except Fault (Option RestrictState)
  | [], rs => .ok (some rs)
  | sv :: vc, rs =>
    match restrict_step obj second rs sv with
    | .error e => .error e
    | .ok none => .ok none
    | .ok (some rs1) => restrict_pass obj second vc rs1

/-- The step variables the phases 0-1 (and 4-5) of the restriction loop visit:
the variable of the binding when it had no varset, the cd-set of its varset
when that has no constant, nothing otherwise. -/
def visit1 (vs1 : Option VarSetPtr) (bind : Binding) : List StepVariable :=
  match vs1 with
  | none => [(bind.var, bind.var_id)]
  | some p =>
    match p.vs.constant with
    | none => p.vs.cd_set
    | some _ => []

/-- The step variables the phases 2-3 (and 6-7) of the restriction loop visit. -/
def visit2 (vs2 : Option VarSetPtr) (bind : Binding) : List StepVariable :=
  match vs2 with
  | none => if bind.term.is_variable then [(bind.term, bind.term_id)] else []
  | some p =>
    match p.vs.constant with
    | none => p.vs.cd_set
    | some _ => []

/-- The loop `while (phase < 4 || (intersection != 0 && phase < 8))` of the
equality branch: phases 0-3 are one pass over `visit1 ++ visit2`, and phases
4-7 a second pass over the same step variables, run when the first pass left
an intersection. -/
def restrict_domains (obj : Option Object) (vs1 vs2 : Option VarSetPtr) (bind : Binding)
    (rs : RestrictState) : Except Fault (Option RestrictState) :=
  match restrict_pass obj false (visit1 vs1 bind ++ visit2 vs2 bind) rs with
  | .error e => .error e
  | .ok none => .ok none
  | .ok (some rs1) =>
    match rs1.intersection with
    | none => .ok (some rs1)
    | some _ => restrict_pass obj true (visit1 vs1 bind ++ visit2 vs2 bind) rs1

/-- The two lookups of the equality branch (source lines 937-969): the varset
of the variable, the varset of the term, and the state after both. -/
def lookups (b : Bindings) (st : AddState) (bind : Binding) :
    Option VarSetPtr × Option VarSetPtr × AddState :=
  let r1 := st.lookup b st.varsets_new bind.var bind.var_id
  let r2 :=
    if bind.term.is_object then (find_varset_obj r1.2.varsets_new bind.term, r1.2)
    else r1.2.lookup b r1.2.varsets_new bind.term bind.term_id
  (r1.1, r2.1, r2.2)

/-- The combined varset `comb` of the equality branch and the chain after it
is computed (source lines 970-997). -/
def comb_of (tb : Tables) (vs1 vs2 : Option VarSetPtr) (vsc : List VarSet) (bind : Binding) :
    Option VarSetPtr × List VarSet :=
  match vs1, vs2 with
  | none, none => VarSet.make tb vsc bind false
  | none, some p2 => p2.add_var tb vsc bind.var bind.var_id
  | some p1, none => p1.add tb vsc bind.term bind.term_id
  | some p1, some p2 =>
    if !VarSetPtr.same vs1 vs2 then p1.combine tb vsc p2
    else (vs1, vsc)

/-- The equality branch of the loop body of `Bindings::add` (source lines
933-1147); `none` is `return 0`. -/
def add_equality (tb : Tables) (b : Bindings) (st : AddState) (bind : Binding) :
    Except Fault (Option AddState) :=
  let r := lookups b st bind
  let c := comb_of tb r.1 r.2.1 r.2.2.varsets_new bind
  match c.1 with
  | none => .ok none
  | some comb =>
    if !VarSetPtr.same c.1 r.1 then
      match restrict_domains comb.vs.constant r.1 r.2.1 bind
          ⟨r.2.2.step_domains_new, r.2.2.new_binds, none⟩ with
      | .error e => .error e
      | .ok none => .ok none
      | .ok (some rs) =>
        .ok (some { r.2.2 with
          varsets_new := c.2
          step_domains_new := rs.step_domains_new
          new_binds := rs.new_binds })
    else .ok (some { r.2.2 with varsets_new := c.2 })

/-- The body of the two exclusion loops of the inequality branch, for one step
variable: exclude the constant from the column of the variable. -/
def exclude_step (c : Object) (rs : RestrictState) (sv : StepVariable) :
    Except Fault (Option RestrictState) :=
  match find_step_domain rs.step_domains_new sv.1 sv.2 with
  | none => .ok (some rs)
  | some (sd, column) =>
    match sd.get_excluded_domain rs.step_domains_new c column with
    | .error e => .error e
    | .ok (none, _) => .ok none
    | .ok (some new_sd, sdc) =>
      if !StepDomainPtr.same (some sd) (some new_sd) then
        match add_domain_bindings rs.new_binds sd.sd new_sd.sd none with
        | .error e => .error e
        | .ok nb => .ok (some { rs with step_domains_new := sdc, new_binds := nb })
      else .ok (some { rs with step_domains_new := sdc })

/-- An exclusion loop over a list of step variables, in order. -/
def exclude_pass (c : Object) : List StepVariable → RestrictState →
    Except Fault (Option RestrictState)
  | [], rs => .ok (some rs)
  | sv :: vc, rs =>
    match exclude_step c rs sv with
    | .error e => .error e
    | .ok none => .ok none
    | .ok (some rs1) => exclude_pass c vc rs1

/-- The inequality branch of the loop body of `Bindings::add` (source lines
1148-1287).  The two varsets are looked up in the member `varsets` of the
receiver, as the source does; `none` is `return 0`. -/
def add_inequality (tb : Tables) (b : Bindings) (st : AddState) (bind : Binding) :
    Except Fault (Option AddState) :=
  let (vs1, st1) := st.lookup b b.varsets bind.var bind.var_id
  let (vs2, st2) :=
    if bind.term.is_object then (find_varset_obj b.varsets bind.term, st1)
    else st1.lookup b b.varsets bind.term bind.term_id
  if vs1.isSome && vs2.isSome && VarSetPtr.same vs1 vs2 then .ok none
  else
    -- first term
    let (vs1a, separate1, vsc1) : Option VarSetPtr × Bool × List VarSet :=
      match vs1 with
      | none =>
        let r := VarSet.make tb st2.varsets_new bind false
        (r.1, true, r.2)
      | some p1 =>
        if bind.term.is_variable then
          if p1.vs.excludes bind.term bind.term_id then (vs1, false, st2.varsets_new)
          else
            let r := p1.restrict st2.varsets_new bind.term bind.term_id
            (r.1, true, r.2)
        else (vs1, false, st2.varsets_new)
    -- second term
    let (vs2a, separate2, vsc2) : Option VarSetPtr × Bool × List VarSet :=
      match vs2 with
      | none =>
        let r := VarSet.make tb vsc1 bind true
        (r.1, true, r.2)
      | some p2 =>
        if p2.vs.excludes bind.var bind.var_id then (vs2, false, vsc1)
        else
          let r := p2.restrict vsc1 bind.var bind.var_id
          (r.1, true, r.2)
    let rs0 : RestrictState := ⟨st2.step_domains_new, st2.new_binds, none⟩
    -- `if (separate1 && vs1 != 0)`
    let r1 : Except Fault (Option RestrictState) :=
      match separate1, vs1a, vs2a with
      | true, some p1, some p2 =>
        match p1.vs.constant with
        | some c => exclude_pass c p2.vs.cd_set rs0
        | none => .ok (some rs0)
      | _, _, _ => .ok (some rs0)
    match r1 with
    | .error e => .error e
    | .ok none => .ok none
    | .ok (some rs1) =>
      -- `if (separate2 && vs2 != 0)`
      let r2 : Except Fault (Option RestrictState) :=
        match separate2, vs2a with
        | true, some p2 =>
          match p2.vs.constant with
          | some c =>
            match vs1a with
            | none => exclude_pass c [(bind.var, bind.var_id)] rs1
            | some p1 =>
              match p1.vs.cd_set with
              | [] =>
                -- `vc == 0`: the variable of the binding is visited, then
                -- `vc->get_tail()` reads through the null chain
                match exclude_pass c [(bind.var, bind.var_id)] rs1 with
                | .error e => .error e
                | .ok none => .ok none
                | .ok (some _) => .error .out_of_range
              | sv :: vc => exclude_pass c (sv :: vc) rs1
          | none => .ok (some rs1)
        | _, _ => .ok (some rs1)
      match r2 with
      | .error e => .error e
      | .ok none => .ok none
      | .ok (some rs2) =>
        .ok (some { st2 with
          varsets_new := vsc2
          step_domains_new := rs2.step_domains_new
          new_binds := rs2.new_binds })

/-- The result of a call of the model: the fuel of a loop whose bound the
source does not fix ran out, the call threw or read out of range, it returned
a null pointer, or it returned a value. -/
inductive Outcome (α : Type) where
  | diverged
  | fault (f : Fault)
  | null
  | value (a : α)
deriving DecidableEq, Repr

/-- The loop `for (size_t i = 0; i < new_binds.size(); i++)` of `Bindings::add`;
`new_binds` grows while the loop runs, so the loop is given fuel. -/
def add_loop (tb : Tables) (b : Bindings) : Nat → Nat → AddState → Outcome AddState
  | 0, _, _ => .diverged
  | fuel + 1, i, st =>
    match st.new_binds[i]? with
    | none => .value st
    | some bind =>
      match (if bind.equality then add_equality tb b st bind
             else add_inequality tb b st bind) with
      | .error e => .fault e
      | .ok none => .null
      | .ok (some st1) => add_loop tb b fuel (i + 1) st1

/-- Source: `Bindings::add(const BindingList&, bool test_only)`. -/
def Bindings.add (tb : Tables) (fuel : Nat) (b : Bindings) (new_bindings : BindingList)
    (test_only : Bool) : Outcome Bindings :=
  if new_bindings.isEmpty then .value b
  else
    match add_loop tb b fuel 0 ⟨b.varsets, b.high_step_id, [], b.step_domains, new_bindings⟩ with
    | .diverged => .diverged
    | .fault e => .fault e
    | .null => .null
    | .value st =>
      if test_only
          || (st.varsets_new.length = b.varsets.length
              && st.high_step_new = b.high_step_id
              && st.step_domains_new.length = b.step_domains.length)
      then .value b
      else .value ⟨st.varsets_new, st.high_step_new, st.step_domains_new⟩

/-- The loop over the columns of `Bindings::add(step_id, action, pg)`: every
singleton column conses its varset onto the member `varsets` of the receiver
and assigns the result to `varsets_new`. -/
def add_step_columns (tb : Tables) (b : Bindings) (step_id : Nat) (sd : StepDomain) :
    List Nat → List VarSet × Nat → Except Fault (List VarSet × Nat)
  | [], acc => .ok acc
  | c :: cs, (varsets_new, high_step_new) =>
    match sd.get_projection_size c with
    | .error e => .error e
    | .ok n =>
      if n = 1 then
        match sd.parameters[c]?, sd.get_projection c with
        | some p, .ok (o :: _) =>
          add_step_columns tb b step_id sd cs
            (⟨some o, [(p, sd.id)], [], tb.type p⟩ :: b.varsets,
             if step_id > high_step_new then step_id else high_step_new)
        | _, _ => .error .out_of_range
      else add_step_columns tb b step_id sd cs (varsets_new, high_step_new)

/-- Source: `Bindings::add(size_t step_id, const Action&, const PlanningGraph&,
bool test_only)`.  `parameters` is `none` when the action is no `ActionSchema`,
and `domain` is `pg.action_domain(action->get_name())`. -/
def Bindings.add_step (tb : Tables) (b : Bindings) (step_id : Nat)
    (parameters : Option (List Variable)) (domain : Option ActionDomain) (test_only : Bool) :
    Except Fault (Option Bindings) :=
  match parameters with
  | none => .ok (some b)
  | some ps =>
    if ps.isEmpty then .ok (some b)
    else
      match domain with
      | none => .ok none
      | some d =>
        let step_domain_new : StepDomain := ⟨step_id, ps, d⟩
        let step_domains_new := step_domain_new :: b.step_domains
        match add_step_columns tb b step_id step_domain_new (List.range ps.length)
            (b.varsets, b.high_step_id) with
        | .error e => .error e
        | .ok (varsets_new, high_step_new) =>
          if test_only
              || (varsets_new.length = b.varsets.length
                  && high_step_new = b.high_step_id
                  && step_domains_new.length = b.step_domains.length)
          then .ok (some b)
          else .ok (some ⟨varsets_new, high_step_new, step_domains_new⟩)

/-! ## Unification -/

/-- A literal as `Bindings::unify` reads it (formulas.h): the id (zero if
lifted, the interning id if ground), the dynamic type (`Atom` or `Negation`),
the predicate, and the terms. -/
structure Literal where
  id : Nat
  negated : Bool
  predicate : Int
  terms : List Term
deriving DecidableEq, Repr

/-- Source: `Literal::get_arity`. -/
def Literal.get_arity (l : Literal) : Nat := l.terms.length

/-- Source: `Literal::get_term`; the vector is indexed without a range check. -/
def Literal.get_term (l : Literal) (i : Nat) : Except Fault Term :=
  match l.terms[i]? with
  | some t => .ok t
  | none => .error .out_of_range

/-- Source: `SubstitutionMap::find`. -/
def SubstitutionMap_find : List (Variable × Term) → Variable → Option Term
  | [], _ => none
  | (v, t) :: rest, var => if v.eq var then some t else SubstitutionMap_find rest var

/-- The loop of `Bindings::unify` for one ground and one lifted literal (source
lines 763-797) over the positions listed; the flag is `false` for `return
false`, and the list is `mgu` as the loop leaves it. -/
def unify_ground (tb : Tables) (b : Bindings) (ll lg : Literal) (idl : Nat) :
    List Nat → List (Variable × Term) × BindingList → Except Fault (Bool × BindingList)
  | [], (_, mgu) => .ok (true, mgu)
  | i :: is, (bind, mgu) =>
    match ll.get_term i with
    | .error e => .error e
    | .ok term1 =>
      match lg.get_term i with
      | .error e => .error e
      | .ok t2 =>
        match t2.as_object with
        | .error e => .error e
        | .ok obj2 =>
          if term1.is_object then
            if term1.ne obj2 then .ok (false, mgu)
            else unify_ground tb b ll lg idl is (bind, mgu)
          else
            match SubstitutionMap_find bind term1 with
            | some bound =>
              if bound.ne obj2 then .ok (false, mgu)
              else unify_ground tb b ll lg idl is (bind, mgu)
            | none =>
              let bt := b.get_binding term1 idl
              if bt.is_object then
                if bt.ne obj2 then .ok (false, mgu)
                else unify_ground tb b ll lg idl is (bind ++ [(term1, obj2)], mgu)
              else
                if !tb.is_subtype (tb.type obj2) (tb.type term1) then .ok (false, mgu)
                else
                  unify_ground tb b ll lg idl is
                    (bind ++ [(term1, obj2)], mgu ++ [⟨term1, idl, obj2, 0, true⟩])

/-- The loop of `Bindings::unify` for two lifted literals (source lines
803-847) over the positions listed; the flag is `false` for `return false`. -/
def unify_lifted (tb : Tables) (l1 : Literal) (id1 : Nat) (l2 : Literal) (id2 : Nat) :
    List Nat → BindingList → Except Fault (Bool × BindingList)
  | [], mgu => .ok (true, mgu)
  | i :: is, mgu =>
    match l1.get_term i with
    | .error e => .error e
    | .ok term1 =>
      match l2.get_term i with
      | .error e => .error e
      | .ok term2 =>
        if term1.is_object then
          if term2.is_object then
            if term1.ne term2 then .ok (false, mgu)
            else unify_lifted tb l1 id1 l2 id2 is mgu
          else
            if !tb.is_subtype (tb.type term1) (tb.type term2) then .ok (false, mgu)
            else unify_lifted tb l1 id1 l2 id2 is (mgu ++ [⟨term2, id2, term1, 0, true⟩])
        else
          if term2.is_object then
            if !tb.is_subtype (tb.type term2) (tb.type term1) then .ok (false, mgu)
            else unify_lifted tb l1 id1 l2 id2 is (mgu ++ [⟨term1, id1, term2, id2, true⟩])
          else if !tb.is_compatible (tb.type term1) (tb.type term2) then .ok (false, mgu)
          else unify_lifted tb l1 id1 l2 id2 is (mgu ++ [⟨term1, id1, term2, id2, true⟩])

/-- Source: `Bindings::unify(BindingList& mgu, l1, id1, l2, id2)`.  The result
is the returned flag and the list `mgu` as the call leaves it. -/
def Bindings.unify (tb : Tables) (fuel : Nat) (b : Bindings) (mgu : BindingList)
    (l1 : Literal) (id1 : Nat) (l2 : Literal) (id2 : Nat) : Outcome (Bool × BindingList) :=
  if l1.id > 0 && l2.id > 0 then .value (decide (l1.id = l2.id), mgu)
  else if l1.negated ≠ l2.negated then .value (false, mgu)
  else if l1.predicate ≠ l2.predicate then .value (false, mgu)
  else
    let collected : Except Fault (Bool × BindingList) :=
      if l1.id > 0 || l2.id > 0 then
        if l1.id > 0 then unify_ground tb b l2 l1 id2 (List.range l2.get_arity) ([], mgu)
        else unify_ground tb b l1 l2 id1 (List.range l1.get_arity) ([], mgu)
      else unify_lifted tb l1 id1 l2 id2 (List.range l1.get_arity) mgu
    match collected with
    | .error e => .fault e
    | .ok (false, mgu1) => .value (false, mgu1)
    | .ok (true, mgu1) =>
      match b.add tb fuel mgu1 true with
      | .diverged => .diverged
      | .fault e => .fault e
      | .null => .value (false, mgu1)
      | .value _ => .value (true, mgu1)

/-- Source: `Bindings::is_unifiable(BindingList& mgu, l1, id1, l2, id2)`. -/
def Bindings.is_unifiable (tb : Tables) (fuel : Nat) (mgu : BindingList)
    (l1 : Literal) (id1 : Nat) (l2 : Literal) (id2 : Nat) : Outcome (Bool × BindingList) :=
  Bindings.EMPTY.unify tb fuel mgu l1 id1 l2 id2

/-! ## orderings.h: step times and orderings -/

/-- Source: `StepTime::StepPoint`, in the order of the enumeration. -/
inductive StepPoint where
  | START
  | END
deriving DecidableEq, Repr

/-- Source: `StepTime::StepRel`, in the order of the enumeration. -/
inductive StepRel where
  | BEFORE
  | AT
  | AFTER
deriving DecidableEq, Repr

/-- The value of the enumerator. -/
def StepPoint.val : StepPoint → Nat
  | .START => 0
  | .END => 1

/-- The value of the enumerator. -/
def StepRel.val : StepRel → Nat
  | .BEFORE => 0
  | .AT => 1
  | .AFTER => 2

/-- Source: `struct StepTime`. -/
structure StepTime where
  point : StepPoint
  rel : StepRel
deriving DecidableEq, Repr

/-- Modelled from the spec: the definitions of the four `StepTime` constants
are not in the sources, which only declare them; their names fix the point
and the relation of each. -/
def StepTime.AT_START : StepTime := ⟨.START, .AT⟩

/-- Modelled from the spec: see `StepTime.AT_START`. -/
def StepTime.AFTER_START : StepTime := ⟨.START, .AFTER⟩

/-- Modelled from the spec: see `StepTime.AT_START`. -/
def StepTime.BEFORE_END : StepTime := ⟨.END, .BEFORE⟩

/-- Modelled from the spec: see `StepTime.AT_START`. -/
def StepTime.AT_END : StepTime := ⟨.END, .AT⟩

/-- Source: `operator<(const StepTime&, const StepTime&)`. -/
def StepTime.lt (st1 st2 : StepTime) : Bool :=
  decide (st1.point.val < st2.point.val)
    || (decide (st1.point = st2.point) && decide (st1.rel.val < st2.rel.val))

/-- Source: `struct Ordering`. -/
structure Ordering where
  before_id : Nat
  before_time : StepTime
  after_id : Nat
  after_time : StepTime
deriving DecidableEq, Repr

/-- Source: `Plan::GOAL_ID`, `numeric_limits<size_t>::max()`. -/
def GOAL_ID : Nat := 2 ^ 64 - 1

/-- Subtraction of `size_t`. -/
def usub (a b : Nat) : Nat := (a + 2 ^ 64 - b % 2 ^ 64) % 2 ^ 64

/-- Multiplication of `size_t`. -/
def umul (a b : Nat) : Nat := (a * b) % 2 ^ 64

/-- Read of a vector of vectors without range checks. -/
def index2 {α : Type} (m : List (List α)) (r c : Nat) : Except Fault α :=
  match m[r]? with
  | none => .error .out_of_range
  | some row =>
    match row[c]? with
    | none => .error .out_of_range
    | some x => .ok x

/-! ## BinaryOrderings -/

/-- Source: `class BinaryOrderings`: the rows of the matrix `before`. -/
structure BinaryOrderings where
  before : List (List Bool)
deriving DecidableEq, Repr

/-- Source: the copy constructor `BinaryOrderings(const BinaryOrderings& o)`.  It
has no member initialiser, so the member `before` of the copy is default
constructed, and its body loops over the (empty) `before` of the copy. -/
def BinaryOrderings.copy (_o : BinaryOrderings) : BinaryOrderings := ⟨[]⟩

/-- Source: `BinaryOrderings::is_before`. -/
def BinaryOrderings.is_before (o : BinaryOrderings) (id1 id2 : Nat) : Except Fault Bool :=
  if id1 = id2 then .ok false
  else if id1 < id2 then index2 o.before (usub id2 2) (usub id1 1)
  else index2 o.before (usub id1 2) (usub (usub (umul 2 id1) 2) id2)

/-- Source: `BinaryOrderings::set_before`.  The row is copied before the first
write (`own_data`), so the write is to the rows of this collection only. -/
def BinaryOrderings.set_before (o : BinaryOrderings) (id1 id2 : Nat) :
    Except Fault BinaryOrderings :=
  if id1 ≠ id2 then
    let i := usub (max id1 id2) 2
    match o.before[i]? with
    | none => .error .out_of_range
    | some bv =>
      let c := if id1 < id2 then usub id1 1 else usub (usub (umul 2 id1) 2) id2
      if c < bv.length then .ok ⟨o.before.set i (bv.set c true)⟩
      else .error .out_of_range
  else .ok o

/-- The inner loop of `BinaryOrderings::fill_transitive` over `l`. -/
def BinaryOrderings.fill_inner (j k : Nat) : List Nat → BinaryOrderings →
    Except Fault BinaryOrderings
  | [], o => .ok o
  | l :: ls, o =>
    match (if j = l then .ok true else o.is_before j l) with
    | .error e => .error e
    | .ok false => BinaryOrderings.fill_inner j k ls o
    | .ok true =>
      match o.is_before k l with
      | .error e => .error e
      | .ok true => BinaryOrderings.fill_inner j k ls o
      | .ok false =>
        match o.set_before k l with
        | .error e => .error e
        | .ok o1 => BinaryOrderings.fill_inner j k ls o1

/-- The outer loop of `BinaryOrderings::fill_transitive` over `k`. -/
def BinaryOrderings.fill_outer (i j n : Nat) : List Nat → BinaryOrderings →
    Except Fault BinaryOrderings
  | [], o => .ok o
  | k :: ks, o =>
    match (if k = i then .ok true else o.is_before k i) with
    | .error e => .error e
    | .ok false => BinaryOrderings.fill_outer i j n ks o
    | .ok true =>
      match o.is_before k j with
      | .error e => .error e
      | .ok true => BinaryOrderings.fill_outer i j n ks o
      | .ok false =>
        match BinaryOrderings.fill_inner j k ((List.range n).map (· + 1)) o with
        | .error e => .error e
        | .ok o1 => BinaryOrderings.fill_outer i j n ks o1

/-- Source: `BinaryOrderings::fill_transitive`. -/
def BinaryOrderings.fill_transitive (o : BinaryOrderings) (ordering : Ordering) :
    Except Fault BinaryOrderings :=
  let i := ordering.before_id
  let j := ordering.after_id
  match o.is_before i j with
  | .error e => .error e
  | .ok true => .ok o
  | .ok false =>
    let n := o.before.length + 1
    BinaryOrderings.fill_outer i j n ((List.range n).map (· + 1)) o

/-- Source: `BinaryOrderings::possibly_after`. -/
def BinaryOrderings.possibly_after (o : BinaryOrderings) (id1 : Nat) (_t1 : StepTime)
    (id2 : Nat) (_t2 : StepTime) : Except Fault Bool :=
  if id1 = id2 then .ok false
  else if id1 = 0 ∨ id2 = GOAL_ID then .ok false
  else if id1 = GOAL_ID ∨ id2 = 0 then .ok true
  else
    match o.is_before id1 id2 with
    | .error e => .error e
    | .ok r => .ok (!r)

/-- Source: `BinaryOrderings::possibly_not_before`. -/
def BinaryOrderings.possibly_not_before (o : BinaryOrderings) (id1 : Nat) (t1 : StepTime)
    (id2 : Nat) (t2 : StepTime) : Except Fault Bool :=
  o.possibly_after id1 t1 id2 t2

/-- Source: `BinaryOrderings::refine(const Ordering&)`.  The result is the
pointer returned: `some` of the receiver or of the new collection. -/
def BinaryOrderings.refine (o : BinaryOrderings) (new_ordering : Ordering) :
    Except Fault (Option BinaryOrderings) :=
  if new_ordering.before_id ≠ 0 ∧ new_ordering.after_id ≠ GOAL_ID then
    match o.possibly_not_before new_ordering.before_id new_ordering.before_time
        new_ordering.after_id new_ordering.after_time with
    | .error e => .error e
    | .ok false => .ok (some o)
    | .ok true =>
      match (o.copy).fill_transitive new_ordering with
      | .error e => .error e
      | .ok orderings => .ok (some orderings)
  else .ok (some o)

/-! ## TemporalOrderings -/

/-- Source: `class IntVector`. -/
abbrev IntVector := List Int

/-- The largest `int`. -/
def INT_MAX : Int := 2147483647

/-- The value an `int` operation leaves when its exact result is `x`: the
result modulo `2 ^ 32`, in the range of `int`. -/
def wrap32 (x : Int) : Int := (x + 2147483648) % 4294967296 - 2147483648

/-- Source: `class TemporalOrderings`.  The member `distance` is a vector of
pointers to `IntVector`; a pointer is the address of the vector in the store
of all `IntVector` objects. -/
structure TemporalOrderings where
  distance : List Nat
  goal_achievers : List Nat
deriving DecidableEq, Repr

/-- A collection under construction: the store of the `IntVector` objects, the
collection, and the map `own_data` from row numbers to the rows this
collection owns. -/
structure TState where
  store : List IntVector
  orderings : TemporalOrderings
  own_data : List (Nat × Nat)
deriving DecidableEq, Repr

/-- Source: the copy constructor `TemporalOrderings(const TemporalOrderings& o)`:
the vector of pointers is copied, the rows are shared. -/
def TemporalOrderings.copy (o : TemporalOrderings) : TemporalOrderings :=
  ⟨o.distance, o.goal_achievers⟩

/-- Source: `TemporalOrderings::time_node`. -/
def time_node (id : Nat) (t : StepTime) : Nat :=
  if t.point = StepPoint.START then usub (umul 2 id) 1 else umul 2 id

/-- The read `(*distance[r])[c]`. -/
def TemporalOrderings.read (store : List IntVector) (o : TemporalOrderings) (r c : Nat) :
    Except Fault Int :=
  match o.distance[r]? with
  | none => .error .out_of_range
  | some a =>
    match store[a]? with
    | none => .error .out_of_range
    | some fv =>
      match fv[c]? with
      | none => .error .out_of_range
      | some d => .ok d

/-- Source: `TemporalOrderings::get_distance`. -/
def TemporalOrderings.get_distance (store : List IntVector) (o : TemporalOrderings)
    (t1 t2 : Nat) : Except Fault Int :=
  if t1 = t2 then .ok 0
  else if t1 < t2 then o.read store (usub t2 1) t1
  else o.read store (usub t1 1) (usub (usub (umul 2 t1) 1) t2)

/-- Source: `map<size_t, IntVector*>::find`. -/
def own_data_find : List (Nat × Nat) → Nat → Option Nat
  | [], _ => none
  | (i, a) :: rest, r => if i = r then some a else own_data_find rest r

/-- Source: `TemporalOrderings::set_distance`. -/
def TState.set_distance (st : TState) (t1 t2 : Nat) (d : Int) : Except Fault TState :=
  if t1 ≠ t2 then
    let i := usub (max t1 t2) 1
    let c := if t1 < t2 then t1 else usub (usub (umul 2 t1) 1) t2
    match own_data_find st.own_data i with
    | some a =>
      match st.store[a]? with
      | none => .error .out_of_range
      | some fv =>
        if c < fv.length then .ok { st with store := st.store.set a (fv.set c d) }
        else .error .out_of_range
    | none =>
      match st.orderings.distance[i]? with
      | none => .error .out_of_range
      | some old_a =>
        match st.store[old_a]? with
        | none => .error .out_of_range
        | some old_fv =>
          if c < old_fv.length then
            .ok
              { store := st.store ++ [old_fv.set c d]
                orderings := { st.orderings with
                  distance := st.orderings.distance.set i st.store.length }
                own_data := (i, st.store.length) :: st.own_data }
          else .error .out_of_range
  else .ok st

/-- The inner loop of `TemporalOrderings::fill_transitive` over `l`; the flag
is `false` for `return false`. -/
def TState.fill_inner (j : Nat) (dist : Int) (k : Nat) (d_ik : Int) :
    List Nat → TState → Except Fault (Bool × TState)
  | [], st => .ok (true, st)
  | l :: ls, st =>
    match st.orderings.get_distance st.store l j with
    | .error e => .error e
    | .ok d_lj =>
      let new_d := wrap32 (wrap32 (d_ik + d_lj) - dist)
      if d_lj < INT_MAX then
        match st.orderings.get_distance st.store l k with
        | .error e => .error e
        | .ok d_lk =>
          if d_lk > new_d then
            match st.set_distance l k new_d with
            | .error e => .error e
            | .ok st1 =>
              match st1.orderings.get_distance st1.store k l with
              | .error e => .error e
              | .ok d_kl =>
                if wrap32 (-d_kl) > new_d then .ok (false, st1)
                else TState.fill_inner j dist k d_ik ls st1
          else TState.fill_inner j dist k d_ik ls st
      else TState.fill_inner j dist k d_ik ls st

/-- The outer loop of `TemporalOrderings::fill_transitive` over `k`. -/
def TState.fill_outer (i j : Nat) (dist : Int) (n : Nat) :
    List Nat → TState → Except Fault (Bool × TState)
  | [], st => .ok (true, st)
  | k :: ks, st =>
    match st.orderings.get_distance st.store i k with
    | .error e => .error e
    | .ok d_ik =>
      if d_ik < INT_MAX then
        match st.orderings.get_distance st.store j k with
        | .error e => .error e
        | .ok d_jk =>
          if d_jk > wrap32 (d_ik - dist) then
            match TState.fill_inner j dist k d_ik (List.range (n + 1)) st with
            | .error e => .error e
            | .ok (false, st1) => .ok (false, st1)
            | .ok (true, st1) => TState.fill_outer i j dist n ks st1
          else TState.fill_outer i j dist n ks st
      else TState.fill_outer i j dist n ks st

/-- Source: `TemporalOrderings::fill_transitive`. -/
def TState.fill_transitive (st : TState) (i j : Nat) (dist : Int) :
    Except Fault (Bool × TState) :=
  match st.orderings.get_distance st.store j i with
  | .error e => .error e
  | .ok d_ji =>
    if d_ji > wrap32 (-dist) then
      let n := st.orderings.distance.length
      TState.fill_outer i j dist n (List.range (n + 1)) st
    else .ok (true, st)

/-- Source: `TemporalOrderings::possibly_not_before`. -/
def TemporalOrderings.possibly_not_before (store : List IntVector) (o : TemporalOrderings)
    (id1 : Nat) (t1 : StepTime) (id2 : Nat) (t2 : StepTime) : Except Fault Bool :=
  if id1 = id2 ∧ t1.lt t2 = true then .ok false
  else if id1 = 0 ∨ id2 = GOAL_ID then .ok false
  else if id1 = GOAL_ID ∨ id2 = 0 then .ok true
  else
    match o.get_distance store (time_node id2 t2) (time_node id1 t1) with
    | .error e => .error e
    | .ok dist => .ok (decide (dist > 0) || (decide (dist = 0) && decide (t2.rel.val ≤ t1.rel.val)))

/-- The pointer `TemporalOrderings::refine` returns: the receiver, null, or a
new collection. -/
inductive Refined where
  | this
  | null
  | fresh (o : TemporalOrderings)
deriving DecidableEq, Repr

/-- Source: `TemporalOrderings::refine(const Ordering&)`.  The result is the
pointer returned and the store after the call. -/
def TemporalOrderings.refine (store : List IntVector) (o : TemporalOrderings)
    (new_ordering : Ordering) : Except Fault (Refined × List IntVector) :=
  if new_ordering.before_id ≠ 0 ∧ new_ordering.after_id ≠ GOAL_ID then
    match o.possibly_not_before store new_ordering.before_id new_ordering.before_time
        new_ordering.after_id new_ordering.after_time with
    | .error e => .error e
    | .ok false => .ok (.this, store)
    | .ok true =>
      let i := time_node new_ordering.before_id new_ordering.before_time
      let j := time_node new_ordering.after_id new_ordering.after_time
      let dist : Int :=
        if new_ordering.before_time.rel.val < new_ordering.after_time.rel.val then 0 else 1
      match TState.fill_transitive ⟨store, o.copy, []⟩ i j dist with
      | .error e => .error e
      | .ok (true, st) => .ok (.fresh st.orderings, st.store)
      | .ok (false, st) => .ok (.null, st.store)
  else .ok (.this, store)

/-! ## Concrete inputs used by the evaluations below -/

namespace Ex

/-- A table with the single type `object`, where every term has that type. -/
def tb : Tables := ⟨fun t1 t2 => decide (t1 = t2), fun _ => 0⟩

/-- Two objects. -/
def o1 : Object := ⟨1⟩
def o2 : Object := ⟨2⟩

/-- Four variables. -/
def q : Variable := ⟨-1⟩
def p : Variable := ⟨-2⟩
def x : Variable := ⟨-3⟩
def y : Variable := ⟨-5⟩

/-- The lifted atom `P(o1, ?x)`. -/
def P_o1_x : Literal := ⟨0, false, 7, [o1, x]⟩

/-- The lifted atom `P(?x, ?x)`. -/
def P_x_x : Literal := ⟨0, false, 7, [x, x]⟩

/-- The ground atom `P(o1, o2)`, interned with id 3. -/
def P_o1_o2 : Literal := ⟨3, false, 7, [o1, o2]⟩

/-- The ground atom `P(o1, o1)`, interned with id 4. -/
def P_o1_o1 : Literal := ⟨4, false, 7, [o1, o1]⟩

/-- The action domain `{<o1 o2>}`: both columns are singletons. -/
def D1 : ActionDomain := ⟨[[o1, o2]]⟩

/-- Two regular steps, the second ordered before the first. -/
def two_before_one : BinaryOrderings := ⟨[[false, true]]⟩

/-- The store of a network with one step of duration 0 that starts at tick 1
or later: the rows of the nodes 1 (start) and 2 (end). -/
def store_zero : List IntVector := [[INT_MAX, -1], [INT_MAX, 0, 0, -1]]

/-- The collection over `store_zero`. -/
def one_step : TemporalOrderings := ⟨[0, 1], []⟩

/-- The store of the minimal network of two unrelated steps of duration 1 tick
that start at tick 1 or later: the rows of the nodes 1 to 4. -/
def store_two : List IntVector :=
  [[INT_MAX, -1],
   [INT_MAX, 1, -1, -2],
   [INT_MAX, INT_MAX, INT_MAX, INT_MAX, INT_MAX, -1],
   [INT_MAX, INT_MAX, INT_MAX, 1, -1, INT_MAX, INT_MAX, -2]]

/-- The collection over `store_two` and over `store_far`. -/
def two_steps : TemporalOrderings := ⟨[0, 1, 2, 3], []⟩

/-- A finite distance of `2 ^ 30 + 1` ticks. -/
def far : Int := 1073741825

/-- The store of a network of two steps in which every two distinct nodes are
at most `far` ticks apart. -/
def store_far : List IntVector :=
  [[far, far], [far, far, far, far], [far, far, far, far, far, far],
   [far, far, far, far, far, far, far, far]]

end Ex

/-- The distance the matrix holds between two time nodes; 0 where the read fails. -/
def TemporalOrderings.dist (store : List IntVector) (o : TemporalOrderings) (u v : Nat) : Int :=
  match o.get_distance store u v with
  | .ok d => d
  | .error _ => 0

/-- The shape of a collection under construction over `n` time nodes besides
node 0: row `r` is a stored vector of `2 * (r + 1)` entries, the rows listed in
`own_data` are the rows allocated at or above `base`, and no two rows share
such a vector. -/
structure TState.WF (st : TState) (n base : Nat) : Prop where
  small : n < 2 ^ 32
  len : st.orderings.distance.length = n
  rows : ∀ r : Nat, r < n → ∃ (a : Nat) (fv : IntVector), st.orderings.distance[r]? = some a
    ∧ st.store[a]? = some fv ∧ fv.length = 2 * (r + 1)
  own : ∀ r a : Nat, own_data_find st.own_data r = some a →
    st.orderings.distance[r]? = some a ∧ base ≤ a
  own_inj : ∀ r r2 a : Nat, st.orderings.distance[r]? = some a →
    st.orderings.distance[r2]? = some a → base ≤ a → r = r2
  notown : ∀ r a : Nat, st.orderings.distance[r]? = some a →
    own_data_find st.own_data r = none → a < base
  base_le : base ≤ st.store.length

/-- The row and the column of the entry for the pair of nodes `(u, v)`. -/
def cell (u v : Nat) : Nat × Nat :=
  (max u v - 1, if u < v then u else 2 * u - 1 - v)

/-- The part of `set_distance` after the row and the column are computed. -/
def TState.write (st : TState) (i c : Nat) (d : Int) : Except Fault TState :=
  match own_data_find st.own_data i with
  | some a =>
    match st.store[a]? with
    | none => .error .out_of_range
    | some fv =>
      if c < fv.length then .ok { st with store := st.store.set a (fv.set c d) }
      else .error .out_of_range
  | none =>
    match st.orderings.distance[i]? with
    | none => .error .out_of_range
    | some old_a =>
      match st.store[old_a]? with
      | none => .error .out_of_range
      | some old_fv =>
        if c < old_fv.length then
          .ok
            { store := st.store ++ [old_fv.set c d]
              orderings := { st.orderings with
                distance := st.orderings.distance.set i st.store.length }
              own_data := (i, st.store.length) :: st.own_data }
        else .error .out_of_range

/-- The distance a collection under construction holds between two nodes. -/
def TState.d (st : TState) (u v : Nat) : Int := st.orderings.dist st.store u v

/-- A distance matrix over the nodes `0..n`, read as a function: the diagonal
is 0, no pair of nodes has a negative cycle, the triangle inequality holds
where both legs are finite, and every finite distance is at most `2 ^ 29` in
absolute value. -/
structure GoodMatrix (D : Nat → Nat → Int) (n : Nat) : Prop where
  diag : ∀ u, D u u = 0
  cons : ∀ u v, u ≤ n → v ≤ n → 0 ≤ D u v + D v u
  tri : ∀ u v w, u ≤ n → v ≤ n → w ≤ n → D u v < INT_MAX → D v w < INT_MAX →
    D u w ≤ D u v + D v w
  bnd : ∀ u v, u ≤ n → v ≤ n → D u v = INT_MAX ∨ (-536870912 ≤ D u v ∧ D u v ≤ 536870912)

/-- The invariant of the two loops of `fill_transitive` when the new
constraint is consistent: every entry is the original one or the length of
the path through the new constraint, which is then shorter; the rows below
`base` are untouched. -/
structure FillInv (D : Nat → Nat → Int) (n base i j : Nat) (dist : Int)
    (store0 : List IntVector) (ga : List Nat) (st : TState) : Prop where
  wf : st.WF n base
  ent : ∀ u v, u ≤ n → v ≤ n → st.d u v = D u v
    ∨ (D i v < INT_MAX ∧ D u j < INT_MAX ∧ st.d u v = D u j + D i v - dist ∧ st.d u v < D u v)
  pre : ∀ a : Nat, a < base → st.store[a]? = store0[a]?
  ga : st.orderings.goal_achievers = ga

/-- What the loops keep whatever the constraint: the shape, and the rows below `base`. -/
structure FillKeep (n base : Nat) (store0 : List IntVector) (st : TState) : Prop where
  wf : st.WF n base
  pre : ∀ a : Nat, a < base → st.store[a]? = store0[a]?

/-- The shape of a temporal ordering collection: row `r` of the matrix is a
stored vector of `2 * (r + 1)` entries (the vector `refine` allocates for the
time node `r + 1`), and there are fewer than `2 ^ 32` rows. -/
structure TemporalOrderings.WellFormed (store : List IntVector) (o : TemporalOrderings) :
    Prop where
  small : o.distance.length < 2 ^ 32
  rows : ∀ r : Nat, r < o.distance.length → ∃ (a : Nat) (fv : IntVector),
    o.distance[r]? = some a ∧ store[a]? = some fv ∧ fv.length = 2 * (r + 1)

/-- No pair of nodes has a negative cycle: `d(u,v) + d(v,u) >= 0`. -/
def TemporalOrderings.Consistent (store : List IntVector) (o : TemporalOrderings) : Prop :=
  ∀ u v, u ≤ o.distance.length → v ≤ o.distance.length →
    0 ≤ o.dist store u v + o.dist store v u

/-- The triangle inequality, `INT_MAX` read as infinity. -/
def TemporalOrderings.Triangle (store : List IntVector) (o : TemporalOrderings) : Prop :=
  ∀ u v w, u ≤ o.distance.length → v ≤ o.distance.length → w ≤ o.distance.length →
    o.dist store u v < INT_MAX → o.dist store v w < INT_MAX →
    o.dist store u w ≤ o.dist store u v + o.dist store v w

/-- Every distance is infinite (`INT_MAX`) or at most `2 ^ 29` ticks in
absolute value, so that no sum of two distances and a separation leaves the
range of `int`. -/
def TemporalOrderings.Bounded (store : List IntVector) (o : TemporalOrderings) : Prop :=
  ∀ u v, u ≤ o.distance.length → v ≤ o.distance.length →
    o.dist store u v = INT_MAX ∨ (-536870912 ≤ o.dist store u v ∧ o.dist store u v ≤ 536870912)

/-- The result of `EMPTY.add([?y(2) = o1])`. -/
def Ex.b_y : Bindings := ⟨[⟨some Ex.o1, [(Ex.y, 2)], [], 0⟩], 2, []⟩

/-- Three regular steps, none ordered before another. -/
def Ex.three_unordered : BinaryOrderings := ⟨[[false, false], [false, false, false, false]]⟩

/-- The distance from `l` to `k` after the constraint `dist <= t_j - t_i` is
added to the matrix `D`: the shorter of the old distance and the path through
the new constraint, `INT_MAX` read as infinity. -/
def relaxed (D : Nat → Nat → Int) (i j : Nat) (dist : Int) (l k : Nat) : Int :=
  if D i k < INT_MAX ∧ D l j < INT_MAX ∧ D l j + D i k - dist < D l k
  then D l j + D i k - dist else D l k

/-- The store of a network of two steps in which no two distinct nodes are
related: every distance is `INT_MAX`. -/
def Ex.store_inf : List IntVector :=
  [[INT_MAX, INT_MAX], [INT_MAX, INT_MAX, INT_MAX, INT_MAX],
   [INT_MAX, INT_MAX, INT_MAX, INT_MAX, INT_MAX, INT_MAX],
   [INT_MAX, INT_MAX, INT_MAX, INT_MAX, INT_MAX, INT_MAX, INT_MAX, INT_MAX]]

/-- The store `refine` leaves for `store_inf` and the ordering of the end of
step 1 before the start of step 2: the copy of row 2 with `d(3, 2) = -1`. -/
def Ex.store_inf_refined : List IntVector :=
  Ex.store_inf ++ [[INT_MAX, INT_MAX, INT_MAX, -1, INT_MAX, INT_MAX]]

/-! ## heuristics.cpp: heuristic values -/

/-- Smallest value of an `int`. -/
def INT_MIN : Int := -2147483648

/-- Subtraction of two `int`s; `none` when the exact result is not an `int` (signed overflow). -/
def int_sub (a b : Int) : Option Int :=
  if INT_MIN ≤ a - b ∧ a - b ≤ INT_MAX then some (a - b) else none

/-- Addition of two `int`s; `none` when the exact result is not an `int` (signed overflow). -/
def int_add (a b : Int) : Option Int :=
  if INT_MIN ≤ a + b ∧ a + b ≤ INT_MAX then some (a + b) else none

/-- The helper `sum(n, m)` of heuristics.cpp:
    `(numeric_limits<int>::max() - n > m) ? n + m : numeric_limits<int>::max()`. -/
def sum (n m : Int) : Option Int :=
  match int_sub INT_MAX n with
  | none => none
  | some d => if d > m then int_add n m else some INT_MAX

/-- A float value: not a number, an infinity, or the finite dyadic number `m / 2 ^ e`. -/
inductive Flt where
  | nan
  | ninf
  | fin (m : Int) (e : Nat)
  | pinf
deriving DecidableEq, Repr

/-- A heuristic value: `add_cost`, `add_work`, `makespan`. -/
structure HeuristicValue where
  add_cost : Flt
  add_work : Int
  makespan : Flt
deriving DecidableEq, Repr

/-- The constant `HeuristicValue::ZERO`, for the current `Orderings::threshold`. -/
def HeuristicValue.ZERO (threshold : Flt) : HeuristicValue := ⟨.fin 0 0, 0, threshold⟩

/-- The constant `HeuristicValue::ZERO_COST_UNIT_WORK`. -/
def HeuristicValue.ZERO_COST_UNIT_WORK (threshold : Flt) : HeuristicValue :=
  ⟨.fin 0 0, 1, threshold⟩

/-- The constant `HeuristicValue::INFINITE`. -/
def HeuristicValue.INFINITE : HeuristicValue := ⟨.pinf, INT_MAX, .pinf⟩

/-- The float comparison `a < b`. -/
def Flt.lt : Flt → Flt → Bool
  | .nan, _ => false
  | _, .nan => false
  | .ninf, .ninf => false
  | .ninf, _ => true
  | .fin _ _, .ninf => false
  | .fin a ea, .fin b eb => decide (a * 2 ^ eb < b * 2 ^ ea)
  | .fin _ _, .pinf => true
  | .pinf, _ => false

/-- The float comparison `a == b`. -/
def Flt.eq : Flt → Flt → Bool
  | .ninf, .ninf => true
  | .pinf, .pinf => true
  | .fin a ea, .fin b eb => decide (a * 2 ^ eb = b * 2 ^ ea)
  | _, _ => false

/-- `HeuristicValue::operator+=`; `fadd` is float addition. -/
def HeuristicValue.op_add_assign (fadd : Flt → Flt → Flt) (h v : HeuristicValue) :
    Option HeuristicValue :=
  let add_cost := fadd h.add_cost v.add_cost
  match sum h.add_work v.add_work with
  | none => none
  | some add_work =>
    some ⟨add_cost, add_work, if h.makespan.lt v.makespan then v.makespan else h.makespan⟩

/-- `HeuristicValue::increment_work`. -/
def HeuristicValue.increment_work (h : HeuristicValue) : Option HeuristicValue :=
  match sum h.add_work 1 with
  | none => none
  | some add_work => some { h with add_work := add_work }

/-- `HeuristicValue::is_infinite`: `get_makespan() == infinity`. -/
def HeuristicValue.is_infinite (h : HeuristicValue) : Bool := h.makespan.eq .pinf

/-! ## orderings.h: the other comparison operators of step times -/

/-- Source: `operator==(const StepTime&, const StepTime&)`. -/
def StepTime.eq (st1 st2 : StepTime) : Bool :=
  decide (st1.point = st2.point) && decide (st1.rel = st2.rel)

/-- Source: `operator<=(const StepTime&, const StepTime&)`. -/
def StepTime.le (st1 st2 : StepTime) : Bool :=
  decide (st1.point.val ≤ st2.point.val)
    || (decide (st1.point = st2.point) && decide (st1.rel.val ≤ st2.rel.val))

/-- Source: `operator>(const StepTime&, const StepTime&)`. -/
def StepTime.gt (st1 st2 : StepTime) : Bool :=
  decide (st1.point.val > st2.point.val)
    || (decide (st1.point = st2.point) && decide (st1.rel.val > st2.rel.val))

/-- Source: `operator>=(const StepTime&, const StepTime&)`. -/
def StepTime.ge (st1 st2 : StepTime) : Bool :=
  decide (st1.point.val ≥ st2.point.val)
    || (decide (st1.point = st2.point) && decide (st1.rel.val ≥ st2.rel.val))

/-! ## bindings.cpp: the set version of the excluded domain -/

/-- Source: `ActionDomain::get_excluded_domain(const ObjectSet&, size_t)`. -/
def ActionDomain.get_excluded_domain_set (d : ActionDomain) (objs : ObjectSet) (column : Nat) :
    Except Fault DomainPtr :=
  match d.select (fun o => !ObjectSet.contains objs o) column with
  | .error e => .error e
  | .ok kept => .ok (d.finish kept)

/-- The domain of a one-parameter action with the tuples `(o1)` and `(o2)`. -/
def Ex.D12 : ActionDomain := ⟨[[Ex.o1], [Ex.o2]]⟩

/-! ## chain.h -/

/-- Source: `Chain<T>::contains`, for the chain with the given head and tail; `eq` is the
`operator==` of the element type, and a chain pointer is the list of the elements (null is
the empty list). -/
def Chain.contains {T : Type} (eq : T → T → Bool) (head : T) (tail : List T) (h : T) : Bool :=
  (head :: tail).any (fun x => eq h x)

/-- The loop of `Chain<T>::remove` over the cells after the first: cells are copied up to the
first one equal to `h`, whose tail is shared. -/
def Chain.remove_loop {T : Type} (eq : T → T → Bool) (h : T) : List T → List T
  | [] => []
  | x :: ci => if eq h x then ci else x :: Chain.remove_loop eq h ci

/-- Source: `Chain<T>::remove`. -/
def Chain.remove {T : Type} (eq : T → T → Bool) (head : T) (tail : List T) (h : T) : List T :=
  if eq h head then tail
  else if !tail.isEmpty then head :: Chain.remove_loop eq h tail
  else [head]

/-- Source: `Chain<T>::size`, for a chain pointer (the counter is an `int`; chains have fewer
than 2^31 cells). -/
def Chain.size {T : Type} : List T → Nat
  | [] => 0
  | _ :: ci => Chain.size ci + 1

/-! ## plans.cpp: comparison of plans by rank -/

/-- The test `diff == 0.0`. -/
def Flt.is_zero : Flt → Bool
  | .fin m _ => decide (m = 0)
  | _ => false

/-- Source: `Heuristic::HVal`. -/
inductive HVal where
  | LIFO | FIFO | OC | UC | BUC | S_PLUS_OC | UCPOP
  | ADD | ADD_COST | ADD_WORK | ADDR | ADDR_COST | ADDR_WORK | MAKESPAN
deriving DecidableEq, Repr

/-- Source: `class Heuristic`: the primitives `h_` and the flag `needs_pg`. -/
structure Heuristic where
  h_ : List HVal
  needs_pg : Bool
deriving DecidableEq, Repr

/-- The result of reading a name: the loop ran out of fuel, the exception for an invalid name
was thrown, or the value was built. -/
inductive ParseResult (α : Type) where
  | diverged
  | invalid
  | ok (a : α)
deriving DecidableEq, Repr

/-- The constant `string::npos`. -/
def npos : Nat := 2 ^ 64 - 1

/-- The call `name.find(c, pos)`: the first position from `pos` on that holds `c`, else `npos`. -/
def str_find (name : List Char) (c : Char) (pos : Nat) : Nat :=
  let rest := name.drop pos
  let i := rest.findIdx (fun x => x == c)
  if i < rest.length then pos + i else npos

/-- The call `name.substr(pos, n)` for `pos` within the string. -/
def substr (name : List Char) (pos n : Nat) : List Char := (name.drop pos).take n

/-- The call `key.c_str()` as a C string: the characters before the first NUL. -/
def c_str (key : List Char) : List Char := key.takeWhile (fun x => x != Char.ofNat 0)

/-- The test `strcasecmp(n, lit) == 0`. -/
def strcasecmp_eq (n : List Char) (lit : String) : Bool :=
  n.map Char.toLower == lit.toList.map Char.toLower

/-- The read `name[pos]`: the character, NUL at the length of the string, and for a position
beyond the length, which is outside the string, whatever byte `junk` lies there. -/
def str_index (junk : Char) (name : List Char) (pos : Nat) : Char :=
  if pos < name.length then name.getD pos junk
  else if pos = name.length then Char.ofNat 0
  else junk

/-- The chain of `strcasecmp` tests of `Heuristic::operator=`: the primitive for a key and
whether it needs a planning graph, `none` where the source throws. -/
def hval_of_key (n : List Char) : Option (HVal × Bool) :=
  if strcasecmp_eq n "LIFO" then some (.LIFO, false)
  else if strcasecmp_eq n "FIFO" then some (.FIFO, false)
  else if strcasecmp_eq n "OC" then some (.OC, false)
  else if strcasecmp_eq n "UC" then some (.UC, false)
  else if strcasecmp_eq n "BUC" then some (.BUC, false)
  else if strcasecmp_eq n "S+OC" then some (.S_PLUS_OC, false)
  else if strcasecmp_eq n "UCPOP" then some (.UCPOP, false)
  else if strcasecmp_eq n "ADD" then some (.ADD, true)
  else if strcasecmp_eq n "ADD_COST" then some (.ADD_COST, true)
  else if strcasecmp_eq n "ADD_WORK" then some (.ADD_WORK, true)
  else if strcasecmp_eq n "ADDR" then some (.ADDR, true)
  else if strcasecmp_eq n "ADDR_COST" then some (.ADDR_COST, true)
  else if strcasecmp_eq n "ADDR_WORK" then some (.ADDR_WORK, true)
  else if strcasecmp_eq n "MAKESPAN" then some (.MAKESPAN, true)
  else none

/-- The `while (pos < name.length())` loop of `Heuristic::operator=`. -/
def Heuristic.assign_loop (junk : Char) (name : List Char) :
    Nat → Nat → Heuristic → ParseResult Heuristic
  | 0, _, _ => .diverged
  | fuel + 1, pos, h =>
    if pos < name.length then
      let next_pos := str_find name '/' pos
      let key := substr name pos (usub next_pos pos)
      match hval_of_key (c_str key) with
      | none => .invalid
      | some (v, pg) =>
        let h1 : Heuristic := ⟨h.h_ ++ [v], h.needs_pg || pg⟩
        if str_index junk name next_pos = '/' then
          if (next_pos + 1) % 2 ^ 64 ≥ name.length then .invalid
          else Heuristic.assign_loop junk name fuel ((next_pos + 1) % 2 ^ 64) h1
        else Heuristic.assign_loop junk name fuel next_pos h1
    else .ok h

/-- Source: `Heuristic::operator=(const string&)`; `junk` is the byte a read of `name[npos]`
yields. Every turn of the loop moves `pos` forward unless that byte is a slash, so the length
of the name plus one is enough fuel. -/
def Heuristic.assign (junk : Char) (name : String) : ParseResult Heuristic :=
  Heuristic.assign_loop junk name.toList (name.length + 1) 0 ⟨[], false⟩

/-! ## formulas.h, effects.h: the time stamps of conditions and effects -/

/-- Source: `typedef enum { AT_START_F, OVER_ALL_F, AT_END_F } FormulaTime`. -/
inductive FormulaTime where
  | AT_START_F
  | OVER_ALL_F
  | AT_END_F
deriving DecidableEq, Repr

/-- The value of the enumerator. -/
def FormulaTime.val : FormulaTime → Nat
  | .AT_START_F => 0
  | .OVER_ALL_F => 1
  | .AT_END_F => 2

/-- Source: `typedef enum { AT_START, AT_END } EffectTime`. -/
inductive EffectTime where
  | AT_START
  | AT_END
deriving DecidableEq, Repr

/-- The value of the enumerator. -/
def EffectTime.val : EffectTime → Nat
  | .AT_START => 0
  | .AT_END => 1

/-- Source: `TimedLiteral::get_heuristic_value`. The pair `lit` is what
`get_literal().get_heuristic_value(h, hs, ...)` stores in `h` and `hs`; the test is
`get_when() == AT_END`, a `FormulaTime` compared with the enumerator `AT_END` of
`EffectTime`, both unscoped enumerations. -/
def TimedLiteral.get_heuristic_value (threshold : Flt)
    (lit : HeuristicValue × HeuristicValue) (when : FormulaTime) :
    HeuristicValue × HeuristicValue :=
  if when.val = EffectTime.AT_END.val then (lit.1, HeuristicValue.ZERO threshold)
  else (lit.1, lit.2)

/-- The store of a network of one step in which node 0 is at most 5 ticks after the start of
the step and no other two nodes are related. -/
def Ex.store_five : List IntVector := [[INT_MAX, 5], [INT_MAX, INT_MAX, INT_MAX, INT_MAX]]

/-! ## types.h, types.cpp: the type table -/

/-- Source: `Type::is_simple`: `index > 0`. -/
def Ty.is_simple (t : Ty) : Bool := decide (t > 0)

/-- Source: `class TypeTable`: the static vectors `names`, `subtype`, `utypes` and the map
`types` of the table. -/
structure TypeTable where
  names : List String
  subtype : List (List Bool)
  utypes : List (List Ty)
  types : List (String × Ty)
deriving DecidableEq, Repr

/-- Source: `TypeTable::OBJECT`, `Type(0)`. -/
def TypeTable.OBJECT : Ty := 0

/-- A table before any type is added. -/
def TypeTable.empty : TypeTable := ⟨[], [], [], []⟩

/-- The read `utypes[-t.index - 1]`; the index is converted to `size_t`. -/
def TypeTable.utypes_at (tt : TypeTable) (t : Ty) : Except Fault (List Ty) :=
  match tt.utypes[((-t - 1) % 2 ^ 64).toNat]? with
  | none => .error .out_of_range
  | some types => .ok types

/-- The loop `for (ti ...) if (!is_subtype(*ti, t2)) return false; return true`. -/
def all_types (f : Ty → Outcome Bool) : List Ty → Outcome Bool
  | [] => .value true
  | t :: ts =>
    match f t with
    | .value true => all_types f ts
    | other => other

/-- The loop `for (ti ...) if (is_subtype(t1, *ti)) return true; return false`. -/
def any_type (f : Ty → Outcome Bool) : List Ty → Outcome Bool
  | [] => .value false
  | t :: ts =>
    match f t with
    | .value false => any_type f ts
    | other => other

/-- The read `subtype[r][c]` with `int` indices converted to `size_t`. -/
def TypeTable.subtype_at (tt : TypeTable) (r c : Int) : Outcome Bool :=
  match index2 tt.subtype (r % 2 ^ 64).toNat (c % 2 ^ 64).toNat with
  | .error e => .fault e
  | .ok b => .value b

/-- Source: `TypeTable::is_subtype`; the fuel bounds the recursion through union types. -/
def TypeTable.is_subtype (tt : TypeTable) : Nat → Ty → Ty → Outcome Bool
  | 0, _, _ => .diverged
  | fuel + 1, t1, t2 =>
    if t1 = t2 then .value true
    else if !t1.is_simple then
      match tt.utypes_at t1 with
      | .error e => .fault e
      | .ok types => all_types (fun ti => TypeTable.is_subtype tt fuel ti t2) types
    else if !t2.is_simple then
      match tt.utypes_at t2 with
      | .error e => .fault e
      | .ok types => any_type (fun ti => TypeTable.is_subtype tt fuel t1 ti) types
    else if t1 = TypeTable.OBJECT then .value false
    else if t2 = TypeTable.OBJECT then .value true
    else if t2 < t1 then tt.subtype_at (t1 - 2) (2 * t1 - t2 - 2)
    else tt.subtype_at (t2 - 2) (t1 - 1)

/-- Source: `map<string, Type>::find`. -/
def find_name : List (String × Ty) → String → Option Ty
  | [], _ => none
  | (n, t) :: rest, name => if n = name then some t else find_name rest name

/-- Source: `TypeTable::add_type`: the table after the call and the type returned. -/
def TypeTable.add_type (tt : TypeTable) (name : String) : TypeTable × Ty :=
  let names := tt.names ++ [name]
  let type : Ty :=
    match find_name tt.types name with
    | some t => t
    | none => names.length
  let types :=
    match find_name tt.types name with
    | some _ => tt.types
    | none => tt.types ++ [(name, (names.length : Int))]
  let subtype :=
    if type > 1 then tt.subtype ++ [List.replicate (2 * (type - 1)).toNat false]
    else tt.subtype
  (⟨names, subtype, tt.utypes, types⟩, type)

/-- The write `subtype[r][c] = true`. -/
def TypeTable.set_subtype (tt : TypeTable) (r c : Nat) : Except Fault TypeTable :=
  match tt.subtype[r]? with
  | none => .error .out_of_range
  | some row =>
    if c < row.length then .ok { tt with subtype := tt.subtype.set r (row.set c true) }
    else .error .out_of_range

/-- The loop over `l` of `TypeTable::add_supertype`. -/
def TypeTable.add_supertype_inner (fuel : Nat) (t2 : Ty) (k : Nat) :
    List Nat → TypeTable → Outcome TypeTable
  | [], tt => .value tt
  | l :: ls, tt =>
    match tt.is_subtype fuel t2 (l : Int) with
    | .value true =>
      match (if k > l then tt.set_subtype (usub k 2) (usub (usub (umul 2 k) l) 2)
             else tt.set_subtype (usub l 2) (usub k 1)) with
      | .error e => .fault e
      | .ok tt1 => TypeTable.add_supertype_inner fuel t2 k ls tt1
    | .value false => TypeTable.add_supertype_inner fuel t2 k ls tt
    | .diverged => .diverged
    | .fault e => .fault e
    | .null => .null

/-- The loop over `k` of `TypeTable::add_supertype`. -/
def TypeTable.add_supertype_outer (fuel : Nat) (t1 t2 : Ty) (n : Nat) :
    List Nat → TypeTable → Outcome TypeTable
  | [], tt => .value tt
  | k :: ks, tt =>
    match tt.is_subtype fuel (k : Int) t1 with
    | .value true =>
      match tt.is_subtype fuel (k : Int) t2 with
      | .value false =>
        match TypeTable.add_supertype_inner fuel t2 k ((List.range n).map (· + 1)) tt with
        | .value tt1 => TypeTable.add_supertype_outer fuel t1 t2 n ks tt1
        | other => other
      | .value true => TypeTable.add_supertype_outer fuel t1 t2 n ks tt
      | .diverged => .diverged
      | .fault e => .fault e
      | .null => .null
    | .value false => TypeTable.add_supertype_outer fuel t1 t2 n ks tt
    | .diverged => .diverged
    | .fault e => .fault e
    | .null => .null

/-- The loop of `TypeTable::add_supertype` over the components of a union type. -/
def add_supertype_union (f : TypeTable → Ty → Outcome (Bool × TypeTable)) :
    List Ty → TypeTable → Outcome (Bool × TypeTable)
  | [], tt => .value (true, tt)
  | t :: ts, tt =>
    match f tt t with
    | .value (true, tt1) => add_supertype_union f ts tt1
    | other => other

/-- Source: `TypeTable::add_supertype`: the value returned and the table after the call. -/
def TypeTable.add_supertype : Nat → TypeTable → Ty → Ty → Outcome (Bool × TypeTable)
  | 0, _, _, _ => .diverged
  | fuel + 1, tt, t1, t2 =>
    if !t2.is_simple then
      match tt.utypes_at t2 with
      | .error e => .fault e
      | .ok types =>
        add_supertype_union (fun tt1 ti => TypeTable.add_supertype fuel tt1 t1 ti) types tt
    else
      match tt.is_subtype (fuel + 1) t1 t2 with
      | .value true => .value (true, tt)
      | .value false =>
        match tt.is_subtype (fuel + 1) t2 t1 with
        | .value true => .value (false, tt)
        | .value false =>
          let n := tt.names.length
          match TypeTable.add_supertype_outer (fuel + 1) t1 t2 n
              ((List.range n).map (· + 1)) tt with
          | .value tt1 => .value (true, tt1)
          | .diverged => .diverged
          | .fault e => .fault e
          | .null => .null
        | .diverged => .diverged
        | .fault e => .fault e
        | .null => .null
      | .diverged => .diverged
      | .fault e => .fault e
      | .null => .null

/-- The shape of a table with `n` simple types: row `r` of `subtype` belongs to the type
`r + 2` and has `2 * (r + 1)` entries. -/
structure TypeTable.Shape (tt : TypeTable) (n : Nat) : Prop where
  names : tt.names.length = n
  small : n < 2 ^ 31
  rows : tt.subtype.length = n - 1
  cols : ∀ (r : Nat) (row : List Bool), tt.subtype[r]? = some row → row.length = 2 * (r + 1)

/-- The row and the column of the entry of `subtype` for the pair of types `(a, b)`. -/
def tcell (a b : Nat) : Nat × Nat :=
  (max a b - 2, if b < a then 2 * a - b - 2 else a - 1)

/-- The subtype relation the table holds between two simple types. -/
def TypeTable.rel (tt : TypeTable) (a b : Nat) : Bool :=
  a == b ||
    match index2 tt.subtype (tcell a b).1 (tcell a b).2 with
    | .ok x => x
    | .error _ => false

/-- The table after `add_type` of the names a, b, c. -/
def Ex.tt3 : TypeTable :=
  ⟨["a", "b", "c"], [[false, false], [false, false, false, false]], [],
   [("a", 1), ("b", 2), ("c", 3)]⟩

/-! ## heuristics.cpp: flaw selection orders -/

/-- Source: `SelectionCriterion::OrderType`. -/
inductive OrderType where
  | LIFO | FIFO | RANDOM | LR | MR | NEW | REUSE | LC | MC | LW | MW
deriving DecidableEq, Repr

/-- Source: `SelectionCriterion::RankHeuristic`. -/
inductive RankHeuristic where
  | ADD | MAKESPAN
deriving DecidableEq, Repr

/-- Source: `struct SelectionCriterion`; `heuristic` and `reuse` are `none` while the parser
has not assigned them. -/
structure SelectionCriterion where
  non_separable : Bool
  separable : Bool
  open_cond : Bool
  local_open_cond : Bool
  static_open_cond : Bool
  unsafe_open_cond : Bool
  max_refinements : Int
  order : OrderType
  heuristic : Option RankHeuristic
  reuse : Option Bool
deriving DecidableEq, Repr

/-- Source: `class FlawSelectionOrder`. -/
structure FlawSelectionOrder where
  selection_criteria : List SelectionCriterion
  needs_pg : Bool
  first_unsafe_criterion : Int
  last_unsafe_criterion : Int
  first_open_cond_criterion : Int
  last_open_cond_criterion : Int
deriving DecidableEq, Repr

/-- The test `strncasecmp(n, lit, k) == 0`, for a literal of `k` characters. -/
def strncasecmp_eq (n : List Char) (lit : String) (k : Nat) : Bool :=
  (n.take k).map Char.toLower == lit.toList.map Char.toLower

/-- The chain of name tests at the head of `FlawSelectionOrder::operator=`: the order string a
predefined name stands for. -/
def named_order (n : List Char) : Option String :=
  if strcasecmp_eq n "UCPOP" then some "{n,s}LIFO/{o}LIFO"
  else if strcasecmp_eq n "UCPOP-LC" then some "{n,s}LIFO/{o}LR"
  else if strncasecmp_eq n "DSep-" 5 then
    if strcasecmp_eq (n.drop 5) "LIFO" then some "{n}LIFO/{o}LIFO/{s}LIFO"
    else if strcasecmp_eq (n.drop 5) "FIFO" then some "{n}LIFO/{o}FIFO/{s}LIFO"
    else if strcasecmp_eq (n.drop 5) "LC" then some "{n}LIFO/{o}LR/{s}LIFO"
    else none
  else if strncasecmp_eq n "DUnf-" 5 then
    if strcasecmp_eq (n.drop 5) "LIFO" then some "{n,s}0LIFO/{n,s}1LIFO/{o}LIFO/{n,s}LIFO"
    else if strcasecmp_eq (n.drop 5) "FIFO" then some "{n,s}0LIFO/{n,s}1LIFO/{o}FIFO/{n,s}LIFO"
    else if strcasecmp_eq (n.drop 5) "LC" then some "{n,s}0LIFO/{n,s}1LIFO/{o}LR/{n,s}LIFO"
    else if strcasecmp_eq (n.drop 5) "Gen" then some "{n,s,o}0LIFO/{n,s,o}1LIFO/{n,s,o}LIFO"
    else none
  else if strncasecmp_eq n "DRes-" 5 then
    if strcasecmp_eq (n.drop 5) "LIFO" then some "{n,s}0LIFO/{o}LIFO/{n,s}LIFO"
    else if strcasecmp_eq (n.drop 5) "FIFO" then some "{n,s}0LIFO/{o}FIFO/{n,s}LIFO"
    else if strcasecmp_eq (n.drop 5) "LC" then some "{n,s}0LIFO/{o}LR/{n,s}LIFO"
    else none
  else if strncasecmp_eq n "DEnd-" 5 then
    if strcasecmp_eq (n.drop 5) "LIFO" then some "{o}LIFO/{n,s}LIFO"
    else if strcasecmp_eq (n.drop 5) "FIFO" then some "{o}FIFO/{n,s}LIFO"
    else if strcasecmp_eq (n.drop 5) "LC" then some "{o}LR/{n,s}LIFO"
    else none
  else if strcasecmp_eq n "LCFR" then some "{n,s,o}LR"
  else if strcasecmp_eq n "LCFR-DSep" then some "{n,o}LR/{s}LR"
  else if strcasecmp_eq n "ZLIFO" then some "{n}LIFO/{o}0LIFO/{o}1NEW/{o}LIFO/{s}LIFO"
  else if strcasecmp_eq n "ZLIFO*" then some "{o}0LIFO/{n,s}LIFO/{o}1NEW/{o}LIFO"
  else if strcasecmp_eq n "Static" then some "{t}LIFO/{n,s}LIFO/{o}LIFO"
  else if strcasecmp_eq n "LCFR-Loc" then some "{n,s,l}LR"
  else if strcasecmp_eq n "LCFR-Conf" then some "{n,s,u}LR/{o}LR"
  else if strcasecmp_eq n "LCFR-Loc-Conf" then some "{n,s,u}LR/{l}LR"
  else if strcasecmp_eq n "MC" then some "{n,s}LR/{o}MC_add"
  else if strcasecmp_eq n "MC-Loc" then some "{n,s}LR/{l}MC_add"
  else if strcasecmp_eq n "MC-Loc-Conf" then some "\x7bn,s\x7dLR/[u\x7dMC_add/\x7bl\x7dMC_add"
  else if strcasecmp_eq n "MW" then some "{n,s}LR/{o}MW_add"
  else if strcasecmp_eq n "MW-Loc" then some "{n,s}LR/{l}MW_add"
  else if strcasecmp_eq n "MW-Loc-Conf" then some "{n,s}LR/{u}MW_add/{l}MW_add"
  else none

/-- The two assignments made when a criterion applies to threats. -/
def FlawSelectionOrder.mark_unsafe (o : FlawSelectionOrder) : FlawSelectionOrder :=
  { o with
    first_unsafe_criterion :=
      if o.first_unsafe_criterion > o.last_unsafe_criterion then o.selection_criteria.length
      else o.first_unsafe_criterion
    last_unsafe_criterion := o.selection_criteria.length }

/-- The two assignments made when a criterion applies to open conditions. -/
def FlawSelectionOrder.mark_open_cond (o : FlawSelectionOrder) : FlawSelectionOrder :=
  { o with
    first_open_cond_criterion :=
      if o.first_open_cond_criterion > o.last_open_cond_criterion
      then o.selection_criteria.length
      else o.first_open_cond_criterion
    last_open_cond_criterion := o.selection_criteria.length }

/-- The `switch (name[pos])` of the parser, where `sep` says that the next character is a
comma or a closing brace; `none` where the source throws. -/
def flaw_type_step (ch : Char) (sep : Bool) (cr : SelectionCriterion) (o : FlawSelectionOrder) :
    Option (SelectionCriterion × FlawSelectionOrder) :=
  if ch = 'n' then
    if sep then some ({ cr with non_separable := true }, o.mark_unsafe) else none
  else if ch = 's' then
    if sep then some ({ cr with separable := true }, o.mark_unsafe) else none
  else if ch = 'o' then
    if sep then
      some ({ cr with open_cond := true, local_open_cond := false, static_open_cond := false,
                      unsafe_open_cond := false }, o.mark_open_cond)
    else none
  else if ch = 'l' then
    if sep then
      (if !cr.open_cond then some ({ cr with local_open_cond := true }, o.mark_open_cond)
       else some (cr, o))
    else none
  else if ch = 't' then
    if sep then
      (if !cr.open_cond then some ({ cr with static_open_cond := true }, o.mark_open_cond)
       else some (cr, o))
    else none
  else if ch = 'u' then
    if sep then
      (if !cr.open_cond then some ({ cr with unsafe_open_cond := true }, o.mark_open_cond)
       else some (cr, o))
    else none
  else none

/-- The `do ... while (name[pos] != '}')` loop of the parser: the position of the closing
brace, the criterion and the order. -/
def parse_flaw_types (junk : Char) (name : List Char) :
    Nat → Nat → SelectionCriterion → FlawSelectionOrder →
      ParseResult (Nat × SelectionCriterion × FlawSelectionOrder)
  | 0, _, _, _ => .diverged
  | fuel + 1, pos, cr, o =>
    let pos1 := (pos + 1) % 2 ^ 64
    let nx := str_index junk name pos1
    match flaw_type_step (str_index junk name pos) (nx == ',' || nx == '}') cr o with
    | none => .invalid
    | some (cr1, o1) =>
      if nx = ',' then
        let pos2 := (pos1 + 1) % 2 ^ 64
        if str_index junk name pos2 = '}' then .invalid
        else parse_flaw_types junk name fuel pos2 cr1 o1
      else if nx ≠ '}' then parse_flaw_types junk name fuel pos1 cr1 o1
      else .ok (pos1, cr1, o1)

/-- The loop `while (name[next_pos] >= '0' && name[next_pos] <= '9') next_pos++`. -/
def digits_end (junk : Char) (name : List Char) : Nat → Nat → Nat
  | 0, p => p
  | fuel + 1, p =>
    let c := str_index junk name p
    if 48 ≤ c.toNat ∧ c.toNat ≤ 57 then digits_end junk name fuel ((p + 1) % 2 ^ 64) else p

/-- The call `atoi` on a string of digits. -/
def atoi (ds : List Char) : Int :=
  wrap32 (ds.foldl (fun (acc : Int) (d : Char) => acc * 10 + ((d.toNat : Int) - 48)) 0)

/-- The heuristic suffix of the orders `LC_`, `MC_`; `none` where the source throws. -/
def rank_suffix3 (cr : SelectionCriterion) (order : OrderType) (s : List Char) :
    Option SelectionCriterion :=
  if strcasecmp_eq s "ADD" then
    some { cr with order := order, heuristic := some .ADD, reuse := some false }
  else if strcasecmp_eq s "ADDR" then
    some { cr with order := order, heuristic := some .ADD, reuse := some true }
  else if strcasecmp_eq s "MAKESPAN" then
    some { cr with order := order, heuristic := some .MAKESPAN, reuse := some false }
  else none

/-- The heuristic suffix of the orders `LW_`, `MW_`; `none` where the source throws. -/
def rank_suffix2 (cr : SelectionCriterion) (order : OrderType) (s : List Char) :
    Option SelectionCriterion :=
  if strcasecmp_eq s "ADD" then
    some { cr with order := order, heuristic := some .ADD, reuse := some false }
  else if strcasecmp_eq s "ADDR" then
    some { cr with order := order, heuristic := some .ADD, reuse := some true }
  else none

/-- The chain of tests on the order key: the criterion with its order, and whether
`needs_pg` is set; `none` where the source throws. -/
def parse_order (cr : SelectionCriterion) (n : List Char) : Option (SelectionCriterion × Bool) :=
  if strcasecmp_eq n "LIFO" then some ({ cr with order := .LIFO }, false)
  else if strcasecmp_eq n "FIFO" then some ({ cr with order := .FIFO }, false)
  else if strcasecmp_eq n "R" then some ({ cr with order := .RANDOM }, false)
  else if strcasecmp_eq n "LR" then some ({ cr with order := .LR }, false)
  else if strcasecmp_eq n "MR" then some ({ cr with order := .MR }, false)
  else if cr.non_separable || cr.separable then none
  else if strcasecmp_eq n "NEW" then some ({ cr with order := .NEW }, false)
  else if strcasecmp_eq n "REUSE" then some ({ cr with order := .REUSE }, false)
  else if strncasecmp_eq n "LC_" 3 then (rank_suffix3 cr .LC (n.drop 3)).map (fun c => (c, true))
  else if strncasecmp_eq n "MC_" 3 then (rank_suffix3 cr .MC (n.drop 3)).map (fun c => (c, true))
  else if strncasecmp_eq n "LW_" 3 then (rank_suffix2 cr .LW (n.drop 3)).map (fun c => (c, true))
  else if strncasecmp_eq n "MW_" 3 then (rank_suffix2 cr .MW (n.drop 3)).map (fun c => (c, true))
  else none

/-- The three running maxima of the parser. -/
structure MaxRefinements where
  non_separable : Int
  separable : Int
  open_cond : Int
deriving DecidableEq, Repr

/-- The `while (pos < name.length())` loop of the parser of `FlawSelectionOrder::operator=`. -/
def parse_criteria (junk : Char) (name : List Char) :
    Nat → Nat → FlawSelectionOrder → MaxRefinements →
      ParseResult (FlawSelectionOrder × MaxRefinements)
  | 0, _, _, _ => .diverged
  | fuel + 1, pos, o, m =>
    if pos < name.length then
      if str_index junk name pos ≠ '{' then .invalid
      else
        match parse_flaw_types junk name (name.length + 2) ((pos + 1) % 2 ^ 64)
            ⟨false, false, false, false, false, false, 0, .LIFO, none, none⟩ o with
        | .diverged => .diverged
        | .invalid => .invalid
        | .ok (pos1, cr1, o1) =>
          let pos2 := (pos1 + 1) % 2 ^ 64
          let next_pos := digits_end junk name (name.length + 2) pos2
          let cr2 : SelectionCriterion :=
            if next_pos > pos2 then
              { cr1 with max_refinements := atoi (c_str (substr name pos2 (usub next_pos pos2))) }
            else { cr1 with max_refinements := INT_MAX }
          let pos3 := if next_pos > pos2 then next_pos else pos2
          let next_pos2 := str_find name '/' pos3
          match parse_order cr2 (c_str (substr name pos3 (usub next_pos2 pos3))) with
          | none => .invalid
          | some (cr3, pg) =>
            let m1 : MaxRefinements :=
              ⟨if cr3.non_separable then max cr3.max_refinements m.non_separable
                 else m.non_separable,
               if cr3.separable then max cr3.max_refinements m.separable else m.separable,
               if cr3.open_cond || cr3.local_open_cond then max cr3.max_refinements m.open_cond
                 else m.open_cond⟩
            let o2 : FlawSelectionOrder :=
              { o1 with selection_criteria := o1.selection_criteria ++ [cr3],
                        needs_pg := o1.needs_pg || pg }
            if str_index junk name next_pos2 = '/' then
              if (next_pos2 + 1) % 2 ^ 64 ≥ name.length then .invalid
              else parse_criteria junk name fuel ((next_pos2 + 1) % 2 ^ 64) o2 m1
            else parse_criteria junk name fuel next_pos2 o2 m1
    else .ok (o, m)

/-- The part of `FlawSelectionOrder::operator=` after the predefined names. -/
def FlawSelectionOrder.parse (junk : Char) (name : List Char) : ParseResult FlawSelectionOrder :=
  match parse_criteria junk name (name.length + 1) 0 ⟨[], false, INT_MAX, 0, INT_MAX, 0⟩
      ⟨-1, -1, -1⟩ with
  | .diverged => .diverged
  | .invalid => .invalid
  | .ok (o, m) =>
    if m.non_separable < INT_MAX ∨ m.separable < INT_MAX ∨ m.open_cond < INT_MAX then .invalid
    else .ok o

/-- Source: `FlawSelectionOrder::operator=(const string&)`; the fuel bounds the recursion
`*this = "..."` for a predefined name, and `junk` is the byte a read of `name[npos]` yields. -/
def FlawSelectionOrder.assign (junk : Char) : Nat → String → ParseResult FlawSelectionOrder
  | 0, _ => .diverged
  | fuel + 1, name =>
    match named_order (c_str name.toList) with
    | some s => FlawSelectionOrder.assign junk fuel s
    | none => FlawSelectionOrder.parse junk name.toList

/-- The predefined names other than `MC-Loc-Conf`. -/
def Ex.order_names : List String :=
  ["UCPOP", "UCPOP-LC", "DSep-LIFO", "DSep-FIFO", "DSep-LC", "DUnf-LIFO", "DUnf-FIFO",
   "DUnf-LC", "DUnf-Gen", "DRes-LIFO", "DRes-FIFO", "DRes-LC", "DEnd-LIFO", "DEnd-FIFO",
   "DEnd-LC", "LCFR", "LCFR-DSep", "ZLIFO", "ZLIFO*", "Static", "LCFR-Loc", "LCFR-Conf",
   "LCFR-Loc-Conf", "MC", "MC-Loc", "MW", "MW-Loc", "MW-Loc-Conf"]

/-- Whether a name was accepted. -/
def ParseResult.accepted {α : Type} : ParseResult α → Bool
  | .ok _ => true
  | _ => false

/-! ## heuristics.cpp: flaw selection -/

/-- A flaw of a plan: a threat, an open condition or a mutex threat. -/
inductive Flaw (U O M : Type) where
  | unsafe_ (u : U)
  | open_cond (o : O)
  | mutex_threat (m : M)
deriving DecidableEq, Repr

/-- Source: `struct FlawSelection`; `aux` stands for the members `rank` and `streak` (which
`select` leaves uninitialised) and the state of the random generator. -/
structure FlawSelection (F σ : Type) where
  flaw : Option F
  criterion : Int
  aux : σ

/-- The counters `refinements`, `separable`, `promotable`, `demotable` kept per threat. -/
structure UnsafeCounters where
  refinements : Int
  separable : Int
  promotable : Int
  demotable : Int
deriving DecidableEq, Repr

/-- What `select_unsafe` asks the plan: `Plan::is_separable`, `Plan::unsafe_refinements` (the
value returned and the counters it leaves), and the cases `RANDOM`, `LR`, `MR` of the switch
(the selection, the counters and `last_criterion` they leave). -/
structure UnsafeOracle (U F σ : Type) where
  is_separable : U → Int
  unsafe_refinements : UnsafeCounters → U → Int → Bool × UnsafeCounters
  ranked : OrderType → Int → FlawSelection F σ → UnsafeCounters → U → Int →
    FlawSelection F σ × UnsafeCounters × Int

/-- The loop over the criteria `c = first_criterion .. last_criterion` of `select_unsafe` for
one threat; the list is the criteria from index `c` on. -/
def select_unsafe_criteria {U M O σ : Type} (orc : UnsafeOracle U (Flaw U O M) σ) (unsafe_ : U) :
    List SelectionCriterion → Int → Int → FlawSelection (Flaw U O M) σ → UnsafeCounters →
      Except Fault (FlawSelection (Flaw U O M) σ × Int)
  | [], c, last_criterion, sel, _ =>
    if c ≤ last_criterion then .error .out_of_range else .ok (sel, last_criterion)
  | criterion :: rest, c, last_criterion, sel, cnt =>
    if c ≤ last_criterion then
      let cnt1 : UnsafeCounters :=
        if criterion.non_separable ≠ criterion.separable ∧ cnt.separable < 0 then
          let s := orc.is_separable unsafe_
          if s < 0 then { cnt with refinements := 0, separable := 0 }
          else { cnt with separable := s }
        else cnt
      if (criterion.non_separable && criterion.separable)
          || (criterion.separable && decide (cnt1.separable > 0))
          || (criterion.non_separable && decide (cnt1.separable = 0)) then
        let r : Bool × UnsafeCounters :=
          if criterion.max_refinements ≥ 3 then (true, cnt1)
          else orc.unsafe_refinements cnt1 unsafe_ criterion.max_refinements
        if r.1 then
          match criterion.order with
          | .LIFO =>
            select_unsafe_criteria orc unsafe_ rest (c + 1) (c - 1)
              { sel with flaw := some (.unsafe_ unsafe_), criterion := c } r.2
          | .FIFO =>
            select_unsafe_criteria orc unsafe_ rest (c + 1) c
              { sel with flaw := some (.unsafe_ unsafe_), criterion := c } r.2
          | .RANDOM | .LR | .MR =>
            let q := orc.ranked criterion.order c sel r.2 unsafe_ last_criterion
            select_unsafe_criteria orc unsafe_ rest (c + 1) q.2.2 q.1 q.2.1
          | _ => select_unsafe_criteria orc unsafe_ rest (c + 1) last_criterion sel r.2
        else select_unsafe_criteria orc unsafe_ rest (c + 1) last_criterion sel r.2
      else select_unsafe_criteria orc unsafe_ rest (c + 1) last_criterion sel cnt1
    else .ok (sel, last_criterion)

/-- The criteria from index `c` on; a read at a negative index is out of range. -/
def criteria_from (criteria : List SelectionCriterion) (c : Int) :
    Except Fault (List SelectionCriterion) :=
  if c < 0 then .error .out_of_range else .ok (criteria.drop c.toNat)

/-- The loop over the threats of `select_unsafe`. -/
def select_unsafe_loop {U M O σ : Type} (orc : UnsafeOracle U (Flaw U O M) σ)
    (criteria : List SelectionCriterion) (first_criterion : Int) :
    List U → Int → FlawSelection (Flaw U O M) σ →
      Except Fault (FlawSelection (Flaw U O M) σ × Int)
  | [], last_criterion, sel => .ok (sel, last_criterion)
  | u :: uc, last_criterion, sel =>
    if first_criterion ≤ last_criterion then
      match criteria_from criteria first_criterion with
      | .error e => .error e
      | .ok cs =>
        match select_unsafe_criteria orc u cs first_criterion last_criterion sel
            ⟨-1, -1, -1, -1⟩ with
        | .error e => .error e
        | .ok (sel1, last1) => select_unsafe_loop orc criteria first_criterion uc last1 sel1
    else .ok (sel, last_criterion)

/-- Source: `FlawSelectionOrder::select_unsafe`: the selection and the value returned. -/
def FlawSelectionOrder.select_unsafe {U M O σ : Type} (o : FlawSelectionOrder)
    (orc : UnsafeOracle U (Flaw U O M) σ) (sel : FlawSelection (Flaw U O M) σ)
    (unsafes : List U) (first_criterion last_criterion : Int) :
    Except Fault (FlawSelection (Flaw U O M) σ × Int) :=
  if first_criterion > last_criterion ∨ unsafes.isEmpty then .ok (sel, INT_MAX)
  else select_unsafe_loop orc o.selection_criteria first_criterion unsafes last_criterion sel

/-- The counters `is_static`, `is_unsafe`, `refinements`, `addable`, `reusable` kept per open
condition. -/
structure OpenCondCounters where
  is_static : Int
  is_unsafe : Int
  refinements : Int
  addable : Int
  reusable : Int
deriving DecidableEq, Repr

/-- What `select_open_cond` asks the open condition and the plan: `get_step_id`, `is_static`,
`Plan::is_unsafe_open_condition`, `Plan::open_cond_refinements`, and the cases of the switch
other than `LIFO` and `FIFO`. -/
structure OpenCondOracle (O F σ : Type) where
  get_step_id : O → Nat
  is_static : O → Bool
  is_unsafe_open_condition : O → Bool
  open_cond_refinements : OpenCondCounters → O → Int → Bool × OpenCondCounters
  ranked : SelectionCriterion → Int → FlawSelection F σ → OpenCondCounters → O → Int →
    FlawSelection F σ × OpenCondCounters × Int

/-- The loop over the criteria of `select_open_cond` for one open condition. -/
def select_open_cond_criteria {U M O σ : Type} (orc : OpenCondOracle O (Flaw U O M) σ)
    (open_cond : O) (is_local : Bool) :
    List SelectionCriterion → Int → Int → FlawSelection (Flaw U O M) σ → OpenCondCounters →
      Except Fault (FlawSelection (Flaw U O M) σ × Int)
  | [], c, last_criterion, sel, _ =>
    if c ≤ last_criterion then .error .out_of_range else .ok (sel, last_criterion)
  | criterion :: rest, c, last_criterion, sel, cnt =>
    if c ≤ last_criterion then
      if criterion.local_open_cond && !is_local && !criterion.static_open_cond
          && !criterion.unsafe_open_cond then
        select_open_cond_criteria orc open_cond is_local rest (c + 1)
          (if c = last_criterion then last_criterion - 1 else last_criterion) sel cnt
      else
        let cnt1 : OpenCondCounters :=
          if criterion.static_open_cond ∧ cnt.is_static < 0 then
            { cnt with is_static := if orc.is_static open_cond then 1 else 0 }
          else cnt
        let cnt2 : OpenCondCounters :=
          if criterion.unsafe_open_cond ∧ cnt1.is_unsafe < 0 then
            { cnt1 with is_unsafe := if orc.is_unsafe_open_condition open_cond then 1 else 0 }
          else cnt1
        if criterion.open_cond
            || (criterion.local_open_cond && is_local)
            || (criterion.static_open_cond && decide (cnt2.is_static > 0))
            || (criterion.unsafe_open_cond && decide (cnt2.is_unsafe > 0)) then
          let r : Bool × OpenCondCounters :=
            if criterion.max_refinements = INT_MAX then (true, cnt2)
            else orc.open_cond_refinements cnt2 open_cond criterion.max_refinements
          if r.1 then
            match criterion.order with
            | .LIFO =>
              select_open_cond_criteria orc open_cond is_local rest (c + 1) (c - 1)
                { sel with flaw := some (.open_cond open_cond), criterion := c } r.2
            | .FIFO =>
              select_open_cond_criteria orc open_cond is_local rest (c + 1) c
                { sel with flaw := some (.open_cond open_cond), criterion := c } r.2
            | _ =>
              let q := orc.ranked criterion c sel r.2 open_cond last_criterion
              select_open_cond_criteria orc open_cond is_local rest (c + 1) q.2.2 q.1 q.2.1
          else
            select_open_cond_criteria orc open_cond is_local rest (c + 1) last_criterion sel r.2
        else
          select_open_cond_criteria orc open_cond is_local rest (c + 1) last_criterion sel cnt2
    else .ok (sel, last_criterion)

/-- The loop over the open conditions of `select_open_cond`. -/
def select_open_cond_loop {U M O σ : Type} (orc : OpenCondOracle O (Flaw U O M) σ)
    (criteria : List SelectionCriterion) (first_criterion : Int) :
    List O → Nat → Int → FlawSelection (Flaw U O M) σ →
      Except Fault (FlawSelection (Flaw U O M) σ × Int)
  | [], _, last_criterion, sel => .ok (sel, last_criterion)
  | oc :: occ, local_id, last_criterion, sel =>
    if first_criterion ≤ last_criterion then
      let local_id1 := if local_id = 0 then orc.get_step_id oc else local_id
      match criteria_from criteria first_criterion with
      | .error e => .error e
      | .ok cs =>
        match select_open_cond_criteria orc oc (decide (orc.get_step_id oc = local_id1)) cs
            first_criterion last_criterion sel ⟨-1, -1, -1, -1, -1⟩ with
        | .error e => .error e
        | .ok (sel1, last1) =>
          select_open_cond_loop orc criteria first_criterion occ local_id1 last1 sel1
    else .ok (sel, last_criterion)

/-- Source: `FlawSelectionOrder::select_open_cond`. -/
def FlawSelectionOrder.select_open_cond {U M O σ : Type} (o : FlawSelectionOrder)
    (orc : OpenCondOracle O (Flaw U O M) σ) (sel : FlawSelection (Flaw U O M) σ)
    (open_conds : List O) (first_criterion last_criterion : Int) :
    Except Fault (FlawSelection (Flaw U O M) σ × Int) :=
  if first_criterion > last_criterion ∨ open_conds.isEmpty then .ok (sel, INT_MAX)
  else
    select_open_cond_loop orc o.selection_criteria first_criterion open_conds 0
      last_criterion sel

/-- Source: `FlawSelectionOrder::select`, for the three chains of flaws of the plan; the read
of the head of an empty mutex-threat chain is a fault. -/
def FlawSelectionOrder.select {U M O σ : Type} (o : FlawSelectionOrder)
    (uorc : UnsafeOracle U (Flaw U O M) σ) (oorc : OpenCondOracle O (Flaw U O M) σ) (s0 : σ)
    (unsafes : List U) (open_conds : List O) (mutex_threats : List M) :
    Except Fault (Flaw U O M) :=
  match o.select_unsafe uorc ⟨none, INT_MAX, s0⟩ unsafes o.first_unsafe_criterion
      o.last_unsafe_criterion with
  | .error e => .error e
  | .ok (sel1, last_criterion) =>
    match o.select_open_cond oorc sel1 open_conds o.first_open_cond_criterion
        (min o.last_open_cond_criterion last_criterion) with
    | .error e => .error e
    | .ok (sel2, _) =>
      match sel2.flaw with
      | some f => .ok f
      | none =>
        match mutex_threats with
        | m :: _ => .ok (.mutex_threat m)
        | [] => .error .out_of_range

/-- The order `{n,s}LIFO/{o}LIFO` as the parser builds it. -/
def Ex.order_ucpop : FlawSelectionOrder :=
  ⟨[⟨true, true, false, false, false, false, INT_MAX, .LIFO, none, none⟩,
    ⟨false, false, true, false, false, false, INT_MAX, .LIFO, none, none⟩],
   false, 0, 0, 1, 1⟩

/-- The order `{n,s}LIFO/{o}FIFO` as the parser builds it. -/
def Ex.order_fifo : FlawSelectionOrder :=
  ⟨[⟨true, true, false, false, false, false, INT_MAX, .LIFO, none, none⟩,
    ⟨false, false, true, false, false, false, INT_MAX, .FIFO, none, none⟩],
   false, 0, 0, 1, 1⟩

/-- The order `{o}LIFO/{n,s}LIFO` as the parser builds it. -/
def Ex.order_dend : FlawSelectionOrder :=
  ⟨[⟨false, false, true, false, false, false, INT_MAX, .LIFO, none, none⟩,
    ⟨true, true, false, false, false, false, INT_MAX, .LIFO, none, none⟩],
   false, 1, 1, 0, 0⟩

/-! ## formulas.h, formulas.cpp: formulas -/

/-- Source: `class Atom`. Every formula object carries the address it is allocated at, which
is what the pointer comparisons of the sources compare. -/
structure Atom where
  addr : Nat
  id : Nat
  predicate : Int
  terms : List Term
deriving DecidableEq, Repr

/-- Source: `class Literal`: an `Atom`, or a `Negation` holding a pointer to its atom. -/
inductive Lit where
  | atom (a : Atom)
  | neg (addr : Nat) (id : Nat) (atom : Atom)
deriving DecidableEq, Repr

/-- Source: `Literal::get_atom`. -/
def Lit.get_atom : Lit → Atom
  | .atom a => a
  | .neg _ _ a => a

/-- Source: `Literal::get_id`. -/
def Lit.get_id : Lit → Nat
  | .atom a => a.id
  | .neg _ id _ => id

/-- The address of the literal object. -/
def Lit.addr : Lit → Nat
  | .atom a => a.addr
  | .neg addr _ _ => addr

/-- The literal as `Bindings::unify` reads it. -/
def Lit.view : Lit → Literal
  | .atom a => ⟨a.id, false, a.predicate, a.terms⟩
  | .neg _ id a => ⟨id, true, a.predicate, a.terms⟩

/-- Source: the classes derived from `Formula`: `Constant` (only the two static objects
exist), `Literal`, `Equality`, `Inequality`, `Conjunction`, `Disjunction`, `Exists`, `Forall`,
`TimedLiteral`. -/
inductive Formula where
  | constant (value : Bool)
  | literal (l : Lit)
  | equality (addr : Nat) (var : Variable) (id1 : Nat) (term : Term) (id2 : Nat)
  | inequality (addr : Nat) (var : Variable) (id1 : Nat) (term : Term) (id2 : Nat)
  | conjunction (addr : Nat) (conjuncts : List Formula)
  | disjunction (addr : Nat) (disjuncts : List Formula)
  | exists_ (addr : Nat) (parameters : List Variable) (body : Formula)
  | forall_ (addr : Nat) (parameters : List Variable) (body : Formula)
  | timed_literal (addr : Nat) (literal : Lit) (when : FormulaTime)
deriving Repr

/-- Source: `Formula::TRUE_FORMULA`. -/
def Formula.TRUE_FORMULA : Formula := .constant true

/-- Source: `Formula::FALSE_FORMULA`. -/
def Formula.FALSE_FORMULA : Formula := .constant false

/-- Source: `Formula::is_tautology`: `this == &TRUE_FORMULA`. -/
def Formula.is_tautology : Formula → Bool
  | .constant true => true
  | _ => false

/-- Source: `Formula::is_contradiction`: `this == &FALSE_FORMULA`. -/
def Formula.is_contradiction : Formula → Bool
  | .constant false => true
  | _ => false

/-- The address of a formula object other than the two constants. -/
def Formula.address : Formula → Option Nat
  | .constant _ => none
  | .literal l => some l.addr
  | .equality a _ _ _ _ => some a
  | .inequality a _ _ _ _ => some a
  | .conjunction a _ => some a
  | .disjunction a _ => some a
  | .exists_ a _ _ => some a
  | .forall_ a _ _ => some a
  | .timed_literal a _ _ => some a

/-- The pointer comparison `&f1 == &f2`. -/
def Formula.same : Formula → Formula → Bool
  | .constant a, .constant b => a == b
  | .constant _, _ => false
  | _, .constant _ => false
  | f, g => f.address == g.address

/-- The static tables of the formula classes: the next free address, `Literal::next_id`,
`Atom::atoms` and `Negation::negations` (each negation as its address, its id and its atom). -/
structure FState where
  next_addr : Nat
  next_id : Nat
  atoms : List Atom
  negations : List (Nat × Nat × Atom)
deriving DecidableEq, Repr

/-- The tables before any formula is made. -/
def FState.init : FState := ⟨1, 1, [], []⟩

/-- Equivalence under `Atom::AtomLess`: neither atom is less than the other. -/
def Atom.less (a1 a2 : Atom) : Bool :=
  if a1.predicate < a2.predicate then true
  else if a2.predicate < a1.predicate then false
  else
    let rec go : List Term → List Term → Bool
      | t1 :: r1, t2 :: r2 =>
        if t1.lt t2 then true else if t2.lt t1 then false else go r1 r2
      | _, _ => false
    go a1.terms a2.terms

/-- Source: `Atom::make`. -/
def Atom.make (predicate : Int) (terms : List Term) (st : FState) : Atom × FState :=
  let ground := terms.all (fun t => !t.is_variable)
  if !ground then
    (⟨st.next_addr, 0, predicate, terms⟩, { st with next_addr := st.next_addr + 1 })
  else
    let atom : Atom := ⟨st.next_addr, st.next_id, predicate, terms⟩
    match st.atoms.find? (fun a => !Atom.less a atom && !Atom.less atom a) with
    | some a => (a, { st with next_addr := st.next_addr + 1 })
    | none =>
      (atom, { st with next_addr := st.next_addr + 1, next_id := st.next_id + 1,
                       atoms := st.atoms ++ [atom] })

/-- Source: `Negation::make`; the table is keyed by the atom object (`NegationLess` compares
the pointers to the atoms). -/
def Negation.make (atom : Atom) (st : FState) : Lit × FState :=
  if !decide (atom.id > 0) then
    (.neg st.next_addr 0 atom, { st with next_addr := st.next_addr + 1 })
  else
    match st.negations.find? (fun n => n.2.2 == atom) with
    | some n => (.neg n.1 n.2.1 atom, { st with next_addr := st.next_addr + 1 })
    | none =>
      (.neg st.next_addr st.next_id atom,
       { st with next_addr := st.next_addr + 1, next_id := st.next_id + 1,
                 negations := st.negations ++ [(st.next_addr, st.next_id, atom)] })

/-- Source: `Atom::negation` and `Negation::negation`. -/
def Lit.negation (l : Lit) (st : FState) : Lit × FState :=
  match l with
  | .atom a => Negation.make a st
  | .neg _ _ a => (.atom a, st)

/-- Source: `Equality::make(term1, id1, term2, id2)`. -/
def Equality.make (tb : Tables) (term1 : Term) (id1 : Nat) (term2 : Term) (id2 : Nat)
    (st : FState) : Formula × FState :=
  if term1.eq term2 ∧ id1 = id2 then (.constant true, st)
  else if term1.is_variable then
    if (term2.is_variable && tb.is_compatible (tb.type term1) (tb.type term2))
        || (term2.is_object && tb.is_subtype (tb.type term2) (tb.type term1)) then
      (.equality st.next_addr term1 id1 term2 id2, { st with next_addr := st.next_addr + 1 })
    else (.constant false, st)
  else if term2.is_variable then
    if tb.is_subtype (tb.type term1) (tb.type term2) then
      (.equality st.next_addr term2 id1 term1 id2, { st with next_addr := st.next_addr + 1 })
    else (.constant false, st)
  else (.constant false, st)

/-- Source: `Inequality::make(term1, id1, term2, id2)`. -/
def Inequality.make (tb : Tables) (term1 : Term) (id1 : Nat) (term2 : Term) (id2 : Nat)
    (st : FState) : Formula × FState :=
  if term1.eq term2 ∧ id1 = id2 then (.constant false, st)
  else if term1.is_variable then
    if (term2.is_variable && tb.is_compatible (tb.type term1) (tb.type term2))
        || (term2.is_object && tb.is_subtype (tb.type term2) (tb.type term1)) then
      (.inequality st.next_addr term1 id1 term2 id2, { st with next_addr := st.next_addr + 1 })
    else (.constant true, st)
  else if term2.is_variable then
    if tb.is_subtype (tb.type term1) (tb.type term2) then
      (.inequality st.next_addr term2 id1 term1 id2, { st with next_addr := st.next_addr + 1 })
    else (.constant true, st)
  else (.constant true, st)

/-- Source: `TimedLiteral::make`; the test is `when == AT_START`, with the enumerator of
`EffectTime`. -/
def TimedLiteral.make (literal : Lit) (when : FormulaTime) (st : FState) : Formula × FState :=
  if when.val = EffectTime.AT_START.val then (.literal literal, st)
  else (.timed_literal st.next_addr literal when, { st with next_addr := st.next_addr + 1 })

/-- The conjuncts `operator&&` copies from an operand: those of a conjunction, else the
operand itself. -/
def Formula.conjunct_list : Formula → List Formula
  | .conjunction _ cs => cs
  | f => [f]

/-- The disjuncts `operator||` copies from an operand. -/
def Formula.disjunct_list : Formula → List Formula
  | .disjunction _ ds => ds
  | f => [f]

/-- Source: `operator&&(const Formula&, const Formula&)`. -/
def Formula.op_and (f1 f2 : Formula) (st : FState) : Formula × FState :=
  if f1.is_contradiction then (f1, st)
  else if f2.is_contradiction then (f2, st)
  else if f1.is_tautology then (f2, st)
  else if f2.is_tautology then (f1, st)
  else if f1.same f2 then (f1, st)
  else
    (.conjunction st.next_addr (f1.conjunct_list ++ f2.conjunct_list),
     { st with next_addr := st.next_addr + 1 })

/-- Source: `operator||(const Formula&, const Formula&)`. -/
def Formula.op_or (f1 f2 : Formula) (st : FState) : Formula × FState :=
  if f1.is_tautology then (f1, st)
  else if f2.is_tautology then (f2, st)
  else if f1.is_contradiction then (f2, st)
  else if f2.is_contradiction then (f1, st)
  else if f1.same f2 then (f1, st)
  else
    (.disjunction st.next_addr (f1.disjunct_list ++ f2.disjunct_list),
     { st with next_addr := st.next_addr + 1 })

/-- A conjunction object. -/
def Formula.is_conjunction : Formula → Bool
  | .conjunction _ _ => true
  | _ => false

/-- A disjunction object. -/
def Formula.is_disjunction : Formula → Bool
  | .disjunction _ _ => true
  | _ => false

/-- One of the two constants. -/
def Formula.is_constant : Formula → Bool
  | .constant _ => true
  | _ => false

/-- The atom `p(o1)` of a fresh table, and the atom `r(o2)`. -/
def Ex.atom_p : Atom := ⟨1, 1, 0, [Ex.o1]⟩

/-- The atom `r(o2)`, made second. -/
def Ex.atom_r : Atom := ⟨2, 2, 1, [Ex.o2]⟩

/-- The tables after the two atoms are made. -/
def Ex.fstate2 : FState := ⟨3, 3, [Ex.atom_p, Ex.atom_r], []⟩

/-! ## formulas.cpp: negation -/

/-- Source: `BindingLiteral::step_id1`, `step_id2`: `(id != 0) ? id : def_id`. -/
def step_id (id def_id : Nat) : Nat := if id ≠ 0 then id else def_id

/-- Source: `operator!`, that is the virtual `negation()` of each class. The conjunction and
disjunction loops keep `disj` (`conj`), the object under construction with its address, and
`first_d` (`first_c`).  A formula here carries no reference count: the result is the object
`negation()` returns, and the `register_use(&f); unregister_use(&f)` of `operator!`, which
deletes an operand without another reference, is modelled on `LitHeap` below. -/
def Formula.negation (tb : Tables) : Formula → FState → Formula × FState
  | .constant v, st => (.constant (!v), st)
  | .literal l, st => (.literal (l.negation st).1, (l.negation st).2)
  | .equality _ v id1 t id2, st => Inequality.make tb v (step_id id1 0) t (step_id id2 0) st
  | .inequality _ v id1 t id2, st => Equality.make tb v (step_id id1 0) t (step_id id2 0) st
  | .conjunction _ cs, st => neg_conjuncts cs none (.constant false) st
  | .disjunction _ ds, st => neg_disjuncts ds none (.constant true) st
  | .exists_ _ ps body, st =>
    let r := Formula.negation tb body { st with next_addr := st.next_addr + 1 }
    (.forall_ st.next_addr ps r.1, r.2)
  | .forall_ _ ps body, st =>
    let r := Formula.negation tb body { st with next_addr := st.next_addr + 1 }
    (.exists_ st.next_addr ps r.1, r.2)
  | .timed_literal _ l w, st =>
    (.timed_literal (l.negation st).2.next_addr (l.negation st).1 w,
     { (l.negation st).2 with next_addr := (l.negation st).2.next_addr + 1 })
where
  neg_conjuncts : List Formula → Option (Nat × List Formula) → Formula → FState →
      Formula × FState
    | [], disj, first_d, st =>
      match disj with
      | some (a, ds) => (.disjunction a ds, st)
      | none => (first_d, st)
    | c :: cs, disj, first_d, st =>
      let r := Formula.negation tb c st
      if r.1.is_tautology then (.constant true, r.2)
      else if !r.1.is_contradiction then
        if first_d.is_contradiction then
          neg_conjuncts cs (disj.map (fun p => (p.1, p.2 ++ [r.1]))) r.1 r.2
        else
          match disj with
          | none =>
            neg_conjuncts cs (some (r.2.next_addr, [first_d, r.1])) first_d
              { r.2 with next_addr := r.2.next_addr + 1 }
          | some (a, ds) => neg_conjuncts cs (some (a, ds ++ [r.1])) first_d r.2
      else neg_conjuncts cs disj first_d r.2
  neg_disjuncts : List Formula → Option (Nat × List Formula) → Formula → FState →
      Formula × FState
    | [], conj, first_c, st =>
      match conj with
      | some (a, cs) => (.conjunction a cs, st)
      | none => (first_c, st)
    | d :: ds, conj, first_c, st =>
      let r := Formula.negation tb d st
      if r.1.is_contradiction then (.constant false, r.2)
      else if !r.1.is_tautology then
        if first_c.is_tautology then
          neg_disjuncts ds (conj.map (fun p => (p.1, p.2 ++ [r.1]))) r.1 r.2
        else
          match conj with
          | none =>
            neg_disjuncts ds (some (r.2.next_addr, [first_c, r.1])) first_c
              { r.2 with next_addr := r.2.next_addr + 1 }
          | some (a, cs) => neg_disjuncts ds (some (a, cs ++ [r.1])) first_c r.2
      else neg_disjuncts ds conj first_c r.2

/-- The structure of a formula: the formula without the addresses of its objects and the
interning ids of its literals. -/
inductive Shape where
  | constant (value : Bool)
  | literal (negated : Bool) (predicate : Int) (terms : List Term)
  | equality (var : Variable) (id1 : Nat) (term : Term) (id2 : Nat)
  | inequality (var : Variable) (id1 : Nat) (term : Term) (id2 : Nat)
  | conjunction (conjuncts : List Shape)
  | disjunction (disjuncts : List Shape)
  | exists_ (parameters : List Variable) (body : Shape)
  | forall_ (parameters : List Variable) (body : Shape)
  | timed_literal (negated : Bool) (predicate : Int) (terms : List Term) (when : FormulaTime)

/-- A constant structure. -/
def Shape.is_constant : Shape → Bool
  | .constant _ => true
  | _ => false

/-! ## formulas.cpp: instantiation -/

/-- What instantiation reads from the problem and the predicate table: the initial atoms, the
objects of the term table, and `PredicateTable::is_static`. -/
structure ProblemData where
  init_atoms : List Atom
  objects : List Object
  is_static : Int → Bool

/-- Source: `unifiable_atoms` (formulas.cpp); the comparisons of terms are the `operator!=`
of terms.h. -/
def unifiable_atoms (a1 a2 : Atom) : Except Fault Bool :=
  if a1.predicate ≠ a2.predicate then .ok false
  else go a1.terms 0 []
where
  go : List Term → Nat → List (Variable × Term) → Except Fault Bool
    | [], _, _ => .ok true
    | t1 :: rest, i, bind =>
      match a2.terms[i]? with
      | none => .error .out_of_range
      | some t2 =>
        if t1.is_object then
          if t1.ne t2 then .ok false else go rest (i + 1) bind
        else
          match SubstitutionMap_find bind t1 with
          | some t => if t.ne t2 then .ok false else go rest (i + 1) bind
          | none =>
            match t2.as_object with
            | .error e => .error e
            | .ok o => go rest (i + 1) (bind ++ [(t1, o)])

/-- The loop over the terms of `Atom::get_instantiation`: the substituted terms and the flag
`substituted`. -/
def subst_terms (subst : List (Variable × Term)) : List Term → List Term × Bool
  | [] => ([], false)
  | t :: rest =>
    let r := subst_terms subst rest
    match (if t.is_variable then SubstitutionMap_find subst t else none) with
    | some s => (s :: r.1, true)
    | none => (t :: r.1, r.2)

/-- The loop of `Atom::get_instantiation` over the initial atoms. -/
def any_unifiable (inst_atom : Atom) : List Atom → Except Fault Bool
  | [] => .ok false
  | a :: rest =>
    match unifiable_atoms inst_atom a with
    | .error e => .error e
    | .ok true => .ok true
    | .ok false => any_unifiable inst_atom rest

/-- Source: `Atom::get_instantiation`. -/
def Atom.get_instantiation (pd : ProblemData) (subst : List (Variable × Term)) (a : Atom)
    (st : FState) : Except Fault (Formula × FState) :=
  let r : Atom × FState :=
    if a.id > 0 then (a, st)
    else if (subst_terms subst a.terms).2 then
      Atom.make a.predicate (subst_terms subst a.terms).1 st
    else (a, st)
  if pd.is_static a.predicate then
    if r.1.id > 0 then
      if pd.init_atoms.any (fun x => x == r.1) then .ok (.constant true, r.2)
      else .ok (.constant false, r.2)
    else
      match any_unifiable r.1 pd.init_atoms with
      | .error e => .error e
      | .ok true => .ok (.literal (.atom r.1), r.2)
      | .ok false => .ok (.constant false, r.2)
  else .ok (.literal (.atom r.1), r.2)

/-- Source: `Equality::get_substitution` (also `Equality::get_instantiation`). -/
def Equality.get_substitution (tb : Tables) (subst : List (Variable × Term)) (f : Formula)
    (v : Variable) (id1 : Nat) (t : Term) (id2 : Nat) (st : FState) : Formula × FState :=
  let term1 := (SubstitutionMap_find subst v).getD v
  let term2 := ((if t.is_variable then SubstitutionMap_find subst t else none)).getD t
  if term1.eq v ∧ term2.eq t then (f, st)
  else Equality.make tb term1 (step_id id1 0) term2 (step_id id2 0) st

/-- Source: `Inequality::get_substitution` (also `Inequality::get_instantiation`). -/
def Inequality.get_substitution (tb : Tables) (subst : List (Variable × Term)) (f : Formula)
    (v : Variable) (id1 : Nat) (t : Term) (id2 : Nat) (st : FState) : Formula × FState :=
  let term1 := (SubstitutionMap_find subst v).getD v
  let term2 := ((if t.is_variable then SubstitutionMap_find subst t else none)).getD t
  if term1.eq v ∧ term2.eq t then (f, st)
  else Inequality.make tb term1 (step_id id1 0) term2 (step_id id2 0) st

/-- The loop of `Conjunction::get_instantiation`; `inst` is the virtual call
`get_instantiation(subst, problem)` on a conjunct, `this` the conjunction. -/
def inst_conjuncts (inst : Formula → FState → Outcome (Formula × FState)) (this : Formula) :
    List Formula → Option (Nat × List Formula) → Formula → Bool → FState →
      Outcome (Formula × FState)
  | [], conj, first_c, changed, st =>
    if !changed then .value (this, st)
    else
      match conj with
      | some (a, cs) => .value (.conjunction a cs, st)
      | none => .value (first_c, st)
  | f :: fs, conj, first_c, changed, st =>
    match inst f st with
    | .value (c, st1) =>
      let changed1 := changed || !c.same f
      if c.is_contradiction then .value (.constant false, st1)
      else if !c.is_tautology then
        if first_c.is_tautology then
          inst_conjuncts inst this fs (conj.map (fun p => (p.1, p.2 ++ [c]))) c changed1 st1
        else
          match conj with
          | none =>
            inst_conjuncts inst this fs (some (st1.next_addr, [first_c, c])) first_c changed1
              { st1 with next_addr := st1.next_addr + 1 }
          | some (a, cs) => inst_conjuncts inst this fs (some (a, cs ++ [c])) first_c changed1 st1
      else inst_conjuncts inst this fs conj first_c changed1 st1
    | other => other

/-- The loop of `Disjunction::get_instantiation`. -/
def inst_disjuncts (inst : Formula → FState → Outcome (Formula × FState)) (this : Formula) :
    List Formula → Option (Nat × List Formula) → Formula → Bool → FState →
      Outcome (Formula × FState)
  | [], disj, first_d, changed, st =>
    if !changed then .value (this, st)
    else
      match disj with
      | some (a, ds) => .value (.disjunction a ds, st)
      | none => .value (first_d, st)
  | f :: fs, disj, first_d, changed, st =>
    match inst f st with
    | .value (d, st1) =>
      let changed1 := changed || !d.same f
      if d.is_tautology then .value (.constant true, st1)
      else if !d.is_contradiction then
        if first_d.is_contradiction then
          inst_disjuncts inst this fs (disj.map (fun p => (p.1, p.2 ++ [d]))) d changed1 st1
        else
          match disj with
          | none =>
            inst_disjuncts inst this fs (some (st1.next_addr, [first_d, d])) first_d changed1
              { st1 with next_addr := st1.next_addr + 1 }
          | some (a, ds) => inst_disjuncts inst this fs (some (a, ds ++ [d])) first_d changed1 st1
      else inst_disjuncts inst this fs disj first_d changed1 st1
    | other => other

/-- The loop `for (int j = i; j >= 0; j--)` of the quantifier instantiation: the stack after
the pops, the positions `next_arg`, and the new value of `i`. -/
def quantifier_backtrack (arguments : List (List Object)) (n : Nat) :
    Nat → List Nat → List Formula → Nat × List Nat × List Formula
  | 0, next_arg, stack =>
    let na := next_arg.getD 0 0 + 1
    if na = (arguments.getD 0 []).length then (n, next_arg.set 0 na, stack.tail)
    else (0, next_arg.set 0 na, stack.tail)
  | j + 1, next_arg, stack =>
    let na := next_arg.getD (j + 1) 0 + 1
    if na = (arguments.getD (j + 1) []).length then
      quantifier_backtrack arguments n j (next_arg.set (j + 1) 0) stack.tail
    else (j + 1, next_arg.set (j + 1) na, stack.tail)

/-- The loop `for (int i = 0; i < n; )` of `Exists::get_instantiation` (`is_exists`) and of
`Forall::get_instantiation`; `inst` is the virtual call `get_instantiation(pargs, problem)`. -/
def quantifier_loop (inst : List (Variable × Term) → Formula → FState →
      Outcome (Formula × FState)) (is_exists : Bool) (parameters : List Variable)
    (arguments : List (List Object)) :
    Nat → Nat → List Nat → List Formula → Formula → FState → Outcome (Formula × FState)
  | 0, _, _, _, _, _ => .diverged
  | fuel + 1, i, next_arg, stack, result, st =>
    if i < parameters.length then
      match parameters[i]?, (arguments.getD i [])[next_arg.getD i 0]?, stack with
      | some p, some o, top :: _ =>
        match inst [(p, o)] top st with
        | .value (d, st1) =>
          if i + 1 = parameters.length then
            let r := if is_exists then Formula.op_or result d st1 else Formula.op_and result d st1
            if (if is_exists then r.1.is_tautology else r.1.is_contradiction) then .value r
            else
              let b := quantifier_backtrack arguments parameters.length i next_arg (d :: stack)
              quantifier_loop inst is_exists parameters arguments fuel b.1 b.2.1 b.2.2 r.1 r.2
          else
            quantifier_loop inst is_exists parameters arguments fuel (i + 1) next_arg
              (d :: stack) result st1
        | other => other
      | _, _, _ => .fault .out_of_range
    else .value (result, st)

/-- Source: the virtual `get_instantiation(subst, problem)` of the formula classes; the fuel
bounds the nesting of the calls and the turns of the quantifier loops.  The reference counts
of the formulas, which the quantifier loops change, are not modelled. -/
def Formula.get_instantiation (tb : Tables) (pd : ProblemData) :
    Nat → List (Variable × Term) → Formula → FState → Outcome (Formula × FState)
  | 0, _, _, _ => .diverged
  | fuel + 1, subst, f, st =>
    match f with
    | .constant _ => .value (f, st)
    | .literal (.atom a) =>
      match Atom.get_instantiation pd subst a st with
      | .error e => .fault e
      | .ok r => .value r
    | .literal (.neg _ _ a) =>
      match Atom.get_instantiation pd subst a st with
      | .error e => .fault e
      | .ok r =>
        if r.1.same (.literal (.atom a)) then .value (f, r.2)
        else .value (Formula.negation tb r.1 r.2)
    | .equality _ v id1 t id2 => .value (Equality.get_substitution tb subst f v id1 t id2 st)
    | .inequality _ v id1 t id2 => .value (Inequality.get_substitution tb subst f v id1 t id2 st)
    | .conjunction _ cs =>
      inst_conjuncts (Formula.get_instantiation tb pd fuel subst) f cs none (.constant true)
        false st
    | .disjunction _ ds =>
      inst_disjuncts (Formula.get_instantiation tb pd fuel subst) f ds none (.constant false)
        false st
    | .exists_ _ ps body =>
      if ps.length = 0 then Formula.get_instantiation tb pd fuel subst body st
      else
        let arguments := ps.map (fun p => tb.compatible_objects pd.objects (tb.type p))
        if arguments.any (fun l => l.isEmpty) then .value (.constant false, st)
        else
          match Formula.get_instantiation tb pd fuel subst body st with
          | .value (b, st1) =>
            quantifier_loop (Formula.get_instantiation tb pd fuel) true ps arguments fuel 0
              (ps.map (fun _ => 0)) [b] (.constant false) st1
          | other => other
    | .forall_ _ ps body =>
      if ps.length = 0 then Formula.get_instantiation tb pd fuel subst body st
      else
        let arguments := ps.map (fun p => tb.compatible_objects pd.objects (tb.type p))
        if arguments.any (fun l => l.isEmpty) then .value (.constant true, st)
        else
          match Formula.get_instantiation tb pd fuel subst body st with
          | .value (b, st1) =>
            quantifier_loop (Formula.get_instantiation tb pd fuel) false ps arguments fuel 0
              (ps.map (fun _ => 0)) [b] (.constant true) st1
          | other => other
    | .timed_literal _ l w =>
      match Formula.get_instantiation tb pd fuel subst (.literal l) st with
      | .value (.literal l2, st1) =>
        if (Formula.literal l2).same (.literal l) then .value (f, st1)
        else .value (.timed_literal st1.next_addr l2 w, { st1 with next_addr := st1.next_addr + 1 })
      | other => other

/-- The initial atom `p(o1, o2)` of a static predicate, the first atom made. -/
def Ex.init_p : Atom := ⟨1, 1, 0, [Ex.o1, Ex.o2]⟩

/-- The lifted atom `p(o1, ?x)`. -/
def Ex.lifted_p : Atom := ⟨2, 0, 0, [Ex.o1, Ex.x]⟩

/-- The lifted atom `p(?x, ?y)`. -/
def Ex.lifted_pxy : Atom := ⟨2, 0, 0, [Ex.x, Ex.y]⟩

/-- The tables after these atoms are made. -/
def Ex.fstate_p : FState := ⟨3, 2, [Ex.init_p], []⟩

/-- The problem with the objects o1, o2 and the single initial atom `p(o1, o2)`, every
predicate being static. -/
def Ex.pd : ProblemData := ⟨[Ex.init_p], [Ex.o1, Ex.o2], fun _ => true⟩

/-! ## refcount.h, formulas.cpp: the reference counts of atoms and negated atoms -/

/-- An `Atom` or a `Negation` on the heap: the counter `RCObject::ref_count`, the id of the
literal, and the predicate and the terms of an atom or the address of the atom of a
negation. -/
inductive LitObject where
  | atom (ref_count : Nat) (id : Nat) (predicate : Int) (terms : List Term)
  | negation (ref_count : Nat) (id : Nat) (atom : Nat)
deriving DecidableEq, Repr

/-- The member `ref_count`. -/
def LitObject.ref_count : LitObject → Nat
  | .atom rc _ _ _ => rc
  | .negation rc _ _ => rc

/-- The object with the member `ref_count` set. -/
def LitObject.set_ref_count : LitObject → Nat → LitObject
  | .atom _ id p ts, rc => .atom rc id p ts
  | .negation _ id a, rc => .negation rc id a

/-- The heap of the literals: the object at each address (`none` once it is deleted),
`Literal::next_id`, and the tables `Atom::atoms` and `Negation::negations`, which hold
addresses. -/
structure LitHeap where
  objects : List (Option LitObject)
  next_id : Nat
  atoms : List Nat
  negations : List Nat
deriving DecidableEq, Repr

/-- The heap before any literal is made. -/
def LitHeap.init : LitHeap := ⟨[], 1, [], []⟩

/-- The object at an address, `none` if no object lives there. -/
def LitHeap.get (h : LitHeap) (o : Nat) : Option LitObject :=
  match h.objects[o]? with
  | some (some x) => some x
  | _ => none

/-- Source: `RCObject::ref` (`Formula::register_use`): `++o->ref_count`, an
`unsigned long`. The result is `none` if no object lives at the address. -/
def LitHeap.ref (h : LitHeap) (o : Nat) : Option LitHeap :=
  match h.get o with
  | none => none
  | some x =>
    some { h with objects := h.objects.set o (some (x.set_ref_count ((x.ref_count + 1) % 2 ^ 64))) }

/-- Source: `atoms.find(atom)` and the test of `atoms.insert(atom)`: the address in the
table of the atom that `AtomLess` holds equivalent to the atom with the given predicate and
terms. -/
def LitHeap.atoms_find (h : LitHeap) (predicate : Int) (terms : List Term) : Option Nat :=
  h.atoms.find? (fun t =>
    match h.get t with
    | some (.atom _ _ p ts) =>
      !Atom.less ⟨t, 0, p, ts⟩ ⟨0, 0, predicate, terms⟩
        && !Atom.less ⟨0, 0, predicate, terms⟩ ⟨t, 0, p, ts⟩
    | _ => false)

/-- Source: `negations.find(negation)` and the test of `negations.insert(negation)`:
`NegationLess` compares the addresses of the atoms. -/
def LitHeap.negations_find (h : LitHeap) (atom : Nat) : Option Nat :=
  h.negations.find? (fun t =>
    match h.get t with
    | some (.negation _ _ a) => a == atom
    | _ => false)

/-- Source: `delete` of an atom: `Atom::~Atom` erases the atom from the table if the entry
the table finds is this atom; reading `*ai` when the table finds nothing is `none`. -/
def LitHeap.delete_atom (h : LitHeap) (o : Nat) : Option LitHeap :=
  match h.get o with
  | some (.atom _ _ p ts) =>
    match h.atoms_find p ts with
    | none => none
    | some t =>
      some { h with
        atoms := if t = o then h.atoms.erase t else h.atoms
        objects := h.objects.set o none }
  | _ => none

/-- Source: `RCObject::destructive_deref` (`Formula::unregister_use`) on an atom:
`--o->ref_count; if (o->ref_count == 0) delete o;`. -/
def LitHeap.unregister_atom (h : LitHeap) (o : Nat) : Option LitHeap :=
  match h.get o with
  | some (.atom rc id p ts) =>
    let rc1 := (rc + 2 ^ 64 - 1) % 2 ^ 64
    let h1 : LitHeap := { h with objects := h.objects.set o (some (.atom rc1 id p ts)) }
    if rc1 = 0 then h1.delete_atom o else some h1
  | _ => none

/-- Source: `delete` of a negation: `Negation::~Negation` unregisters the use of the atom
and erases the negation from the table if the entry the table finds is this negation. -/
def LitHeap.delete_negation (h : LitHeap) (o : Nat) : Option LitHeap :=
  match h.get o with
  | some (.negation _ _ a) =>
    match h.unregister_atom a with
    | none => none
    | some h1 =>
      match h1.negations_find a with
      | none => none
      | some t =>
        some { h1 with
          negations := if t = o then h1.negations.erase t else h1.negations
          objects := h1.objects.set o none }
  | _ => none

/-- Source: `Formula::unregister_use` on a literal; the destructor is virtual. -/
def LitHeap.unregister_use (h : LitHeap) (o : Nat) : Option LitHeap :=
  match h.get o with
  | some (.atom _ _ _ _) => h.unregister_atom o
  | some (.negation rc id a) =>
    let rc1 := (rc + 2 ^ 64 - 1) % 2 ^ 64
    let h1 : LitHeap := { h with objects := h.objects.set o (some (.negation rc1 id a)) }
    if rc1 = 0 then h1.delete_negation o else some h1
  | none => none

/-- Source: `Atom::make`, with the address of the atom returned and the heap after the
call. -/
def LitHeap.atom_make (h : LitHeap) (predicate : Int) (terms : List Term) :
    Option (Nat × LitHeap) :=
  let o := h.objects.length
  let ground := terms.all (fun t => !t.is_variable)
  if !ground then
    some (o, { h with objects := h.objects ++ [some (.atom 0 0 predicate terms)] })
  else
    match h.atoms_find predicate terms with
    | some t => some (t, { h with objects := h.objects ++ [none] })
    | none =>
      some (o, { h with
        objects := h.objects ++ [some (.atom 0 h.next_id predicate terms)]
        next_id := h.next_id + 1
        atoms := h.atoms ++ [o] })

/-- Source: `Negation::make`; the constructor `Negation(atom)` registers the use of the
atom, and the negation that the table already holds an equivalent of is deleted. -/
def LitHeap.negation_make (h : LitHeap) (atom : Nat) : Option (Nat × LitHeap) :=
  match h.ref atom with
  | none => none
  | some h1 =>
    match h1.get atom with
    | some (.atom _ id _ _) =>
      let o := h1.objects.length
      if !decide (id > 0) then
        some (o, { h1 with objects := h1.objects ++ [some (.negation 0 0 atom)] })
      else
        match h1.negations_find atom with
        | some t =>
          match h1.unregister_atom atom with
          | none => none
          | some h2 => some (t, { h2 with objects := h2.objects ++ [none] })
        | none =>
          some (o, { h1 with
            objects := h1.objects ++ [some (.negation 0 h1.next_id atom)]
            next_id := h1.next_id + 1
            negations := h1.negations ++ [o] })
    | _ => none

/-- Source: `Atom::negation` (`Negation::make(*this)`) and `Negation::negation`
(`get_atom()`). -/
def LitHeap.negation (h : LitHeap) (f : Nat) : Option (Nat × LitHeap) :=
  match h.get f with
  | some (.atom _ _ _ _) => h.negation_make f
  | some (.negation _ _ a) => some (a, h)
  | none => none

/-- Source: `operator!(const Formula& f)` on a literal:
`neg = f.negation(); register_use(&f); unregister_use(&f); return neg;`. -/
def LitHeap.op_not (h : LitHeap) (f : Nat) : Option (Nat × LitHeap) :=
  match h.negation f with
  | none => none
  | some (neg, h1) =>
    match h1.ref f with
    | none => none
    | some h2 =>
      match h2.unregister_use f with
      | none => none
      | some h3 => some (neg, h3)

/-- The heap after `Atom::make` of the ground atom `p(o1)`: the atom at address 0, with no
reference. -/
def Ex.heap_a : LitHeap := ⟨[some (.atom 0 1 0 [Ex.o1])], 2, [0], []⟩

/-- The heap after `!a` for that atom: the negation at address 1, with no reference, holds
the only reference to the atom. -/
def Ex.heap_na : LitHeap :=
  ⟨[some (.atom 1 1 0 [Ex.o1]), some (.negation 0 2 0)], 3, [0], [1]⟩

/-! ## parameters.h, effects.h, actions.h, flaws.h, plans.h: the classes of a plan -/

/-- Source: `Parameters::SearchAlgorithm`. -/
inductive SearchAlgorithm where
  | A_STAR
  | IDA_STAR
  | HILL_CLIMBING
deriving DecidableEq, Repr

/-- Source: `struct Parameters`, with the members the plan code reads. -/
structure Parameters where
  search_algorithm : SearchAlgorithm
  random_open_conditions : Bool
  ground_actions : Bool
  domain_constraints : Bool
  keep_static_preconditions : Bool
  flaw_orders : List FlawSelectionOrder
  search_limits : List Nat
deriving DecidableEq, Repr

/-- Source: `Parameters::strip_static_preconditions`. -/
def Parameters.strip_static_preconditions (p : Parameters) : Bool :=
  !p.ground_actions && p.domain_constraints && !p.keep_static_preconditions

/-- Source: `class Effect`. -/
structure Effect where
  parameters : List Variable
  condition : Formula
  link_condition : Formula
  literal : Lit
  when : EffectTime
deriving Repr

/-- Source: `class Action`; `parameters` is `none` for a `GroundAction` and the parameter
list for an `ActionSchema`. -/
structure Action where
  name : String
  durative : Bool
  parameters : Option (List Variable)
  condition : Formula
  effects : List Effect
deriving Repr

/-- Source: `class Step`. -/
structure Step where
  id : Nat
  action : Action
deriving Repr

/-- Source: `class OpenCondition`; `when` is `none` after the constructor that does not
initialise it. -/
structure OpenCondition where
  step_id : Nat
  condition : Formula
  when : Option FormulaTime
deriving Repr

/-- Source: `class Link`. -/
structure Link where
  from_id : Nat
  effect_time : StepTime
  to_id : Nat
  condition : Option Lit
  condition_time : Option FormulaTime
deriving Repr

/-- Source: `class Unsafe`. -/
structure Unsafe where
  link : Link
  step_id : Nat
  effect : Effect
deriving Repr

/-- Source: `class MutexThreat`; the members the constructor of the place holder does not
initialise are `none`. -/
structure MutexThreat where
  step_id1 : Nat
  effect1 : Option Effect
  step_id2 : Option Nat
  effect2 : Option Effect
deriving Repr

/-- Source: the constructor `MutexThreat()` of the place holder. -/
def MutexThreat.place_holder : MutexThreat := ⟨0, none, none, none⟩

/-- Source: `class Orderings` with its two subclasses; a temporal collection comes with the
store of the `IntVector` objects its rows point into. -/
inductive Orderings where
  | binary (o : BinaryOrderings)
  | temporal (store : List IntVector) (o : TemporalOrderings)
deriving Repr

/-- Source: `class Plan`; a null `bindings` pointer is `none`, a null chain is the empty
list. -/
structure Plan where
  steps : List Step
  num_steps : Nat
  links : List Link
  num_links : Nat
  orderings : Orderings
  bindings : Option Bindings
  unsafes : List Unsafe
  num_unsafes : Nat
  open_conds : List OpenCondition
  num_open_conds : Nat
  mutex_threats : List MutexThreat
deriving Repr

/-- Source: `Plan::is_complete`. -/
def Plan.is_complete (p : Plan) : Bool :=
  p.unsafes.isEmpty && p.open_conds.isEmpty && p.mutex_threats.isEmpty

/-- What the plan code reads from its file-level state: the parameters `params`,
`PredicateTable::is_static`, the result of `Forall::get_universal_base(SubstitutionMap(),
*problem)` for each universally quantified goal, `RAND_MAX`, and the value of each call of
`rand()` in turn. -/
structure PlanEnv where
  params : Parameters
  is_static : Int → Bool
  universal_base : Formula → Formula
  rand_max : Nat
  rand : Nat → Nat

/-! ## plans.cpp: goals -/

/-- The references of `add_goal`, and the number of calls of `rand()` made so far. -/
structure GoalState where
  open_conds : List OpenCondition
  num_open_conds : Nat
  new_bindings : BindingList
  calls : Nat
deriving Repr

/-- The insertion of a goal into the vector `goals` of `add_goal`: at the back, or with
`random_open_conditions` at the position `size_t((goals.size() + 1.0)*rand() / (RAND_MAX +
1.0))`, the goal of that position moving to the back. -/
def push_goal (env : PlanEnv) (f : Formula) (goals : List Formula) (calls : Nat) :
    Except Fault (List Formula × Nat) :=
  if env.params.random_open_conditions then
    let pos := ((goals.length + 1) * env.rand calls) / (env.rand_max + 1)
    if pos = goals.length then .ok (goals ++ [f], calls + 1)
    else
      match goals[pos]? with
      | some tmp => .ok (goals.set pos f ++ [tmp], calls + 1)
      | none => .error .out_of_range
  else .ok (goals ++ [f], calls)

/-- The loop of `add_goal` over the conjuncts of a conjunction. -/
def push_goals (env : PlanEnv) : List Formula → List Formula → Nat →
    Except Fault (List Formula × Nat)
  | [], goals, calls => .ok (goals, calls)
  | f :: fs, goals, calls =>
    match push_goal env f goals calls with
    | .error e => .error e
    | .ok (goals1, calls1) => push_goals env fs goals1 calls1

/-- The branch of `add_goal` for a literal `l` with the time stamp `when`. -/
def add_literal_goal (env : PlanEnv) (sid : Nat) (test_only : Bool) (l : Lit)
    (when : FormulaTime) (st : GoalState) : GoalState :=
  let st1 :=
    if !test_only
        && !(env.params.strip_static_preconditions && env.is_static l.get_atom.predicate) then
      { st with open_conds := ⟨sid, .literal l, some when⟩ :: st.open_conds }
    else st
  { st1 with num_open_conds := st1.num_open_conds + 1 }

/-- The loop `while (!goals.empty())` of `add_goal`; `sid` is the argument `step_id`.  The
vector `goals` is the list with its back last. -/
def add_goal_loop (env : PlanEnv) (sid : Nat) (test_only : Bool) :
    Nat → List Formula → GoalState → Outcome GoalState
  | 0, _, _ => .diverged
  | fuel + 1, goals, st =>
    match goals.getLast? with
    | none => .value st
    | some goal =>
      let rest := goals.dropLast
      match goal with
      | .timed_literal _ l when =>
        add_goal_loop env sid test_only fuel rest (add_literal_goal env sid test_only l when st)
      | .literal l =>
        add_goal_loop env sid test_only fuel rest
          (add_literal_goal env sid test_only l .AT_START_F st)
      | .conjunction _ gs =>
        match push_goals env gs rest st.calls with
        | .error e => .fault e
        | .ok (goals1, calls1) =>
          add_goal_loop env sid test_only fuel goals1 { st with calls := calls1 }
      | .disjunction _ _ =>
        let st1 :=
          if !test_only then { st with open_conds := ⟨sid, goal, none⟩ :: st.open_conds }
          else st
        add_goal_loop env sid test_only fuel rest
          { st1 with num_open_conds := st1.num_open_conds + 1 }
      | .equality _ var id1 term id2 =>
        add_goal_loop env sid test_only fuel rest
          { st with new_bindings :=
              st.new_bindings ++ [⟨var, step_id id1 sid, term, step_id id2 sid, true⟩] }
      | .inequality _ var id1 term id2 =>
        add_goal_loop env sid test_only fuel rest
          { st with new_bindings :=
              st.new_bindings ++ [⟨var, step_id id1 sid, term, step_id id2 sid, false⟩] }
      | .exists_ _ _ body =>
        match push_goal env body rest st.calls with
        | .error e => .fault e
        | .ok (goals1, calls1) =>
          add_goal_loop env sid test_only fuel goals1 { st with calls := calls1 }
      | .forall_ _ _ _ =>
        match push_goal env (env.universal_base goal) rest st.calls with
        | .error e => .fault e
        | .ok (goals1, calls1) =>
          add_goal_loop env sid test_only fuel goals1 { st with calls := calls1 }
      | .constant _ => .fault .logic_error

/-- Source: `add_goal` (plans.cpp); `sid` is the argument `step_id`, the state holds the
three references, and the flag of the result is the value returned. -/
def add_goal (env : PlanEnv) (fuel : Nat) (st : GoalState) (goal : Formula) (sid : Nat)
    (test_only : Bool) : Outcome (Bool × GoalState) :=
  if goal.is_tautology then .value (true, st)
  else if goal.is_contradiction then .value (false, st)
  else
    match add_goal_loop env sid test_only fuel [goal] st with
    | .diverged => .diverged
    | .fault e => .fault e
    | .null => .null
    | .value st1 => .value (true, st1)

/-! ## plans.cpp: mutex threats -/

/-- The four flags `ss`, `se`, `es`, `ee` of `possibly_concurrent`. -/
structure Flags where
  ss : Bool
  se : Bool
  es : Bool
  ee : Bool
deriving DecidableEq, Repr

/-- Source: `BinaryOrderings::possibly_concurrent`; `flags` are the values the caller's
variables hold before the call, which the first branch leaves as they are. -/
def BinaryOrderings.possibly_concurrent (o : BinaryOrderings) (id1 id2 : Nat) (flags : Flags) :
    Except Fault (Bool × Flags) :=
  if id1 = id2 ∨ id1 = 0 ∨ id1 = GOAL_ID ∨ id2 = 0 ∨ id2 = GOAL_ID then .ok (false, flags)
  else
    match o.is_before id1 id2 with
    | .error e => .error e
    | .ok true => .ok (false, ⟨false, false, false, false⟩)
    | .ok false =>
      match o.is_before id2 id1 with
      | .error e => .error e
      | .ok b => .ok (!b, ⟨!b, !b, !b, !b⟩)

/-- The test `get_distance(t1, t2) >= 0 && get_distance(t2, t1) >= 0` of
`TemporalOrderings::possibly_concurrent`. -/
def TemporalOrderings.both_ways (store : List IntVector) (o : TemporalOrderings) (t1 t2 : Nat) :
    Except Fault Bool :=
  match o.get_distance store t1 t2 with
  | .error e => .error e
  | .ok d1 =>
    if d1 ≥ 0 then
      match o.get_distance store t2 t1 with
      | .error e => .error e
      | .ok d2 => .ok (decide (d2 ≥ 0))
    else .ok false

/-- Source: `TemporalOrderings::possibly_concurrent`. -/
def TemporalOrderings.possibly_concurrent (store : List IntVector) (o : TemporalOrderings)
    (id1 id2 : Nat) (flags : Flags) : Except Fault (Bool × Flags) :=
  if id1 = id2 ∨ id1 = 0 ∨ id1 = GOAL_ID ∨ id2 = 0 ∨ id2 = GOAL_ID then .ok (false, flags)
  else
    let t1s := time_node id1 StepTime.AT_START
    let t1e := time_node id1 StepTime.AT_END
    let t2s := time_node id2 StepTime.AT_START
    let t2e := time_node id2 StepTime.AT_END
    match o.both_ways store t1s t2s with
    | .error e => .error e
    | .ok ss =>
      match o.both_ways store t1s t2e with
      | .error e => .error e
      | .ok se =>
        match o.both_ways store t1e t2s with
        | .error e => .error e
        | .ok es =>
          match o.both_ways store t1e t2e with
          | .error e => .error e
          | .ok ee => .ok (ss || se || es || ee, ⟨ss, se, es, ee⟩)

/-- The virtual call `orderings.possibly_concurrent`. -/
def Orderings.possibly_concurrent (o : Orderings) (id1 id2 : Nat) (flags : Flags) :
    Except Fault (Bool × Flags) :=
  match o with
  | .binary b => b.possibly_concurrent id1 id2 flags
  | .temporal store t => t.possibly_concurrent store id1 id2 flags

/-- The atom of a literal as `Bindings::unify` reads it (`get_literal().get_atom()`). -/
def Lit.atom_view (l : Lit) : Literal := (Lit.atom l.get_atom).view

/-- The test of `mutex_threats` that passes over a pair of effects because the flag of their
two time points is not set. -/
def skip_pair (f : Flags) (e e2 : Effect) : Bool :=
  if e.when = EffectTime.AT_START then
    if e2.when = EffectTime.AT_START then !f.ss else !f.se
  else
    if e2.when = EffectTime.AT_START then !f.es else !f.ee

/-- The loop of `mutex_threats` over the effects `e2` of the other step.  A null `bindings`
reference is `none`; reading through it is a fault. -/
def mutex_threats_inner (tb : Tables) (fuel : Nat) (bindings : Option Bindings)
    (step s : Step) (f : Flags) (e : Effect) :
    List Effect → List MutexThreat → Outcome (List MutexThreat)
  | [], mt => .value mt
  | e2 :: rest, mt =>
    if skip_pair f e e2 then mutex_threats_inner tb fuel bindings step s f e rest mt
    else
      match bindings with
      | none => .fault .out_of_range
      | some b =>
        match b.unify tb fuel [] e.literal.atom_view step.id e2.literal.atom_view s.id with
        | .diverged => .diverged
        | .fault x => .fault x
        | .null => .null
        | .value (true, _) =>
          mutex_threats_inner tb fuel bindings step s f e rest
            (⟨step.id, some e, some s.id, some e2⟩ :: mt)
        | .value (false, _) => mutex_threats_inner tb fuel bindings step s f e rest mt

/-- The test of `mutex_threats` that passes over an effect of the step because neither flag
of its time point is set. -/
def skip_effect (f : Flags) (e : Effect) : Bool :=
  if e.when = EffectTime.AT_START then !f.ss && !f.se else !f.es && !f.ee

/-- The loop of `mutex_threats` over the effects `e` of the step. -/
def mutex_threats_effects (tb : Tables) (fuel : Nat) (bindings : Option Bindings)
    (step s : Step) (f : Flags) :
    List Effect → List MutexThreat → Outcome (List MutexThreat)
  | [], mt => .value mt
  | e :: rest, mt =>
    if skip_effect f e then
      mutex_threats_effects tb fuel bindings step s f rest mt
    else
      match mutex_threats_inner tb fuel bindings step s f e s.action.effects mt with
      | .value mt1 => mutex_threats_effects tb fuel bindings step s f rest mt1
      | other => other

/-- Source: `mutex_threats` (plans.cpp), the loop over the chain `steps`; `junk` are the
values the uninitialised flags hold, and the result is the chain the reference
`mutex_threats` holds after the call. -/
def mutex_threats (tb : Tables) (fuel : Nat) (junk : Flags) (step : Step)
    (orderings : Orderings) (bindings : Option Bindings) :
    List Step → List MutexThreat → Outcome (List MutexThreat)
  | [], mt => .value mt
  | s :: sc, mt =>
    match orderings.possibly_concurrent step.id s.id junk with
    | .error e => .fault e
    | .ok (false, _) => mutex_threats tb fuel junk step orderings bindings sc mt
    | .ok (true, f) =>
      match mutex_threats_effects tb fuel bindings step s f step.action.effects mt with
      | .value mt1 => mutex_threats tb fuel junk step orderings bindings sc mt1
      | other => other

/-- The loop of `Plan::handle_mutex_threat` over the steps of the plan. -/
def enumerate_mutex_threats (tb : Tables) (fuel : Nat) (junk : Flags) (plan : Plan) :
    List Step → List MutexThreat → Outcome (List MutexThreat)
  | [], mt => .value mt
  | s :: sc, mt =>
    match mutex_threats tb fuel junk s plan.orderings plan.bindings plan.steps mt with
    | .value mt1 => enumerate_mutex_threats tb fuel junk plan sc mt1
    | other => other

/-- Source: `Plan::handle_mutex_threat`.  The part after the branch of the place holder
(`separate`, `promote`, `demote`) is the parameter `resolve`. -/
def Plan.handle_mutex_threat (tb : Tables) (fuel : Nat) (junk : Flags)
    (resolve : Plan → MutexThreat → List Plan → Outcome (List Plan))
    (plan : Plan) (plans : List Plan) (mutex_threat : MutexThreat) : Outcome (List Plan) :=
  if mutex_threat.step_id1 = 0 then
    match enumerate_mutex_threats tb fuel junk plan plan.steps [] with
    | .diverged => .diverged
    | .fault e => .fault e
    | .null => .null
    | .value new_mutex_threats =>
      .value (plans ++ [{ plan with mutex_threats := new_mutex_threats }])
  else resolve plan mutex_threat plans

/-! ## plans.cpp: the initial plan -/

/-- What `Plan::make_initial_plan` reads from the problem and the domain: the goal, the
action of the initial conditions, the timed initial literals with their times, and
`domain->requirements.durative_actions`. -/
structure Problem where
  goal : Formula
  init_action : Action
  timed_actions : List (Flt × Action)
  durative_actions : Bool
deriving Repr

/-- The loop of `Plan::make_initial_plan` over the timed initial literals; `refine_timed` is
`TemporalOrderings::refine(float, const Step&)`, with `none` for a null result. -/
def add_timed_steps (refine_timed : Orderings → Flt → Step → Option Orderings) :
    List (Flt × Action) → Nat → List Step → Orderings → Option (Nat × List Step × Orderings)
  | [], num_steps, steps, tord => some (num_steps, steps, tord)
  | (time, action) :: rest, num_steps, steps, tord =>
    let step : Step := ⟨num_steps + 1, action⟩
    match refine_timed tord time step with
    | none => none
    | some tmp => add_timed_steps refine_timed rest (num_steps + 1) (step :: steps) tmp

/-- Source: `Plan::make_initial_plan`.  The result is the plan (null is `Outcome.null`) and
the formula tables after the call. -/
def Plan.make_initial_plan (env : PlanEnv) (tb : Tables) (pd : ProblemData) (fuel : Nat)
    (refine_timed : Orderings → Flt → Step → Option Orderings)
    (problem : Problem) (fs : FState) : Outcome (Plan × FState) :=
  let goal_condition : Outcome (Formula × FState) :=
    if env.params.ground_actions then Formula.get_instantiation tb pd fuel [] problem.goal fs
    else .value (problem.goal, fs)
  match goal_condition with
  | .diverged => .diverged
  | .fault e => .fault e
  | .null => .null
  | .value (condition, fs1) =>
    let goal_action : Action :=
      ⟨"", false, if env.params.ground_actions then none else some [], condition, []⟩
    match add_goal env fuel ⟨[], 0, [], 0⟩ goal_action.condition GOAL_ID false with
    | .diverged => .diverged
    | .fault e => .fault e
    | .null => .null
    | .value (false, _) => .null
    | .value (true, st) =>
      let mutex_threats := [MutexThreat.place_holder]
      let steps : List Step := [⟨0, problem.init_action⟩, ⟨GOAL_ID, goal_action⟩]
      if problem.durative_actions then
        match add_timed_steps refine_timed problem.timed_actions 0 steps
            (.temporal [] ⟨[], []⟩) with
        | none => .null
        | some (num_steps, steps1, tord) =>
          .value (⟨steps1, num_steps, [], 0, tord, some Bindings.EMPTY, [], 0,
                   st.open_conds, st.num_open_conds, mutex_threats⟩, fs1)
      else
        .value (⟨steps, 0, [], 0, .binary ⟨[]⟩, some Bindings.EMPTY, [], 0,
                 st.open_conds, st.num_open_conds, mutex_threats⟩, fs1)

/-! ## plans.cpp: disjunctive open conditions -/

/-- Source: `get_open_conds()->remove(open_cond)`.  The reference `open_cond` is to the
open condition of a cell of the chain, given here as the position of the cell, and
`operator==` of open conditions compares addresses. -/
def remove_open_cond (open_conds : List OpenCondition) (open_cond : Nat) :
    Except Fault (List OpenCondition) :=
  match open_conds.enum with
  | [] => .error .out_of_range
  | head :: tail =>
    .ok ((Chain.remove (fun a b => a.1 == b.1) head tail (open_cond, head.2)).map Prod.snd)

/-- The loop of `Plan::handle_disjunction` over the disjuncts; `sid` is
`open_cond.get_step_id()`, and `calls` counts the calls of `rand()`. -/
def handle_disjunction_loop (env : PlanEnv) (tb : Tables) (fuel : Nat) (plan : Plan)
    (sid : Nat) (open_cond : Nat) (test_only : Bool) :
    List Formula → List Plan → Int → Nat → Outcome (Int × List Plan × Nat)
  | [], plans, count, calls => .value (count, plans, calls)
  | fi :: rest, plans, count, calls =>
    match (if test_only then .ok [] else remove_open_cond plan.open_conds open_cond) with
    | .error e => .fault e
    | .ok new_open_conds =>
      let new_num_open_conds := if test_only then 0 else usub plan.num_open_conds 1
      match add_goal env fuel ⟨new_open_conds, new_num_open_conds, [], calls⟩ fi sid
          test_only with
      | .diverged => .diverged
      | .fault e => .fault e
      | .null => .null
      | .value (false, st) =>
        handle_disjunction_loop env tb fuel plan sid open_cond test_only rest plans count
          st.calls
      | .value (true, st) =>
        match plan.bindings with
        | none => .fault .out_of_range
        | some bindings =>
          match bindings.add tb fuel st.new_bindings test_only with
          | .diverged => .diverged
          | .fault e => .fault e
          | r =>
            let bindings_t : Option Bindings :=
              match r with
              | .value b => some b
              | _ => none
            if plan.bindings.isSome then
              let plans1 :=
                if !test_only then
                  plans ++ [{ plan with bindings := bindings_t, open_conds := st.open_conds,
                                        num_open_conds := st.num_open_conds }]
                else plans
              handle_disjunction_loop env tb fuel plan sid open_cond test_only rest plans1
                (wrap32 (count + 1)) st.calls
            else
              handle_disjunction_loop env tb fuel plan sid open_cond test_only rest plans
                count st.calls

/-- Source: `Plan::handle_disjunction`.  The result is the count returned, the list `plans`
and the number of calls of `rand()` after the call. -/
def Plan.handle_disjunction (env : PlanEnv) (tb : Tables) (fuel : Nat) (plan : Plan)
    (plans : List Plan) (disjuncts : List Formula) (open_cond : Nat) (test_only : Bool)
    (calls : Nat) : Outcome (Int × List Plan × Nat) :=
  match plan.open_conds[open_cond]? with
  | none => .fault .out_of_range
  | some oc =>
    handle_disjunction_loop env tb fuel plan oc.step_id open_cond test_only disjuncts plans 0
      calls

/-! ## plans.cpp: instantiation of the steps -/

/-- The loop of `step_instantiation` over the objects `arguments`: `add` is
`bindings.add(bl)` for the binding of the variable to the object, and `next` the recursive
call with the new bindings. -/
def instantiate_with (add : Object → Outcome Bindings) (next : Bindings → Outcome Bindings) :
    List Object → Outcome Bindings
  | [] => .null
  | o :: rest =>
    match add o with
    | .diverged => .diverged
    | .fault e => .fault e
    | .null => instantiate_with add next rest
    | .value new_bindings =>
      match next new_bindings with
      | .null => instantiate_with add next rest
      | other => other

/-- Source: `step_instantiation` (plans.cpp); `objects` are the objects of the problem, and
the comparison is the `operator!=` of terms.h. -/
def step_instantiation (tb : Tables) (objects : List Object) (fuel_add : Nat) :
    Nat → List Step → Nat → Bindings → Outcome Bindings
  | 0, _, _, _ => .diverged
  | _ + 1, [], _, bindings => .value bindings
  | fuel + 1, step :: tail, n, bindings =>
    match step.action.parameters with
    | none => step_instantiation tb objects fuel_add fuel tail 0 bindings
    | some ps =>
      match ps[n]? with
      | none => step_instantiation tb objects fuel_add fuel tail 0 bindings
      | some v =>
        if v.ne (bindings.get_binding v step.id) then
          step_instantiation tb objects fuel_add fuel (step :: tail) (n + 1) bindings
        else
          instantiate_with
            (fun o => bindings.add tb fuel_add [⟨v, step.id, o, 0, true⟩] false)
            (fun new_bindings =>
              step_instantiation tb objects fuel_add fuel (step :: tail) (n + 1) new_bindings)
            (tb.compatible_objects objects (tb.type v))

/-! ## Concrete plans used by the evaluations below -/

/-- Parameters under which static preconditions are stripped. -/
def Ex.params_strip : Parameters := ⟨.A_STAR, false, false, true, false, [], []⟩

/-- The default values of the parameters read here. -/
def Ex.params_keep : Parameters := ⟨.A_STAR, false, false, false, true, [], []⟩

/-- Static predicates only, stripped. -/
def Ex.env_strip : PlanEnv := ⟨Ex.params_strip, fun _ => true, fun f => f, 32767, fun _ => 0⟩

/-- Static predicates only, kept. -/
def Ex.env_keep : PlanEnv := ⟨Ex.params_keep, fun _ => true, fun f => f, 32767, fun _ => 0⟩

/-- An action without parameters, condition and effects. -/
def Ex.no_action : Action := ⟨"", false, none, .constant true, []⟩

/-- The problem with the goal `p(o1)`. -/
def Ex.problem_p : Problem := ⟨.literal (.atom Ex.atom_p), Ex.no_action, [], false⟩

/-- The problem with the goal TRUE. -/
def Ex.problem_true : Problem := ⟨.constant true, Ex.no_action, [], false⟩

/-- A stand-in for `TemporalOrderings::refine(float, const Step&)`, which no evaluation
below calls. -/
def Ex.refine_timed : Orderings → Flt → Step → Option Orderings := fun o _ _ => some o

/-- A stand-in for the resolution of a mutex threat that is not the place holder. -/
def Ex.resolve : Plan → MutexThreat → List Plan → Outcome (List Plan) :=
  fun _ _ plans => .value plans

/-- The effect that adds `p(o1)` at the end of its action. -/
def Ex.adds_p : Effect := ⟨[], .constant true, .constant true, .atom Ex.atom_p, .AT_END⟩

/-- An action whose only effect adds `p(o1)`. -/
def Ex.action_p : Action := ⟨"a", false, none, .constant true, [Ex.adds_p]⟩

/-- Two unordered steps 1 and 2 of the action that adds `p(o1)`. -/
def Ex.steps_pp : List Step := [⟨2, Ex.action_p⟩, ⟨1, Ex.action_p⟩]

/-- Two regular steps, neither ordered before the other. -/
def Ex.two_unordered : BinaryOrderings := ⟨[[false, false]]⟩

/-- The disjuncts `?y = o1` and `?y = o2`. -/
def Ex.disjuncts_y : List Formula :=
  [.equality 10 Ex.y 0 Ex.o1 0, .equality 11 Ex.y 0 Ex.o2 0]

/-- A plan whose bindings bind `?y` of step 2 to `o1`, with the single open condition
`?y = o1 or ?y = o2` of step 2. -/
def Ex.plan_disj : Plan :=
  ⟨[], 2, [], 0, .binary Ex.two_unordered, some Ex.b_y, [], 0,
   [⟨2, .disjunction 12 Ex.disjuncts_y, none⟩], 1, []⟩

/-- An action schema with the single parameter `?x`. -/
def Ex.schema_x : Action := ⟨"a", false, some [Ex.x], .constant true, []⟩

/-- What `mutex_threats` records for the step `step` against the chain `steps`: a pair of
an effect of the step and an effect of another step of the chain that is possibly concurrent
with it, at two time points whose flag is set, such that the atoms of the two effect
literals unify under the bindings. -/
def IsMutexThreat (tb : Tables) (fuel : Nat) (junk : Flags) (orderings : Orderings)
    (bindings : Option Bindings) (step : Step) (steps : List Step) (m : MutexThreat) : Prop :=
  ∃ s ∈ steps, ∃ e ∈ step.action.effects, ∃ e2 ∈ s.action.effects,
    ∃ (f : Flags) (b : Bindings) (mgu : BindingList),
      m = ⟨step.id, some e, some s.id, some e2⟩
      ∧ step.id ≠ s.id ∧ step.id ≠ 0 ∧ s.id ≠ 0
      ∧ orderings.possibly_concurrent step.id s.id junk = .ok (true, f)
      ∧ skip_pair f e e2 = false
      ∧ bindings = some b
      ∧ b.unify tb fuel [] e.literal.atom_view step.id e2.literal.atom_view s.id
          = .value (true, mgu)

/-- The flags all unset. -/
def Ex.no_flags : Flags := ⟨false, false, false, false⟩

/-! ## plans.cpp: causal links -/

/-- The state `Plan::make_link` changes besides its arguments: the formula tables, the
number of variables of the term table, and the number of calls of `rand()`. -/
structure LinkState where
  fs : FState
  num_variables : Nat
  calls : Nat
deriving Repr

/-- Source: `end_time(const Effect&)` (orderings.h). -/
def Effect.end_time (e : Effect) : StepTime :=
  if e.when = EffectTime.AT_START then StepTime.AT_START else StepTime.AT_END

/-- Source: `end_time(FormulaTime)` (orderings.h). -/
def FormulaTime.end_time (ft : FormulaTime) : StepTime :=
  if ft = FormulaTime.AT_START_F then StepTime.AT_START
  else if ft = FormulaTime.AT_END_F then StepTime.AT_END
  else StepTime.BEFORE_END

/-- Source: `start_time(FormulaTime)` (orderings.h). -/
def FormulaTime.start_time (ft : FormulaTime) : StepTime :=
  if ft = FormulaTime.AT_START_F then StepTime.AT_START
  else if ft = FormulaTime.AT_END_F then StepTime.AT_END
  else StepTime.AFTER_START

/-- Source: `OpenCondition::literal`, `none` for null. -/
def OpenCondition.literal (oc : OpenCondition) : Option Lit :=
  match oc.condition with
  | .literal l => some l
  | _ => none

/-- Source: the constructor `Link(from_id, effect_time, open_cond)`. -/
def Link.from_open_cond (from_id : Nat) (effect_time : StepTime) (open_cond : OpenCondition) :
    Link :=
  ⟨from_id, effect_time, open_cond.step_id, open_cond.literal, open_cond.when⟩

/-- The calls of `Plan::make_link` that are not translated: `Formula::get_substitution(const
SubstitutionMap&)`, `planning_graph->action_domain(name)`, and `finish_link`, the part
between the addition of the bindings and the construction of the plan when the call is not a
test: it refines the orderings with the ordering of the link and with the condition
`cond_goal`, and finds the threats to the new link and the links the new step threatens.  Its
arguments are the plan, the step, the effect, the open condition, `new_steps`, the bindings
and `cond_goal`; its value is `new_orderings`, `new_unsafes` and `new_num_unsafes`, or `none`
where the source returns 0 for inconsistent orderings. -/
structure LinkEnv where
  get_substitution : Formula → List (Variable × Term) → FState → Formula × FState
  action_domain : String → Option ActionDomain
  finish_link : Plan → Step → Effect → OpenCondition → List Step → Bindings → Formula →
    Option (Orderings × List Unsafe × Nat)

/-- Source: `TermTable::add_variable`, on the number of variables of the table: the new
variable has the index `-variable_types.size()` after the type is pushed. -/
def TermTable.add_variable (num_variables : Nat) : Variable × Nat :=
  (⟨-((num_variables : Int) + 1)⟩, num_variables + 1)

/-- Source: `Effect::quantifies`. -/
def Effect.quantifies (e : Effect) (v : Variable) : Bool := e.parameters.any (fun p => p.eq v)

/-- Source: `SubstitutionMap::insert`, which keeps the entry of a key that is present. -/
def SubstitutionMap_insert (m : List (Variable × Term)) (k : Variable) (v : Term) :
    List (Variable × Term) :=
  match SubstitutionMap_find m k with
  | some _ => m
  | none => m ++ [(k, v)]

/-- The loop of `Plan::make_link` over the unifier when the call is not a test; the state is
`forall_subst`, `new_bindings` and the number of variables of the term table. -/
def link_bindings (effect : Effect) :
    BindingList → List (Variable × Term) × BindingList × Nat →
    List (Variable × Term) × BindingList × Nat
  | [], acc => acc
  | subst :: rest, (forall_subst, new_bindings, nv) =>
    if effect.quantifies subst.var then
      let v := TermTable.add_variable nv
      link_bindings effect rest
        (SubstitutionMap_insert forall_subst subst.var v.1,
         new_bindings ++ [⟨v.1, subst.var_id, subst.term, subst.term_id, true⟩], v.2)
    else link_bindings effect rest (forall_subst, new_bindings ++ [subst], nv)

/-- The loop of `Plan::make_link` over the parameters of a conditional effect. -/
def link_parameters :
    List Variable → List (Variable × Term) × Nat → List (Variable × Term) × Nat
  | [], acc => acc
  | vi :: rest, (forall_subst, nv) =>
    match SubstitutionMap_find forall_subst vi with
    | some _ => link_parameters rest (forall_subst, nv)
    | none =>
      let v := TermTable.add_variable nv
      link_parameters rest (forall_subst ++ [(vi, v.1)], v.2)

/-- The end of `Plan::make_link`, from `bindings_t->add(new_bindings, test_only)` on; the
new plan has the link `Link(step.get_id(), end_time(effect), open_cond)` before the links of
the plan, and the mutex threats of the plan. -/
def make_link_add (lenv : LinkEnv) (tb : Tables) (fuel : Nat) (plan : Plan)
    (plans : List Plan) (step : Step) (effect : Effect) (open_cond : Nat) (test_only : Bool)
    (bindings_t : Bindings) (new_steps : List Step) (new_num_steps : Nat) (st : GoalState)
    (cond_goal : Formula) (fs : FState) (nv : Nat) : Outcome (Int × List Plan × LinkState) :=
  match bindings_t.add tb fuel st.new_bindings test_only with
  | .diverged => .diverged
  | .fault e => .fault e
  | .null =>
    if !test_only then .value (0, plans, ⟨fs, nv, st.calls⟩)
    else .value (1, plans, ⟨fs, nv, st.calls⟩)
  | .value tmp_bindings =>
    if !test_only then
      match plan.open_conds[open_cond]? with
      | none => .fault .out_of_range
      | some oc =>
        match lenv.finish_link plan step effect oc new_steps tmp_bindings cond_goal with
        | none => .value (0, plans, ⟨fs, nv, st.calls⟩)
        | some (new_orderings, new_unsafes, new_num_unsafes) =>
          .value (1, plans ++ [⟨new_steps, new_num_steps,
                     Link.from_open_cond step.id effect.end_time oc :: plan.links,
                     (plan.num_links + 1) % 2 ^ 64, new_orderings, some tmp_bindings,
                     new_unsafes, new_num_unsafes, st.open_conds, st.num_open_conds,
                     plan.mutex_threats⟩],
                  ⟨fs, nv, st.calls⟩)
    else .value (1, plans, ⟨fs, nv, st.calls⟩)

/-- The part of `Plan::make_link` under `// See if this is a new step`. -/
def make_link_step (env : PlanEnv) (lenv : LinkEnv) (tb : Tables) (fuel : Nat) (plan : Plan)
    (plans : List Plan) (step : Step) (effect : Effect) (open_cond : Nat) (test_only : Bool)
    (st : GoalState) (cond_goal : Formula) (fs : FState) (nv : Nat) :
    Outcome (Int × List Plan × LinkState) :=
  match plan.bindings with
  | none => .fault .out_of_range
  | some bindings =>
    let new_steps := if test_only then [] else plan.steps
    let new_num_steps := if test_only then 0 else plan.num_steps
    if step.id > plan.num_steps then
      match add_goal env fuel st step.action.condition step.id test_only with
      | .diverged => .diverged
      | .fault e => .fault e
      | .null => .null
      | .value (false, st1) => .value (0, plans, ⟨fs, nv, st1.calls⟩)
      | .value (true, st1) =>
        match (if env.params.domain_constraints then
                 bindings.add_step tb step.id step.action.parameters
                   (lenv.action_domain step.action.name) false
               else .ok (some bindings)) with
        | .error e => .fault e
        | .ok none => .value (0, plans, ⟨fs, nv, st1.calls⟩)
        | .ok (some bindings_t) =>
          make_link_add lenv tb fuel plan plans step effect open_cond test_only bindings_t
            (if !test_only then step :: new_steps else new_steps)
            (if !test_only then new_num_steps + 1 else new_num_steps) st1 cond_goal fs nv
    else
      make_link_add lenv tb fuel plan plans step effect open_cond test_only bindings
        new_steps new_num_steps st cond_goal fs nv

/-- Source: `Plan::make_link`.  The reference `open_cond` is the position of its cell in the
chain of the plan; the result is the value returned, the list `plans` and the state after
the call. -/
def Plan.make_link (env : PlanEnv) (lenv : LinkEnv) (tb : Tables) (fuel : Nat) (plan : Plan)
    (plans : List Plan) (step : Step) (effect : Effect) (open_cond : Nat)
    (unifier : BindingList) (test_only : Bool) (ls : LinkState) :
    Outcome (Int × List Plan × LinkState) :=
  let collected : List (Variable × Term) × BindingList × Nat :=
    if test_only then ([], unifier, ls.num_variables)
    else link_bindings effect unifier ([], [], ls.num_variables)
  match (if test_only then .ok [] else remove_open_cond plan.open_conds open_cond) with
  | .error e => .fault e
  | .ok new_open_conds =>
    let new_num_open_conds := if test_only then 0 else usub plan.num_open_conds 1
    let conj := Formula.op_and effect.condition effect.link_condition ls.fs
    let st0 : GoalState := ⟨new_open_conds, new_num_open_conds, collected.2.1, ls.calls⟩
    if !conj.1.is_tautology then
      let goal3 : Formula × FState × Nat :=
        if !test_only && decide (effect.parameters.length > 0) then
          let ps := link_parameters effect.parameters (collected.1, collected.2.2)
          let g := lenv.get_substitution conj.1 ps.1 conj.2
          (g.1, g.2, ps.2)
        else (conj.1, conj.2, collected.2.2)
      match add_goal env fuel st0 goal3.1 step.id test_only with
      | .diverged => .diverged
      | .fault e => .fault e
      | .null => .null
      | .value (false, st1) => .value (0, plans, ⟨goal3.2.1, goal3.2.2, st1.calls⟩)
      | .value (true, st1) =>
        make_link_step env lenv tb fuel plan plans step effect open_cond test_only st1
          goal3.1 goal3.2.1 goal3.2.2
    else
      make_link_step env lenv tb fuel plan plans step effect open_cond test_only st0
        conj.1 conj.2 collected.2.2

/-- The lifted atom `p(?x)`. -/
def Ex.atom_px : Atom := ⟨5, 0, 0, [Ex.x]⟩

/-- The effect that adds `p(?x)` at the end of its action. -/
def Ex.adds_px : Effect := ⟨[], .constant true, .constant true, .atom Ex.atom_px, .AT_END⟩

/-- The action schema `a(?x)` with the precondition `?x = o2` and the effect `p(?x)`. -/
def Ex.schema_eq : Action :=
  ⟨"a", false, some [Ex.x], .equality 20 Ex.x 0 Ex.o2 0, [Ex.adds_px]⟩

/-- A plan with two steps, the empty bindings, and the open condition `p(o1)` of step 2. -/
def Ex.plan_open_p : Plan :=
  ⟨[], 2, [], 0, .binary Ex.two_unordered, some Bindings.EMPTY, [], 0,
   [⟨2, .literal (.atom Ex.atom_p), some .AT_START_F⟩], 1, []⟩

/-- Stand-ins for the calls that no evaluation below reaches. -/
def Ex.lenv : LinkEnv := ⟨fun f _ fs => (f, fs), fun _ => none, fun _ _ _ _ _ _ _ => none⟩

/-- The unifier of `p(?x)` of step 3 with `p(o1)`. -/
def Ex.unifier_x : BindingList := [⟨Ex.x, 3, Ex.o1, 0, true⟩]

/-! ## plans.cpp, plans.h: the refinements of a plan -/

/-- Source: `chain->remove(flaw)` for an unsafe link or a mutex threat.  The reference `flaw`
is to the flaw of a cell of the chain, given here as the position of the cell, and
`operator==` of these flaws compares addresses (flaws.h). -/
def remove_flaw {T : Type} (chain : List T) (flaw : Nat) : Except Fault (List T) :=
  match chain.enum with
  | [] => .error .out_of_range
  | head :: tail =>
    .ok ((Chain.remove (fun a b => a.1 == b.1) head tail (flaw, head.2)).map Prod.snd)

/-- The calls of the refinements that are parameters here, each the value the call returns:
`junk_when` is the value read from a member `when` its constructor left uninitialised;
`possibly_before`, `possibly_not_before`, `possibly_not_after` and `refine` are the members of
`Orderings`, with `none` for a null result; `refine_goal` is `new_orderings` after the test
`!goal->is_tautology() && planning_graph != NULL` of `separate` (for the orderings of the
plan, the goal, the step id and the new bindings); `affects`, `unify`, `add` and `get_domain`
are the members of `Bindings`, `none` for `false` and for null and the unifier otherwise;
`separate_goal` is the formula `goal` that `separate` builds for an unsafe link, the unifier
and `test_only`; `mutex_goal` is the formula `goal` that `separate` builds from the unifier of
a mutex threat; `effect_goal` is the formula `goal` it builds from the condition of an effect
of the threat; `cw_goals` is the formula `goals` after the loop of `new_cw_link` over the
effects (for the bindings, the effects, the atom and the step id of the open condition),
`none` where the loop returns 0; `link_threats` is the function of plans.cpp on `unsafes` and
`num_unsafes`; `literal_achievers` is the function of plans.cpp, `none` for null;
`equal_range` gives the effects of the entries of the map whose key is the action of the
step; `init_effects` is `problem->get_init_action().get_effects()`.  The variables and the
formulas these calls add to the static tables are not tracked. -/
structure RefineEnv where
  junk_when : FormulaTime
  possibly_before : Orderings → Nat → StepTime → Nat → StepTime → Bool
  possibly_not_before : Orderings → Nat → StepTime → Nat → StepTime → Bool
  possibly_not_after : Orderings → Nat → StepTime → Nat → StepTime → Bool
  refine : Orderings → Ordering → Option Orderings
  refine_goal : Orderings → Formula → Nat → Bindings → Option Orderings
  affects : Bindings → Lit → Nat → Lit → Nat → Option BindingList
  unify : Bindings → Lit → Nat → Lit → Nat → Option BindingList
  add : Bindings → BindingList → Bool → Option Bindings
  get_domain : Bindings → Variable → Nat → ObjectSet
  separate_goal : Plan → Unsafe → BindingList → Bool → Formula
  mutex_goal : Plan → MutexThreat → BindingList → Formula
  effect_goal : Effect → Formula
  cw_goals : Bindings → List Effect → Atom → Nat → Option Formula
  link_threats : List Unsafe → Nat → Link → List Step → Orderings → Bindings →
    List Unsafe × Nat
  literal_achievers : Lit → Option (List (Action × Effect))
  equal_range : List (Action × Effect) → Action → List Effect
  init_effects : List Effect

/-- The value read from a member `when`. -/
def RefineEnv.read_when (renv : RefineEnv) : Option FormulaTime → FormulaTime
  | some t => t
  | none => renv.junk_when

/-! ### Unsafe links -/

/-- Source: `Plan::separate(plans, unsafe, unifier, test_only)`.  The reference `unsafe` is
the position of its cell in the chain of the plan and `u` the unsafe link of that cell;
`calls` counts the calls of `rand()`. -/
def Plan.separate_unsafe (env : PlanEnv) (renv : RefineEnv) (fuel : Nat) (plan : Plan)
    (plans : List Plan) (unsafe_ : Nat) (u : Unsafe) (unifier : BindingList) (test_only : Bool)
    (calls : Nat) : Outcome (Int × List Plan × Nat) :=
  let goal := renv.separate_goal plan u unifier test_only
  let new_open_conds := if test_only then [] else plan.open_conds
  let new_num_open_conds := if test_only then 0 else plan.num_open_conds
  match add_goal env fuel ⟨new_open_conds, new_num_open_conds, [], calls⟩ goal u.step_id
      test_only with
  | .diverged => .diverged
  | .fault e => .fault e
  | .null => .null
  | .value (false, st) => .value (0, plans, st.calls)
  | .value (true, st) =>
    match plan.bindings with
    | none => .fault .out_of_range
    | some bindings =>
      match renv.add bindings st.new_bindings test_only with
      | none => .value (0, plans, st.calls)
      | some bindings_t =>
        if !test_only then
          let new_orderings : Option Orderings :=
            if !goal.is_tautology then renv.refine_goal plan.orderings goal u.step_id bindings_t
            else some plan.orderings
          match new_orderings with
          | none => .value (1, plans, st.calls)
          | some no =>
            match remove_flaw plan.unsafes unsafe_ with
            | .error e => .fault e
            | .ok new_unsafes =>
              .value (1, plans ++ [{ plan with orderings := no, bindings := some bindings_t,
                                               unsafes := new_unsafes,
                                               num_unsafes := usub plan.num_unsafes 1,
                                               open_conds := st.open_conds,
                                               num_open_conds := st.num_open_conds }],
                      st.calls)
        else .value (1, plans, st.calls)

/-- Source: `Plan::new_ordering(plans, before_id, t1, after_id, t2, unsafe)`. -/
def Plan.new_ordering_unsafe (renv : RefineEnv) (plan : Plan) (plans : List Plan)
    (before_id : Nat) (t1 : StepTime) (after_id : Nat) (t2 : StepTime) (unsafe_ : Nat) :
    Except Fault (List Plan) :=
  match renv.refine plan.orderings ⟨before_id, t1, after_id, t2⟩ with
  | none => .ok plans
  | some new_orderings =>
    match remove_flaw plan.unsafes unsafe_ with
    | .error e => .error e
    | .ok new_unsafes =>
      .ok (plans ++ [{ plan with orderings := new_orderings, unsafes := new_unsafes,
                                 num_unsafes := usub plan.num_unsafes 1 }])

/-- Source: `Plan::demote(plans, unsafe, test_only)`. -/
def Plan.demote_unsafe (renv : RefineEnv) (plan : Plan) (plans : List Plan) (unsafe_ : Nat)
    (u : Unsafe) (test_only : Bool) : Except Fault (Int × List Plan) :=
  let lt1 := u.link.effect_time
  let et := u.effect.end_time
  if renv.possibly_before plan.orderings u.step_id et u.link.from_id lt1 then
    if !test_only then
      match plan.new_ordering_unsafe renv plans u.step_id et u.link.from_id lt1 unsafe_ with
      | .error e => .error e
      | .ok plans1 => .ok (1, plans1)
    else .ok (1, plans)
  else .ok (0, plans)

/-- Source: `Plan::promote(plans, unsafe, test_only)`. -/
def Plan.promote_unsafe (renv : RefineEnv) (plan : Plan) (plans : List Plan) (unsafe_ : Nat)
    (u : Unsafe) (test_only : Bool) : Except Fault (Int × List Plan) :=
  let lt2 := (renv.read_when u.link.condition_time).end_time
  let et := u.effect.end_time
  if renv.possibly_before plan.orderings u.link.to_id lt2 u.step_id et then
    if !test_only then
      match plan.new_ordering_unsafe renv plans u.link.to_id lt2 u.step_id et unsafe_ with
      | .error e => .error e
      | .ok plans1 => .ok (1, plans1)
    else .ok (1, plans)
  else .ok (0, plans)

/-- Source: `Plan::handle_unsafe`.  The result is the list `plans` and the number of calls
of `rand()` after the call. -/
def Plan.handle_unsafe (env : PlanEnv) (renv : RefineEnv) (fuel : Nat) (plan : Plan)
    (plans : List Plan) (unsafe_ : Nat) (calls : Nat) : Outcome (List Plan × Nat) :=
  match plan.unsafes[unsafe_]? with
  | none => .fault .out_of_range
  | some u =>
    let lt1 := u.link.effect_time
    let lt2 := (renv.read_when u.link.condition_time).end_time
    let et := u.effect.end_time
    let unifier : Except Fault (Option BindingList) :=
      if renv.possibly_not_after plan.orderings u.link.from_id lt1 u.step_id et
          && renv.possibly_not_before plan.orderings u.link.to_id lt2 u.step_id et then
        match plan.bindings, u.link.condition with
        | some bindings, some condition =>
          .ok (renv.affects bindings u.effect.literal u.step_id condition u.link.to_id)
        | _, _ => .error .out_of_range
      else .ok none
    match unifier with
    | .error e => .fault e
    | .ok (some unifier) =>
      match plan.separate_unsafe env renv fuel plans unsafe_ u unifier false calls with
      | .diverged => .diverged
      | .fault e => .fault e
      | .null => .null
      | .value (_, plans1, calls1) =>
        match plan.promote_unsafe renv plans1 unsafe_ u false with
        | .error e => .fault e
        | .ok (_, plans2) =>
          match plan.demote_unsafe renv plans2 unsafe_ u false with
          | .error e => .fault e
          | .ok (_, plans3) => .value (plans3, calls1)
    | .ok none =>
      match remove_flaw plan.unsafes unsafe_ with
      | .error e => .fault e
      | .ok new_unsafes =>
        .value (plans ++ [{ plan with unsafes := new_unsafes,
                                      num_unsafes := usub plan.num_unsafes 1 }], calls)

/-! ### Mutex threats -/

/-- The part of `Plan::separate(plans, mutex_threat, unifier)` under `if (!unifier.empty())`;
the reference `mutex_threat` is the position of its cell in the chain of the plan and `m`
the threat of that cell. -/
def Plan.separate_mutex_unifier (env : PlanEnv) (renv : RefineEnv) (fuel : Nat) (plan : Plan)
    (plans : List Plan) (mutex_threat : Nat) (m : MutexThreat) (unifier : BindingList)
    (calls : Nat) : Outcome (List Plan × Nat) :=
  if !unifier.isEmpty then
    let goal := renv.mutex_goal plan m unifier
    match add_goal env fuel ⟨plan.open_conds, plan.num_open_conds, [], calls⟩ goal 0 false with
    | .diverged => .diverged
    | .fault e => .fault e
    | .null => .null
    | .value (false, st) => .value (plans, st.calls)
    | .value (true, st) =>
      match plan.bindings with
      | none => .fault .out_of_range
      | some bindings =>
        match renv.add bindings st.new_bindings false with
        | none => .value (plans, st.calls)
        | some bindings_t =>
          match remove_flaw plan.mutex_threats mutex_threat with
          | .error e => .fault e
          | .ok new_mutex_threats =>
            .value (plans ++ [{ plan with bindings := some bindings_t,
                                          open_conds := st.open_conds,
                                          num_open_conds := st.num_open_conds,
                                          mutex_threats := new_mutex_threats }], st.calls)
  else .value (plans, calls)

/-- The body of the loop `for (size_t i = 1; i <= 2; i++)` of `Plan::separate(plans,
mutex_threat, unifier)` for the step id and the effect of the round. -/
def Plan.separate_mutex_effect (env : PlanEnv) (renv : RefineEnv) (fuel : Nat) (plan : Plan)
    (plans : List Plan) (mutex_threat : Nat) (step_id : Nat) (effect : Effect) (calls : Nat) :
    Outcome (List Plan × Nat) :=
  if !effect.condition.is_tautology then
    let goal := renv.effect_goal effect
    match add_goal env fuel ⟨plan.open_conds, plan.num_open_conds, [], calls⟩ goal step_id
        false with
    | .diverged => .diverged
    | .fault e => .fault e
    | .null => .null
    | .value (false, st) => .value (plans, st.calls)
    | .value (true, st) =>
      match plan.bindings with
      | none => .fault .out_of_range
      | some bindings =>
        match renv.add bindings st.new_bindings false with
        | none => .value (plans, st.calls)
        | some bindings_t =>
          let new_orderings : Option Orderings :=
            if !goal.is_tautology then renv.refine_goal plan.orderings goal step_id bindings_t
            else some plan.orderings
          match new_orderings with
          | none => .value (plans, st.calls)
          | some no =>
            match remove_flaw plan.mutex_threats mutex_threat with
            | .error e => .fault e
            | .ok new_mutex_threats =>
              .value (plans ++ [{ plan with orderings := no, bindings := some bindings_t,
                                            open_conds := st.open_conds,
                                            num_open_conds := st.num_open_conds,
                                            mutex_threats := new_mutex_threats }], st.calls)
  else .value (plans, calls)

/-- Source: `Plan::separate(plans, mutex_threat, unifier)`; `id2`, `effect1` and `effect2`
are the members of the threat. -/
def Plan.separate_mutex (env : PlanEnv) (renv : RefineEnv) (fuel : Nat) (plan : Plan)
    (plans : List Plan) (mutex_threat : Nat) (m : MutexThreat) (id2 : Nat)
    (effect1 effect2 : Effect) (unifier : BindingList) (calls : Nat) :
    Outcome (List Plan × Nat) :=
  match plan.separate_mutex_unifier env renv fuel plans mutex_threat m unifier calls with
  | .diverged => .diverged
  | .fault e => .fault e
  | .null => .null
  | .value (plans1, calls1) =>
    match plan.separate_mutex_effect env renv fuel plans1 mutex_threat m.step_id1 effect1
        calls1 with
    | .diverged => .diverged
    | .fault e => .fault e
    | .null => .null
    | .value (plans2, calls2) =>
      plan.separate_mutex_effect env renv fuel plans2 mutex_threat id2 effect2 calls2

/-- Source: `Plan::new_ordering(plans, before_id, t1, after_id, t2, mutex_threat)`. -/
def Plan.new_ordering_mutex (renv : RefineEnv) (plan : Plan) (plans : List Plan)
    (before_id : Nat) (t1 : StepTime) (after_id : Nat) (t2 : StepTime) (mutex_threat : Nat) :
    Except Fault (List Plan) :=
  match renv.refine plan.orderings ⟨before_id, t1, after_id, t2⟩ with
  | none => .ok plans
  | some new_orderings =>
    match remove_flaw plan.mutex_threats mutex_threat with
    | .error e => .error e
    | .ok new_mutex_threats =>
      .ok (plans ++ [{ plan with orderings := new_orderings,
                                 mutex_threats := new_mutex_threats }])

/-- Source: `Plan::demote(plans, mutex_threat)`. -/
def Plan.demote_mutex (renv : RefineEnv) (plan : Plan) (plans : List Plan)
    (mutex_threat : Nat) (id1 : Nat) (effect1 : Effect) (id2 : Nat) (effect2 : Effect) :
    Except Fault (List Plan) :=
  let et1 := effect1.end_time
  let et2 := effect2.end_time
  if renv.possibly_before plan.orderings id1 et1 id2 et2 then
    plan.new_ordering_mutex renv plans id1 et1 id2 et2 mutex_threat
  else .ok plans

/-- Source: `Plan::promote(plans, mutex_threat)`. -/
def Plan.promote_mutex (renv : RefineEnv) (plan : Plan) (plans : List Plan)
    (mutex_threat : Nat) (id1 : Nat) (effect1 : Effect) (id2 : Nat) (effect2 : Effect) :
    Except Fault (List Plan) :=
  let et1 := effect1.end_time
  let et2 := effect2.end_time
  if renv.possibly_before plan.orderings id2 et2 id1 et1 then
    plan.new_ordering_mutex renv plans id2 et2 id1 et1 mutex_threat
  else .ok plans

/-- The part of `Plan::handle_mutex_threat` after the branch of the place holder, for the
threat `m` of the cell at the position `mutex_threat` of the chain of the plan; the read of
a member the constructor of the place holder left uninitialised is a fault. -/
def Plan.resolve_mutex_threat (env : PlanEnv) (renv : RefineEnv) (fuel : Nat)
    (mutex_threat : Nat) (calls : Nat) (plan : Plan) (m : MutexThreat) (plans : List Plan) :
    Outcome (List Plan) :=
  match m.effect1, m.step_id2, m.effect2 with
  | some effect1, some id2, some effect2 =>
    let id1 := m.step_id1
    let et1 := effect1.end_time
    let et2 := effect2.end_time
    let unifier : Except Fault (Option BindingList) :=
      if renv.possibly_not_before plan.orderings id1 et1 id2 et2
          && renv.possibly_not_after plan.orderings id1 et1 id2 et2 then
        match plan.bindings with
        | some bindings =>
          .ok (renv.unify bindings (.atom effect1.literal.get_atom) id1
                 (.atom effect2.literal.get_atom) id2)
        | none => .error .out_of_range
      else .ok none
    match unifier with
    | .error e => .fault e
    | .ok (some unifier) =>
      match plan.separate_mutex env renv fuel plans mutex_threat m id2 effect1 effect2 unifier
          calls with
      | .diverged => .diverged
      | .fault e => .fault e
      | .null => .null
      | .value (plans1, _) =>
        match plan.promote_mutex renv plans1 mutex_threat id1 effect1 id2 effect2 with
        | .error e => .fault e
        | .ok plans2 =>
          match plan.demote_mutex renv plans2 mutex_threat id1 effect1 id2 effect2 with
          | .error e => .fault e
          | .ok plans3 => .value plans3
    | .ok none =>
      match remove_flaw plan.mutex_threats mutex_threat with
      | .error e => .fault e
      | .ok new_mutex_threats =>
        .value (plans ++ [{ plan with mutex_threats := new_mutex_threats }])
  | _, _, _ => .fault .out_of_range

/-! ### Open conditions -/

/-- The loop of `Plan::handle_inequality` over the objects of `var_domain`. -/
def handle_inequality_loop (renv : RefineEnv) (plan : Plan) (bindings : Bindings)
    (open_cond : Nat) (var1 : Variable) (id1 : Nat) (var2 : Variable) (id2 : Nat)
    (test_only : Bool) : List Object → List Plan → Int → Except Fault (Int × List Plan)
  | [], plans, count => .ok (count, plans)
  | name :: rest, plans, count =>
    let new_bindings : BindingList := [⟨var1, id1, name, 0, true⟩, ⟨var2, id2, name, 0, false⟩]
    let bindings_t := renv.add bindings new_bindings test_only
    if plan.bindings.isSome then
      if !test_only then
        match remove_open_cond plan.open_conds open_cond with
        | .error e => .error e
        | .ok new_open_conds =>
          handle_inequality_loop renv plan bindings open_cond var1 id1 var2 id2 test_only rest
            (plans ++ [{ plan with bindings := bindings_t, open_conds := new_open_conds,
                                   num_open_conds := usub plan.num_open_conds 1 }])
            (wrap32 (count + 1))
      else
        handle_inequality_loop renv plan bindings open_cond var1 id1 var2 id2 test_only rest
          plans (wrap32 (count + 1))
    else
      handle_inequality_loop renv plan bindings open_cond var1 id1 var2 id2 test_only rest
        plans count

/-- Source: `Plan::handle_inequality`, for the inequality of the variable `variable` with the
step id `nid1` and the term `term` with the step id `nid2`; the reference `open_cond` is the
position of its cell in the chain of the plan. -/
def Plan.handle_inequality (renv : RefineEnv) (plan : Plan) (plans : List Plan)
    (var : Variable) (nid1 : Nat) (term : Term) (nid2 : Nat) (open_cond : Nat)
    (test_only : Bool) : Except Fault (Int × List Plan) :=
  match plan.open_conds[open_cond]? with
  | none => .error .out_of_range
  | some oc =>
    let sid := oc.step_id
    match term.as_variable with
    | .error e => .error e
    | .ok variable2 =>
      match plan.bindings with
      | none => .error .out_of_range
      | some bindings =>
        let d1 := renv.get_domain bindings var (step_id nid1 sid)
        let d2 := renv.get_domain bindings variable2 (step_id nid2 sid)
        let smaller := decide (d1.length < d2.length)
        let var1 := if smaller then var else variable2
        let id1 := if smaller then step_id nid1 sid else step_id nid2 sid
        let var2 := if smaller then variable2 else var
        let id2 := if smaller then step_id nid2 sid else step_id nid1 sid
        let var_domain := if smaller then d1 else d2
        handle_inequality_loop renv plan bindings open_cond var1 id1 var2 id2 test_only
          var_domain plans 0

/-- Source: `Plan::new_link`; `sid` is `open_cond.get_step_id()`. -/
def Plan.new_link (env : PlanEnv) (renv : RefineEnv) (lenv : LinkEnv) (tb : Tables)
    (fuel : Nat) (plan : Plan) (plans : List Plan) (step : Step) (effect : Effect)
    (literal : Lit) (open_cond : Nat) (sid : Nat) (test_only : Bool) (ls : LinkState) :
    Outcome (Int × List Plan × LinkState) :=
  match plan.bindings with
  | none => .fault .out_of_range
  | some bindings =>
    match renv.unify bindings effect.literal step.id literal sid with
    | some mgu => plan.make_link env lenv tb fuel plans step effect open_cond mgu test_only ls
    | none => .value (0, plans, ls)

/-- Source: `Plan::new_cw_link`; `oc` is the open condition of the cell at the position
`open_cond`. -/
def Plan.new_cw_link (env : PlanEnv) (renv : RefineEnv) (fuel : Nat) (plan : Plan)
    (plans : List Plan) (effects : List Effect) (negation : Lit) (open_cond : Nat)
    (oc : OpenCondition) (test_only : Bool) (calls : Nat) : Outcome (Int × List Plan × Nat) :=
  match plan.bindings with
  | none => .fault .out_of_range
  | some bindings =>
    match renv.cw_goals bindings effects negation.get_atom oc.step_id with
    | none => .value (0, plans, calls)
    | some goals =>
      match (if test_only then .ok [] else remove_open_cond plan.open_conds open_cond) with
      | .error e => .fault e
      | .ok new_open_conds =>
        let new_num_open_conds := if test_only then 0 else usub plan.num_open_conds 1
        match add_goal env fuel ⟨new_open_conds, new_num_open_conds, [], calls⟩ goals 0
            test_only with
        | .diverged => .diverged
        | .fault e => .fault e
        | .null => .null
        | .value (false, st) => .value (0, plans, st.calls)
        | .value (true, st) =>
          match renv.add bindings st.new_bindings test_only with
          | none => .value (0, plans, st.calls)
          | some bindings_t =>
            if !test_only then
              let new_link := Link.from_open_cond 0 StepTime.AT_END oc
              let threats := renv.link_threats plan.unsafes plan.num_unsafes new_link
                plan.steps plan.orderings bindings_t
              .value (1, plans ++ [{ plan with links := new_link :: plan.links,
                                               num_links := (plan.num_links + 1) % 2 ^ 64,
                                               bindings := some bindings_t,
                                               unsafes := threats.1,
                                               num_unsafes := threats.2,
                                               open_conds := st.open_conds,
                                               num_open_conds := st.num_open_conds }],
                      st.calls)
            else .value (1, plans, st.calls)

/-- The loop of `Plan::add_step` (plans.h) over the achievers. -/
def Plan.add_step_loop (env : PlanEnv) (renv : RefineEnv) (lenv : LinkEnv) (tb : Tables)
    (fuel : Nat) (plan : Plan) (literal : Lit) (open_cond : Nat) (sid : Nat) :
    List (Action × Effect) → List Plan → LinkState → Outcome (List Plan × LinkState)
  | [], plans, ls => .value (plans, ls)
  | (action, effect) :: rest, plans, ls =>
    if substr action.name.toList 0 1 != ['<'] then
      match plan.new_link env renv lenv tb fuel plans ⟨(plan.num_steps + 1) % 2 ^ 64, action⟩
          effect literal open_cond sid false ls with
      | .diverged => .diverged
      | .fault e => .fault e
      | .null => .null
      | .value (_, plans1, ls1) =>
        Plan.add_step_loop env renv lenv tb fuel plan literal open_cond sid rest plans1 ls1
    else Plan.add_step_loop env renv lenv tb fuel plan literal open_cond sid rest plans ls

/-- The inner loop of `Plan::reuse_step` (plans.h) over the effects of the step among the
achievers; `gt` is `start_time(open_cond.get_when())`. -/
def Plan.reuse_step_effects (env : PlanEnv) (renv : RefineEnv) (lenv : LinkEnv)
    (tb : Tables) (fuel : Nat) (plan : Plan) (literal : Lit) (open_cond : Nat) (sid : Nat)
    (gt : StepTime) (step : Step) :
    List Effect → List Plan → LinkState → Outcome (List Plan × LinkState)
  | [], plans, ls => .value (plans, ls)
  | effect :: rest, plans, ls =>
    if renv.possibly_before plan.orderings step.id effect.end_time sid gt then
      match plan.new_link env renv lenv tb fuel plans step effect literal open_cond sid false
          ls with
      | .diverged => .diverged
      | .fault e => .fault e
      | .null => .null
      | .value (_, plans1, ls1) =>
        Plan.reuse_step_effects env renv lenv tb fuel plan literal open_cond sid gt step rest
          plans1 ls1
    else
      Plan.reuse_step_effects env renv lenv tb fuel plan literal open_cond sid gt step rest
        plans ls

/-- The loop of `Plan::reuse_step` (plans.h) over the steps of the plan. -/
def Plan.reuse_step_loop (env : PlanEnv) (renv : RefineEnv) (lenv : LinkEnv) (tb : Tables)
    (fuel : Nat) (plan : Plan) (literal : Lit) (open_cond : Nat) (sid : Nat) (gt : StepTime)
    (achievers : List (Action × Effect)) :
    List Step → List Plan → LinkState → Outcome (List Plan × LinkState)
  | [], plans, ls => .value (plans, ls)
  | step :: sc, plans, ls =>
    if renv.possibly_before plan.orderings step.id StepTime.AT_START sid gt then
      match Plan.reuse_step_effects env renv lenv tb fuel plan literal open_cond sid gt step
          (renv.equal_range achievers step.action) plans ls with
      | .diverged => .diverged
      | .fault e => .fault e
      | .null => .null
      | .value (plans1, ls1) =>
        Plan.reuse_step_loop env renv lenv tb fuel plan literal open_cond sid gt achievers sc
          plans1 ls1
    else
      Plan.reuse_step_loop env renv lenv tb fuel plan literal open_cond sid gt achievers sc
        plans ls

/-- The branch of `Plan::handle_open_condition` for a literal: `add_step` and `reuse_step`
for the achievers, and `new_cw_link` for a negation. -/
def Plan.handle_literal (env : PlanEnv) (renv : RefineEnv) (lenv : LinkEnv) (tb : Tables)
    (fuel : Nat) (plan : Plan) (plans : List Plan) (literal : Lit) (open_cond : Nat)
    (oc : OpenCondition) (ls : LinkState) : Outcome (List Plan × LinkState) :=
  let linked : Outcome (List Plan × LinkState) :=
    match renv.literal_achievers literal with
    | some achievers =>
      match Plan.add_step_loop env renv lenv tb fuel plan literal open_cond oc.step_id
          achievers plans ls with
      | .diverged => .diverged
      | .fault e => .fault e
      | .null => .null
      | .value (plans1, ls1) =>
        Plan.reuse_step_loop env renv lenv tb fuel plan literal open_cond oc.step_id
          (renv.read_when oc.when).start_time achievers plan.steps plans1 ls1
    | none => .value (plans, ls)
  match linked with
  | .diverged => .diverged
  | .fault e => .fault e
  | .null => .null
  | .value (plans2, ls2) =>
    match literal with
    | .neg _ _ _ =>
      match plan.new_cw_link env renv fuel plans2 renv.init_effects literal open_cond oc false
          ls2.calls with
      | .diverged => .diverged
      | .fault e => .fault e
      | .null => .null
      | .value (_, plans3, calls3) => .value (plans3, { ls2 with calls := calls3 })
    | .atom _ => .value (plans2, ls2)

/-- Source: `Plan::handle_open_condition`; the reference `open_cond` is the position of its
cell in the chain of the plan. -/
def Plan.handle_open_condition (env : PlanEnv) (renv : RefineEnv) (lenv : LinkEnv)
    (tb : Tables) (fuel : Nat) (plan : Plan) (plans : List Plan) (open_cond : Nat)
    (ls : LinkState) : Outcome (List Plan × LinkState) :=
  match plan.open_conds[open_cond]? with
  | none => .fault .out_of_range
  | some oc =>
    match oc.condition with
    | .literal literal => plan.handle_literal env renv lenv tb fuel plans literal open_cond oc ls
    | .disjunction _ disjuncts =>
      match plan.handle_disjunction env tb fuel plans disjuncts open_cond false ls.calls with
      | .diverged => .diverged
      | .fault e => .fault e
      | .null => .null
      | .value (_, plans1, calls1) => .value (plans1, { ls with calls := calls1 })
    | .inequality _ var nid1 term nid2 =>
      match plan.handle_inequality renv plans var nid1 term nid2 open_cond false with
      | .error e => .fault e
      | .ok (_, plans1) => .value (plans1, ls)
    | _ => .fault .logic_error

/-! ### The plans of a search -/

/-- The plans that `Plan::make_initial_plan` and the refinements of a plan produce: the
initial plan, and every plan that `handle_unsafe`, `handle_open_condition` or
`handle_mutex_threat` (the three calls of `Plan::refinements`) adds to an empty list for a
flaw of a plan produced before, whatever the calls that are parameters return in that
refinement.  The member `num_open_conds` is a `size_t`, so an open condition is handled in a
plan whose counter is below 2^64. -/
inductive Plan.Produced (env : PlanEnv) (tb : Tables) (pd : ProblemData) : Plan → Prop where
  | initial (fuel : Nat) (refine_timed : Orderings → Flt → Step → Option Orderings)
      (problem : Problem) (fs fs1 : FState) (plan : Plan) :
      Plan.make_initial_plan env tb pd fuel refine_timed problem fs = .value (plan, fs1) →
      Plan.Produced env tb pd plan
  | unsafe_ (renv : RefineEnv) (fuel : Nat) (parent : Plan) (unsafe_ : Nat)
      (calls calls1 : Nat) (plans : List Plan) (child : Plan) :
      Plan.Produced env tb pd parent →
      parent.handle_unsafe env renv fuel [] unsafe_ calls = .value (plans, calls1) →
      child ∈ plans → Plan.Produced env tb pd child
  | open_condition (renv : RefineEnv) (lenv : LinkEnv) (fuel : Nat) (parent : Plan)
      (open_cond : Nat) (ls ls1 : LinkState) (plans : List Plan) (child : Plan) :
      Plan.Produced env tb pd parent → parent.num_open_conds < 2 ^ 64 →
      parent.handle_open_condition env renv lenv tb fuel [] open_cond ls = .value (plans, ls1) →
      child ∈ plans → Plan.Produced env tb pd child
  | mutex_threat (renv : RefineEnv) (fuel : Nat) (junk : Flags) (parent : Plan)
      (mutex_threat : Nat) (m : MutexThreat) (calls : Nat) (plans : List Plan)
      (child : Plan) :
      Plan.Produced env tb pd parent →
      parent.mutex_threats[mutex_threat]? = some m →
      parent.handle_mutex_threat tb fuel junk
        (Plan.resolve_mutex_threat env renv fuel mutex_threat calls) [] m = .value plans →
      child ∈ plans → Plan.Produced env tb pd child

/-- The relation between a counter `n` and a chain of open conditions that the plans of a
search keep: the counter is at least the length of the chain, and equals it when static
preconditions are not stripped. -/
def CountsOpenConds (env : PlanEnv) (open_conds : List OpenCondition) (n : Nat) : Prop :=
  open_conds.length ≤ n
  ∧ (env.params.strip_static_preconditions = false → n = open_conds.length)

/-- Every plan of the list keeps the relation `CountsOpenConds`. -/
def AllCount (env : PlanEnv) (plans : List Plan) : Prop :=
  ∀ p ∈ plans, CountsOpenConds env p.open_conds p.num_open_conds

/-- The formula tables after the atoms `p(o1)` and `r(o2)`, a conjunction and a disjunction
are made. -/
def Ex.fstate4 : FState := ⟨5, 3, [Ex.atom_p, Ex.atom_r], []⟩

/-- The goal `p(o1) or (p(o1) and r(o2))`. -/
def Ex.goal_or : Formula :=
  .disjunction 4 [.literal (.atom Ex.atom_p),
    .conjunction 3 [.literal (.atom Ex.atom_p), .literal (.atom Ex.atom_r)]]

/-- The problem with the goal `p(o1) or (p(o1) and r(o2))`. -/
def Ex.problem_or : Problem := ⟨Ex.goal_or, Ex.no_action, [], false⟩

/-- The initial plan of the problem with the goal `p(o1) or (p(o1) and r(o2))`. -/
def Ex.plan_or : Plan :=
  ⟨[⟨0, Ex.no_action⟩, ⟨GOAL_ID, ⟨"", false, some [], Ex.goal_or, []⟩⟩], 0, [], 0,
   .binary ⟨[]⟩, some Bindings.EMPTY, [], 0, [⟨GOAL_ID, Ex.goal_or, none⟩], 1,
   [MutexThreat.place_holder]⟩

/-- The refinement of the initial plan for the disjunct `p(o1) and r(o2)`. -/
def Ex.plan_or_and : Plan :=
  { Ex.plan_or with
    open_conds := [⟨GOAL_ID, .literal (.atom Ex.atom_p), some .AT_START_F⟩,
                   ⟨GOAL_ID, .literal (.atom Ex.atom_r), some .AT_START_F⟩],
    num_open_conds := 2 }

/-- Stand-ins for the calls that no evaluation below reaches. -/
def Ex.renv : RefineEnv :=
  ⟨.AT_START_F, fun _ _ _ _ _ => false, fun _ _ _ _ _ => false, fun _ _ _ _ _ => false,
   fun _ _ => none, fun _ _ _ _ => none, fun _ _ _ _ _ => none, fun _ _ _ _ _ => none,
   fun _ _ _ => none, fun _ _ _ => [], fun _ _ _ _ => .constant false,
   fun _ _ _ => .constant false, fun _ => .constant false, fun _ _ _ _ => none,
   fun us n _ _ _ _ => (us, n), fun _ => none, fun _ _ => [], []⟩

/-- The refinement of the initial plan for the disjunct `p(o1)`. -/
def Ex.plan_or_p : Plan :=
  { Ex.plan_or with
    open_conds := [⟨GOAL_ID, .literal (.atom Ex.atom_p), some .AT_START_F⟩],
    num_open_conds := 1 }

/-- The refinement of the initial plan for the disjunct `p(o1) and r(o2)` when static
preconditions are stripped: both literals are counted and neither joins the chain. -/
def Ex.plan_or_stripped : Plan := { Ex.plan_or with open_conds := [], num_open_conds := 2 }

/-! ## heuristics.cpp: the values of literals in the planning graph -/

/-- Source: `HeuristicValue::is_zero`: `get_add_cost() == 0.0f`. -/
def HeuristicValue.is_zero (h : HeuristicValue) : Bool := h.add_cost.eq (.fin 0 0)

/-- Source: `std::min` of two floats: `(b < a) ? b : a`. -/
def Flt.min (a b : Flt) : Flt := if b.lt a then b else a

/-- Source: `min(const HeuristicValue&, const HeuristicValue&)`. -/
def HeuristicValue.min (v1 v2 : HeuristicValue) : HeuristicValue :=
  let cw : Flt × Int :=
    if v1.add_cost.eq v2.add_cost then
      (v1.add_cost, if v2.add_work < v1.add_work then v2.add_work else v1.add_work)
    else if v1.add_cost.lt v2.add_cost then (v1.add_cost, v1.add_work)
    else (v2.add_cost, v2.add_work)
  ⟨cw.1, cw.2, Flt.min v1.makespan v2.makespan⟩

/-- Source: `operator!=(const HeuristicValue&, const HeuristicValue&)`. -/
def HeuristicValue.ne (v1 v2 : HeuristicValue) : Bool :=
  !v1.add_cost.eq v2.add_cost || decide (v1.add_work ≠ v2.add_work)
    || !v1.makespan.eq v2.makespan

/-- Source: `AtomValueMap::find`; the keys are pointers to atoms. -/
def AtomValueMap_find (m : List (Atom × HeuristicValue)) (atom : Atom) :
    Option HeuristicValue :=
  match m.find? (fun e => e.1.addr == atom.addr) with
  | some e => some e.2
  | none => none

/-- Source: `class PlanningGraph`, with the maps of the values of the literals. -/
structure PlanningGraph where
  atom_values : List (Atom × HeuristicValue)
  negation_values : List (Atom × HeuristicValue)
  predicate_atoms : List (Int × Atom)
  predicate_negations : List (Int × Atom)
deriving Repr

/-- Source: `PlanningGraph::heuristic_value(const Atom&, size_t, const Bindings*)` for a null
`bindings`. -/
def PlanningGraph.atom_value (pg : PlanningGraph) (atom : Atom) : HeuristicValue :=
  match AtomValueMap_find pg.atom_values atom with
  | some v => v
  | none => HeuristicValue.INFINITE

/-- The loop of `PlanningGraph::heuristic_value` over the ground atoms `a` of the predicate,
in both overloads: the value taken for `a` is `heuristic_value(a, 0)`, the value of the atom
`a`. -/
def heuristic_value_loop (tb : Tables) (fuel : Nat) (pg : PlanningGraph) (bindings : Bindings)
    (atom : Atom) (step_id : Nat) : List (Int × Atom) → HeuristicValue → Outcome HeuristicValue
  | [], value => .value value
  | (_, a) :: rest, value =>
    match bindings.unify tb fuel [] (Lit.atom atom).view step_id (Lit.atom a).view 0 with
    | .diverged => .diverged
    | .fault e => .fault e
    | .null => .null
    | .value (false, _) => heuristic_value_loop tb fuel pg bindings atom step_id rest value
    | .value (true, _) =>
      let value1 := HeuristicValue.min value (pg.atom_value a)
      if value1.is_zero then .value value1
      else heuristic_value_loop tb fuel pg bindings atom step_id rest value1

/-- Source: `multimap::equal_range`, as the list of the entries of the key. -/
def equal_range (m : List (Int × Atom)) (predicate : Int) : List (Int × Atom) :=
  m.filter (fun e => e.1 == predicate)

/-- Source: `PlanningGraph::heuristic_value(const Atom&, size_t, const Bindings*)`. -/
def PlanningGraph.heuristic_value (tb : Tables) (fuel : Nat) (pg : PlanningGraph) (atom : Atom)
    (step_id : Nat) (bindings : Option Bindings) : Outcome HeuristicValue :=
  match bindings with
  | none => .value (pg.atom_value atom)
  | some b =>
    heuristic_value_loop tb fuel pg b atom step_id (equal_range pg.predicate_atoms atom.predicate)
      HeuristicValue.INFINITE

/-- Source: `PlanningGraph::heuristic_value(const Negation&, size_t, const Bindings*)`;
`atom` is `negation.get_atom()`. -/
def PlanningGraph.heuristic_value_negation (tb : Tables) (fuel : Nat) (threshold : Flt)
    (pg : PlanningGraph) (atom : Atom) (step_id : Nat) (bindings : Option Bindings) :
    Outcome HeuristicValue :=
  match bindings with
  | none =>
    match AtomValueMap_find pg.negation_values atom with
    | some v => .value v
    | none =>
      match AtomValueMap_find pg.atom_values atom with
      | none => .value (HeuristicValue.ZERO_COST_UNIT_WORK threshold)
      | some v =>
        if !v.is_zero then .value (HeuristicValue.ZERO_COST_UNIT_WORK threshold)
        else .value HeuristicValue.INFINITE
  | some b =>
    match pg.heuristic_value tb fuel atom step_id bindings with
    | .diverged => .diverged
    | .fault e => .fault e
    | .null => .null
    | .value v =>
      if !v.is_zero then .value (HeuristicValue.ZERO threshold)
      else
        heuristic_value_loop tb fuel pg b atom step_id
          (equal_range pg.predicate_negations atom.predicate) HeuristicValue.INFINITE

/-- The threshold 1/128. -/
def Ex.threshold : Flt := .fin 1 7

/-! ## plans.cpp: the search of `Plan::plan` -/

/-- What the search of `Plan::plan` calls on plans and on the queues of pending plans
(`priority_queue<const Plan*>`).  A plan comes with its serial number `id`.  `refinements`
is `Plan::refinements` for a flaw order and the value of `static_pred_flaw` before the call,
and gives the children and the value of `static_pred_flaw` after it; `instantiate` is
`step_instantiation` followed by the construction of the instantiated plan, with `none` for
a null result; `top` is `none` for an empty queue. -/
structure SearchOps (P Q : Type) where
  primary_rank : P × Nat → Flt
  is_complete : P × Nat → Bool
  refinements : P × Nat → FlawSelectionOrder → Bool → Except Fault (List P × Bool)
  instantiate : P × Nat → Option (P × Nat)
  push : Q → P × Nat → Q
  top : Q → Option (P × Nat)
  pop : Q → Q
  is_empty : Q → Bool

/-- The variables of the search of `Plan::plan`; `visited` is the sequence of the plans
visited so far (those counted by `num_visited_plans`), which the source only prints. -/
structure SearchState (P Q : Type) where
  num_visited_plans : Nat
  num_generated_plans : Nat
  num_static : Nat
  num_dead_ends : Nat
  generated_plans : List Nat
  plans : List Q
  dead_queues : List Nat
  current_flaw_order : Nat
  flaw_orders_left : Nat
  next_switch : Nat
  current_plan : Option (P × Nat)
  static_pred_flaw : Bool
  visited : List (P × Nat)

/-- The loop `for (size_t dq = 0; dq < 4 && !dead_queues.empty(); dq++)`: a dead queue is
the index of the queue in `plans`. -/
def clean_dead_queues {P Q : Type} (ops : SearchOps P Q) :
    Nat → List Q → List Nat → Except Fault (List Q × List Nat)
  | 0, plans, dead_queues => .ok (plans, dead_queues)
  | k + 1, plans, dead_queues =>
    match dead_queues.getLast? with
    | none => .ok (plans, dead_queues)
    | some i =>
      match plans[i]? with
      | none => .error .out_of_range
      | some dead_queue =>
        match ops.top dead_queue with
        | none => .error .out_of_range
        | some _ =>
          let q1 := ops.pop dead_queue
          clean_dead_queues ops k (plans.set i q1)
            (if ops.is_empty q1 then dead_queues.dropLast else dead_queues)

/-- The loop of `Plan::plan` over the children of the plan visited; the state besides the
variables of the search is `added` and `next_f_limit`. -/
def add_children {P Q : Type} (ops : SearchOps P Q) (params : Parameters) (f_limit : Flt) :
    List P → SearchState P Q → Bool → Flt → Except Fault (SearchState P Q × Bool × Flt)
  | [], st, added, next_f_limit => .ok (st, added, next_f_limit)
  | child :: rest, st, added, next_f_limit =>
    let new_plan : P × Nat := (child, st.num_generated_plans)
    match st.generated_plans[st.current_flaw_order]?,
        params.search_limits[st.current_flaw_order]?, st.plans[st.current_flaw_order]? with
    | some generated, some limit, some queue =>
      if !(ops.primary_rank new_plan).eq .pinf && decide (generated < limit) then
        if decide (params.search_algorithm = .IDA_STAR)
            && f_limit.lt (ops.primary_rank new_plan) then
          add_children ops params f_limit rest st added
            (Flt.min next_f_limit (ops.primary_rank new_plan))
        else
          add_children ops params f_limit rest
            { st with
              num_static := if !added && st.static_pred_flaw then st.num_static + 1
                            else st.num_static
              plans := st.plans.set st.current_flaw_order (ops.push queue new_plan)
              generated_plans := st.generated_plans.set st.current_flaw_order (generated + 1)
              num_generated_plans := st.num_generated_plans + 1 }
            true next_f_limit
      else add_children ops params f_limit rest st added next_f_limit
    | _, _, _ => .error .out_of_range

/-- The loop `do { current_flaw_order++; ... } while (generated_plans[current_flaw_order] >=
params->search_limits[current_flaw_order])`, on `current_flaw_order` and `next_switch`. -/
def next_flaw_order (params : Parameters) (generated_plans : List Nat) :
    Nat → Nat → Nat → Outcome (Nat × Nat)
  | 0, _, _ => .diverged
  | fuel + 1, current_flaw_order, next_switch =>
    let c := if current_flaw_order + 1 ≥ params.flaw_orders.length then 0
             else current_flaw_order + 1
    let n := if current_flaw_order + 1 ≥ params.flaw_orders.length then umul next_switch 2
             else next_switch
    match generated_plans[c]?, params.search_limits[c]? with
    | some generated, some limit =>
      if generated ≥ limit then next_flaw_order params generated_plans fuel c n
      else .value (c, n)
    | _, _ => .fault .out_of_range

/-- The loop `while (current_plan != NULL && current_plan->is_complete() && !instantiated)`,
on the queue of the current flaw order, `current_plan` and `instantiated`. -/
def instantiate_loop {P Q : Type} (ops : SearchOps P Q) :
    Nat → Q → Option (P × Nat) → Bool → Outcome (Q × Option (P × Nat))
  | 0, _, _, _ => .diverged
  | fuel + 1, queue, current_plan, instantiated =>
    match current_plan with
    | none => .value (queue, none)
    | some p =>
      if ops.is_complete p && !instantiated then
        match ops.instantiate p with
        | some inst_plan => instantiate_loop ops fuel queue (some inst_plan) true
        | none =>
          if ops.is_empty queue then instantiate_loop ops fuel queue none instantiated
          else
            match ops.top queue with
            | none => .fault .out_of_range
            | some t => instantiate_loop ops fuel (ops.pop queue) (some t) instantiated
      else .value (queue, current_plan)

/-- The part of the body of the loop of `Plan::plan` under `// Process next plan`; the flag
of the result is set where the source leaves the loop with `break`. -/
def process_next_plan {P Q : Type} (ops : SearchOps P Q) (params : Parameters)
    (initial_plan : Option (P × Nat)) (fuel : Nat) (next_f_limit : Flt)
    (st : SearchState P Q) : Outcome (SearchState P Q × Bool) :=
  match st.generated_plans[st.current_flaw_order]?,
      params.search_limits[st.current_flaw_order]? with
  | some generated, some limit =>
    let limit_reached := decide (generated ≥ limit)
    let switched : Outcome (SearchState P Q) :=
      if limit_reached || decide (generated ≥ st.next_switch) then
        let st1 :=
          if limit_reached then
            { st with flaw_orders_left := usub st.flaw_orders_left 1
                      dead_queues := st.dead_queues ++ [st.current_flaw_order] }
          else st
        if st1.flaw_orders_left > 0 then
          match next_flaw_order params st1.generated_plans fuel st1.current_flaw_order
              st1.next_switch with
          | .diverged => .diverged
          | .fault e => .fault e
          | .null => .null
          | .value (c, n) => .value { st1 with current_flaw_order := c, next_switch := n }
        else .value st1
      else .value st
    match switched with
    | .diverged => .diverged
    | .fault e => .fault e
    | .null => .null
    | .value st2 =>
      if st2.flaw_orders_left > 0 then
        match st2.generated_plans[st2.current_flaw_order]?,
            st2.plans[st2.current_flaw_order]? with
        | some generated2, some queue =>
          let popped : Except Fault (SearchState P Q × Q) :=
            if generated2 = 0 then
              .ok ({ st2 with
                     current_plan := initial_plan
                     generated_plans := st2.generated_plans.set st2.current_flaw_order
                       (generated2 + 1)
                     num_generated_plans := st2.num_generated_plans + 1 }, queue)
            else if ops.is_empty queue then .ok ({ st2 with current_plan := none }, queue)
            else
              match ops.top queue with
              | none => .error .out_of_range
              | some t => .ok ({ st2 with current_plan := some t }, ops.pop queue)
          match popped with
          | .error e => .fault e
          | .ok (st3, queue3) =>
            match instantiate_loop ops fuel queue3 st3.current_plan params.ground_actions with
            | .diverged => .diverged
            | .fault e => .fault e
            | .null => .null
            | .value (queue4, current_plan) =>
              .value ({ st3 with plans := st3.plans.set st3.current_flaw_order queue4
                                 current_plan := current_plan }, false)
        | _, _ => .fault .out_of_range
      else
        .value ({ st2 with current_plan :=
                    if !next_f_limit.eq .pinf then none else st2.current_plan }, true)
  | _, _ => .fault .out_of_range

/-- The loop `while (current_plan != NULL && !current_plan->is_complete())` of `Plan::plan`,
on the variables of the search and `next_f_limit`. -/
def search_loop {P Q : Type} (ops : SearchOps P Q) (params : Parameters)
    (initial_plan : Option (P × Nat)) (f_limit : Flt) :
    Nat → SearchState P Q → Flt → Outcome (SearchState P Q × Flt)
  | 0, _, _ => .diverged
  | fuel + 1, st, next_f_limit =>
    match st.current_plan with
    | none => .value (st, next_f_limit)
    | some current_plan =>
      if ops.is_complete current_plan then .value (st, next_f_limit)
      else
        match clean_dead_queues ops 4 st.plans st.dead_queues,
            params.flaw_orders[st.current_flaw_order]? with
        | .error e, _ => .fault e
        | .ok _, none => .fault .out_of_range
        | .ok (plans1, dead_queues1), some flaw_order =>
          match ops.refinements current_plan flaw_order st.static_pred_flaw with
          | .error e => .fault e
          | .ok (refinements, static_pred_flaw) =>
            let st1 : SearchState P Q :=
              { st with plans := plans1, dead_queues := dead_queues1
                        num_visited_plans := st.num_visited_plans + 1
                        visited := st.visited ++ [current_plan]
                        static_pred_flaw := static_pred_flaw }
            match add_children ops params f_limit refinements st1 false next_f_limit with
            | .error e => .fault e
            | .ok (st2, added, next_f_limit2) =>
              let st3 :=
                if !added then { st2 with num_dead_ends := st2.num_dead_ends + 1 } else st2
              match process_next_plan ops params initial_plan (fuel + 1) next_f_limit2 st3 with
              | .diverged => .diverged
              | .fault e => .fault e
              | .null => .null
              | .value (st4, true) => .value (st4, next_f_limit2)
              | .value (st4, false) =>
                search_loop ops params initial_plan f_limit fuel st4 next_f_limit2

/-- The loop `do { ... } while (f_limit != numeric_limits<float>::infinity())` of
`Plan::plan`. -/
def restart_loop {P Q : Type} (ops : SearchOps P Q) (params : Parameters)
    (initial_plan : Option (P × Nat)) :
    Nat → Flt → SearchState P Q → Outcome (SearchState P Q)
  | 0, _, _ => .diverged
  | fuel + 1, f_limit, st =>
    match search_loop ops params initial_plan f_limit (fuel + 1) st .pinf with
    | .diverged => .diverged
    | .fault e => .fault e
    | .null => .null
    | .value (st1, next_f_limit) =>
      if (match st1.current_plan with
          | some p => ops.is_complete p
          | none => false) then .value st1
      else if !next_f_limit.eq .pinf then
        restart_loop ops params initial_plan fuel next_f_limit
          { st1 with current_plan := initial_plan }
      else .value st1

/-- Source: `Plan::plan`, from `// Search for complete plan` on: `initial_plan` is the
result of `make_initial_plan` with the id 0 (`none` if null), `empty_queue` the queue
`PlanQueue()`.  The result holds the plan returned (`current_plan`) and the plans visited.
The construction of the planning graph and of the achiever maps before the search, and the
deletion of plans, are not part of the model. -/
def Plan.plan {P Q : Type} (ops : SearchOps P Q) (params : Parameters) (empty_queue : Q)
    (fuel : Nat) (initial_plan : Option (P × Nat)) : Outcome (SearchState P Q) :=
  let f_limit : Flt :=
    match initial_plan with
    | some p => if params.search_algorithm = .IDA_STAR then ops.primary_rank p else .pinf
    | none => .pinf
  if params.flaw_orders.isEmpty then .fault .out_of_range
  else
    restart_loop ops params initial_plan fuel f_limit
      { num_visited_plans := 0
        num_generated_plans := 1
        num_static := 0
        num_dead_ends := 0
        generated_plans := (params.flaw_orders.map (fun _ => 0)).set 0 1
        plans := params.flaw_orders.map (fun _ => empty_queue)
        dead_queues := []
        current_flaw_order := 0
        flaw_orders_left := params.flaw_orders.length
        next_switch := 1000
        current_plan := initial_plan
        static_pred_flaw := false
        visited := [] }

/-- Insertion into a queue kept in the order of the ranks, the lowest rank first. -/
def Ex.queue_push : List (Nat × Nat) → Nat × Nat → List (Nat × Nat)
  | [], p => [p]
  | q :: rest, p => if p.1 < q.1 then p :: q :: rest else q :: Ex.queue_push rest p

/-- Plans are numbers and the rank of a plan is its number; the plan 0 has the children 1
and 2, the other plans have none; the plan 2 is complete; the queue gives the plan of the
lowest rank first. -/
def Ex.ops : SearchOps Nat (List (Nat × Nat)) :=
  { primary_rank := fun p => .fin p.1 0
    is_complete := fun p => p.1 == 2
    refinements := fun p _ flag => .ok (if p.1 = 0 then [1, 2] else [], flag)
    instantiate := fun p => some p
    push := Ex.queue_push
    top := fun q => q.head?
    pop := fun q => q.tail
    is_empty := fun q => q.isEmpty }

/-- One flaw order with the limit 1000, hill climbing. -/
def Ex.params_hc : Parameters :=
  ⟨.HILL_CLIMBING, false, false, false, true, [⟨[], false, 0, 0, 0, 0⟩], [1000]⟩

/-! ## orderings.cpp: schedules of binary orderings -/

/-- Source: `map<size_t, float>::find`. -/
def TimeMap_find : List (Nat × Flt) → Nat → Option Flt
  | [], _ => none
  | (k, v) :: rest, i => if k = i then some v else TimeMap_find rest i

/-- Source: `map<size_t, float>::insert`, which keeps the entry of a key that is present. -/
def TimeMap_insert (m : List (Nat × Flt)) (i : Nat) (v : Flt) : List (Nat × Flt) :=
  match TimeMap_find m i with
  | some _ => m
  | none => m ++ [(i, v)]

/-- The loop `for (size_t j = 1; j <= n; j++)` of `BinaryOrderings::schedule(start_times,
end_times, step_id)` over the values of `j` listed; `next` is the recursive call, `fadd` is
float addition, and the state is `sd` and the two maps. -/
def schedule_loop (o : BinaryOrderings) (fadd : Flt → Flt → Flt) (step_id : Nat)
    (next : List (Nat × Flt) × List (Nat × Flt) → Nat →
      Outcome (Flt × List (Nat × Flt) × List (Nat × Flt))) :
    List Nat → Flt → List (Nat × Flt) × List (Nat × Flt) →
    Outcome (Flt × List (Nat × Flt) × List (Nat × Flt))
  | [], sd, maps => .value (sd, maps)
  | j :: js, sd, maps =>
    if step_id ≠ j then
      match o.is_before j step_id with
      | .error e => .fault e
      | .ok false => schedule_loop o fadd step_id next js sd maps
      | .ok true =>
        match next maps j with
        | .diverged => .diverged
        | .fault e => .fault e
        | .null => .null
        | .value (r, maps1) =>
          schedule_loop o fadd step_id next js
            (if sd.lt (fadd (.fin 1 0) r) then fadd (.fin 1 0) r else sd) maps1
    else schedule_loop o fadd step_id next js sd maps

/-- The values `1, ..., n` of the loops over the steps, `n = before.size() + 1`. -/
def BinaryOrderings.step_ids (o : BinaryOrderings) : List Nat :=
  (List.range (o.before.length + 1)).map (· + 1)

/-- Source: `BinaryOrderings::schedule(start_times, end_times, step_id)`; the recursion is
given fuel.  The result is the value returned and the two maps after the call. -/
def BinaryOrderings.schedule_step (o : BinaryOrderings) (fadd : Flt → Flt → Flt) :
    Nat → List (Nat × Flt) × List (Nat × Flt) → Nat →
    Outcome (Flt × List (Nat × Flt) × List (Nat × Flt))
  | 0, _, _ => .diverged
  | fuel + 1, maps, step_id =>
    match TimeMap_find maps.1 step_id with
    | some d => .value (d, maps)
    | none =>
      match schedule_loop o fadd step_id (BinaryOrderings.schedule_step o fadd fuel)
          o.step_ids (.fin 1 0) maps with
      | .diverged => .diverged
      | .fault e => .fault e
      | .null => .null
      | .value (sd, maps1) =>
        .value (sd, TimeMap_insert maps1.1 step_id sd, TimeMap_insert maps1.2 step_id sd)

/-- The loop of `BinaryOrderings::schedule(start_times, end_times)` over the steps. -/
def schedule_all (o : BinaryOrderings) (fadd : Flt → Flt → Flt) (fuel : Nat) :
    List Nat → Flt → List (Nat × Flt) × List (Nat × Flt) →
    Outcome (Flt × List (Nat × Flt) × List (Nat × Flt))
  | [], max_dist, maps => .value (max_dist, maps)
  | i :: is, max_dist, maps =>
    match o.schedule_step fadd fuel maps i with
    | .diverged => .diverged
    | .fault e => .fault e
    | .null => .null
    | .value (ed, maps1) =>
      schedule_all o fadd fuel is (if max_dist.lt ed then ed else max_dist) maps1

/-- Source: `BinaryOrderings::schedule(start_times, end_times)`. -/
def BinaryOrderings.schedule (o : BinaryOrderings) (fadd : Flt → Flt → Flt) (fuel : Nat)
    (start_times end_times : List (Nat × Flt)) :
    Outcome (Flt × List (Nat × Flt) × List (Nat × Flt)) :=
  schedule_all o fadd fuel o.step_ids (.fin 0 0) (start_times, end_times)

/-- Addition of floats that hold integers, exact below `2 ^ 24`. -/
def Ex.fadd : Flt → Flt → Flt
  | .fin a 0, .fin b 0 => .fin (a + b) 0
  | _, _ => .nan

/-- Three steps with 1 before 2, 2 before 3 and 1 before 3. -/
def Ex.chain3 : BinaryOrderings := ⟨[[true, false], [true, true, false, false]]⟩

/-- The float that holds the integer `t`. -/
def Flt.ofNat (t : Nat) : Flt := .fin (t : Int) 0

/-- The test `is_before(j, i)` of a collection, false where the read fails. -/
def BinaryOrderings.before_b (o : BinaryOrderings) (j i : Nat) : Bool :=
  decide (o.is_before j i = .ok true)

/-- The number of steps of the collection ordered before a step. -/
def BinaryOrderings.rank (o : BinaryOrderings) (i : Nat) : Nat :=
  o.step_ids.countP (fun k => o.before_b k i)

/-- The shape of the matrix `before`: the row of step `r + 2` has `2 * r + 2` entries. -/
def BinaryOrderings.WellFormed (o : BinaryOrderings) : Prop :=
  ∀ (r : Nat) (row : List Bool), o.before[r]? = some row → row.length = 2 * r + 2

/-- The before-relation of the collection is transitive on its steps. -/
def BinaryOrderings.Transitive (o : BinaryOrderings) : Prop :=
  ∀ i ∈ o.step_ids, ∀ j ∈ o.step_ids, ∀ k ∈ o.step_ids,
    o.before_b i j = true → o.before_b j k = true → o.before_b i k = true

/-- A map of times in which every step present has an integer time between 1 and the number
of its predecessors plus 1, every predecessor of a step present is present with a time at
least one less, and a step whose time is not 1 has a predecessor whose time is exactly one
less. -/
structure Sched (o : BinaryOrderings) (m : List (Nat × Flt)) : Prop where
  keys : ∀ i v, TimeMap_find m i = some v →
    i ∈ o.step_ids ∧ ∃ t : Nat, v = Flt.ofNat t ∧ 1 ≤ t ∧ t ≤ o.rank i + 1
  pred : ∀ i (t : Nat), TimeMap_find m i = some (Flt.ofNat t) →
    ∀ j ∈ o.step_ids, o.before_b j i = true →
      ∃ tj : Nat, TimeMap_find m j = some (Flt.ofNat tj) ∧ tj + 1 ≤ t
  tight : ∀ i (t : Nat), TimeMap_find m i = some (Flt.ofNat t) →
    t = 1 ∨ ∃ j ∈ o.step_ids, o.before_b j i = true
      ∧ ∃ tj : Nat, TimeMap_find m j = some (Flt.ofNat tj) ∧ t = tj + 1

/-- The second map holds every entry of the first. -/
def TimeMap_le (m m2 : List (Nat × Flt)) : Prop :=
  ∀ k v, TimeMap_find m k = some v → TimeMap_find m2 k = some v

/-! ## heuristics.cpp: the construction of the planning graph -/

/-- Source: `Parameters::ActionCost`. -/
inductive ActionCost where
  | UNIT_COST
  | DURATION
  | RELATIVE
deriving DecidableEq, Repr

/-- A ground action as the constructor of the planning graph reads it: the action, and the
value of `get_min_duration()` if that expression is a `Value` (`none` if the `dynamic_cast`
to `Value` gives null). -/
structure GroundAction where
  action : Action
  min_duration : Option Flt
deriving Repr

/-- Source: `HeuristicValue::increase_cost`; `fadd` is float addition. -/
def HeuristicValue.increase_cost (fadd : Flt → Flt → Flt) (h : HeuristicValue) (x : Flt) :
    HeuristicValue :=
  { h with add_cost := fadd h.add_cost x }

/-- Source: `HeuristicValue::increase_makespan`. -/
def HeuristicValue.increase_makespan (fadd : Flt → Flt → Flt) (h : HeuristicValue) (x : Flt) :
    HeuristicValue :=
  { h with makespan := fadd h.makespan x }

/-- Source: `std::max` of two floats: `(a < b) ? b : a`. -/
def Flt.max (a b : Flt) : Flt := if a.lt b then b else a

/-- Source: `map<const Literal*, float>::find`; the keys are pointers to literals. -/
def DurationFactor_find (m : List (Nat × Flt)) (literal : Lit) : Option Flt :=
  match m.find? (fun e => e.1 == literal.addr) with
  | some e => some e.2
  | none => none

/-- Source: `duration_factor[&literal] = d` for a key of the map. -/
def DurationFactor_set (m : List (Nat × Flt)) (literal : Lit) (d : Flt) : List (Nat × Flt) :=
  m.map (fun e => if e.1 == literal.addr then (e.1, d) else e)

/-- The loop over the effects of one action in the computation of the duration factors:
the factor of a literal is the least `d` of the actions with an effect on it. -/
def duration_factor_effects (d : Flt) : List Effect → List (Nat × Flt) → List (Nat × Flt)
  | [], m => m
  | e :: es, m =>
    match DurationFactor_find m e.literal with
    | none => duration_factor_effects d es (m ++ [(e.literal.addr, d)])
    | some d2 =>
      if d.lt d2 then duration_factor_effects d es (DurationFactor_set m e.literal d)
      else duration_factor_effects d es m

/-- The loop over the ground actions in the computation of the duration factors. -/
def duration_factor_actions (threshold : Flt) :
    List GroundAction → List (Nat × Flt) → Except Fault (List (Nat × Flt))
  | [], m => .ok m
  | a :: rest, m =>
    match a.min_duration with
    | none => .error .runtime_error
    | some min_v =>
      duration_factor_actions threshold rest
        (duration_factor_effects (Flt.max threshold min_v) a.action.effects m)

/-- The loop over the timed initial literals in the computation of the duration factors. -/
def duration_factor_timed : List (Flt × Action) → List (Nat × Flt) → List (Nat × Flt)
  | [], m => m
  | (d, action) :: rest, m =>
    duration_factor_timed rest (duration_factor_effects d action.effects m)

/-- The first part of `PlanningGraph::PlanningGraph`: the map `duration_factor`, filled only
for `params.action_cost == Parameters::RELATIVE`. -/
def duration_factors (threshold : Flt) (action_cost : ActionCost) (actions : List GroundAction)
    (timed_actions : List (Flt × Action)) : Except Fault (List (Nat × Flt)) :=
  if action_cost = .RELATIVE then
    match duration_factor_actions threshold actions [] with
    | .error e => .error e
    | .ok m => .ok (duration_factor_timed timed_actions m)
  else .ok []

/-- Source: `AtomValueMap::insert`: a key of the map keeps its value. -/
def AtomValueMap_insert (m : List (Atom × HeuristicValue)) (atom : Atom) (v : HeuristicValue) :
    List (Atom × HeuristicValue) :=
  match AtomValueMap_find m atom with
  | some _ => m
  | none => m ++ [(atom, v)]

/-- Source: `m[atom] = v` on an `AtomValueMap`. -/
def AtomValueMap_set (m : List (Atom × HeuristicValue)) (atom : Atom) (v : HeuristicValue) :
    List (Atom × HeuristicValue) :=
  match AtomValueMap_find m atom with
  | some _ => m.map (fun e => if e.1.addr == atom.addr then (e.1, v) else e)
  | none => m ++ [(atom, v)]

/-- The loop of `PlanningGraph::PlanningGraph` that adds the initial conditions at level 0;
`is_static` is `PredicateTable::is_static`. The literal of an effect that is no atom makes
the `dynamic_cast` to a reference throw. -/
def initial_values (is_static : Int → Bool) (threshold : Flt) :
    List Effect → List (Atom × HeuristicValue) → Except Fault (List (Atom × HeuristicValue))
  | [], m => .ok m
  | e :: es, m =>
    match e.literal with
    | .atom atom =>
      initial_values is_static threshold es
        (AtomValueMap_insert m atom
          (if is_static atom.predicate then HeuristicValue.ZERO threshold
           else HeuristicValue.ZERO_COST_UNIT_WORK threshold))
    | .neg _ _ _ => .error .bad_cast

/-- The cost `d` of an effect: `d0`, divided by the duration factor of the literal if it has
one; `fdiv` is float division. -/
def effect_cost (fdiv : Flt → Flt → Flt) (duration_factor : List (Nat × Flt)) (literal : Lit)
    (d0 : Flt) : Flt :=
  match DurationFactor_find duration_factor literal with
  | some f => fdiv d0 f
  | none => d0

/-- The loop of `PlanningGraph::PlanningGraph` over the effects of one timed initial literal
action. -/
def timed_effects (fdiv : Flt → Flt → Flt) (action_cost : ActionCost)
    (duration_factor : List (Nat × Flt)) (time : Flt) :
    List Effect → PlanningGraph → PlanningGraph
  | [], pg => pg
  | e :: es, pg =>
    let d := effect_cost fdiv duration_factor e.literal
      (if action_cost = .UNIT_COST then .fin 1 0 else time)
    match e.literal with
    | .atom atom =>
      match AtomValueMap_find pg.atom_values atom with
      | none =>
        timed_effects fdiv action_cost duration_factor time es
          { pg with atom_values := AtomValueMap_insert pg.atom_values atom ⟨d, 1, time⟩ }
      | some _ => timed_effects fdiv action_cost duration_factor time es pg
    | .neg _ _ atom =>
      if (AtomValueMap_find pg.negation_values atom).isNone && (pg.atom_value atom).is_zero then
        timed_effects fdiv action_cost duration_factor time es
          { pg with negation_values := AtomValueMap_insert pg.negation_values atom ⟨d, 1, time⟩ }
      else timed_effects fdiv action_cost duration_factor time es pg

/-- The loop of `PlanningGraph::PlanningGraph` over the timed initial literals. -/
def timed_values (fdiv : Flt → Flt → Flt) (action_cost : ActionCost)
    (duration_factor : List (Nat × Flt)) : List (Flt × Action) → PlanningGraph → PlanningGraph
  | [], pg => pg
  | (time, action) :: rest, pg =>
    timed_values fdiv action_cost duration_factor rest
      (timed_effects fdiv action_cost duration_factor time action.effects pg)

/-- The loop of `Conjunction::get_heuristic_value`; `eval` is `get_heuristic_value` of a
conjunct. -/
def conjunction_value (fadd : Flt → Flt → Flt)
    (eval : Formula → Outcome (HeuristicValue × HeuristicValue)) :
    List Formula → HeuristicValue → HeuristicValue → Outcome (HeuristicValue × HeuristicValue)
  | [], h, hs => .value (h, hs)
  | f :: fs, h, hs =>
    if h.is_infinite then .value (h, hs)
    else
      match eval f with
      | .value (hi, hsi) =>
        match h.op_add_assign fadd hi with
        | none => .fault .signed_overflow
        | some h1 =>
          match hs.op_add_assign fadd hsi with
          | none => .fault .signed_overflow
          | some hs1 => conjunction_value fadd eval fs h1 hs1
      | other => other

/-- The loop of `Disjunction::get_heuristic_value`; `eval` is `get_heuristic_value` of a
disjunct. -/
def disjunction_value (eval : Formula → Outcome (HeuristicValue × HeuristicValue)) :
    List Formula → HeuristicValue → HeuristicValue → Outcome (HeuristicValue × HeuristicValue)
  | [], h, hs => .value (h, hs)
  | f :: fs, h, hs =>
    if h.is_zero then .value (h, hs)
    else
      match eval f with
      | .value (hi, hsi) =>
        disjunction_value eval fs (HeuristicValue.min h hi) (HeuristicValue.min hs hsi)
      | other => other

/-- Source: the overrides of `Formula::get_heuristic_value(h, hs, pg, step_id, b)` for a null
`b`; the result is the pair `(h, hs)`. `universal_base` is
`Forall::get_universal_base(SubstitutionMap(), pg.get_problem())`; the fuel bounds the depth
of the calls, which the universal base of a quantified formula leaves open. -/
def Formula.get_heuristic_value (fadd : Flt → Flt → Flt) (threshold : Flt)
    (universal_base : Formula → Formula) (tb : Tables) (pg : PlanningGraph) :
    Nat → Formula → Outcome (HeuristicValue × HeuristicValue)
  | 0, _ => .diverged
  | fuel + 1, f =>
    match f with
    | .constant _ => .value (HeuristicValue.ZERO threshold, HeuristicValue.ZERO threshold)
    | .literal (.atom a) =>
      match pg.heuristic_value tb fuel a 0 none with
      | .value v => .value (v, v)
      | .diverged => .diverged
      | .fault e => .fault e
      | .null => .null
    | .literal (.neg _ _ a) =>
      match pg.heuristic_value_negation tb fuel threshold a 0 none with
      | .value v => .value (v, v)
      | .diverged => .diverged
      | .fault e => .fault e
      | .null => .null
    | .equality _ _ _ _ _ => .value (HeuristicValue.ZERO threshold, HeuristicValue.ZERO threshold)
    | .inequality _ _ _ _ _ =>
      .value (HeuristicValue.ZERO threshold, HeuristicValue.ZERO threshold)
    | .conjunction _ conjuncts =>
      conjunction_value fadd
        (Formula.get_heuristic_value fadd threshold universal_base tb pg fuel) conjuncts
        (HeuristicValue.ZERO threshold) (HeuristicValue.ZERO threshold)
    | .disjunction _ disjuncts =>
      disjunction_value
        (Formula.get_heuristic_value fadd threshold universal_base tb pg fuel) disjuncts
        HeuristicValue.INFINITE HeuristicValue.INFINITE
    | .exists_ _ _ body =>
      Formula.get_heuristic_value fadd threshold universal_base tb pg fuel body
    | .forall_ _ _ _ =>
      Formula.get_heuristic_value fadd threshold universal_base tb pg fuel (universal_base f)
    | .timed_literal _ l when =>
      match Formula.get_heuristic_value fadd threshold universal_base tb pg fuel (.literal l) with
      | .value lit => .value (TimedLiteral.get_heuristic_value threshold lit when)
      | other => other

/-- The maps `new_atom_values` and `new_negation_values` and the flag `changed` of one
level. -/
structure LevelState where
  new_atom_values : List (Atom × HeuristicValue)
  new_negation_values : List (Atom × HeuristicValue)
  changed : Bool
deriving Repr

/-- The branch "first level this (negated) atom is achieved": the value of the condition
with its work incremented is inserted in the new map. -/
def first_achieved (cond_value : HeuristicValue) (new_values : List (Atom × HeuristicValue))
    (atom : Atom) : Outcome (List (Atom × HeuristicValue) × Bool) :=
  match cond_value.increment_work with
  | none => .fault .signed_overflow
  | some new_value => .value (AtomValueMap_insert new_values atom new_value, true)

/-- The branch "this (negated) atom has been achieved earlier": the new map gets the minimum
of the new and the old value if that differs from the old value. -/
def achieved_earlier (cond_value old_value : HeuristicValue)
    (new_values : List (Atom × HeuristicValue)) (atom : Atom) (changed : Bool) :
    Outcome (List (Atom × HeuristicValue) × Bool) :=
  match cond_value.increment_work with
  | none => .fault .signed_overflow
  | some new_value0 =>
    let new_value := HeuristicValue.min new_value0 old_value
    if new_value.ne old_value then .value (AtomValueMap_set new_values atom new_value, true)
    else .value (new_values, changed)

/-- The update of the value of the literal added by an effect, in the loop of
`PlanningGraph::PlanningGraph` over the levels. -/
def update_literal (pg : PlanningGraph) (literal : Lit) (cond_value : HeuristicValue)
    (st : LevelState) : Outcome LevelState :=
  match literal with
  | .atom atom =>
    let r :=
      match AtomValueMap_find st.new_atom_values atom with
      | some old_value =>
        achieved_earlier cond_value old_value st.new_atom_values atom st.changed
      | none =>
        match AtomValueMap_find pg.atom_values atom with
        | none => first_achieved cond_value st.new_atom_values atom
        | some old_value =>
          achieved_earlier cond_value old_value st.new_atom_values atom st.changed
    match r with
    | .value (m, changed) => .value { st with new_atom_values := m, changed := changed }
    | .diverged => .diverged
    | .fault e => .fault e
    | .null => .null
  | .neg _ _ atom =>
    let r :=
      match AtomValueMap_find st.new_negation_values atom with
      | some old_value =>
        achieved_earlier cond_value old_value st.new_negation_values atom st.changed
      | none =>
        match AtomValueMap_find pg.negation_values atom with
        | none =>
          if (pg.atom_value atom).is_zero then
            first_achieved cond_value st.new_negation_values atom
          else .value (st.new_negation_values, st.changed)
        | some old_value =>
          achieved_earlier cond_value old_value st.new_negation_values atom st.changed
    match r with
    | .value (m, changed) => .value { st with new_negation_values := m, changed := changed }
    | .diverged => .diverged
    | .fault e => .fault e
    | .null => .null

/-- The body of the loop of `PlanningGraph::PlanningGraph` over the effects of an action that
is applicable at the current level; `eval` is `get_heuristic_value(h, hs, *this, 0)`. The
sets `achievers`, `applicable_actions` and `useful_actions`, which no value depends on, are
left out. -/
def level_effect (fadd fdiv : Flt → Flt → Flt) (threshold : Flt) (action_cost : ActionCost)
    (duration_factor : List (Nat × Flt))
    (eval : Formula → Outcome (HeuristicValue × HeuristicValue)) (pg : PlanningGraph)
    (action : GroundAction) (pre_value start_value : HeuristicValue) (effect : Effect)
    (st : LevelState) : Outcome LevelState :=
  if effect.when = .AT_END && pre_value.is_infinite then .value st
  else
    match eval effect.condition with
    | .diverged => .diverged
    | .fault e => .fault e
    | .null => .null
    | .value (cond_value0, _) =>
      if !cond_value0.is_infinite && !effect.link_condition.is_contradiction then
        match cond_value0.op_add_assign fadd
            (if effect.when = .AT_START then start_value else pre_value) with
        | none => .fault .signed_overflow
        | some cond_value1 =>
          match action.min_duration with
          | none => .fault .runtime_error
          | some min_v =>
            let cond_value2 := cond_value1.increase_makespan fadd (fadd threshold min_v)
            let d := effect_cost fdiv duration_factor effect.literal
              (if action_cost = .UNIT_COST then .fin 1 0 else fadd threshold min_v)
            let cond_value := cond_value2.increase_cost fadd d
            update_literal pg effect.literal cond_value st
      else .value st

/-- The loop over the effects of an action. -/
def level_effects (fadd fdiv : Flt → Flt → Flt) (threshold : Flt) (action_cost : ActionCost)
    (duration_factor : List (Nat × Flt))
    (eval : Formula → Outcome (HeuristicValue × HeuristicValue)) (pg : PlanningGraph)
    (action : GroundAction) (pre_value start_value : HeuristicValue) :
    List Effect → LevelState → Outcome LevelState
  | [], st => .value st
  | effect :: rest, st =>
    match level_effect fadd fdiv threshold action_cost duration_factor eval pg action pre_value
        start_value effect st with
    | .value st1 =>
      level_effects fadd fdiv threshold action_cost duration_factor eval pg action pre_value
        start_value rest st1
    | other => other

/-- The loop over the ground actions at one level. -/
def level_actions (fadd fdiv : Flt → Flt → Flt) (threshold : Flt) (action_cost : ActionCost)
    (duration_factor : List (Nat × Flt))
    (eval : Formula → Outcome (HeuristicValue × HeuristicValue)) (pg : PlanningGraph) :
    List GroundAction → LevelState → Outcome LevelState
  | [], st => .value st
  | action :: rest, st =>
    match eval action.action.condition with
    | .diverged => .diverged
    | .fault e => .fault e
    | .null => .null
    | .value (pre_value, start_value) =>
      if !start_value.is_infinite then
        match level_effects fadd fdiv threshold action_cost duration_factor eval pg action
            pre_value start_value action.action.effects st with
        | .value st1 =>
          level_actions fadd fdiv threshold action_cost duration_factor eval pg rest st1
        | other => other
      else level_actions fadd fdiv threshold action_cost duration_factor eval pg rest st

/-- The loops that add the achieved (negated) atoms to the previously achieved ones. -/
def merge_values (values new_values : List (Atom × HeuristicValue)) :
    List (Atom × HeuristicValue) :=
  new_values.foldl (fun m e => AtomValueMap_set m e.1 e.2) values

/-- The loop `do ... while (changed)` of `PlanningGraph::PlanningGraph` over the levels; the
source does not bound the number of levels, so the loop is given fuel. `fuel_f` is the fuel
of the evaluation of a formula. -/
def level_loop (fadd fdiv : Flt → Flt → Flt) (threshold : Flt) (action_cost : ActionCost)
    (duration_factor : List (Nat × Flt)) (universal_base : Formula → Formula) (tb : Tables)
    (fuel_f : Nat) (actions : List GroundAction) : Nat → PlanningGraph → Outcome PlanningGraph
  | 0, _ => .diverged
  | fuel + 1, pg =>
    match level_actions fadd fdiv threshold action_cost duration_factor
        (Formula.get_heuristic_value fadd threshold universal_base tb pg fuel_f) pg actions
        ⟨[], [], false⟩ with
    | .diverged => .diverged
    | .fault e => .fault e
    | .null => .null
    | .value st =>
      let pg1 : PlanningGraph :=
        { pg with
          atom_values := merge_values pg.atom_values st.new_atom_values
          negation_values := merge_values pg.negation_values st.new_negation_values }
      if st.changed then
        level_loop fadd fdiv threshold action_cost duration_factor universal_base tb fuel_f
          actions fuel pg1
      else .value pg1

/-- The loops that map the predicates to the achievable (negated) ground atoms: the map of
the values is read in the order of its keys, the addresses of the atoms. -/
def predicate_map (values : List (Atom × HeuristicValue)) : List (Int × Atom) :=
  ((values.map (fun e => e.1)).insertionSort (fun a b => a.addr ≤ b.addr)).map
    (fun a => (a.predicate, a))

/-- Source: `PlanningGraph::PlanningGraph(const Problem&, const Parameters&)`, as far as the
values of the literals go. `actions` is the list that `problem.instantiated_actions` fills,
`is_static` is `PredicateTable::is_static`, `fadd` and `fdiv` are float addition and
division. -/
def PlanningGraph.make (fadd fdiv : Flt → Flt → Flt) (threshold : Flt)
    (is_static : Int → Bool) (universal_base : Formula → Formula) (tb : Tables)
    (fuel_f fuel : Nat) (problem : Problem) (actions : List GroundAction)
    (action_cost : ActionCost) : Outcome PlanningGraph :=
  match duration_factors threshold action_cost actions problem.timed_actions with
  | .error e => .fault e
  | .ok duration_factor =>
    match initial_values is_static threshold problem.init_action.effects [] with
    | .error e => .fault e
    | .ok atom_values =>
      let pg0 := timed_values fdiv action_cost duration_factor problem.timed_actions
        ⟨atom_values, [], [], []⟩
      match level_loop fadd fdiv threshold action_cost duration_factor universal_base tb fuel_f
          actions fuel pg0 with
      | .value pg =>
        .value
          { pg with
            predicate_atoms := predicate_map pg.atom_values
            predicate_negations := predicate_map pg.negation_values }
      | other => other

/-- The float is not negative: zero or more, or plus infinity. -/
def Flt.nonneg : Flt → Bool
  | .fin m _ => decide (0 ≤ m)
  | .pinf => true
  | _ => false

/-- The float comparison `a <= b`. -/
def Flt.le (a b : Flt) : Bool := a.lt b || a.eq b

/-- Exact addition of floats, as on operands whose sum needs no rounding. -/
def Ex.fadd_exact : Flt → Flt → Flt
  | .nan, _ => .nan
  | _, .nan => .nan
  | .fin a ea, .fin b eb => .fin (a * 2 ^ eb + b * 2 ^ ea) (ea + eb)
  | .pinf, .ninf => .nan
  | .ninf, .pinf => .nan
  | .pinf, _ => .pinf
  | .ninf, _ => .ninf
  | .fin _ _, .pinf => .pinf
  | .fin _ _, .ninf => .ninf

/-- Division of floats by one: the quotient of a float by the float `1.0f` is the float;
no other quotient is read in the examples, and it is given as not a number. -/
def Ex.fdiv_one : Flt → Flt → Flt
  | x, .fin 1 0 => x
  | _, _ => .nan

/-- The invariant of the values of the planning graph: the cost is not negative, the work
is an `int` that is not negative, the makespan is not negative. -/
def HeuristicValue.Good (v : HeuristicValue) : Prop :=
  v.add_cost.lt (.fin 0 0) = false ∧ 0 ≤ v.add_work ∧ v.add_work ≤ INT_MAX
    ∧ v.makespan.nonneg = true

/-- Every value of the map is good. -/
def AllGood (m : List (Atom × HeuristicValue)) : Prop := ∀ e ∈ m, e.2.Good

/-- Every duration factor is a float that is not negative. -/
def DurationFactorsGood (m : List (Nat × Flt)) : Prop := ∀ e ∈ m, e.2.nonneg = true

/-- The value that level 0 of the planning graph gives to an initial atom. -/
def initial_value (is_static : Int → Bool) (threshold : Flt) (atom : Atom) : HeuristicValue :=
  if is_static atom.predicate then HeuristicValue.ZERO threshold
  else HeuristicValue.ZERO_COST_UNIT_WORK threshold

/-- The values of the map are good values, and every initial atom has the value of level 0. -/
def GraphInv (is_static : Int → Bool) (threshold : Flt) (init : List Effect)
    (pg : PlanningGraph) : Prop :=
  AllGood pg.atom_values ∧ AllGood pg.negation_values
    ∧ ∀ e ∈ init, ∃ atom, e.literal = .atom atom
        ∧ AtomValueMap_find pg.atom_values atom = some (initial_value is_static threshold atom)

/-- The values of the new maps of a level are good values, and no initial atom is a key of
the new map of the atoms. -/
def LevelInv (init : List Effect) (st : LevelState) : Prop :=
  AllGood st.new_atom_values ∧ AllGood st.new_negation_values
    ∧ ∀ e ∈ init, ∀ atom, e.literal = .atom atom →
        AtomValueMap_find st.new_atom_values atom = none

/-- The static atom `s(o1)`. -/
def Ex.atom_s : Atom := ⟨3, 3, 2, [Ex.o1]⟩

/-- The action of the initial conditions `p(o1)` and `s(o1)`. -/
def Ex.init_ps : Action :=
  ⟨"<init 0>", false, none, .constant true,
    [⟨[], .constant true, .constant true, .atom Ex.atom_p, .AT_END⟩,
     ⟨[], .constant true, .constant true, .atom Ex.atom_s, .AT_END⟩]⟩

/-- The problem with the initial atoms `p(o1)` and `s(o1)`, the goal `r(o2)` and no timed
initial literal. -/
def Ex.problem_ps : Problem := ⟨.literal (.atom Ex.atom_r), Ex.init_ps, [], false⟩

/-- The ground action with the precondition `p(o1)`, the effects `p(o1)` and `r(o2)` at its
end and the minimum duration 1. -/
def Ex.action_pr : GroundAction :=
  ⟨⟨"a", false, none, .literal (.atom Ex.atom_p),
     [⟨[], .constant true, .constant true, .atom Ex.atom_p, .AT_END⟩,
      ⟨[], .constant true, .constant true, .atom Ex.atom_r, .AT_END⟩]⟩,
   some (.fin 1 0)⟩

/-- The predicate of `s` is static, the others are dynamic. -/
def Ex.static_s (predicate : Int) : Bool := predicate == 2

/-- The planning graph of the problem with the initial atoms `p(o1)` and `s(o1)` and the
action that adds `p(o1)` and `r(o2)`, for relative action costs. -/
def Ex.pg_ps : PlanningGraph :=
  ⟨[(Ex.atom_p, ⟨.fin 0 0, 1, .fin 1 7⟩), (Ex.atom_s, ⟨.fin 0 0, 0, .fin 1 7⟩),
    (Ex.atom_r, ⟨.fin 129 7, 2, .fin 16640 14⟩)],
   [], [(0, Ex.atom_p), (1, Ex.atom_r), (2, Ex.atom_s)], []⟩

/-- The float `0.01f`, the value of `Orderings::threshold` in orderings.cpp. -/
def Ex.threshold_src : Flt := .fin 5368709 29

/-- The problem with the initial atoms `p(o1)` and `s(o1)` and the timed initial literal
`r(o2)` at the time `-0.02f`. -/
def Ex.problem_neg : Problem :=
  ⟨.constant true, Ex.init_ps,
    [(.fin (-5368709) 28,
      ⟨"<init -0.02>", false, none, .constant true,
        [⟨[], .constant true, .constant true, .atom Ex.atom_r, .AT_END⟩]⟩)],
    false⟩

/-- The ground action with the precondition `r(o2)`, the effect `p(o1)` and the minimum
duration 0 of an action that is not durative. -/
def Ex.action_rp : GroundAction :=
  ⟨⟨"a", false, none, .literal (.atom Ex.atom_r),
     [⟨[], .constant true, .constant true, .atom Ex.atom_p, .AT_END⟩]⟩,
   some (.fin 0 0)⟩

/-- The planning graph of the problem with the timed initial literal at the time `-0.02f`,
for action costs that are durations; the cost of `p(o1)` is the float `-0.01f`. -/
def Ex.pg_neg : PlanningGraph :=
  ⟨[(Ex.atom_p, ⟨.fin (-1441151848546304) 57, 2, .fin 5368709 29⟩),
    (Ex.atom_s, ⟨.fin 0 0, 0, .fin 5368709 29⟩),
    (Ex.atom_r, ⟨.fin (-5368709) 28, 1, .fin (-5368709) 28⟩)],
   [], [(0, Ex.atom_p), (1, Ex.atom_r), (2, Ex.atom_s)], []⟩

/-! ## Theorems -/

/-- C1, evaluated: `is_unifiable` of the lifted atom `P(o1, ?x)` with itself
returns false, for every table and fuel, because the test `term1 != term2` of
the two objects at position 0 holds when they are the same object; the call
returns at that test, before any binding is collected or added. -/
theorem is_unifiable_same_object_fails (tb : Tables) (fuel : Nat) :
    Bindings.is_unifiable tb fuel [] Ex.P_o1_x 1 Ex.P_o1_x 1 = .value (false, []) := by
  rfl

/-- C2, evaluated: with the empty bindings, unifying the lifted `P(o1, ?x)`
with the ground instance `P(o1, o2)` returns false, and so does `P(?x, ?x)`
with `P(o1, o1)`; both calls return at the test of the objects, before the
collected bindings are added. -/
theorem unify_ground_instance_fails (fuel : Nat) :
    Bindings.EMPTY.unify Ex.tb fuel [] Ex.P_o1_x 1 Ex.P_o1_o2 0 = .value (false, [])
    ∧ Bindings.EMPTY.unify Ex.tb fuel [] Ex.P_x_x 1 Ex.P_o1_o1 0
        = .value (false, [⟨Ex.x, 1, Ex.o1, 0, true⟩]) := by
  refine ⟨rfl, rfl⟩

/-- C6, evaluated: with the action domain `{<o1 o2>}`, whose two columns are
both singletons, `EMPTY.add(1, action(?q ?p), pg)` returns a collection whose
only varset is the one of the last column, so `?q` is bound to no object: no
varset of the chain holds `?q`, and `get_binding` returns the variable. -/
theorem add_step_two_singleton_columns :
    Bindings.EMPTY.add_step Ex.tb 1 (some [Ex.q, Ex.p]) (some Ex.D1) false
      = .ok (some ⟨[⟨some Ex.o2, [(Ex.p, 1)], [], 0⟩], 1, [⟨1, [Ex.q, Ex.p], Ex.D1⟩]⟩)
    ∧ (⟨[⟨some Ex.o2, [(Ex.p, 1)], [], 0⟩], 1, [⟨1, [Ex.q, Ex.p], Ex.D1⟩]⟩ : Bindings).get_binding
        Ex.q 1 = Ex.q := by
  refine ⟨rfl, rfl⟩

/-- C8: `combine` of two distinct varsets that both carry a constant returns
null and leaves the chain as it was, whatever the two constants are: the test
`constant != vs.constant` compares the addresses of the two private copies. -/
theorem combine_two_pinned_is_null (tb : Tables) (self vs : VarSetPtr) (vsc : List VarSet)
    (c1 c2 : Object) (h1 : self.vs.constant = some c1) (h2 : vs.vs.constant = some c2)
    (hd : self.addr ≠ vs.addr) :
    self.combine tb vsc vs = (none, vsc) := by
  have hp : self.constant_ptr ≠ vs.constant_ptr := by
    simp [VarSetPtr.constant_ptr, h1, h2, hd]
  simp [VarSetPtr.combine, h1, h2, hp]

/-- C8, at a concrete input: two distinct varsets `{?x}` and `{?y}` without
excluded variables, both pinned to `o1`. -/
theorem combine_two_pinned_is_null_witness :
    (⟨1, ⟨some Ex.o1, [(Ex.x, 1)], [], 0⟩⟩ : VarSetPtr).combine Ex.tb
        [⟨some Ex.o1, [(Ex.y, 1)], [], 0⟩, ⟨some Ex.o1, [(Ex.x, 1)], [], 0⟩]
        ⟨2, ⟨some Ex.o1, [(Ex.y, 1)], [], 0⟩⟩
      = (none, [⟨some Ex.o1, [(Ex.y, 1)], [], 0⟩, ⟨some Ex.o1, [(Ex.x, 1)], [], 0⟩]) :=
  combine_two_pinned_is_null Ex.tb _ _ _ Ex.o1 Ex.o1 rfl rfl (by decide)

/-- C10, refuted as stated: with two regular steps of which step 2 is ordered
before step 1, `refine(1 < 2)` does not return none; it constructs the copy
and reads the matrix of the copy. -/
theorem binary_refine_against_order_not_none :
    Ex.two_before_one.is_before 2 1 = .ok true
    ∧ Ex.two_before_one.refine ⟨1, StepTime.AT_END, 2, StepTime.AT_START⟩ ≠ .ok none := by
  constructor
  · rfl
  · decide

/-- C10, amended: `BinaryOrderings::refine` has no null result, whatever the
collection and the ordering: the call returns the receiver or does not return;
when step `i` is already before step `j`, both regular and distinct,
`refine(i < j)` returns the receiver; and when step `j` is before step `i` and
`i` is not before `j`, the call does not return none either: it reads outside
the matrix of the copy it makes. -/
theorem binary_refine_never_none (o : BinaryOrderings) (ordering : Ordering) :
    o.refine ordering ≠ .ok none
    ∧ (o.refine ordering = .ok (some o) ∨ o.refine ordering = .error .out_of_range)
    ∧ (ordering.before_id ≠ 0 → ordering.after_id ≠ GOAL_ID
        → ordering.before_id ≠ GOAL_ID → ordering.after_id ≠ 0
        → ordering.before_id ≠ ordering.after_id
        → o.is_before ordering.before_id ordering.after_id = .ok true
        → o.refine ordering = .ok (some o))
    ∧ (ordering.before_id ≠ 0 → ordering.after_id ≠ GOAL_ID
        → ordering.before_id ≠ GOAL_ID → ordering.after_id ≠ 0
        → ordering.before_id ≠ ordering.after_id
        → o.is_before ordering.after_id ordering.before_id = .ok true
        → o.is_before ordering.before_id ordering.after_id = .ok false
        → o.refine ordering = .error .out_of_range) := by
  have hidx : ∀ (r c : Nat) (e : Fault), index2 o.before r c = .error e → e = .out_of_range := by
    intro r c e h
    unfold index2 at h
    split at h
    · cases h; rfl
    · split at h
      · cases h; rfl
      · cases h
  have hbefore : ∀ (a b : Nat) (e : Fault), o.is_before a b = .error e → e = .out_of_range := by
    intro a b e h
    unfold BinaryOrderings.is_before at h
    split at h
    · cases h
    · split at h
      · exact hidx _ _ e h
      · exact hidx _ _ e h
  have hcopy : ordering.before_id ≠ ordering.after_id →
      (o.copy).fill_transitive ordering = .error .out_of_range := by
    intro hne
    have h0 : (o.copy).is_before ordering.before_id ordering.after_id
        = .error .out_of_range := by
      simp only [BinaryOrderings.is_before, BinaryOrderings.copy, index2, if_neg hne]
      split <;> rfl
    simp only [BinaryOrderings.fill_transitive, h0]
  have hcase : o.refine ordering = .ok (some o) ∨ o.refine ordering = .error .out_of_range := by
    unfold BinaryOrderings.refine
    split
    · by_cases hne : ordering.before_id = ordering.after_id
      · left
        simp [BinaryOrderings.possibly_not_before, BinaryOrderings.possibly_after, hne]
      · cases hp : o.possibly_not_before ordering.before_id ordering.before_time
            ordering.after_id ordering.after_time with
        | error e =>
          right
          have he : e = .out_of_range := by
            unfold BinaryOrderings.possibly_not_before BinaryOrderings.possibly_after at hp
            rw [if_neg hne] at hp
            split at hp
            · cases hp
            · split at hp
              · cases hp
              · cases hb : o.is_before ordering.before_id ordering.after_id with
                | error e2 =>
                  rw [hb] at hp
                  simp only [Except.error.injEq] at hp
                  rw [← hp]; exact hbefore _ _ _ hb
                | ok r => rw [hb] at hp; cases hp
          rw [he]
        | ok r =>
          cases r with
          | false => left; rfl
          | true => right; simp only [hcopy hne]
    · exact Or.inl rfl
  refine ⟨?_, hcase, ?_, ?_⟩
  · rcases hcase with h | h <;> rw [h] <;> simp
  · intro h1 h2 h3 h4 h5 h6
    simp [BinaryOrderings.refine, BinaryOrderings.possibly_not_before,
      BinaryOrderings.possibly_after, h1, h2, h3, h4, h5, h6]
  · intro h1 h2 h3 h4 h5 _ h7
    simp [BinaryOrderings.refine, BinaryOrderings.possibly_not_before,
      BinaryOrderings.possibly_after, h1, h2, h3, h4, h5, h7, hcopy h5]

/-- C10, amended, at concrete inputs: step 1 is before step 2 and `refine(1 < 2)` returns
the receiver; step 2 is before step 1 and `refine(1 < 2)` does not return. -/
theorem binary_refine_never_none_witness :
    (⟨[[true, false]]⟩ : BinaryOrderings).refine ⟨1, StepTime.AT_END, 2, StepTime.AT_START⟩
      = .ok (some ⟨[[true, false]]⟩)
    ∧ Ex.two_before_one.refine ⟨1, StepTime.AT_END, 2, StepTime.AT_START⟩
      = .error .out_of_range :=
  ⟨(binary_refine_never_none ⟨[[true, false]]⟩ ⟨1, StepTime.AT_END, 2, StepTime.AT_START⟩).2.2.1
    (by decide) (by decide) (by decide) (by decide) (by decide) rfl,
   (binary_refine_never_none Ex.two_before_one ⟨1, StepTime.AT_END, 2, StepTime.AT_START⟩).2.2.2
    (by decide) (by decide) (by decide) (by decide) (by decide) rfl rfl⟩

theorem usub_eq (a b : Nat) (hb : b ≤ a) (ha : a < 2 ^ 64) : usub a b = a - b := by
  unfold usub
  have h1 : b % 2 ^ 64 = b := Nat.mod_eq_of_lt (by omega)
  rw [h1]
  have : a + 2 ^ 64 - b = (a - b) + 2 ^ 64 := by omega
  rw [this, Nat.add_mod_right]
  exact Nat.mod_eq_of_lt (by omega)

theorem umul_two (a : Nat) (ha : a < 2 ^ 63) : umul 2 a = 2 * a := by
  unfold umul
  exact Nat.mod_eq_of_lt (by omega)

theorem get_distance_eq_read (store : List IntVector) (o : TemporalOrderings) (u v : Nat)
    (hu : u < 2 ^ 33) (hv : v < 2 ^ 33) (h : u ≠ v) :
    o.get_distance store u v = o.read store (cell u v).1 (cell u v).2 := by
  unfold TemporalOrderings.get_distance cell
  simp only [h, if_false]
  by_cases hlt : u < v
  · have h1 : usub v 1 = v - 1 := usub_eq v 1 (by omega) (by omega)
    have h2 : max u v = v := by omega
    simp [hlt, h1, h2]
  · have h0 : umul 2 u = 2 * u := umul_two u (by omega)
    have h1 : usub u 1 = u - 1 := usub_eq u 1 (by omega) (by omega)
    have h2 : usub (2 * u) 1 = 2 * u - 1 := usub_eq _ 1 (by omega) (by omega)
    have h3 : usub (2 * u - 1) v = 2 * u - 1 - v := usub_eq _ v (by omega) (by omega)
    have h4 : max u v = u := by omega
    simp [hlt, h0, h1, h2, h3, h4]

theorem cell_inj (u v u2 v2 : Nat) (h : u ≠ v) (h2 : u2 ≠ v2) (hc : cell u v = cell u2 v2) :
    u = u2 ∧ v = v2 := by
  unfold cell at hc
  simp only [Prod.mk.injEq] at hc
  obtain ⟨hr, hcl⟩ := hc
  split at hcl <;> split at hcl <;> omega

theorem cell_bound (u v n : Nat) (h : u ≠ v) (hu : u ≤ n) (hv : v ≤ n) :
    (cell u v).1 < n ∧ (cell u v).2 < 2 * ((cell u v).1 + 1) := by
  unfold cell
  simp only
  split <;> omega

theorem set_distance_eq_write (st : TState) (u v : Nat) (d : Int)
    (hu : u < 2 ^ 33) (hv : v < 2 ^ 33) (h : u ≠ v) :
    st.set_distance u v d = st.write (cell u v).1 (cell u v).2 d := by
  unfold TState.set_distance TState.write cell
  simp only [h, ne_eq, not_false_eq_true, if_true]
  have h1 : usub (max u v) 1 = max u v - 1 := usub_eq _ 1 (by omega) (by omega)
  by_cases hlt : u < v
  · simp [hlt, h1]
  · have h0 : umul 2 u = 2 * u := umul_two u (by omega)
    have h2 : usub (2 * u) 1 = 2 * u - 1 := usub_eq _ 1 (by omega) (by omega)
    have h3 : usub (2 * u - 1) v = 2 * u - 1 - v := usub_eq _ v (by omega) (by omega)
    simp [hlt, h0, h1, h2, h3]

theorem write_spec (st : TState) (n base : Nat) (h : st.WF n base) (r c : Nat) (d : Int)
    (hr : r < n) (hc : c < 2 * (r + 1)) :
    ∃ st2, st.write r c d = .ok st2 ∧ st2.WF n base
      ∧ (∀ r2 c2, r2 < n → st2.orderings.read st2.store r2 c2
          = if r2 = r ∧ c2 = c then .ok d else st.orderings.read st.store r2 c2)
      ∧ (∀ a : Nat, a < base → st2.store[a]? = st.store[a]?)
      ∧ st2.orderings.goal_achievers = st.orderings.goal_achievers := by
  obtain ⟨a, fv, hda, hsa, hlen⟩ := h.rows r hr
  have ha_lt : a < st.store.length := by
    by_contra hcon
    have : st.store[a]? = none := List.getElem?_eq_none (by omega)
    rw [this] at hsa; cases hsa
  cases hown : own_data_find st.own_data r with
  | some a2 =>
    obtain ⟨hda2, hbase⟩ := h.own r a2 hown
    have haa : a2 = a := by rw [hda] at hda2; cases hda2; rfl
    subst haa
    refine ⟨{ st with store := st.store.set a2 (fv.set c d) }, ?_, ?_, ?_, ?_, rfl⟩
    · unfold TState.write
      simp only [hown, hsa]
      rw [if_pos (by omega)]
    · refine ⟨h.small, h.len, ?_, h.own, h.own_inj, h.notown, ?_⟩
      · intro r2 hr2
        obtain ⟨b, fv2, hdb, hsb, hlen2⟩ := h.rows r2 hr2
        by_cases hab : b = a2
        · subst hab
          have : r2 = r := h.own_inj r2 r b hdb hda hbase
          subst this
          refine ⟨b, fv.set c d, hdb, ?_, by simp [hlen]⟩
          simp [List.getElem?_set, ha_lt]
        · refine ⟨b, fv2, hdb, ?_, hlen2⟩
          rw [List.getElem?_set_ne (Ne.symm hab)]
          exact hsb
      · simpa using h.base_le
    · intro r2 c2 hr2
      obtain ⟨b, fv2, hdb, hsb, hlen2⟩ := h.rows r2 hr2
      unfold TemporalOrderings.read
      simp only [hdb]
      by_cases hab : b = a2
      · subst hab
        have : r2 = r := h.own_inj r2 r b hdb hda hbase
        subst this
        have hfv : fv2 = fv := by rw [hsa] at hsb; cases hsb; rfl
        subst hfv
        simp only [List.getElem?_set, ha_lt, if_true, true_and]
        rw [hsa]
        by_cases hcc : c2 = c
        · subst hcc
          simp [hlen2, hc]
        · have : ¬ c = c2 := fun e => hcc e.symm
          simp [hcc, this]
      · have hne : ¬ (r2 = r ∧ c2 = c) := by
          rintro ⟨e, -⟩
          subst e
          rw [hda] at hdb; cases hdb; exact hab rfl
        simp only [hne, if_false]
        rw [List.getElem?_set_ne (Ne.symm hab)]
    · intro b hb
      rw [List.getElem?_set_ne (by omega)]
  | none =>
    have ha_base : a < base := h.notown r a hda hown
    refine ⟨{ store := st.store ++ [fv.set c d]
              orderings := { st.orderings with
                distance := st.orderings.distance.set r st.store.length }
              own_data := (r, st.store.length) :: st.own_data }, ?_, ?_, ?_, ?_, rfl⟩
    · unfold TState.write
      simp only [hown, hda, hsa]
      rw [if_pos (by omega)]
    · have hrl : r < st.orderings.distance.length := by rw [h.len]; exact hr
      refine ⟨h.small, by simp [h.len], ?_, ?_, ?_, ?_, ?_⟩
      · intro r2 hr2
        by_cases hrr : r2 = r
        · subst hrr
          refine ⟨st.store.length, fv.set c d, ?_, ?_, by simp [hlen]⟩
          · simp [List.getElem?_set, hrl]
          · simp
        · obtain ⟨b, fv2, hdb, hsb, hlen2⟩ := h.rows r2 hr2
          have hb_lt : b < st.store.length := by
            by_contra hcon
            have : st.store[b]? = none := List.getElem?_eq_none (by omega)
            rw [this] at hsb; cases hsb
          refine ⟨b, fv2, ?_, ?_, hlen2⟩
          · simp only [List.get?_eq_getElem?] at hdb ⊢
            rw [List.getElem?_set_ne (fun e => hrr e.symm)]
            exact hdb
          · simp only [List.get?_eq_getElem?] at hsb ⊢
            rw [List.getElem?_append_left hb_lt]
            exact hsb
      · intro r2 a2 hf
        simp only [own_data_find] at hf
        by_cases hrr : r = r2
        · subst hrr
          simp only [if_true] at hf
          cases hf
          refine ⟨by simp [List.getElem?_set, hrl], h.base_le⟩
        · simp only [hrr, if_false] at hf
          obtain ⟨h1, h2⟩ := h.own r2 a2 hf
          refine ⟨?_, h2⟩
          rw [List.getElem?_set_ne hrr]
          exact h1
      · intro r2 r3 a2 h2 h3 hb
        have key : ∀ r4, r ≠ r4 →
            (st.orderings.distance.set r st.store.length)[r4]? = some st.store.length → False := by
          intro r4 hne h4
          rw [List.getElem?_set_ne hne] at h4
          have hr4 : r4 < n := by
            by_contra hcon
            have : st.orderings.distance[r4]? = none :=
              List.getElem?_eq_none (by rw [h.len]; omega)
            rw [this] at h4; cases h4
          obtain ⟨b, fv2, hdb, hsb, -⟩ := h.rows r4 hr4
          rw [hdb] at h4; cases h4
          have : st.store[st.store.length]? = none := List.getElem?_eq_none (le_refl _)
          rw [this] at hsb; cases hsb
        by_cases e2 : r = r2 <;> by_cases e3 : r = r3
        · omega
        · exfalso
          subst e2
          rw [List.getElem?_set_self hrl] at h2
          cases h2
          exact key r3 e3 h3
        · exfalso
          subst e3
          rw [List.getElem?_set_self hrl] at h3
          cases h3
          exact key r2 e2 h2
        · rw [List.getElem?_set_ne e2] at h2
          rw [List.getElem?_set_ne e3] at h3
          exact h.own_inj r2 r3 a2 (by simpa using h2) (by simpa using h3) hb
      · intro r2 a2 hd2 hf
        simp only [own_data_find] at hf
        by_cases hrr : r = r2
        · simp [hrr] at hf
        · simp only [hrr, if_false] at hf
          rw [List.getElem?_set_ne hrr] at hd2
          exact h.notown r2 a2 (by simpa using hd2) hf
      · simp only [List.length_append, List.length_singleton]
        have := h.base_le
        omega
    · intro r2 c2 hr2
      have hrl : r < st.orderings.distance.length := by rw [h.len]; exact hr
      unfold TemporalOrderings.read
      by_cases hrr : r2 = r
      · subst hrr
        simp only [List.getElem?_set, hrl, if_true, true_and]
        simp only [List.getElem?_append_right (le_refl _), Nat.sub_self, List.getElem?_cons_zero,
          hda, hsa]
        by_cases hcc : c2 = c
        · subst hcc
          simp [hlen, hc]
        · have : ¬ c = c2 := fun e => hcc e.symm
          simp [hcc, this]
      · obtain ⟨b, fv2, hdb, hsb, hlen2⟩ := h.rows r2 hr2
        have hb_lt : b < st.store.length := by
          by_contra hcon
          have : st.store[b]? = none := List.getElem?_eq_none (by omega)
          rw [this] at hsb; cases hsb
        rw [List.getElem?_set_ne (fun e => hrr e.symm), hdb]
        simp only [hrr, false_and, if_false]
        rw [List.getElem?_append_left hb_lt]
    · intro b hb
      have := h.base_le
      rw [List.getElem?_append_left (by omega)]

theorem TState.d_self (st : TState) (u : Nat) : st.d u u = 0 := by
  simp [TState.d, TemporalOrderings.dist, TemporalOrderings.get_distance]

theorem get_distance_ok (st : TState) (n base : Nat) (h : st.WF n base) (u v : Nat)
    (hu : u ≤ n) (hv : v ≤ n) :
    st.orderings.get_distance st.store u v = .ok (st.d u v) := by
  have hs := h.small
  by_cases huv : u = v
  · subst huv
    simp [TState.d, TemporalOrderings.dist, TemporalOrderings.get_distance]
  · have hb := cell_bound u v n huv hu hv
    obtain ⟨a, fv, hda, hsa, hlen⟩ := h.rows _ hb.1
    have hget : ∃ x, fv[(cell u v).2]? = some x := by
      have : (cell u v).2 < fv.length := by rw [hlen]; exact hb.2
      exact ⟨fv[(cell u v).2], List.getElem?_eq_getElem this⟩
    obtain ⟨x, hx⟩ := hget
    have hrd : st.orderings.get_distance st.store u v = .ok x := by
      rw [get_distance_eq_read _ _ u v (by omega) (by omega) huv]
      simp [TemporalOrderings.read, hda, hsa, hx]
    simp [TState.d, TemporalOrderings.dist, hrd]

theorem set_distance_spec (st : TState) (n base : Nat) (h : st.WF n base) (l k : Nat) (x : Int)
    (hl : l ≤ n) (hk : k ≤ n) :
    ∃ st2, st.set_distance l k x = .ok st2 ∧ st2.WF n base
      ∧ (∀ u v, u ≤ n → v ≤ n → st2.d u v = if u = l ∧ v = k ∧ l ≠ k then x else st.d u v)
      ∧ (∀ a : Nat, a < base → st2.store[a]? = st.store[a]?)
      ∧ st2.orderings.goal_achievers = st.orderings.goal_achievers := by
  have hs := h.small
  by_cases hlk : l = k
  · subst hlk
    refine ⟨st, by simp [TState.set_distance], h, ?_, fun _ _ => rfl, rfl⟩
    intro u v _ _
    simp
  · have hb := cell_bound l k n hlk hl hk
    obtain ⟨st2, hw, hwf, hread, hpre, hga⟩ := write_spec st n base h _ _ x hb.1 hb.2
    refine ⟨st2, ?_, hwf, ?_, hpre, hga⟩
    · rw [set_distance_eq_write st l k x (by omega) (by omega) hlk]
      exact hw
    · intro u v hu hv
      by_cases huv : u = v
      · subst huv
        have : ¬ (u = l ∧ u = k ∧ l ≠ k) := by
          rintro ⟨e1, e2, e3⟩
          exact e3 (e1.symm.trans e2)
        simp [this, TState.d_self]
      · have hb2 := cell_bound u v n huv hu hv
        have e1 : st2.orderings.get_distance st2.store u v
            = st2.orderings.read st2.store (cell u v).1 (cell u v).2 :=
          get_distance_eq_read _ _ u v (by omega) (by omega) huv
        have e2 : st.orderings.get_distance st.store u v
            = st.orderings.read st.store (cell u v).1 (cell u v).2 :=
          get_distance_eq_read _ _ u v (by omega) (by omega) huv
        have e3 := hread (cell u v).1 (cell u v).2 hb2.1
        by_cases hsame : u = l ∧ v = k
        · obtain ⟨rfl, rfl⟩ := hsame
          simp only [true_and, and_self, if_true] at e3
          simp [TState.d, TemporalOrderings.dist, e1, e3, hlk]
        · have hc : ¬ ((cell u v).1 = (cell l k).1 ∧ (cell u v).2 = (cell l k).2) := by
            rintro ⟨c1, c2⟩
            exact hsame (cell_inj u v l k huv hlk (Prod.ext c1 c2))
          have hc2 : ¬ (u = l ∧ v = k ∧ l ≠ k) := fun hh => hsame ⟨hh.1, hh.2.1⟩
          simp only [hc, if_false] at e3
          simp only [hc2, if_false]
          simp [TState.d, TemporalOrderings.dist, e1, e2, e3]

theorem wrap32_eq (x : Int) (h1 : -2147483648 ≤ x) (h2 : x < 2147483648) : wrap32 x = x := by
  unfold wrap32
  omega

theorem FillInv.row (D : Nat → Nat → Int) (n base i j : Nat) (dist : Int)
    (store0 : List IntVector) (ga : List Nat) (st : TState)
    (h : FillInv D n base i j dist store0 ga st) (hi : i ≤ n) (hij : dist ≤ D i j)
    (v : Nat) (hv : v ≤ n) : st.d i v = D i v := by
  rcases h.ent i v hi hv with e | ⟨_, _, e1, e2⟩
  · exact e
  · omega

theorem FillInv.col (D : Nat → Nat → Int) (n base i j : Nat) (dist : Int)
    (store0 : List IntVector) (ga : List Nat) (st : TState)
    (h : FillInv D n base i j dist store0 ga st) (hj : j ≤ n) (hij : dist ≤ D i j)
    (u : Nat) (hu : u ≤ n) : st.d u j = D u j := by
  rcases h.ent u j hu hj with e | ⟨_, _, e1, e2⟩
  · exact e
  · omega

theorem INT_MAX_val : INT_MAX = 2147483647 := rfl

theorem fill_inner_good (D : Nat → Nat → Int) (n base i j k : Nat) (dist : Int)
    (store0 : List IntVector) (ga : List Nat) (hD : GoodMatrix D n)
    (hi : i ≤ n) (hj : j ≤ n) (hk : k ≤ n) (hd0 : 0 ≤ dist) (hd1 : dist ≤ 1)
    (hij : dist ≤ D i j) (hik : D i k < INT_MAX) :
    ∀ (ls : List Nat) (st : TState), (∀ l ∈ ls, l ≤ n) →
      FillInv D n base i j dist store0 ga st →
      ∃ st2, TState.fill_inner j dist k (D i k) ls st = .ok (true, st2)
        ∧ FillInv D n base i j dist store0 ga st2 := by
  intro ls
  induction ls with
  | nil =>
    intro st _ hinv
    exact ⟨st, rfl, hinv⟩
  | cons l ls ih =>
    intro st hls hinv
    have hl : l ≤ n := hls l (List.mem_cons_self _ _)
    have hls2 : ∀ x ∈ ls, x ≤ n := fun x hx => hls x (List.mem_cons_of_mem _ hx)
    have hcol : st.d l j = D l j := FillInv.col D n base i j dist store0 ga st hinv hj hij l hl
    have hbik := hD.bnd i k hi hk
    rw [INT_MAX_val] at hik
    have hbik2 : -536870912 ≤ D i k ∧ D i k ≤ 536870912 := by
      rcases hbik with e | e
      · rw [INT_MAX_val] at e; omega
      · exact e
    unfold TState.fill_inner
    rw [get_distance_ok st n base hinv.wf l j hl hj, hcol]
    simp only
    by_cases hlj : D l j < INT_MAX
    · rw [if_pos hlj]
      rw [INT_MAX_val] at hlj
      have hblj : -536870912 ≤ D l j ∧ D l j ≤ 536870912 := by
        rcases hD.bnd l j hl hj with e | e
        · rw [INT_MAX_val] at e; omega
        · exact e
      have hw : wrap32 (wrap32 (D i k + D l j) - dist) = D i k + D l j - dist := by
        rw [wrap32_eq (D i k + D l j) (by omega) (by omega)]
        exact wrap32_eq _ (by omega) (by omega)
      rw [hw, get_distance_ok st n base hinv.wf l k hl hk]
      simp only
      have htri1 : D i j ≤ D i k + D k j → True := fun _ => trivial
      by_cases hgt : st.d l k > D i k + D l j - dist
      · rw [if_pos hgt]
        -- the entry is written
        have hlk : l ≠ k := by
          intro e
          subst e
          rw [TState.d_self] at hgt
          have := hD.tri i l j hi hl hj (by rw [INT_MAX_val]; omega) (by rw [INT_MAX_val]; omega)
          omega
        obtain ⟨st1, hset, hwf1, hd1', hpre1, hga1⟩ :=
          set_distance_spec st n base hinv.wf l k (D i k + D l j - dist) hl hk
        rw [hset]
        simp only
        rw [get_distance_ok st1 n base hwf1 k l hk hl]
        simp only
        have hkl : st1.d k l = st.d k l := by
          rw [hd1' k l hk hl]
          have : ¬ (k = l ∧ l = k ∧ l ≠ k) := fun hh => hlk hh.2.1
          simp [this]
        have hold : st.d l k = D l k := by
          rcases hinv.ent l k hl hk with e | ⟨_, _, e1, _⟩
          · exact e
          · omega
        have hnot : ¬ (wrap32 (-st1.d k l) > D i k + D l j - dist) := by
          rw [hkl]
          rcases hinv.ent k l hk hl with e | ⟨f1, f2, e1, _⟩
          · rcases hD.bnd k l hk hl with b | b
            · rw [e, b, INT_MAX_val, wrap32_eq _ (by omega) (by omega)]
              omega
            · have t1 := hD.tri i k l hi hk hl (by rw [INT_MAX_val]; omega)
                (by rw [INT_MAX_val]; omega)
              have t2 := hD.tri i l j hi hl hj (by rw [INT_MAX_val]; omega)
                (by rw [INT_MAX_val]; omega)
              rw [e, wrap32_eq _ (by omega) (by omega)]
              omega
          · rw [INT_MAX_val] at f1 f2
            have b1 : -536870912 ≤ D i l ∧ D i l ≤ 536870912 := by
              rcases hD.bnd i l hi hl with e | e
              · rw [INT_MAX_val] at e; omega
              · exact e
            have b2 : -536870912 ≤ D k j ∧ D k j ≤ 536870912 := by
              rcases hD.bnd k j hk hj with e | e
              · rw [INT_MAX_val] at e; omega
              · exact e
            have t1 := hD.tri i l j hi hl hj (by rw [INT_MAX_val]; omega)
              (by rw [INT_MAX_val]; omega)
            have t2 := hD.tri i k j hi hk hj (by rw [INT_MAX_val]; omega)
              (by rw [INT_MAX_val]; omega)
            rw [e1, wrap32_eq _ (by omega) (by omega)]
            omega
        rw [if_neg hnot]
        apply ih st1 hls2
        refine ⟨hwf1, ?_, ?_, hga1.trans hinv.ga⟩
        · intro u v hu hv
          rw [hd1' u v hu hv]
          by_cases hsame : u = l ∧ v = k ∧ l ≠ k
          · rw [if_pos hsame]
            obtain ⟨rfl, rfl, -⟩ := hsame
            right
            refine ⟨by rw [INT_MAX_val]; omega, by rw [INT_MAX_val]; omega, by ring, ?_⟩
            rw [← hold]
            exact hgt
          · rw [if_neg hsame]
            exact hinv.ent u v hu hv
        · intro a ha
          rw [hpre1 a ha]
          exact hinv.pre a ha
      · rw [if_neg hgt]
        exact ih st hls2 hinv
    · rw [if_neg hlj]
      exact ih st hls2 hinv

theorem range_le (n : Nat) : ∀ l ∈ List.range (n + 1), l ≤ n := by
  intro l hl
  have := List.mem_range.mp hl
  omega

theorem fill_outer_good (D : Nat → Nat → Int) (n base i j : Nat) (dist : Int)
    (store0 : List IntVector) (ga : List Nat) (hD : GoodMatrix D n)
    (hi : i ≤ n) (hj : j ≤ n) (hd0 : 0 ≤ dist) (hd1 : dist ≤ 1) (hij : dist ≤ D i j) :
    ∀ (ks : List Nat) (st : TState), (∀ k ∈ ks, k ≤ n) →
      FillInv D n base i j dist store0 ga st →
      ∃ st2, TState.fill_outer i j dist n ks st = .ok (true, st2)
        ∧ FillInv D n base i j dist store0 ga st2 := by
  intro ks
  induction ks with
  | nil =>
    intro st _ hinv
    exact ⟨st, rfl, hinv⟩
  | cons k ks ih =>
    intro st hks hinv
    have hk : k ≤ n := hks k (List.mem_cons_self _ _)
    have hks2 : ∀ x ∈ ks, x ≤ n := fun x hx => hks x (List.mem_cons_of_mem _ hx)
    have hrow : st.d i k = D i k := FillInv.row D n base i j dist store0 ga st hinv hi hij k hk
    unfold TState.fill_outer
    rw [get_distance_ok st n base hinv.wf i k hi hk, hrow]
    simp only
    by_cases hik : D i k < INT_MAX
    · rw [if_pos hik, get_distance_ok st n base hinv.wf j k hj hk]
      simp only
      by_cases hgt : st.d j k > wrap32 (D i k - dist)
      · rw [if_pos hgt]
        obtain ⟨st1, h1, hinv1⟩ := fill_inner_good D n base i j k dist store0 ga hD hi hj hk
          hd0 hd1 hij hik (List.range (n + 1)) st (range_le n) hinv
        rw [h1]
        exact ih st1 hks2 hinv1
      · rw [if_neg hgt]
        exact ih st hks2 hinv
    · rw [if_neg hik]
      exact ih st hks2 hinv

theorem fill_inner_any (n base j k : Nat) (dist d_ik : Int) (store0 : List IntVector)
    (hj : j ≤ n) (hk : k ≤ n) :
    ∀ (ls : List Nat) (st : TState), (∀ l ∈ ls, l ≤ n) → FillKeep n base store0 st →
      ∃ flag st2, TState.fill_inner j dist k d_ik ls st = .ok (flag, st2)
        ∧ FillKeep n base store0 st2
        ∧ (∀ u v, u ≤ n → v ≤ n → v ≠ k → st2.d u v = st.d u v) := by
  intro ls
  induction ls with
  | nil =>
    intro st _ hinv
    exact ⟨true, st, rfl, hinv, fun _ _ _ _ _ => rfl⟩
  | cons l ls ih =>
    intro st hls hinv
    have hl : l ≤ n := hls l (List.mem_cons_self _ _)
    have hls2 : ∀ x ∈ ls, x ≤ n := fun x hx => hls x (List.mem_cons_of_mem _ hx)
    unfold TState.fill_inner
    rw [get_distance_ok st n base hinv.wf l j hl hj]
    simp only
    by_cases hlj : st.d l j < INT_MAX
    · rw [if_pos hlj, get_distance_ok st n base hinv.wf l k hl hk]
      simp only
      by_cases hgt : st.d l k > wrap32 (wrap32 (d_ik + st.d l j) - dist)
      · rw [if_pos hgt]
        obtain ⟨st1, hset, hwf1, hd1, hpre1, -⟩ :=
          set_distance_spec st n base hinv.wf l k (wrap32 (wrap32 (d_ik + st.d l j) - dist)) hl hk
        rw [hset]
        simp only
        rw [get_distance_ok st1 n base hwf1 k l hk hl]
        simp only
        have hkeep1 : FillKeep n base store0 st1 :=
          ⟨hwf1, fun a ha => (hpre1 a ha).trans (hinv.pre a ha)⟩
        have hsame1 : ∀ u v, u ≤ n → v ≤ n → v ≠ k → st1.d u v = st.d u v := by
          intro u v hu hv hvk
          rw [hd1 u v hu hv]
          have : ¬ (u = l ∧ v = k ∧ l ≠ k) := fun hh => hvk hh.2.1
          simp [this]
        by_cases hneg : wrap32 (-st1.d k l) > wrap32 (wrap32 (d_ik + st.d l j) - dist)
        · rw [if_pos hneg]
          exact ⟨false, st1, rfl, hkeep1, hsame1⟩
        · rw [if_neg hneg]
          obtain ⟨flag, st2, h2, hk2, hs2⟩ := ih st1 hls2 hkeep1
          exact ⟨flag, st2, h2, hk2, fun u v hu hv hvk =>
            (hs2 u v hu hv hvk).trans (hsame1 u v hu hv hvk)⟩
      · rw [if_neg hgt]
        exact ih st hls2 hinv
    · rw [if_neg hlj]
      exact ih st hls2 hinv

theorem fill_inner_bad (n base j : Nat) (dist d_ik : Int) (store0 : List IntVector)
    (hj : j ≤ n) (hneg : d_ik - dist < 0) (hlo : -1073741824 ≤ d_ik) (hd0 : 0 ≤ dist)
    (hd1 : dist ≤ 1) :
    ∀ (ls : List Nat) (st : TState), (∀ l ∈ ls, l ≤ n) → j ∈ ls → FillKeep n base store0 st →
      ∃ st2, TState.fill_inner j dist j d_ik ls st = .ok (false, st2)
        ∧ FillKeep n base store0 st2 := by
  intro ls
  induction ls with
  | nil =>
    intro st _ hmem _
    cases hmem
  | cons l ls ih =>
    intro st hls hmem hinv
    have hl : l ≤ n := hls l (List.mem_cons_self _ _)
    have hls2 : ∀ x ∈ ls, x ≤ n := fun x hx => hls x (List.mem_cons_of_mem _ hx)
    by_cases hlj : l = j
    · subst hlj
      unfold TState.fill_inner
      rw [get_distance_ok st n base hinv.wf l l hl hl, TState.d_self]
      have hw : wrap32 (wrap32 (d_ik + 0) - dist) = d_ik - dist := by
        rw [wrap32_eq (d_ik + 0) (by omega) (by omega)]
        rw [wrap32_eq _ (by omega) (by omega)]
        omega
      simp only [hw]
      rw [if_pos (by rw [INT_MAX_val]; omega)]
      rw [if_pos (by omega)]
      have hset : st.set_distance l l (d_ik - dist) = .ok st := by
        simp [TState.set_distance]
      rw [hset]
      simp only
      rw [get_distance_ok st n base hinv.wf l l hl hl, TState.d_self]
      simp only
      have : wrap32 (-0) > d_ik - dist := by
        rw [wrap32_eq _ (by omega) (by omega)]
        omega
      rw [if_pos this]
      exact ⟨st, rfl, hinv⟩
    · have hmem2 : j ∈ ls := by
        rcases List.mem_cons.mp hmem with e | e
        · exact absurd e.symm hlj
        · exact e
      unfold TState.fill_inner
      rw [get_distance_ok st n base hinv.wf l j hl hj]
      simp only
      by_cases hlt : st.d l j < INT_MAX
      · rw [if_pos hlt]
        by_cases hgt : st.d l j > wrap32 (wrap32 (d_ik + st.d l j) - dist)
        · rw [if_pos hgt]
          obtain ⟨st1, hset, hwf1, hd1', hpre1, -⟩ :=
            set_distance_spec st n base hinv.wf l j (wrap32 (wrap32 (d_ik + st.d l j) - dist))
              hl hj
          rw [hset]
          simp only
          rw [get_distance_ok st1 n base hwf1 j l hj hl]
          simp only
          have hkeep1 : FillKeep n base store0 st1 :=
            ⟨hwf1, fun a ha => (hpre1 a ha).trans (hinv.pre a ha)⟩
          by_cases hng : wrap32 (-st1.d j l) > wrap32 (wrap32 (d_ik + st.d l j) - dist)
          · rw [if_pos hng]
            exact ⟨st1, rfl, hkeep1⟩
          · rw [if_neg hng]
            exact ih st1 hls2 hmem2 hkeep1
        · rw [if_neg hgt]
          exact ih st hls2 hmem2 hinv
      · rw [if_neg hlt]
        exact ih st hls2 hmem2 hinv

theorem fill_outer_bad (n base i j : Nat) (dist dij : Int) (store0 : List IntVector)
    (hi : i ≤ n) (hj : j ≤ n) (hneg : dij < dist) (hlo : -536870912 ≤ dij) (hd0 : 0 ≤ dist)
    (hd1 : dist ≤ 1) :
    ∀ (ks : List Nat) (st : TState), (∀ k ∈ ks, k ≤ n) → j ∈ ks → FillKeep n base store0 st →
      st.d i j = dij →
      ∃ st2, TState.fill_outer i j dist n ks st = .ok (false, st2)
        ∧ FillKeep n base store0 st2 := by
  intro ks
  induction ks with
  | nil =>
    intro st _ hmem _ _
    cases hmem
  | cons k ks ih =>
    intro st hks hmem hinv hdij
    have hk : k ≤ n := hks k (List.mem_cons_self _ _)
    have hks2 : ∀ x ∈ ks, x ≤ n := fun x hx => hks x (List.mem_cons_of_mem _ hx)
    by_cases hkj : k = j
    · subst hkj
      unfold TState.fill_outer
      rw [get_distance_ok st n base hinv.wf i k hi hk, hdij]
      simp only
      rw [if_pos (by rw [INT_MAX_val]; omega)]
      rw [get_distance_ok st n base hinv.wf k k hk hk, TState.d_self]
      simp only
      have hw : wrap32 (dij - dist) = dij - dist := wrap32_eq _ (by omega) (by omega)
      rw [hw, if_pos (by omega)]
      obtain ⟨st2, h2, hk2⟩ := fill_inner_bad n base k dist dij store0 hk (by omega) (by omega)
        hd0 hd1 (List.range (n + 1)) st (range_le n) (List.mem_range.mpr (by omega)) hinv
      rw [h2]
      exact ⟨st2, rfl, hk2⟩
    · have hmem2 : j ∈ ks := by
        rcases List.mem_cons.mp hmem with e | e
        · exact absurd e.symm hkj
        · exact e
      unfold TState.fill_outer
      rw [get_distance_ok st n base hinv.wf i k hi hk]
      simp only
      by_cases hlt : st.d i k < INT_MAX
      · rw [if_pos hlt, get_distance_ok st n base hinv.wf j k hj hk]
        simp only
        by_cases hgt : st.d j k > wrap32 (st.d i k - dist)
        · rw [if_pos hgt]
          obtain ⟨flag, st1, h1, hk1, hs1⟩ := fill_inner_any n base j k dist (st.d i k) store0
            hj hk (List.range (n + 1)) st (range_le n) hinv
          rw [h1]
          cases flag with
          | false => exact ⟨st1, rfl, hk1⟩
          | true =>
            simp only
            exact ih st1 hks2 hmem2 hk1 ((hs1 i j hi hj (fun e => hkj e.symm)).trans hdij)
        · rw [if_neg hgt]
          exact ih st hks2 hmem2 hinv hdij
      · rw [if_neg hlt]
        exact ih st hks2 hmem2 hinv hdij

theorem TemporalOrderings.copy_eq (o : TemporalOrderings) : o.copy = o := by
  cases o
  rfl

theorem initial_wf (store : List IntVector) (o : TemporalOrderings) (h : o.WellFormed store) :
    (⟨store, o.copy, []⟩ : TState).WF o.distance.length store.length := by
  rw [TemporalOrderings.copy_eq]
  have hvalid : ∀ r a : Nat, o.distance[r]? = some a → a < store.length := by
    intro r a hra
    have hr : r < o.distance.length := by
      by_contra hcon
      have : o.distance[r]? = none := List.getElem?_eq_none (by omega)
      rw [this] at hra; cases hra
    obtain ⟨a2, fv, h1, h2, -⟩ := h.rows r hr
    rw [h1] at hra; cases hra
    by_contra hcon
    have : store[a]? = none := List.getElem?_eq_none (by omega)
    rw [this] at h2; cases h2
  refine ⟨h.small, rfl, h.rows, ?_, ?_, ?_, le_refl _⟩
  · intro r a hf
    simp [own_data_find] at hf
  · intro r r2 a h1 _ hb
    have := hvalid r a h1
    omega
  · intro r a h1 _
    exact hvalid r a h1

theorem fillinv_consistent (D : Nat → Nat → Int) (n base i j : Nat) (dist : Int)
    (store0 : List IntVector) (ga : List Nat) (st : TState) (hD : GoodMatrix D n)
    (hi : i ≤ n) (hj : j ≤ n) (hd0 : 0 ≤ dist) (hd1 : dist ≤ 1) (hij : dist ≤ D i j)
    (h : FillInv D n base i j dist store0 ga st) (u v : Nat) (hu : u ≤ n) (hv : v ≤ n) :
    0 ≤ st.d u v + st.d v u := by
  have fin : ∀ a b, a ≤ n → b ≤ n → D a b < INT_MAX →
      -536870912 ≤ D a b ∧ D a b ≤ 536870912 := by
    intro a b ha hb hlt
    rcases hD.bnd a b ha hb with e | e
    · omega
    · exact e
  have hc := hD.cons u v hu hv
  rcases h.ent u v hu hv with e1 | ⟨f1, f2, e1, _⟩ <;>
    rcases h.ent v u hv hu with e2 | ⟨g1, g2, e2, _⟩
  · rw [e1, e2]; exact hc
  · -- (u,v) original, (v,u) through the new constraint
    have b1 := fin i u hi hu g1
    have b2 := fin v j hv hj g2
    rw [e1, e2]
    rcases hD.bnd u v hu hv with b | b
    · rw [b, INT_MAX_val]; omega
    · have t1 := hD.tri i u v hi hu hv g1 (by rw [INT_MAX_val]; omega)
      have t2 := hD.tri i v j hi hv hj (by rw [INT_MAX_val]; omega) g2
      omega
  · have b1 := fin i v hi hv f1
    have b2 := fin u j hu hj f2
    rw [e1, e2]
    rcases hD.bnd v u hv hu with b | b
    · rw [b, INT_MAX_val]; omega
    · have t1 := hD.tri i v u hi hv hu f1 (by rw [INT_MAX_val]; omega)
      have t2 := hD.tri i u j hi hu hj (by rw [INT_MAX_val]; omega) f2
      omega
  · have t1 := hD.tri i v j hi hv hj f1 g2
    have t2 := hD.tri i u j hi hu hj g1 f2
    rw [e1, e2]
    omega

theorem read_prefix (store store2 : List IntVector) (o : TemporalOrderings)
    (h : o.WellFormed store)
    (hpre : ∀ a : Nat, a < store.length → store2[a]? = store[a]?) (r c : Nat) :
    o.read store2 r c = o.read store r c := by
  unfold TemporalOrderings.read
  cases hra : o.distance[r]? with
  | none => rfl
  | some a =>
    have hr : r < o.distance.length := by
      by_contra hcon
      have : o.distance[r]? = none := List.getElem?_eq_none (by omega)
      rw [this] at hra; cases hra
    obtain ⟨a2, fv, h1, h2, -⟩ := h.rows r hr
    rw [h1] at hra; cases hra
    have ha : a < store.length := by
      by_contra hcon
      have : store[a]? = none := List.getElem?_eq_none (by omega)
      rw [this] at h2; cases h2
    simp only [hpre a ha]

theorem get_distance_prefix (store store2 : List IntVector) (o : TemporalOrderings)
    (h : o.WellFormed store)
    (hpre : ∀ a : Nat, a < store.length → store2[a]? = store[a]?) (u v : Nat) :
    o.get_distance store2 u v = o.get_distance store u v := by
  unfold TemporalOrderings.get_distance
  split
  · rfl
  · split <;> exact read_prefix store store2 o h hpre _ _

theorem time_node_le (id : Nat) (t : StepTime) (n : Nat) (h0 : id ≠ 0) (h : 2 * id ≤ n)
    (hn : n < 2 ^ 32) : time_node id t ≤ n := by
  unfold time_node
  have h1 : umul 2 id = 2 * id := umul_two id (by omega)
  rw [h1]
  split
  · rw [usub_eq _ 1 (by omega) (by omega)]
    omega
  · exact h

/-- C9, amended: for a well-formed, consistent temporal ordering collection
with the triangle inequality and bounded finite distances, and an ordering
between two regular steps of the collection that does not order an earlier
point of a step before a later point of the same step, `refine(ordering)`
returns; it returns null exactly when the current distance from the node of
the first step to the node of the second is below the separation the ordering
asks for (0 or 1 tick); a new collection it returns has no pair of nodes with
`d(u,v) + d(v,u) < 0`; and the matrix of the receiver reads the same after the
call as before. -/
theorem temporal_refine_null_iff (store : List IntVector) (o : TemporalOrderings)
    (ord : Ordering)
    (hwf : o.WellFormed store) (hcons : o.Consistent store) (htri : o.Triangle store)
    (hbnd : o.Bounded store)
    (hb1 : ord.before_id ≠ 0) (hb2 : ord.before_id ≠ GOAL_ID)
    (ha1 : ord.after_id ≠ 0) (ha2 : ord.after_id ≠ GOAL_ID)
    (hbr : 2 * ord.before_id ≤ o.distance.length) (har : 2 * ord.after_id ≤ o.distance.length)
    (hsame : ¬ (ord.before_id = ord.after_id ∧ ord.before_time.lt ord.after_time = true)) :
    ∃ r store2, o.refine store ord = .ok (r, store2)
      ∧ (r = Refined.null ↔
          o.dist store (time_node ord.before_id ord.before_time)
              (time_node ord.after_id ord.after_time)
            < (if ord.before_time.rel.val < ord.after_time.rel.val then 0 else 1))
      ∧ (∀ o2, r = Refined.fresh o2 → o2.Consistent store2)
      ∧ (∀ u v, o.get_distance store2 u v = o.get_distance store u v) := by
  -- abbreviations
  generalize hi_def : time_node ord.before_id ord.before_time = i
  generalize hj_def : time_node ord.after_id ord.after_time = j
  generalize hdist_def :
    (if ord.before_time.rel.val < ord.after_time.rel.val then (0 : Int) else 1) = dist
  have hd0 : 0 ≤ dist := by rw [← hdist_def]; split <;> omega
  have hd1 : dist ≤ 1 := by rw [← hdist_def]; split <;> omega
  have hn := hwf.small
  have hi : i ≤ o.distance.length := by
    rw [← hi_def]; exact time_node_le _ _ _ hb1 hbr hn
  have hj : j ≤ o.distance.length := by
    rw [← hj_def]; exact time_node_le _ _ _ ha1 har hn
  have hwf0 := initial_wf store o hwf
  have hgd : ∀ u v, u ≤ o.distance.length → v ≤ o.distance.length →
      o.get_distance store u v = .ok (o.dist store u v) := by
    intro u v hu hv
    have := get_distance_ok _ _ _ hwf0 u v hu hv
    simp only [TemporalOrderings.copy_eq] at this
    exact this
  have hD : GoodMatrix (o.dist store) o.distance.length := by
    refine ⟨?_, hcons, htri, hbnd⟩
    intro u
    simp [TemporalOrderings.dist, TemporalOrderings.get_distance]
  have hinv0 : FillInv (o.dist store) o.distance.length store.length i j dist store
      o.goal_achievers ⟨store, o.copy, []⟩ := by
    refine ⟨hwf0, ?_, fun _ _ => rfl, by rw [TemporalOrderings.copy_eq]⟩
    intro u v _ _
    left
    simp [TState.d, TemporalOrderings.copy_eq]
  have hkeep0 : FillKeep o.distance.length store.length store ⟨store, o.copy, []⟩ :=
    ⟨hwf0, fun _ _ => rfl⟩
  have hcij := hcons i j hi hj
  -- the guard of refine
  unfold TemporalOrderings.refine
  rw [if_pos ⟨hb1, ha2⟩]
  unfold TemporalOrderings.possibly_not_before
  rw [if_neg hsame, if_neg (by rintro (h | h); exact hb1 h; exact ha2 h),
    if_neg (by rintro (h | h); exact hb2 h; exact ha1 h)]
  simp only [hi_def, hj_def, hdist_def]
  rw [hgd j i hj hi]
  simp only
  by_cases hg : (decide (o.dist store j i > 0)
      || (decide (o.dist store j i = 0)
          && decide (ord.after_time.rel.val ≤ ord.before_time.rel.val))) = true
  · rw [hg]
    simp only
    -- the guard of fill_transitive holds as well
    have hg2 : o.dist store j i > wrap32 (-dist) := by
      rw [wrap32_eq _ (by omega) (by omega)]
      simp only [Bool.or_eq_true, Bool.and_eq_true, decide_eq_true_eq] at hg
      rcases hg with h | ⟨h1, h2⟩
      · omega
      · have : dist = 1 := by
          rw [← hdist_def, if_neg (by omega)]
        omega
    unfold TState.fill_transitive
    simp only [TemporalOrderings.copy_eq]
    rw [hgd j i hj hi]
    simp only
    rw [if_pos hg2]
    simp only [TemporalOrderings.copy_eq] at hinv0 hkeep0
    by_cases hij : dist ≤ o.dist store i j
    · obtain ⟨st2, h2, hinv2⟩ := fill_outer_good (o.dist store) o.distance.length store.length
        i j dist store o.goal_achievers hD hi hj hd0 hd1 hij
        (List.range (o.distance.length + 1)) _ (range_le _) hinv0
      rw [h2]
      refine ⟨Refined.fresh st2.orderings, st2.store, rfl, ?_, ?_, ?_⟩
      · constructor
        · intro h; cases h
        · intro h; omega
      · intro o2 ho2
        cases ho2
        intro u v hu hv
        rw [hinv2.wf.len] at hu hv
        exact fillinv_consistent _ _ _ _ _ _ _ _ st2 hD hi hj hd0 hd1 hij hinv2 u v hu hv
      · exact get_distance_prefix store st2.store o hwf hinv2.pre
    · have hlo : -536870912 ≤ o.dist store i j := by
        rcases hbnd i j hi hj with e | e
        · rw [e, INT_MAX_val]; omega
        · exact e.1
      obtain ⟨st2, h2, hk2⟩ := fill_outer_bad o.distance.length store.length i j dist
        (o.dist store i j) store hi hj (by omega) hlo hd0 hd1
        (List.range (o.distance.length + 1)) _ (range_le _) (List.mem_range.mpr (by omega))
        hkeep0 (by simp [TState.d])
      rw [h2]
      refine ⟨Refined.null, st2.store, rfl, ?_, ?_, ?_⟩
      · constructor
        · intro _; omega
        · intro _; rfl
      · intro o2 ho2
        cases ho2
      · exact get_distance_prefix store st2.store o hwf hk2.pre
  · have hg3 : (decide (o.dist store j i > 0)
        || (decide (o.dist store j i = 0)
            && decide (ord.after_time.rel.val ≤ ord.before_time.rel.val))) = false := by
      simpa using hg
    rw [hg3]
    refine ⟨Refined.this, store, rfl, ?_, ?_, fun _ _ => rfl⟩
    · constructor
      · intro h; cases h
      · intro h
        exfalso
        simp only [Bool.or_eq_false_iff, Bool.and_eq_false_iff, decide_eq_false_iff_not] at hg3
        obtain ⟨h1, h2⟩ := hg3
        rcases h2 with h2 | h2
        · omega
        · have : dist = 0 := by
            rw [← hdist_def, if_pos (by omega)]
          omega
    · intro o2 ho2
      cases ho2

theorem one_step_wf : Ex.one_step.WellFormed Ex.store_zero := by
  refine ⟨by decide, ?_⟩
  intro r hr
  have : r < 2 := hr
  interval_cases r
  · exact ⟨0, _, rfl, rfl, rfl⟩
  · exact ⟨1, _, rfl, rfl, rfl⟩

theorem two_steps_wf (store : List IntVector) (h0 : ∃ fv, store[0]? = some fv ∧ fv.length = 2)
    (h1 : ∃ fv, store[1]? = some fv ∧ fv.length = 4)
    (h2 : ∃ fv, store[2]? = some fv ∧ fv.length = 6)
    (h3 : ∃ fv, store[3]? = some fv ∧ fv.length = 8) : Ex.two_steps.WellFormed store := by
  refine ⟨by decide, ?_⟩
  intro r hr
  have : r < 4 := hr
  obtain ⟨f0, e0, l0⟩ := h0
  obtain ⟨f1, e1, l1⟩ := h1
  obtain ⟨f2, e2, l2⟩ := h2
  obtain ⟨f3, e3, l3⟩ := h3
  interval_cases r
  · exact ⟨0, f0, rfl, e0, l0⟩
  · exact ⟨1, f1, rfl, e1, l1⟩
  · exact ⟨2, f2, rfl, e2, l2⟩
  · exact ⟨3, f3, rfl, e3, l3⟩

/-- C9, refuted as stated, at two inputs.  First: a consistent network with the
triangle inequality, one regular step of duration 0, and the ordering of the
start of the step before its end with a separation of 1 tick; the current
distance from start to end is 0, below the separation, and `refine` returns
the receiver, not null.  Second: a consistent network with the triangle
inequality of two steps whose nodes are `2 ^ 30 + 1` ticks apart, and the
ordering of the end of step 1 before the start of step 2; the current distance
is far above the separation, and `refine` returns null, because the sum of two
distances leaves the range of `int`. -/
theorem temporal_refine_not_iff :
    (Ex.one_step.WellFormed Ex.store_zero ∧ Ex.one_step.Consistent Ex.store_zero
      ∧ Ex.one_step.Triangle Ex.store_zero
      ∧ Ex.one_step.dist Ex.store_zero (time_node 1 StepTime.AT_START)
          (time_node 1 StepTime.AT_END) = 0
      ∧ Ex.one_step.refine Ex.store_zero ⟨1, StepTime.AT_START, 1, StepTime.AT_END⟩
          = .ok (Refined.this, Ex.store_zero))
    ∧ (Ex.two_steps.WellFormed Ex.store_far ∧ Ex.two_steps.Consistent Ex.store_far
      ∧ Ex.two_steps.Triangle Ex.store_far
      ∧ Ex.two_steps.dist Ex.store_far (time_node 1 StepTime.AT_END)
          (time_node 2 StepTime.AT_START) = Ex.far
      ∧ Ex.two_steps.refine Ex.store_far ⟨1, StepTime.AT_END, 2, StepTime.AT_START⟩
          = .ok (Refined.null, Ex.store_far)) := by
  refine ⟨⟨one_step_wf, ?_, ?_, rfl, rfl⟩, ⟨?_, ?_, ?_, rfl, rfl⟩⟩
  · intro u v hu hv
    have hu2 : u ≤ 2 := hu
    have hv2 : v ≤ 2 := hv
    interval_cases u <;> interval_cases v <;> decide
  · intro u v w hu hv hw
    have hu2 : u ≤ 2 := hu
    have hv2 : v ≤ 2 := hv
    have hw2 : w ≤ 2 := hw
    interval_cases u <;> interval_cases v <;> interval_cases w <;> decide
  · exact two_steps_wf _ ⟨_, rfl, rfl⟩ ⟨_, rfl, rfl⟩ ⟨_, rfl, rfl⟩ ⟨_, rfl, rfl⟩
  · intro u v hu hv
    have hu2 : u ≤ 4 := hu
    have hv2 : v ≤ 4 := hv
    interval_cases u <;> interval_cases v <;> decide
  · intro u v w hu hv hw
    have hu2 : u ≤ 4 := hu
    have hv2 : v ≤ 4 := hv
    have hw2 : w ≤ 4 := hw
    interval_cases u <;> interval_cases v <;> interval_cases w <;> decide

theorem two_steps_consistent : Ex.two_steps.Consistent Ex.store_two := by
  intro u v hu hv
  have hu2 : u ≤ 4 := hu
  have hv2 : v ≤ 4 := hv
  interval_cases u <;> interval_cases v <;> decide

theorem two_steps_triangle : Ex.two_steps.Triangle Ex.store_two := by
  intro u v w hu hv hw
  have hu2 : u ≤ 4 := hu
  have hv2 : v ≤ 4 := hv
  have hw2 : w ≤ 4 := hw
  interval_cases u <;> interval_cases v <;> interval_cases w <;> decide

theorem two_steps_bounded : Ex.two_steps.Bounded Ex.store_two := by
  intro u v hu hv
  have hu2 : u ≤ 4 := hu
  have hv2 : v ≤ 4 := hv
  interval_cases u <;> interval_cases v <;> decide

/-- C9, amended, at a concrete input: the minimal network of two unrelated
steps of duration 1 tick, and the ordering of the end of step 1 before the
start of step 2. -/
theorem temporal_refine_null_iff_witness :
    ∃ r store2, Ex.two_steps.refine Ex.store_two ⟨1, StepTime.AT_END, 2, StepTime.AT_START⟩
        = .ok (r, store2)
      ∧ (r = Refined.null ↔
          Ex.two_steps.dist Ex.store_two (time_node 1 StepTime.AT_END)
              (time_node 2 StepTime.AT_START)
            < (if StepTime.AT_END.rel.val < StepTime.AT_START.rel.val then 0 else 1))
      ∧ (∀ o2, r = Refined.fresh o2 → o2.Consistent store2)
      ∧ (∀ u v, Ex.two_steps.get_distance store2 u v
          = Ex.two_steps.get_distance Ex.store_two u v) :=
  temporal_refine_null_iff Ex.store_two Ex.two_steps ⟨1, StepTime.AT_END, 2, StepTime.AT_START⟩
    (two_steps_wf _ ⟨_, rfl, rfl⟩ ⟨_, rfl, rfl⟩ ⟨_, rfl, rfl⟩ ⟨_, rfl, rfl⟩)
    two_steps_consistent two_steps_triangle two_steps_bounded
    (by decide) (by decide) (by decide) (by decide) (by decide) (by decide) (by decide)

/-- C11 (code defect): for every binary ordering collection and distinct regular
steps `i`, `j` with `i` not yet before `j`, `refine(i < j)` returns no
collection: it fills the copy the copy constructor made, whose `before` is
empty, and the first `is_before(i, j)` of `fill_transitive` reads a row of the
empty vector. -/
theorem binary_refine_unordered_faults (o : BinaryOrderings) (i j : Nat) (t1 t2 : StepTime)
    (hi0 : i ≠ 0) (hiG : i ≠ GOAL_ID) (hj0 : j ≠ 0) (hjG : j ≠ GOAL_ID) (hij : i ≠ j)
    (hnb : o.is_before i j = .ok false) :
    o.refine ⟨i, t1, j, t2⟩ = .error .out_of_range := by
  have hcopy : (o.copy).is_before i j = .error .out_of_range := by
    simp only [BinaryOrderings.is_before, BinaryOrderings.copy, if_neg hij]
    split <;> simp [index2]
  simp [BinaryOrderings.refine, BinaryOrderings.possibly_not_before,
    BinaryOrderings.possibly_after, BinaryOrderings.fill_transitive, hi0, hiG, hj0, hjG, hij,
    hnb, hcopy]

/-- C11 at a concrete input: three regular steps without orderings, and
`refine(1 < 2)`. -/
theorem binary_refine_unordered_faults_witness :
    Ex.three_unordered.is_before 1 2 = .ok false
    ∧ Ex.three_unordered.is_before 2 1 = .ok false
    ∧ Ex.three_unordered.is_before 2 3 = .ok false
    ∧ Ex.three_unordered.is_before 3 2 = .ok false
    ∧ Ex.three_unordered.is_before 1 3 = .ok false
    ∧ Ex.three_unordered.is_before 3 1 = .ok false
    ∧ Ex.three_unordered.refine ⟨1, StepTime.AT_END, 2, StepTime.AT_START⟩
        = .error .out_of_range :=
  ⟨rfl, rfl, rfl, rfl, rfl, rfl,
    binary_refine_unordered_faults Ex.three_unordered 1 2 StepTime.AT_END StepTime.AT_START
      (by decide) (by decide) (by decide) (by decide) (by decide) rfl⟩

theorem fill_inner_step (D : Nat → Nat → Int) (n base i j k : Nat) (dist : Int)
    (store0 : List IntVector) (ga : List Nat) (hD : GoodMatrix D n)
    (hi : i ≤ n) (hj : j ≤ n) (hk : k ≤ n) (hd0 : 0 ≤ dist) (hd1 : dist ≤ 1)
    (hij : dist ≤ D i j) (hik : D i k < INT_MAX)
    (l : Nat) (ls : List Nat) (st : TState) (hl : l ≤ n)
    (hinv : FillInv D n base i j dist store0 ga st) :
    ∃ st1, TState.fill_inner j dist k (D i k) (l :: ls) st
        = TState.fill_inner j dist k (D i k) ls st1
      ∧ FillInv D n base i j dist store0 ga st1
      ∧ (st.d l k = D l k → st1.d l k = relaxed D i j dist l k)
      ∧ (∀ u v, u ≤ n → v ≤ n → ¬ (u = l ∧ v = k) → st1.d u v = st.d u v) := by
  have hcol : st.d l j = D l j := FillInv.col D n base i j dist store0 ga st hinv hj hij l hl
  have hbik := hD.bnd i k hi hk
  have hik0 := hik
  rw [INT_MAX_val] at hik
  have hbik2 : -536870912 ≤ D i k ∧ D i k ≤ 536870912 := by
    rcases hbik with e | e
    · rw [INT_MAX_val] at e; omega
    · exact e
  conv => enter [1, st1, 1, 1]; unfold TState.fill_inner
  rw [get_distance_ok st n base hinv.wf l j hl hj, hcol]
  simp only
  by_cases hlj : D l j < INT_MAX
  · rw [if_pos hlj]
    have hlj0 := hlj
    rw [INT_MAX_val] at hlj
    have hblj : -536870912 ≤ D l j ∧ D l j ≤ 536870912 := by
      rcases hD.bnd l j hl hj with e | e
      · rw [INT_MAX_val] at e; omega
      · exact e
    have hw : wrap32 (wrap32 (D i k + D l j) - dist) = D i k + D l j - dist := by
      rw [wrap32_eq (D i k + D l j) (by omega) (by omega)]
      exact wrap32_eq _ (by omega) (by omega)
    rw [hw, get_distance_ok st n base hinv.wf l k hl hk]
    simp only
    by_cases hgt : st.d l k > D i k + D l j - dist
    · rw [if_pos hgt]
      have hlk : l ≠ k := by
        intro e
        subst e
        rw [TState.d_self] at hgt
        have := hD.tri i l j hi hl hj (by rw [INT_MAX_val]; omega) (by rw [INT_MAX_val]; omega)
        omega
      obtain ⟨st1, hset, hwf1, hd1', hpre1, hga1⟩ :=
        set_distance_spec st n base hinv.wf l k (D i k + D l j - dist) hl hk
      rw [hset]
      simp only
      rw [get_distance_ok st1 n base hwf1 k l hk hl]
      simp only
      have hkl : st1.d k l = st.d k l := by
        rw [hd1' k l hk hl]
        have : ¬ (k = l ∧ l = k ∧ l ≠ k) := fun hh => hlk hh.2.1
        simp [this]
      have hold : st.d l k = D l k := by
        rcases hinv.ent l k hl hk with e | ⟨_, _, e1, _⟩
        · exact e
        · omega
      have hnot : ¬ (wrap32 (-st1.d k l) > D i k + D l j - dist) := by
        rw [hkl]
        rcases hinv.ent k l hk hl with e | ⟨f1, f2, e1, _⟩
        · rcases hD.bnd k l hk hl with b | b
          · rw [e, b, INT_MAX_val, wrap32_eq _ (by omega) (by omega)]
            omega
          · have t1 := hD.tri i k l hi hk hl (by rw [INT_MAX_val]; omega)
              (by rw [INT_MAX_val]; omega)
            have t2 := hD.tri i l j hi hl hj (by rw [INT_MAX_val]; omega)
              (by rw [INT_MAX_val]; omega)
            rw [e, wrap32_eq _ (by omega) (by omega)]
            omega
        · rw [INT_MAX_val] at f1 f2
          have b1 : -536870912 ≤ D i l ∧ D i l ≤ 536870912 := by
            rcases hD.bnd i l hi hl with e | e
            · rw [INT_MAX_val] at e; omega
            · exact e
          have b2 : -536870912 ≤ D k j ∧ D k j ≤ 536870912 := by
            rcases hD.bnd k j hk hj with e | e
            · rw [INT_MAX_val] at e; omega
            · exact e
          have t1 := hD.tri i l j hi hl hj (by rw [INT_MAX_val]; omega)
            (by rw [INT_MAX_val]; omega)
          have t2 := hD.tri i k j hi hk hj (by rw [INT_MAX_val]; omega)
            (by rw [INT_MAX_val]; omega)
          rw [e1, wrap32_eq _ (by omega) (by omega)]
          omega
      rw [if_neg hnot]
      refine ⟨st1, rfl, ⟨hwf1, ?_, ?_, hga1.trans hinv.ga⟩, ?_, ?_⟩
      · intro u v hu hv
        rw [hd1' u v hu hv]
        by_cases hsame : u = l ∧ v = k ∧ l ≠ k
        · rw [if_pos hsame]
          obtain ⟨rfl, rfl, -⟩ := hsame
          right
          refine ⟨by rw [INT_MAX_val]; omega, by rw [INT_MAX_val]; omega, by ring, ?_⟩
          rw [← hold]
          exact hgt
        · rw [if_neg hsame]
          exact hinv.ent u v hu hv
      · intro a ha
        rw [hpre1 a ha]
        exact hinv.pre a ha
      · intro _
        rw [hd1' l k hl hk, if_pos ⟨rfl, rfl, hlk⟩]
        unfold relaxed
        rw [if_pos ⟨hik0, hlj0, by rw [← hold]; omega⟩]
        ring
      · intro u v hu hv hne
        rw [hd1' u v hu hv, if_neg (fun hh => hne ⟨hh.1, hh.2.1⟩)]
    · rw [if_neg hgt]
      refine ⟨st, rfl, hinv, ?_, fun _ _ _ _ _ => rfl⟩
      intro hold
      unfold relaxed
      rw [if_neg (by rintro ⟨-, -, h3⟩; rw [hold] at hgt; omega)]
      exact hold
  · rw [if_neg hlj]
    refine ⟨st, rfl, hinv, ?_, fun _ _ _ _ _ => rfl⟩
    intro hold
    unfold relaxed
    rw [if_neg (by rintro ⟨-, h2, -⟩; exact hlj h2)]
    exact hold

theorem fill_inner_exact (D : Nat → Nat → Int) (n base i j k : Nat) (dist : Int)
    (store0 : List IntVector) (ga : List Nat) (hD : GoodMatrix D n)
    (hi : i ≤ n) (hj : j ≤ n) (hk : k ≤ n) (hd0 : 0 ≤ dist) (hd1 : dist ≤ 1)
    (hij : dist ≤ D i j) (hik : D i k < INT_MAX) :
    ∀ (ls : List Nat) (st : TState), (∀ l ∈ ls, l ≤ n) → ls.Nodup →
      FillInv D n base i j dist store0 ga st → (∀ l ∈ ls, st.d l k = D l k) →
      ∃ st2, TState.fill_inner j dist k (D i k) ls st = .ok (true, st2)
        ∧ FillInv D n base i j dist store0 ga st2
        ∧ (∀ l ∈ ls, st2.d l k = relaxed D i j dist l k)
        ∧ (∀ u v, u ≤ n → v ≤ n → ¬ (u ∈ ls ∧ v = k) → st2.d u v = st.d u v) := by
  intro ls
  induction ls with
  | nil =>
    intro st _ _ hinv _
    exact ⟨st, rfl, hinv, fun l hl => absurd hl (List.not_mem_nil l), fun _ _ _ _ _ => rfl⟩
  | cons l ls ih =>
    intro st hls hnd hinv hcolk
    have hl : l ≤ n := hls l (List.mem_cons_self _ _)
    have hls2 : ∀ x ∈ ls, x ≤ n := fun x hx => hls x (List.mem_cons_of_mem _ hx)
    obtain ⟨hnotin, hnd2⟩ := List.nodup_cons.mp hnd
    obtain ⟨st1, hstep, hinv1, hval, hframe⟩ :=
      fill_inner_step D n base i j k dist store0 ga hD hi hj hk hd0 hd1 hij hik l ls st hl hinv
    have hcolk1 : ∀ x ∈ ls, st1.d x k = D x k := by
      intro x hx
      rw [hframe x k (hls2 x hx) hk (fun hh => hnotin (hh.1 ▸ hx))]
      exact hcolk x (List.mem_cons_of_mem _ hx)
    obtain ⟨st2, h2, hinv2, hval2, hframe2⟩ := ih st1 hls2 hnd2 hinv1 hcolk1
    refine ⟨st2, by rw [hstep]; exact h2, hinv2, ?_, ?_⟩
    · intro x hx
      rcases List.mem_cons.mp hx with e | e
      · subst e
        rw [hframe2 x k hl hk (fun hh => hnotin hh.1)]
        exact hval (hcolk x (List.mem_cons_self _ _))
      · exact hval2 x e
    · intro u v hu hv hne
      rw [hframe2 u v hu hv (fun hh => hne ⟨List.mem_cons_of_mem _ hh.1, hh.2⟩)]
      exact hframe u v hu hv (fun hh => hne ⟨hh.1 ▸ List.mem_cons_self _ _, hh.2⟩)

theorem fill_outer_exact (D : Nat → Nat → Int) (n base i j : Nat) (dist : Int)
    (store0 : List IntVector) (ga : List Nat) (hD : GoodMatrix D n)
    (hi : i ≤ n) (hj : j ≤ n) (hd0 : 0 ≤ dist) (hd1 : dist ≤ 1) (hij : dist ≤ D i j) :
    ∀ (ks : List Nat) (st : TState), (∀ k ∈ ks, k ≤ n) → ks.Nodup →
      FillInv D n base i j dist store0 ga st →
      (∀ k ∈ ks, ∀ l, l ≤ n → st.d l k = D l k) →
      ∃ st2, TState.fill_outer i j dist n ks st = .ok (true, st2)
        ∧ FillInv D n base i j dist store0 ga st2
        ∧ (∀ k ∈ ks, ∀ l, l ≤ n → st2.d l k = relaxed D i j dist l k)
        ∧ (∀ u v, u ≤ n → v ≤ n → v ∉ ks → st2.d u v = st.d u v) := by
  intro ks
  induction ks with
  | nil =>
    intro st _ _ hinv _
    exact ⟨st, rfl, hinv, fun k hk => absurd hk (List.not_mem_nil k), fun _ _ _ _ _ => rfl⟩
  | cons k ks ih =>
    intro st hks hnd hinv hcols
    have hk : k ≤ n := hks k (List.mem_cons_self _ _)
    have hks2 : ∀ x ∈ ks, x ≤ n := fun x hx => hks x (List.mem_cons_of_mem _ hx)
    obtain ⟨hnotin, hnd2⟩ := List.nodup_cons.mp hnd
    have hrow : st.d i k = D i k := FillInv.row D n base i j dist store0 ga st hinv hi hij k hk
    -- the state after the iteration for k
    have hiter : ∃ st1, TState.fill_outer i j dist n (k :: ks) st
          = TState.fill_outer i j dist n ks st1
        ∧ FillInv D n base i j dist store0 ga st1
        ∧ (∀ l, l ≤ n → st1.d l k = relaxed D i j dist l k)
        ∧ (∀ u v, u ≤ n → v ≤ n → v ≠ k → st1.d u v = st.d u v) := by
      conv => enter [1, st1, 1, 1]; unfold TState.fill_outer
      rw [get_distance_ok st n base hinv.wf i k hi hk, hrow]
      simp only
      by_cases hik : D i k < INT_MAX
      · rw [if_pos hik, get_distance_ok st n base hinv.wf j k hj hk]
        simp only
        have hik1 := hik
        rw [INT_MAX_val] at hik1
        have hbik2 : -536870912 ≤ D i k ∧ D i k ≤ 536870912 := by
          rcases hD.bnd i k hi hk with e | e
          · rw [INT_MAX_val] at e; omega
          · exact e
        have hw : wrap32 (D i k - dist) = D i k - dist := wrap32_eq _ (by omega) (by omega)
        rw [hw]
        by_cases hgt : st.d j k > D i k - dist
        · rw [if_pos hgt]
          obtain ⟨st1, h1, hinv1, hval, hframe⟩ :=
            fill_inner_exact D n base i j k dist store0 ga hD hi hj hk hd0 hd1 hij hik
              (List.range (n + 1)) st (range_le n) (List.nodup_range _) hinv
              (fun l hl => hcols k (List.mem_cons_self _ _) l (range_le n l hl))
          rw [h1]
          refine ⟨st1, rfl, hinv1, ?_, ?_⟩
          · intro l hl
            exact hval l (List.mem_range.mpr (by omega))
          · intro u v hu hv hne
            exact hframe u v hu hv (fun hh => hne hh.2)
        · rw [if_neg hgt]
          refine ⟨st, rfl, hinv, ?_, fun _ _ _ _ _ => rfl⟩
          intro l hl
          rw [hcols k (List.mem_cons_self _ _) l hl]
          have hjk : st.d j k = D j k := hcols k (List.mem_cons_self _ _) j hj
          rw [hjk] at hgt
          unfold relaxed
          rw [if_neg]
          rintro ⟨-, h2, h3⟩
          have t := hD.tri l j k hl hj hk h2 (by rw [INT_MAX_val]; omega)
          omega
      · rw [if_neg hik]
        refine ⟨st, rfl, hinv, ?_, fun _ _ _ _ _ => rfl⟩
        intro l hl
        rw [hcols k (List.mem_cons_self _ _) l hl]
        unfold relaxed
        rw [if_neg (fun hh => hik hh.1)]
    obtain ⟨st1, hstep, hinv1, hval, hframe⟩ := hiter
    have hcols1 : ∀ x ∈ ks, ∀ l, l ≤ n → st1.d l x = D l x := by
      intro x hx l hl
      rw [hframe l x hl (hks2 x hx) (fun e => hnotin (e ▸ hx))]
      exact hcols x (List.mem_cons_of_mem _ hx) l hl
    obtain ⟨st2, h2, hinv2, hval2, hframe2⟩ := ih st1 hks2 hnd2 hinv1 hcols1
    refine ⟨st2, by rw [hstep]; exact h2, hinv2, ?_, ?_⟩
    · intro x hx l hl
      rcases List.mem_cons.mp hx with e | e
      · subst e
        rw [hframe2 l x hl hk hnotin]
        exact hval l hl
      · exact hval2 x e l hl
    · intro u v hu hv hne
      rw [hframe2 u v hu hv (fun hh => hne (List.mem_cons_of_mem _ hh))]
      exact hframe u v hu hv (fun e => hne (e ▸ List.mem_cons_self _ _))

/-- The three results of `TemporalOrderings::refine` on a well-formed,
consistent collection with the triangle inequality and bounded distances: the
receiver when the guard `possibly_not_before` fails (the two nodes are already
at least `dist` apart), null when the new constraint contradicts the matrix,
and otherwise a new collection whose matrix is the old one relaxed through the
new constraint. -/
theorem refine_outcome (store : List IntVector) (o : TemporalOrderings)
    (ord : Ordering)
    (hwf : o.WellFormed store) (hcons : o.Consistent store) (htri : o.Triangle store)
    (hbnd : o.Bounded store)
    (hb1 : ord.before_id ≠ 0) (hb2 : ord.before_id ≠ GOAL_ID)
    (ha1 : ord.after_id ≠ 0) (ha2 : ord.after_id ≠ GOAL_ID)
    (hbr : 2 * ord.before_id ≤ o.distance.length) (har : 2 * ord.after_id ≤ o.distance.length)
    (hsame : ¬ (ord.before_id = ord.after_id ∧ ord.before_time.lt ord.after_time = true))
    (i j : Nat) (dist : Int)
    (hi_def : time_node ord.before_id ord.before_time = i)
    (hj_def : time_node ord.after_id ord.after_time = j)
    (hdist_def :
      (if ord.before_time.rel.val < ord.after_time.rel.val then (0 : Int) else 1) = dist) :
    i ≤ o.distance.length ∧ j ≤ o.distance.length ∧
    ((o.refine store ord = .ok (Refined.this, store) ∧ o.dist store j i ≤ -dist)
    ∨ (∃ store2, o.refine store ord = .ok (Refined.null, store2) ∧ o.dist store i j < dist)
    ∨ (∃ st2, o.refine store ord = .ok (Refined.fresh st2.orderings, st2.store)
        ∧ dist ≤ o.dist store i j
        ∧ FillInv (o.dist store) o.distance.length store.length i j dist store
            o.goal_achievers st2
        ∧ ∀ l k, l ≤ o.distance.length → k ≤ o.distance.length →
            st2.d l k = relaxed (o.dist store) i j dist l k)) := by
  have hd0 : 0 ≤ dist := by rw [← hdist_def]; split <;> omega
  have hd1 : dist ≤ 1 := by rw [← hdist_def]; split <;> omega
  have hn := hwf.small
  have hi : i ≤ o.distance.length := by
    rw [← hi_def]; exact time_node_le _ _ _ hb1 hbr hn
  have hj : j ≤ o.distance.length := by
    rw [← hj_def]; exact time_node_le _ _ _ ha1 har hn
  refine ⟨hi, hj, ?_⟩
  have hwf0 := initial_wf store o hwf
  have hgd : ∀ u v, u ≤ o.distance.length → v ≤ o.distance.length →
      o.get_distance store u v = .ok (o.dist store u v) := by
    intro u v hu hv
    have := get_distance_ok _ _ _ hwf0 u v hu hv
    simp only [TemporalOrderings.copy_eq] at this
    exact this
  have hD : GoodMatrix (o.dist store) o.distance.length := by
    refine ⟨?_, hcons, htri, hbnd⟩
    intro u
    simp [TemporalOrderings.dist, TemporalOrderings.get_distance]
  have hinv0 : FillInv (o.dist store) o.distance.length store.length i j dist store
      o.goal_achievers ⟨store, o.copy, []⟩ := by
    refine ⟨hwf0, ?_, fun _ _ => rfl, by rw [TemporalOrderings.copy_eq]⟩
    intro u v _ _
    left
    simp [TState.d, TemporalOrderings.copy_eq]
  have hkeep0 : FillKeep o.distance.length store.length store ⟨store, o.copy, []⟩ :=
    ⟨hwf0, fun _ _ => rfl⟩
  have hcij := hcons i j hi hj
  unfold TemporalOrderings.refine
  rw [if_pos ⟨hb1, ha2⟩]
  unfold TemporalOrderings.possibly_not_before
  rw [if_neg hsame, if_neg (by rintro (h | h); exact hb1 h; exact ha2 h),
    if_neg (by rintro (h | h); exact hb2 h; exact ha1 h)]
  simp only [hi_def, hj_def, hdist_def]
  rw [hgd j i hj hi]
  simp only
  by_cases hg : (decide (o.dist store j i > 0)
      || (decide (o.dist store j i = 0)
          && decide (ord.after_time.rel.val ≤ ord.before_time.rel.val))) = true
  · rw [hg]
    simp only
    right
    have hg2 : o.dist store j i > wrap32 (-dist) := by
      rw [wrap32_eq _ (by omega) (by omega)]
      simp only [Bool.or_eq_true, Bool.and_eq_true, decide_eq_true_eq] at hg
      rcases hg with h | ⟨h1, h2⟩
      · omega
      · have : dist = 1 := by
          rw [← hdist_def, if_neg (by omega)]
        omega
    unfold TState.fill_transitive
    simp only [TemporalOrderings.copy_eq]
    rw [hgd j i hj hi]
    simp only
    rw [if_pos hg2]
    simp only [TemporalOrderings.copy_eq] at hinv0 hkeep0
    by_cases hij : dist ≤ o.dist store i j
    · right
      obtain ⟨st2, h2, hinv2, hval, -⟩ :=
        fill_outer_exact (o.dist store) o.distance.length store.length
          i j dist store o.goal_achievers hD hi hj hd0 hd1 hij
          (List.range (o.distance.length + 1)) _ (range_le _) (List.nodup_range _) hinv0
          (fun k _ l _ => by simp [TState.d])
      rw [h2]
      refine ⟨st2, rfl, hij, hinv2, ?_⟩
      intro l k hl hk
      exact hval k (List.mem_range.mpr (by omega)) l hl
    · left
      have hlo : -536870912 ≤ o.dist store i j := by
        rcases hbnd i j hi hj with e | e
        · rw [e, INT_MAX_val]; omega
        · exact e.1
      obtain ⟨st2, h2, hk2⟩ := fill_outer_bad o.distance.length store.length i j dist
        (o.dist store i j) store hi hj (by omega) hlo hd0 hd1
        (List.range (o.distance.length + 1)) _ (range_le _) (List.mem_range.mpr (by omega))
        hkeep0 (by simp [TState.d])
      rw [h2]
      exact ⟨st2.store, rfl, by omega⟩
  · have hg3 : (decide (o.dist store j i > 0)
        || (decide (o.dist store j i = 0)
            && decide (ord.after_time.rel.val ≤ ord.before_time.rel.val))) = false := by
      simpa using hg
    rw [hg3]
    left
    refine ⟨rfl, ?_⟩
    simp only [Bool.or_eq_false_iff, Bool.and_eq_false_iff, decide_eq_false_iff_not] at hg3
    obtain ⟨h1, h2⟩ := hg3
    rcases h2 with h2 | h2
    · omega
    · have : dist = 0 := by
        rw [← hdist_def, if_pos (by omega)]
      omega

/-- C12, refuted as stated: in the network of two steps without any finite
distance, which is consistent and satisfies the triangle inequality, `refine`
of the end of step 1 before the start of step 2 returns a new collection in
which the distances from the start of step 2 and from the end of step 1 to
node 0 are both still `INT_MAX`, so the scheduled start of step 2 is not one
tick after the scheduled end of step 1. -/
theorem temporal_refine_schedule_not_later :
    Ex.two_steps.WellFormed Ex.store_inf ∧ Ex.two_steps.Consistent Ex.store_inf
    ∧ Ex.two_steps.Triangle Ex.store_inf
    ∧ Ex.two_steps.refine Ex.store_inf ⟨1, StepTime.AT_END, 2, StepTime.AT_START⟩
        = .ok (Refined.fresh ⟨[0, 1, 4, 3], []⟩, Ex.store_inf_refined)
    ∧ TemporalOrderings.get_distance Ex.store_inf_refined ⟨[0, 1, 4, 3], []⟩
        (time_node 2 StepTime.AT_START) 0 = .ok INT_MAX
    ∧ TemporalOrderings.get_distance Ex.store_inf_refined ⟨[0, 1, 4, 3], []⟩
        (time_node 1 StepTime.AT_END) 0 = .ok INT_MAX
    ∧ ¬ (-INT_MAX ≥ -INT_MAX + 1) := by
  refine ⟨two_steps_wf _ ⟨_, rfl, rfl⟩ ⟨_, rfl, rfl⟩ ⟨_, rfl, rfl⟩ ⟨_, rfl, rfl⟩,
    ?_, ?_, rfl, rfl, rfl, by decide⟩
  · intro u v hu hv
    have hu2 : u ≤ 4 := hu
    have hv2 : v ≤ 4 := hv
    interval_cases u <;> interval_cases v <;> decide
  · intro u v w hu hv hw
    have hu2 : u ≤ 4 := hu
    have hv2 : v ≤ 4 := hv
    have hw2 : w ≤ 4 := hw
    interval_cases u <;> interval_cases v <;> interval_cases w <;> decide

theorem dist_self (store : List IntVector) (o : TemporalOrderings) (u : Nat) :
    o.dist store u u = 0 := by
  unfold TemporalOrderings.dist TemporalOrderings.get_distance
  rw [if_pos rfl]

theorem relaxed_through (D : Nat → Nat → Int) (i j : Nat) (dist : Int) (k : Nat)
    (hjj : D j j = 0) (hik : D i k < INT_MAX) :
    relaxed D i j dist j k ≤ D i k - dist := by
  unfold relaxed
  by_cases hc : D i k < INT_MAX ∧ D j j < INT_MAX ∧ D j j + D i k - dist < D j k
  · rw [if_pos hc, hjj]
    omega
  · rw [if_neg hc]
    have : ¬ (D j j + D i k - dist < D j k) := by
      intro h3
      apply hc
      refine ⟨hik, ?_, h3⟩
      rw [hjj, INT_MAX_val]
      omega
    rw [hjj] at this
    omega

theorem relaxed_row (D : Nat → Nat → Int) (i j : Nat) (dist : Int) (k : Nat)
    (hij : dist ≤ D i j) : relaxed D i j dist i k = D i k := by
  unfold relaxed
  rw [if_neg]
  rintro ⟨-, -, h3⟩
  omega

/-- C12, amended: for a well-formed, consistent temporal ordering collection
with the triangle inequality and bounded finite distances, distinct regular
steps `s1` and `s2` of the collection, and a finite distance from the end of
`s1` to node 0: `refine(Ordering(s1, AT_END, s2, AT_START))` returns, and in
the collection it returns (the receiver or a new one) the scheduled start of
`s2` is at least one tick after the scheduled end of `s1`. -/
theorem temporal_refine_orders_schedule (store : List IntVector) (o : TemporalOrderings)
    (s1 s2 : Nat)
    (hwf : o.WellFormed store) (hcons : o.Consistent store) (htri : o.Triangle store)
    (hbnd : o.Bounded store)
    (h1 : s1 ≠ 0) (h1G : s1 ≠ GOAL_ID) (h2 : s2 ≠ 0) (h2G : s2 ≠ GOAL_ID)
    (hr1 : 2 * s1 ≤ o.distance.length) (hr2 : 2 * s2 ≤ o.distance.length)
    (hne : s1 ≠ s2)
    (hfin : o.dist store (time_node s1 StepTime.AT_END) 0 < INT_MAX) :
    ∃ r store2,
      o.refine store ⟨s1, StepTime.AT_END, s2, StepTime.AT_START⟩ = .ok (r, store2)
      ∧ (r = Refined.this →
          -(o.dist store2 (time_node s2 StepTime.AT_START) 0)
            ≥ -(o.dist store2 (time_node s1 StepTime.AT_END) 0) + 1)
      ∧ (∀ o2, r = Refined.fresh o2 →
          -(o2.dist store2 (time_node s2 StepTime.AT_START) 0)
            ≥ -(o2.dist store2 (time_node s1 StepTime.AT_END) 0) + 1) := by
  obtain ⟨hi, hj, hout⟩ := refine_outcome store o ⟨s1, StepTime.AT_END, s2, StepTime.AT_START⟩
    hwf hcons htri hbnd h1 h1G h2 h2G hr1 hr2 (fun hh => hne hh.1)
    (time_node s1 StepTime.AT_END) (time_node s2 StepTime.AT_START) 1 rfl rfl rfl
  generalize time_node s1 StepTime.AT_END = i at hi hout hfin ⊢
  generalize time_node s2 StepTime.AT_START = j at hj hout ⊢
  have h0 : (0 : Nat) ≤ o.distance.length := Nat.zero_le _
  rcases hout with ⟨href, hji⟩ | ⟨store2, href, -⟩ | ⟨st2, href, hij, hinv, hval⟩
  · refine ⟨Refined.this, store, href, ?_, fun o2 ho2 => by cases ho2⟩
    intro _
    have hjifin : o.dist store j i < INT_MAX := by rw [INT_MAX_val]; omega
    have := htri j i 0 hj hi h0 hjifin hfin
    omega
  · refine ⟨Refined.null, store2, href, ?_, ?_⟩
    · intro h; cases h
    · intro o2 ho2; cases ho2
  · refine ⟨Refined.fresh st2.orderings, st2.store, href, ?_, ?_⟩
    · intro h; cases h
    intro o2 ho2
    cases ho2
    have e1 : st2.d j 0 = relaxed (o.dist store) i j 1 j 0 := hval j 0 hj h0
    have e2 : st2.d i 0 = relaxed (o.dist store) i j 1 i 0 := hval i 0 hi h0
    have hjj : o.dist store j j = 0 := dist_self store o j
    have r1 := relaxed_through (o.dist store) i j 1 0 hjj hfin
    have r2 := relaxed_row (o.dist store) i j 1 0 hij
    have g1 : st2.d j 0 ≤ o.dist store i 0 - 1 := by rw [e1]; exact r1
    have g2 : st2.d i 0 = o.dist store i 0 := by rw [e2]; exact r2
    show -(st2.d j 0) ≥ -(st2.d i 0) + 1
    rw [g2]
    omega

/-- C12, amended, at a concrete input: the minimal network of two unrelated
steps of duration 1 tick that start at tick 1 or later, and the ordering of the
end of step 1 before the start of step 2. -/
theorem temporal_refine_orders_schedule_witness :
    ∃ r store2,
      Ex.two_steps.refine Ex.store_two ⟨1, StepTime.AT_END, 2, StepTime.AT_START⟩
        = .ok (r, store2)
      ∧ (r = Refined.this →
          -(Ex.two_steps.dist store2 (time_node 2 StepTime.AT_START) 0)
            ≥ -(Ex.two_steps.dist store2 (time_node 1 StepTime.AT_END) 0) + 1)
      ∧ (∀ o2, r = Refined.fresh o2 →
          -(o2.dist store2 (time_node 2 StepTime.AT_START) 0)
            ≥ -(o2.dist store2 (time_node 1 StepTime.AT_END) 0) + 1) :=
  temporal_refine_orders_schedule Ex.store_two Ex.two_steps 1 2
    (two_steps_wf _ ⟨_, rfl, rfl⟩ ⟨_, rfl, rfl⟩ ⟨_, rfl, rfl⟩ ⟨_, rfl, rfl⟩)
    two_steps_consistent two_steps_triangle two_steps_bounded
    (by decide) (by decide) (by decide) (by decide) (by decide) (by decide) (by decide)
    (by decide)

theorem sum_eq (n m : Int) (hn : 0 ≤ n) (hn2 : n ≤ INT_MAX) (hm : 0 ≤ m) (hm2 : m ≤ INT_MAX) :
    sum n m = some (min (n + m) INT_MAX) := by
  unfold sum int_sub int_add INT_MIN INT_MAX at *
  have h1 : (-2147483648 : Int) ≤ 2147483647 - n ∧ 2147483647 - n ≤ 2147483647 := by omega
  rw [if_pos h1]
  show (if 2147483647 - n > m then _ else _) = _
  by_cases h : 2147483647 - n > m
  · rw [if_pos h]
    have h2 : (-2147483648 : Int) ≤ n + m ∧ n + m ≤ 2147483647 := by omega
    rw [if_pos h2, min_eq_left (by omega)]
  · rw [if_neg h, min_eq_right (by omega)]

/-- C30: for `0 ≤ n, m ≤ INT_MAX` the helper `sum(n, m)` returns `min(n + m, INT_MAX)` with no
signed overflow on the way; `operator+=` and `increment_work` set `add_work` to that value, and
adding a value to `INFINITE` leaves `add_work` at `INT_MAX`. -/
theorem sum_saturates (n m : Int) (hn : 0 ≤ n) (hn2 : n ≤ INT_MAX) (hm : 0 ≤ m)
    (hm2 : m ≤ INT_MAX) :
    sum n m = some (min (n + m) INT_MAX)
    ∧ (∀ (fadd : Flt → Flt → Flt) (h v : HeuristicValue), h.add_work = n → v.add_work = m →
        ∃ r, h.op_add_assign fadd v = some r ∧ r.add_work = min (n + m) INT_MAX)
    ∧ (∀ h : HeuristicValue, h.add_work = n →
        ∃ r, h.increment_work = some r ∧ r.add_work = min (n + 1) INT_MAX)
    ∧ (∀ (fadd : Flt → Flt → Flt) (v : HeuristicValue), v.add_work = m →
        ∃ r, HeuristicValue.INFINITE.op_add_assign fadd v = some r ∧ r.add_work = INT_MAX) := by
  refine ⟨sum_eq n m hn hn2 hm hm2, ?_, ?_, ?_⟩
  · intro fadd h v hh hv
    unfold HeuristicValue.op_add_assign
    rw [hh, hv, sum_eq n m hn hn2 hm hm2]
    exact ⟨_, rfl, rfl⟩
  · intro h hh
    unfold HeuristicValue.increment_work
    rw [hh, sum_eq n 1 hn hn2 (by decide) (by decide)]
    exact ⟨_, rfl, rfl⟩
  · intro fadd v hv
    unfold HeuristicValue.op_add_assign
    have : HeuristicValue.INFINITE.add_work = INT_MAX := rfl
    rw [this, hv, sum_eq INT_MAX m (by decide) (le_refl _) hm hm2]
    refine ⟨_, rfl, ?_⟩
    show min (INT_MAX + m) INT_MAX = INT_MAX
    exact min_eq_right (by omega)

theorem sum_saturates_witness :
    sum 2147483000 1000 = some (min (2147483000 + 1000) INT_MAX)
    ∧ (∀ (fadd : Flt → Flt → Flt) (h v : HeuristicValue), h.add_work = 2147483000 →
        v.add_work = 1000 →
        ∃ r, h.op_add_assign fadd v = some r ∧ r.add_work = min (2147483000 + 1000) INT_MAX)
    ∧ (∀ h : HeuristicValue, h.add_work = 2147483000 →
        ∃ r, h.increment_work = some r ∧ r.add_work = min (2147483000 + 1) INT_MAX)
    ∧ (∀ (fadd : Flt → Flt → Flt) (v : HeuristicValue), v.add_work = 1000 →
        ∃ r, HeuristicValue.INFINITE.op_add_assign fadd v = some r ∧ r.add_work = INT_MAX) :=
  sum_saturates 2147483000 1000 (by decide) (by decide) (by decide) (by decide)

/-- C34: the step times (START, AFTER) and (START, AT) are not equal and the first is not less
than the second, yet `operator<=` holds in both directions, and so does `operator>=`: `<=`
compares the points with `<=` before it looks at the relations. -/
theorem steptime_le_not_lt_or_eq :
    StepTime.le ⟨.START, .AFTER⟩ ⟨.START, .AT⟩ = true
    ∧ StepTime.lt ⟨.START, .AFTER⟩ ⟨.START, .AT⟩ = false
    ∧ StepTime.eq ⟨.START, .AFTER⟩ ⟨.START, .AT⟩ = false
    ∧ StepTime.le ⟨.START, .AT⟩ ⟨.START, .AFTER⟩ = true
    ∧ StepTime.ge ⟨.START, .AT⟩ ⟨.START, .AFTER⟩ = true
    ∧ StepTime.gt ⟨.START, .AT⟩ ⟨.START, .AFTER⟩ = false
    ∧ StepTime.le ⟨.END, .BEFORE⟩ ⟨.START, .AT⟩ = false := by
  decide

/-- C39: on the domain with the tuples (o1), (o2), `get_excluded_domain(o1, 0)` is the domain
with the single tuple (o1), the same as `get_restricted_domain(o1, 0)`, while the set version
`get_excluded_domain({o1}, 0)` is the domain with the single tuple (o2). -/
theorem get_excluded_domain_keeps_object :
    Ex.D12.get_excluded_domain Ex.o1 0 = .ok (.fresh ⟨[[Ex.o1]]⟩)
    ∧ Ex.D12.get_restricted_domain Ex.o1 0 = .ok (.fresh ⟨[[Ex.o1]]⟩)
    ∧ Ex.D12.get_excluded_domain_set [Ex.o1] 0 = .ok (.fresh ⟨[[Ex.o2]]⟩) := by
  decide

theorem remove_loop_eraseP {T : Type} (eq : T → T → Bool) (h : T) (l : List T) :
    Chain.remove_loop eq h l = l.eraseP (fun x => eq h x) := by
  induction l with
  | nil => rfl
  | cons x ci ih =>
    unfold Chain.remove_loop
    by_cases hx : eq h x = true
    · rw [if_pos hx, List.eraseP_cons_of_pos hx]
    · rw [if_neg hx, List.eraseP_cons_of_neg hx, ih]

theorem chain_size_length {T : Type} (l : List T) : Chain.size l = l.length := by
  induction l with
  | nil => rfl
  | cons x ci ih => unfold Chain.size; rw [ih]; rfl

/-- C40: for every chain (head, tail) and element h, `remove(h)` is the sequence of the chain
with the first element equal to h removed, the others in their order; its size is one less
than the size of the chain when `contains(h)` holds, and otherwise it is the same sequence as
the chain. -/
theorem chain_remove_first_occurrence {T : Type} (eq : T → T → Bool) (head : T)
    (tail : List T) (h : T) :
    Chain.remove eq head tail h = (head :: tail).eraseP (fun x => eq h x)
    ∧ (Chain.contains eq head tail h = true →
        Chain.size (Chain.remove eq head tail h) + 1 = Chain.size (head :: tail))
    ∧ (Chain.contains eq head tail h = false →
        Chain.remove eq head tail h = head :: tail) := by
  have key : Chain.remove eq head tail h = (head :: tail).eraseP (fun x => eq h x) := by
    unfold Chain.remove
    by_cases hx : eq h head = true
    · rw [if_pos hx, List.eraseP_cons_of_pos hx]
    · rw [if_neg hx, List.eraseP_cons_of_neg hx]
      cases tail with
      | nil => rfl
      | cons y ys =>
        show head :: Chain.remove_loop eq h (y :: ys) = _
        rw [remove_loop_eraseP]
  refine ⟨key, ?_, ?_⟩
  · intro hc
    rw [key, chain_size_length, chain_size_length]
    unfold Chain.contains at hc
    rw [List.any_eq_true] at hc
    obtain ⟨x, hx, hp⟩ := hc
    rw [List.length_eraseP_of_mem hx hp]
    simp
  · intro hc
    rw [key]
    unfold Chain.contains at hc
    apply List.eraseP_of_forall_not
    intro x hx hp
    have : (head :: tail).any (fun x => eq h x) = true := List.any_eq_true.mpr ⟨x, hx, hp⟩
    rw [hc] at this
    exact Bool.noConfusion this

theorem chain_remove_first_occurrence_witness :
    Chain.contains (fun a b : Nat => a == b) 1 [2, 3, 2] 2 = true
    ∧ Chain.remove (fun a b : Nat => a == b) 1 [2, 3, 2] 2
        = (1 :: [2, 3, 2]).eraseP (fun x => 2 == x)
    ∧ Chain.size (Chain.remove (fun a b : Nat => a == b) 1 [2, 3, 2] 2) + 1
        = Chain.size (1 :: [2, 3, 2]) :=
  ⟨by decide,
   (chain_remove_first_occurrence (fun a b : Nat => a == b) 1 [2, 3, 2] 2).1,
   (chain_remove_first_occurrence (fun a b : Nat => a == b) 1 [2, 3, 2] 2).2.1 (by decide)⟩

theorem flt_fin_lt (m1 : Int) (e1 : Nat) (m2 : Int) (e2 : Nat) :
    (Flt.fin m1 e1).lt (Flt.fin m2 e2) = true ↔ (m1 : ℚ) / 2 ^ e1 < (m2 : ℚ) / 2 ^ e2 := by
  have h1 : (0 : ℚ) < 2 ^ e1 := by positivity
  have h2 : (0 : ℚ) < 2 ^ e2 := by positivity
  rw [div_lt_div_iff₀ h1 h2]
  simp only [Flt.lt, decide_eq_true_eq]
  constructor
  · intro h; exact_mod_cast h
  · intro h; exact_mod_cast h

theorem flt_fin_eq (m1 : Int) (e1 : Nat) (m2 : Int) (e2 : Nat) :
    (Flt.fin m1 e1).eq (Flt.fin m2 e2) = true ↔ (m1 : ℚ) / 2 ^ e1 = (m2 : ℚ) / 2 ^ e2 := by
  have h1 : (2 : ℚ) ^ e1 ≠ 0 := by positivity
  have h2 : (2 : ℚ) ^ e2 ≠ 0 := by positivity
  rw [div_eq_div_iff h1 h2]
  simp only [Flt.eq, decide_eq_true_eq]
  constructor
  · intro h; exact_mod_cast h
  · intro h; exact_mod_cast h

/-- C21: `Heuristic::operator=` accepts the empty string: the loop is not entered and the
heuristic is left with no primitive at all. A trailing slash, an empty component and an
unknown name are rejected, and a known name is accepted (when the byte read at `name[npos]`
after the last key is not a slash, here NUL). -/
theorem heuristic_empty_name_accepted (junk : Char) :
    Heuristic.assign junk "" = .ok ⟨[], false⟩
    ∧ Heuristic.assign junk "ADD/" = .invalid
    ∧ Heuristic.assign junk "ADD//OC" = .invalid
    ∧ Heuristic.assign junk "FOO" = .invalid
    ∧ Heuristic.assign (Char.ofNat 0) "add/S+OC" = .ok ⟨[.ADD, .S_PLUS_OC], true⟩ := by
  refine ⟨rfl, rfl, rfl, rfl, by decide⟩

/-- C35: for a timed literal whose literal has the start-time value `ZERO_COST_UNIT_WORK`,
`TimedLiteral::get_heuristic_value` leaves `hs` at that value when the time stamp is
`AT_END_F` and sets it to `ZERO` when the time stamp is `OVER_ALL_F`. -/
theorem timed_literal_hs_at_end_kept (threshold : Flt) (h : HeuristicValue) :
    (TimedLiteral.get_heuristic_value threshold
        (h, HeuristicValue.ZERO_COST_UNIT_WORK threshold) .AT_END_F).2
      = HeuristicValue.ZERO_COST_UNIT_WORK threshold
    ∧ (TimedLiteral.get_heuristic_value threshold
        (h, HeuristicValue.ZERO_COST_UNIT_WORK threshold) .AT_END_F).2
      ≠ HeuristicValue.ZERO threshold
    ∧ (TimedLiteral.get_heuristic_value threshold
        (h, HeuristicValue.ZERO_COST_UNIT_WORK threshold) .OVER_ALL_F).2
      = HeuristicValue.ZERO threshold
    ∧ (TimedLiteral.get_heuristic_value threshold
        (h, HeuristicValue.ZERO_COST_UNIT_WORK threshold) .AT_START_F).2
      = HeuristicValue.ZERO_COST_UNIT_WORK threshold := by
  refine ⟨rfl, ?_, rfl, rfl⟩
  show HeuristicValue.ZERO_COST_UNIT_WORK threshold ≠ HeuristicValue.ZERO threshold
  intro hc
  have h1 : (1 : Int) = 0 := congrArg HeuristicValue.add_work hc
  exact absurd h1 (by decide)

theorem relaxed_le (D : Nat → Nat → Int) (i j : Nat) (dist : Int) (l k : Nat) :
    relaxed D i j dist l k ≤ D l k := by
  unfold relaxed
  split
  · omega
  · exact le_refl _

theorem relaxed_le_path (D : Nat → Nat → Int) (i j : Nat) (dist : Int) (l k : Nat)
    (h1 : D i k < INT_MAX) (h2 : D l j < INT_MAX) :
    relaxed D i j dist l k ≤ D l j + D i k - dist := by
  unfold relaxed
  by_cases hc : D i k < INT_MAX ∧ D l j < INT_MAX ∧ D l j + D i k - dist < D l k
  · rw [if_pos hc]
  · rw [if_neg hc]
    have : ¬ (D l j + D i k - dist < D l k) := fun h3 => hc ⟨h1, h2, h3⟩
    omega

theorem relaxed_cases (D : Nat → Nat → Int) (i j : Nat) (dist : Int) (l k : Nat) :
    relaxed D i j dist l k = D l k
    ∨ (D i k < INT_MAX ∧ D l j < INT_MAX ∧ relaxed D i j dist l k = D l j + D i k - dist) := by
  unfold relaxed
  by_cases hc : D i k < INT_MAX ∧ D l j < INT_MAX ∧ D l j + D i k - dist < D l k
  · rw [if_pos hc]; exact Or.inr ⟨hc.1, hc.2.1, rfl⟩
  · rw [if_neg hc]; exact Or.inl rfl

theorem good_fin (D : Nat → Nat → Int) (n : Nat) (hD : GoodMatrix D n) (u v : Nat)
    (hu : u ≤ n) (hv : v ≤ n) (h : D u v < INT_MAX) :
    -536870912 ≤ D u v ∧ D u v ≤ 536870912 := by
  rcases hD.bnd u v hu hv with e | e
  · omega
  · exact e

theorem good_lo (D : Nat → Nat → Int) (n : Nat) (hD : GoodMatrix D n) (u v : Nat)
    (hu : u ≤ n) (hv : v ≤ n) : -536870912 ≤ D u v := by
  rcases hD.bnd u v hu hv with e | e
  · rw [e, INT_MAX_val]; omega
  · exact e.1

theorem good_tri_fin (D : Nat → Nat → Int) (n : Nat) (hD : GoodMatrix D n) (u v w : Nat)
    (hu : u ≤ n) (hv : v ≤ n) (hw : w ≤ n) (h1 : D u v < INT_MAX) (h2 : D v w < INT_MAX) :
    D u w ≤ D u v + D v w ∧ D u w < INT_MAX := by
  have t := hD.tri u v w hu hv hw h1 h2
  have b1 := good_fin D n hD u v hu hv h1
  have b2 := good_fin D n hD v w hv hw h2
  refine ⟨t, ?_⟩
  rw [INT_MAX_val]
  omega

theorem relaxed_triangle (D : Nat → Nat → Int) (n i j : Nat) (dist : Int)
    (hD : GoodMatrix D n) (hi : i ≤ n) (hj : j ≤ n) (hd0 : 0 ≤ dist) (hij : dist ≤ D i j)
    (u v w : Nat) (hu : u ≤ n) (hv : v ≤ n) (hw : w ≤ n)
    (h1 : relaxed D i j dist u v < INT_MAX) (h2 : relaxed D i j dist v w < INT_MAX) :
    relaxed D i j dist u w ≤ relaxed D i j dist u v + relaxed D i j dist v w := by
  rcases relaxed_cases D i j dist u v with e1 | ⟨a1, b1, e1⟩ <;>
  rcases relaxed_cases D i j dist v w with e2 | ⟨a2, b2, e2⟩
  · rw [e1] at h1 ⊢
    rw [e2] at h2 ⊢
    have := hD.tri u v w hu hv hw h1 h2
    have := relaxed_le D i j dist u w
    omega
  · rw [e1] at h1 ⊢
    rw [e2]
    obtain ⟨t, tf⟩ := good_tri_fin D n hD u v j hu hv hj h1 b2
    have := relaxed_le_path D i j dist u w a2 tf
    omega
  · rw [e1]
    rw [e2] at h2 ⊢
    obtain ⟨t, tf⟩ := good_tri_fin D n hD i v w hi hv hw a1 h2
    have := relaxed_le_path D i j dist u w tf b1
    omega
  · rw [e1, e2]
    obtain ⟨t, -⟩ := good_tri_fin D n hD i v j hi hv hj a1 b2
    have := relaxed_le_path D i j dist u w a2 b1
    omega

theorem relaxed_consistent (D : Nat → Nat → Int) (n i j : Nat) (dist : Int)
    (hD : GoodMatrix D n) (hi : i ≤ n) (hj : j ≤ n) (hd0 : 0 ≤ dist) (hd1 : dist ≤ 1)
    (hij : dist ≤ D i j)
    (u v : Nat) (hu : u ≤ n) (hv : v ≤ n) :
    0 ≤ relaxed D i j dist u v + relaxed D i j dist v u := by
  have c := hD.cons u v hu hv
  have luv := good_lo D n hD u v hu hv
  have lvu := good_lo D n hD v u hv hu
  rcases relaxed_cases D i j dist u v with e1 | ⟨a1, b1, e1⟩ <;>
  rcases relaxed_cases D i j dist v u with e2 | ⟨a2, b2, e2⟩
  · rw [e1, e2]; exact c
  · rw [e1, e2]
    -- D i j ≤ D i u + D u v + D v j
    by_cases hf : D u v < INT_MAX
    · obtain ⟨t1, f1⟩ := good_tri_fin D n hD i u v hi hu hv a2 hf
      obtain ⟨t2, -⟩ := good_tri_fin D n hD i v j hi hv hj f1 b2
      omega
    · have f2 := good_fin D n hD i u hi hu a2
      have f3 := good_fin D n hD v j hv hj b2
      rw [INT_MAX_val] at hf
      omega
  · rw [e1, e2]
    by_cases hf : D v u < INT_MAX
    · obtain ⟨t1, f1⟩ := good_tri_fin D n hD i v u hi hv hu a1 hf
      obtain ⟨t2, -⟩ := good_tri_fin D n hD i u j hi hu hj f1 b1
      omega
    · have f2 := good_fin D n hD i v hi hv a1
      have f3 := good_fin D n hD u j hu hj b1
      rw [INT_MAX_val] at hf
      omega
  · rw [e1, e2]
    obtain ⟨t1, -⟩ := good_tri_fin D n hD i v j hi hv hj a1 b2
    obtain ⟨t2, -⟩ := good_tri_fin D n hD i u j hi hu hj a2 b1
    omega

theorem relaxed_implied (D : Nat → Nat → Int) (n i j : Nat) (dist : Int)
    (hD : GoodMatrix D n) (hi : i ≤ n) (hj : j ≤ n) (hd0 : 0 ≤ dist)
    (hji : D j i ≤ -dist) (l k : Nat) (hl : l ≤ n) (hk : k ≤ n) :
    relaxed D i j dist l k = D l k := by
  rcases relaxed_cases D i j dist l k with e | ⟨a, b, e⟩
  · exact e
  · have hfin : D j i < INT_MAX := by rw [INT_MAX_val]; omega
    obtain ⟨t1, f1⟩ := good_tri_fin D n hD l j i hl hj hi b hfin
    obtain ⟨t2, -⟩ := good_tri_fin D n hD l i k hl hi hk f1 a
    have := relaxed_le D i j dist l k
    omega

/-- C32 (as amended): for a well-formed collection whose matrix has no negative cycle,
satisfies the triangle inequality and has every distance infinite or at most 2^29 in
magnitude, nodes i, j of the collection and a separation of 0 or 1: if `fill_transitive(i, j,
dist)` on a copy of the collection returns true, then every new distance is the smaller of
the old one and the path through the new constraint (`INT_MAX` read as infinity), and the new
matrix has no negative cycle and satisfies the triangle inequality. -/
theorem fill_transitive_minimal (store : List IntVector) (o : TemporalOrderings)
    (i j : Nat) (dist : Int) (st2 : TState)
    (hwf : o.WellFormed store) (hcons : o.Consistent store) (htri : o.Triangle store)
    (hbnd : o.Bounded store) (hi : i ≤ o.distance.length) (hj : j ≤ o.distance.length)
    (hd0 : 0 ≤ dist) (hd1 : dist ≤ 1)
    (hret : TState.fill_transitive ⟨store, o.copy, []⟩ i j dist = .ok (true, st2)) :
    (∀ l k, l ≤ o.distance.length → k ≤ o.distance.length →
      st2.d l k = relaxed (o.dist store) i j dist l k)
    ∧ (∀ u v, u ≤ o.distance.length → v ≤ o.distance.length → 0 ≤ st2.d u v + st2.d v u)
    ∧ (∀ u v w, u ≤ o.distance.length → v ≤ o.distance.length → w ≤ o.distance.length →
        st2.d u v < INT_MAX → st2.d v w < INT_MAX → st2.d u w ≤ st2.d u v + st2.d v w) := by
  have hwf0 := initial_wf store o hwf
  have hgd : ∀ u v, u ≤ o.distance.length → v ≤ o.distance.length →
      o.get_distance store u v = .ok (o.dist store u v) := by
    intro u v hu hv
    have := get_distance_ok _ _ _ hwf0 u v hu hv
    simp only [TemporalOrderings.copy_eq] at this
    exact this
  have hD : GoodMatrix (o.dist store) o.distance.length :=
    ⟨fun u => dist_self store o u, hcons, htri, hbnd⟩
  have hinv0 : FillInv (o.dist store) o.distance.length store.length i j dist store
      o.goal_achievers ⟨store, o.copy, []⟩ := by
    refine ⟨hwf0, ?_, fun _ _ => rfl, by rw [TemporalOrderings.copy_eq]⟩
    intro u v _ _
    left
    simp [TState.d, TemporalOrderings.copy_eq]
  have hkeep0 : FillKeep o.distance.length store.length store ⟨store, o.copy, []⟩ :=
    ⟨hwf0, fun _ _ => rfl⟩
  -- the new matrix is the relaxed one, and the constraint is consistent with the old one
  have key : (∀ l k, l ≤ o.distance.length → k ≤ o.distance.length →
      st2.d l k = relaxed (o.dist store) i j dist l k) ∧ dist ≤ o.dist store i j := by
    unfold TState.fill_transitive at hret
    simp only [TemporalOrderings.copy_eq] at hret hinv0 hkeep0
    rw [hgd j i hj hi] at hret
    simp only at hret
    by_cases hg : o.dist store j i > wrap32 (-dist)
    · rw [if_pos hg] at hret
      by_cases hij : dist ≤ o.dist store i j
      · obtain ⟨st3, h3, -, hval, -⟩ :=
          fill_outer_exact (o.dist store) o.distance.length store.length
            i j dist store o.goal_achievers hD hi hj hd0 hd1 hij
            (List.range (o.distance.length + 1)) _ (range_le _) (List.nodup_range _) hinv0
            (fun k _ l _ => by simp [TState.d])
        rw [h3] at hret
        have e : st3 = st2 := by injection hret with h; injection h
        rw [← e]
        exact ⟨fun l k hl hk => hval k (List.mem_range.mpr (by omega)) l hl, hij⟩
      · exfalso
        have hlo := good_lo _ _ hD i j hi hj
        obtain ⟨st3, h3, -⟩ := fill_outer_bad o.distance.length store.length i j dist
          (o.dist store i j) store hi hj (by omega) hlo hd0 hd1
          (List.range (o.distance.length + 1)) _ (range_le _)
          (List.mem_range.mpr (by omega)) hkeep0 (by simp [TState.d])
        rw [h3] at hret
        injection hret with h
        injection h with h4
        exact Bool.noConfusion h4
    · rw [if_neg hg] at hret
      have e : (⟨store, o, []⟩ : TState) = st2 := by injection hret with h; injection h
      rw [wrap32_eq _ (by omega) (by omega)] at hg
      have hji : o.dist store j i ≤ -dist := by omega
      have hc := hcons i j hi hj
      refine ⟨?_, by omega⟩
      intro l k hl hk
      rw [relaxed_implied _ _ i j dist hD hi hj hd0 hji l k hl hk, ← e]
      rfl
  obtain ⟨hval, hij⟩ := key
  refine ⟨hval, ?_, ?_⟩
  · intro u v hu hv
    rw [hval u v hu hv, hval v u hv hu]
    exact relaxed_consistent _ _ i j dist hD hi hj hd0 hd1 hij u v hu hv
  · intro u v w hu hv hw
    rw [hval u v hu hv, hval v w hv hw, hval u w hu hw]
    exact relaxed_triangle _ _ i j dist hD hi hj hd0 hij u v w hu hv hw

theorem store_five_good : Ex.one_step.WellFormed Ex.store_five
    ∧ Ex.one_step.Consistent Ex.store_five ∧ Ex.one_step.Triangle Ex.store_five := by
  refine ⟨⟨by decide, ?_⟩, ?_, ?_⟩
  · intro r hr
    have : r < 2 := hr
    interval_cases r
    · exact ⟨0, _, rfl, rfl, rfl⟩
    · exact ⟨1, _, rfl, rfl, rfl⟩
  · intro u v hu hv
    have hu2 : u ≤ 2 := hu
    have hv2 : v ≤ 2 := hv
    interval_cases u <;> interval_cases v <;> decide
  · intro u v w hu hv hw
    have hu2 : u ≤ 2 := hu
    have hv2 : v ≤ 2 := hv
    have hw2 : w ≤ 2 := hw
    interval_cases u <;> interval_cases v <;> interval_cases w <;> decide

theorem fill_transitive_minimal_witness :
    TState.fill_transitive ⟨Ex.store_five, Ex.one_step.copy, []⟩ 1 2 1
      = .ok (true, ⟨Ex.store_five ++ [[INT_MAX, INT_MAX, -1, 4]], ⟨[0, 2], []⟩, [(1, 2)]⟩)
    ∧ (∀ l k, l ≤ 2 → k ≤ 2 →
        TState.d ⟨Ex.store_five ++ [[INT_MAX, INT_MAX, -1, 4]], ⟨[0, 2], []⟩, [(1, 2)]⟩ l k
          = relaxed (Ex.one_step.dist Ex.store_five) 1 2 1 l k) :=
  ⟨rfl,
   (fill_transitive_minimal Ex.store_five Ex.one_step 1 2 1 _ store_five_good.1
     store_five_good.2.1 store_five_good.2.2
     (by
      intro u v hu hv
      have hu2 : u ≤ 2 := hu
      have hv2 : v ≤ 2 := hv
      interval_cases u <;> interval_cases v <;> decide)
     (by decide) (by decide) (by decide) (by decide) rfl).1⟩

/-- C32 (counterexample): on the one-step network in which only d(1, 0) = 5 is finite, which
has no negative cycle and satisfies the triangle inequality, `fill_transitive(1, 2, 1)`
returns true, and its loops reach k = 0 (d(1, 0) is finite and d(2, 0) exceeds d(1, 0) - 1)
and l = 0, where `new_d = d_ik + d_lj - dist` adds 5 to d(0, 2) = `INT_MAX`: the sum is
outside the range of `int`. -/
theorem fill_transitive_addition_overflows :
    Ex.one_step.WellFormed Ex.store_five
    ∧ Ex.one_step.Consistent Ex.store_five ∧ Ex.one_step.Triangle Ex.store_five
    ∧ (∃ st2, TState.fill_transitive ⟨Ex.store_five, Ex.one_step.copy, []⟩ 1 2 1
        = .ok (true, st2))
    ∧ Ex.one_step.get_distance Ex.store_five 2 1 = .ok INT_MAX
    ∧ Ex.one_step.get_distance Ex.store_five 1 0 = .ok 5
    ∧ Ex.one_step.get_distance Ex.store_five 2 0 = .ok INT_MAX
    ∧ Ex.one_step.get_distance Ex.store_five 0 2 = .ok INT_MAX
    ∧ INT_MAX < 5 + INT_MAX := by
  refine ⟨store_five_good.1, store_five_good.2.1, store_five_good.2.2, ⟨_, rfl⟩,
    rfl, rfl, rfl, rfl, by decide⟩

/-- C26: in the table with the single simple type created by `add_type("a")`, both
`is_subtype(a, OBJECT)` and `is_subtype(OBJECT, a)` read `utypes[-1]`, outside the (empty)
vector of union types, whatever the fuel: `OBJECT` has index 0, which `is_simple` takes for a
union type. -/
theorem is_subtype_object_out_of_range (fuel : Nat) :
    (TypeTable.empty.add_type "a").2 = 1
    ∧ (TypeTable.empty.add_type "a").1.is_subtype (fuel + 1) 1 TypeTable.OBJECT
        = .fault .out_of_range
    ∧ (TypeTable.empty.add_type "a").1.is_subtype (fuel + 1) TypeTable.OBJECT 1
        = .fault .out_of_range := by
  refine ⟨by decide, ?_, ?_⟩ <;> rfl

theorem tcell_inj (a b c d : Nat) (ha : 1 ≤ a) (hb : 1 ≤ b) (hc : 1 ≤ c) (hd : 1 ≤ d)
    (hab : a ≠ b) (hcd : c ≠ d) (h : tcell a b = tcell c d) : a = c ∧ b = d := by
  unfold tcell at h
  have h1 := congrArg Prod.fst h
  have h2 := congrArg Prod.snd h
  simp only at h1 h2
  split at h2 <;> split at h2 <;> omega

theorem shape_index2 (tt : TypeTable) (n : Nat) (hs : tt.Shape n) (a b : Nat)
    (ha : 1 ≤ a) (han : a ≤ n) (hb : 1 ≤ b) (hbn : b ≤ n) (hab : a ≠ b) :
    ∃ row, tt.subtype[(tcell a b).1]? = some row ∧ (tcell a b).2 < row.length := by
  have hr : (tcell a b).1 < tt.subtype.length := by
    rw [hs.rows]; unfold tcell; simp only; omega
  have hsome : tt.subtype[(tcell a b).1]? = some (tt.subtype[(tcell a b).1]) :=
    List.getElem?_eq_getElem hr
  refine ⟨_, hsome, ?_⟩
  rw [hs.cols _ _ hsome]
  unfold tcell
  simp only
  split <;> omega

theorem is_subtype_simple (tt : TypeTable) (n : Nat) (hs : tt.Shape n) (fuel : Nat)
    (a b : Nat) (ha : 1 ≤ a) (han : a ≤ n) (hb : 1 ≤ b) (hbn : b ≤ n) :
    tt.is_subtype (fuel + 1) (a : Int) (b : Int) = .value (tt.rel a b) := by
  have hn := hs.small
  unfold TypeTable.is_subtype TypeTable.rel
  by_cases hab : a = b
  · subst hab
    simp
  · have hne : (a : Int) ≠ (b : Int) := by exact_mod_cast hab
    rw [if_neg hne]
    have hsa : Ty.is_simple (a : Int) = true := by unfold Ty.is_simple; simp; omega
    have hsb : Ty.is_simple (b : Int) = true := by unfold Ty.is_simple; simp; omega
    simp only [hsa, hsb, Bool.not_true, Bool.false_eq_true, if_false]
    have hoa : ¬ ((a : Int) = TypeTable.OBJECT) := by unfold TypeTable.OBJECT; omega
    have hob : ¬ ((b : Int) = TypeTable.OBJECT) := by unfold TypeTable.OBJECT; omega
    rw [if_neg hoa, if_neg hob]
    have hbeq : (a == b) = false := by simpa using hab
    rw [hbeq, Bool.false_or]
    obtain ⟨row, hrow, hcol⟩ := shape_index2 tt n hs a b ha han hb hbn hab
    unfold TypeTable.subtype_at
    by_cases hlt : b < a
    · have hlt2 : (b : Int) < (a : Int) := by exact_mod_cast hlt
      rw [if_pos hlt2]
      have e1 : (((a : Int) - 2) % 2 ^ 64).toNat = (tcell a b).1 := by
        unfold tcell; simp only
        have : ((a : Int) - 2) % 2 ^ 64 = (a : Int) - 2 := Int.emod_eq_of_lt (by omega) (by omega)
        rw [this]; omega
      have e2 : ((2 * (a : Int) - (b : Int) - 2) % 2 ^ 64).toNat = (tcell a b).2 := by
        unfold tcell; simp only
        rw [if_pos hlt]
        have : (2 * (a : Int) - (b : Int) - 2) % 2 ^ 64 = 2 * (a : Int) - (b : Int) - 2 :=
          Int.emod_eq_of_lt (by omega) (by omega)
        rw [this]; omega
      rw [e1, e2]
      cases h : index2 tt.subtype (tcell a b).1 (tcell a b).2 with
      | ok x => rfl
      | error e =>
        exfalso
        unfold index2 at h
        rw [hrow] at h
        simp only at h
        rw [List.getElem?_eq_getElem hcol] at h
        simp at h
    · have hlt2 : ¬ ((b : Int) < (a : Int)) := by
        intro hc; exact hlt (by exact_mod_cast hc)
      rw [if_neg hlt2]
      have e1 : (((b : Int) - 2) % 2 ^ 64).toNat = (tcell a b).1 := by
        unfold tcell; simp only
        have : ((b : Int) - 2) % 2 ^ 64 = (b : Int) - 2 := Int.emod_eq_of_lt (by omega) (by omega)
        rw [this]; omega
      have e2 : (((a : Int) - 1) % 2 ^ 64).toNat = (tcell a b).2 := by
        unfold tcell; simp only
        rw [if_neg hlt]
        have : ((a : Int) - 1) % 2 ^ 64 = (a : Int) - 1 := Int.emod_eq_of_lt (by omega) (by omega)
        rw [this]; omega
      rw [e1, e2]
      cases h : index2 tt.subtype (tcell a b).1 (tcell a b).2 with
      | ok x => rfl
      | error e =>
        exfalso
        unfold index2 at h
        rw [hrow] at h
        simp only at h
        rw [List.getElem?_eq_getElem hcol] at h
        simp at h

theorem index2_set {α : Type} (m : List (List α)) (r c : Nat) (row : List α) (x : α)
    (hrow : m[r]? = some row) (hc : c < row.length) (r2 c2 : Nat) :
    index2 (m.set r (row.set c x)) r2 c2
      = if r2 = r ∧ c2 = c then .ok x else index2 m r2 c2 := by
  have hr : r < m.length := by
    by_contra hcon
    have : m[r]? = none := List.getElem?_eq_none (by omega)
    rw [this] at hrow
    exact Option.noConfusion hrow
  unfold index2
  by_cases h1 : r2 = r
  · subst h1
    rw [List.getElem?_set_self hr, hrow]
    simp only
    by_cases h2 : c2 = c
    · subst h2
      rw [List.getElem?_set_self hc]
      simp
    · rw [List.getElem?_set_ne (Ne.symm h2), if_neg (fun h => h2 h.2)]
  · rw [List.getElem?_set_ne (Ne.symm h1), if_neg (fun h => h1 h.1)]

theorem set_subtype_spec (tt : TypeTable) (n : Nat) (hs : tt.Shape n) (k l : Nat)
    (hk : 1 ≤ k) (hkn : k ≤ n) (hl : 1 ≤ l) (hln : l ≤ n) (hkl : k ≠ l) :
    ∃ tt1, (if k > l then tt.set_subtype (usub k 2) (usub (usub (umul 2 k) l) 2)
             else tt.set_subtype (usub l 2) (usub k 1)) = .ok tt1
      ∧ tt1.Shape n
      ∧ ∀ a b, 1 ≤ a → 1 ≤ b → tt1.rel a b = (tt.rel a b || (a == k && b == l)) := by
  have hn := hs.small
  obtain ⟨row, hrow, hcol⟩ := shape_index2 tt n hs k l hk hkn hl hln hkl
  have e : (if k > l then tt.set_subtype (usub k 2) (usub (usub (umul 2 k) l) 2)
             else tt.set_subtype (usub l 2) (usub k 1))
      = tt.set_subtype (tcell k l).1 (tcell k l).2 := by
    unfold tcell
    simp only
    by_cases h : k > l
    · rw [if_pos h, if_pos h, umul_two k (by omega), usub_eq k 2 (by omega) (by omega),
        usub_eq (2 * k) l (by omega) (by omega), usub_eq (2 * k - l) 2 (by omega) (by omega)]
      congr 1
      omega
    · rw [if_neg h, if_neg (by omega), usub_eq l 2 (by omega) (by omega),
        usub_eq k 1 (by omega) (by omega)]
      congr 1
      omega
  rw [e]
  unfold TypeTable.set_subtype
  rw [hrow]
  simp only
  rw [if_pos hcol]
  refine ⟨_, rfl, ?_, ?_⟩
  · refine ⟨hs.names, hs.small, ?_, ?_⟩
    · show (tt.subtype.set _ _).length = n - 1
      rw [List.length_set]; exact hs.rows
    · intro r row2 hr2
      have hr2b : (tt.subtype.set (tcell k l).1 (row.set (tcell k l).2 true))[r]? = some row2 :=
        hr2
      by_cases h1 : r = (tcell k l).1
      · subst h1
        have hlen : (tcell k l).1 < tt.subtype.length := by
          by_contra hcon
          have : tt.subtype[(tcell k l).1]? = none := List.getElem?_eq_none (by omega)
          rw [this] at hrow
          exact Option.noConfusion hrow
        rw [List.getElem?_set_self hlen] at hr2b
        injection hr2b with h3
        rw [← h3, List.length_set]
        exact hs.cols _ _ hrow
      · rw [List.getElem?_set_ne (Ne.symm h1)] at hr2b
        exact hs.cols _ _ hr2b
  · intro a b ha hb
    unfold TypeTable.rel
    show (a == b || match index2 (tt.subtype.set (tcell k l).1 (row.set (tcell k l).2 true))
        (tcell a b).1 (tcell a b).2 with
      | .ok x => x
      | .error _ => false) = _
    rw [index2_set tt.subtype _ _ row true hrow hcol]
    by_cases hab : a = b
    · subst hab
      simp
    · have hbeq : (a == b) = false := by simpa using hab
      rw [hbeq, Bool.false_or, Bool.false_or]
      by_cases hc : (tcell a b).1 = (tcell k l).1 ∧ (tcell a b).2 = (tcell k l).2
      · rw [if_pos hc]
        have heq : tcell a b = tcell k l := Prod.ext hc.1 hc.2
        obtain ⟨e1, e2⟩ := tcell_inj a b k l ha hb hk hl hab hkl heq
        subst e1; subst e2
        simp
      · rw [if_neg hc]
        have : (a == k && b == l) = false := by
          by_contra hcon
          simp only [Bool.not_eq_false, Bool.and_eq_true, beq_iff_eq] at hcon
          apply hc
          rw [hcon.1, hcon.2]
          exact ⟨rfl, rfl⟩
        rw [this, Bool.or_false]

theorem add_supertype_inner_spec (n fuel t2 k : Nat) (ht2 : 1 ≤ t2) (ht2n : t2 ≤ n)
    (hk : 1 ≤ k) (hkn : k ≤ n) (hkt : k ≠ t2) (T : Nat → Bool)
    (hTk : ∀ l, T l = true → l ≠ k) :
    ∀ (ls : List Nat) (tt : TypeTable), (∀ l ∈ ls, 1 ≤ l ∧ l ≤ n) → tt.Shape n →
      (∀ l, 1 ≤ l → l ≤ n → tt.rel t2 l = T l) →
      ∃ tt1, TypeTable.add_supertype_inner (fuel + 1) (t2 : Int) k ls tt = .value tt1
        ∧ tt1.Shape n
        ∧ ∀ a b, 1 ≤ a → 1 ≤ b →
            tt1.rel a b = (tt.rel a b || (a == k && decide (b ∈ ls) && T b)) := by
  intro ls
  induction ls with
  | nil =>
    intro tt _ hs _
    exact ⟨tt, rfl, hs, fun a b _ _ => by simp⟩
  | cons l ls ih =>
    intro tt hls hs hT
    obtain ⟨hl, hln⟩ := hls l (List.mem_cons_self _ _)
    have hls2 : ∀ x ∈ ls, 1 ≤ x ∧ x ≤ n := fun x hx => hls x (List.mem_cons_of_mem _ hx)
    unfold TypeTable.add_supertype_inner
    rw [is_subtype_simple tt n hs fuel t2 l ht2 ht2n hl hln, hT l hl hln]
    cases hTl : T l with
    | true =>
      simp only
      have hlk : k ≠ l := fun h => hTk l hTl h.symm
      obtain ⟨tt1, h1, hs1, hr1⟩ := set_subtype_spec tt n hs k l hk hkn hl hln hlk
      rw [h1]
      simp only
      have hT1 : ∀ x, 1 ≤ x → x ≤ n → tt1.rel t2 x = T x := by
        intro x hx hxn
        rw [hr1 t2 x ht2 hx, hT x hx hxn]
        have : (t2 == k) = false := by simpa using (Ne.symm hkt)
        rw [this]
        simp
      obtain ⟨tt2, h2, hs2, hr2⟩ := ih tt1 hls2 hs1 hT1
      refine ⟨tt2, h2, hs2, ?_⟩
      intro a b ha hb
      rw [hr2 a b ha hb, hr1 a b ha hb]
      by_cases hbl : b = l
      · subst hbl
        simp only [hTl, beq_self_eq_true, Bool.and_true, List.mem_cons, true_or, decide_True]
        cases tt.rel a b <;> cases (a == k) <;> simp
      · have : (b == l) = false := by simpa using hbl
        simp [this, hbl]
    | false =>
      simp only
      obtain ⟨tt2, h2, hs2, hr2⟩ := ih tt hls2 hs hT
      refine ⟨tt2, h2, hs2, ?_⟩
      intro a b ha hb
      rw [hr2 a b ha hb]
      by_cases hbl : b = l
      · subst hbl
        simp [hTl]
      · simp [hbl]

theorem range_succ_mem (n b : Nat) : b ∈ (List.range n).map (· + 1) ↔ 1 ≤ b ∧ b ≤ n := by
  simp only [List.mem_map, List.mem_range]
  constructor
  · rintro ⟨x, hx, rfl⟩; omega
  · rintro ⟨h1, h2⟩; exact ⟨b - 1, by omega, by omega⟩

theorem range_succ_nodup (n : Nat) : ((List.range n).map (· + 1)).Nodup :=
  (List.nodup_range n).map (fun a b h => by simpa using h)

theorem add_supertype_outer_spec (n fuel t1 t2 : Nat) (ht1 : 1 ≤ t1) (ht1n : t1 ≤ n)
    (ht2 : 1 ≤ t2) (ht2n : t2 ≤ n) (R : Nat → Nat → Bool)
    (hnot : R t2 t1 = false) (hrefl : R t2 t2 = true)
    (hcyc : ∀ k, 1 ≤ k → k ≤ n → R k t1 = true → R t2 k = true → False) :
    ∀ (ks : List Nat) (tt : TypeTable) (P : Nat → Bool), (∀ k ∈ ks, 1 ≤ k ∧ k ≤ n) →
      ks.Nodup → (∀ k ∈ ks, P k = false) → tt.Shape n →
      (∀ a b, 1 ≤ a → a ≤ n → 1 ≤ b → b ≤ n →
        tt.rel a b = (R a b || (P a && R a t1 && !R a t2 && R t2 b))) →
      ∃ tt1, TypeTable.add_supertype_outer (fuel + 1) (t1 : Int) (t2 : Int) n ks tt
          = .value tt1
        ∧ tt1.Shape n
        ∧ ∀ a b, 1 ≤ a → a ≤ n → 1 ≤ b → b ≤ n →
            tt1.rel a b = (R a b || ((P a || decide (a ∈ ks)) && R a t1 && !R a t2 && R t2 b)) := by
  intro ks
  induction ks with
  | nil =>
    intro tt P _ _ _ hs hr
    exact ⟨tt, rfl, hs, fun a b ha han hb hbn => by rw [hr a b ha han hb hbn]; simp⟩
  | cons k ks ih =>
    intro tt P hks hnd hP hs hr
    obtain ⟨hk, hkn⟩ := hks k (List.mem_cons_self _ _)
    have hks2 : ∀ x ∈ ks, 1 ≤ x ∧ x ≤ n := fun x hx => hks x (List.mem_cons_of_mem _ hx)
    obtain ⟨hnotin, hnd2⟩ := List.nodup_cons.mp hnd
    have hPk : P k = false := hP k (List.mem_cons_self _ _)
    have hP2 : ∀ x ∈ ks, P x = false := fun x hx => hP x (List.mem_cons_of_mem _ hx)
    have e1 : tt.rel k t1 = R k t1 := by
      rw [hr k t1 hk hkn ht1 ht1n, hPk]; simp
    have e2 : tt.rel k t2 = R k t2 := by
      rw [hr k t2 hk hkn ht2 ht2n, hPk]; simp
    unfold TypeTable.add_supertype_outer
    rw [is_subtype_simple tt n hs fuel k t1 hk hkn ht1 ht1n, e1,
      is_subtype_simple tt n hs fuel k t2 hk hkn ht2 ht2n, e2]
    cases h1 : R k t1 with
    | false =>
      simp only
      obtain ⟨tt2, h2, hs2, hr2⟩ := ih tt P hks2 hnd2 hP2 hs hr
      refine ⟨tt2, h2, hs2, ?_⟩
      intro a b ha han hb hbn
      rw [hr2 a b ha han hb hbn]
      by_cases hak : a = k
      · subst hak
        simp [h1]
      · simp [hak]
    | true =>
      cases h2 : R k t2 with
      | true =>
        simp only
        obtain ⟨tt2, h3, hs2, hr2⟩ := ih tt P hks2 hnd2 hP2 hs hr
        refine ⟨tt2, h3, hs2, ?_⟩
        intro a b ha han hb hbn
        rw [hr2 a b ha han hb hbn]
        by_cases hak : a = k
        · subst hak
          simp [h2]
        · simp [hak]
      | false =>
        simp only
        have hkt : k ≠ t2 := by
          intro h; rw [h, hrefl] at h2; exact Bool.noConfusion h2
        have hT : ∀ l, 1 ≤ l → l ≤ n → tt.rel t2 l = R t2 l := by
          intro l hl hln
          rw [hr t2 l ht2 ht2n hl hln, hnot]
          simp
        obtain ⟨tt1, hi1, hs1, hr1⟩ := add_supertype_inner_spec n fuel t2 k ht2 ht2n hk hkn hkt
          (fun l => R t2 l) (fun l hl hlk => hcyc k hk hkn h1 (by rw [← hlk]; exact hl))
          ((List.range n).map (· + 1)) tt (fun l hl => (range_succ_mem n l).mp hl) hs hT
        rw [hi1]
        simp only
        have hP3 : ∀ x ∈ ks, (fun a => P a || a == k) x = false := by
          intro x hx
          have : x ≠ k := fun h => hnotin (h ▸ hx)
          simp [hP2 x hx, this]
        obtain ⟨tt2, h3, hs2, hr2⟩ := ih tt1 (fun a => P a || a == k) hks2 hnd2 hP3 hs1
          (by
            intro a b ha han hb hbn
            rw [hr1 a b ha hb, hr a b ha han hb hbn]
            have hmem : decide (b ∈ (List.range n).map (· + 1)) = true := by
              simpa using (range_succ_mem n b).mpr ⟨hb, hbn⟩
            rw [hmem]
            by_cases hak : a = k
            · subst hak
              simp [h1, h2, hPk]
            · have : (a == k) = false := by simpa using hak
              simp [this])
        refine ⟨tt2, h3, hs2, ?_⟩
        intro a b ha han hb hbn
        rw [hr2 a b ha han hb hbn]
        by_cases hak : a = k
        · subst hak
          simp
        · have : (a == k) = false := by simpa using hak
          simp [this, hak]

/-- C27: in a table with n simple types created by `add_type` whose subtype relation is
transitive and antisymmetric (it is reflexive by `is_subtype` itself), for simple types t1,
t2: `add_supertype(t1, t2)` returns false and leaves the table as it is when t2 is a proper
subtype of t1; otherwise it returns true, every access being in bounds, and afterwards a is a
subtype of b exactly when it was before or a was a subtype of t1 and t2 a subtype of b; the new
relation holds (t1, t2) and is again transitive and antisymmetric. -/
theorem add_supertype_closure (tt : TypeTable) (n fuel t1 t2 : Nat) (hs : tt.Shape n)
    (ht1 : 1 ≤ t1) (ht1n : t1 ≤ n) (ht2 : 1 ≤ t2) (ht2n : t2 ≤ n)
    (htrans : ∀ a b c, 1 ≤ a → a ≤ n → 1 ≤ b → b ≤ n → 1 ≤ c → c ≤ n →
      tt.rel a b = true → tt.rel b c = true → tt.rel a c = true)
    (hanti : ∀ a b, 1 ≤ a → a ≤ n → 1 ≤ b → b ≤ n →
      tt.rel a b = true → tt.rel b a = true → a = b) :
    ((tt.rel t2 t1 = true ∧ t2 ≠ t1) →
      TypeTable.add_supertype (fuel + 1) tt (t1 : Int) (t2 : Int) = .value (false, tt))
    ∧ (¬ (tt.rel t2 t1 = true ∧ t2 ≠ t1) →
      ∃ tt1, TypeTable.add_supertype (fuel + 1) tt (t1 : Int) (t2 : Int) = .value (true, tt1)
        ∧ tt1.Shape n
        ∧ (∀ a b, 1 ≤ a → a ≤ n → 1 ≤ b → b ≤ n →
            tt1.rel a b = (tt.rel a b || (tt.rel a t1 && tt.rel t2 b)))
        ∧ tt1.rel t1 t2 = true
        ∧ (∀ a b c, 1 ≤ a → a ≤ n → 1 ≤ b → b ≤ n → 1 ≤ c → c ≤ n →
            tt1.rel a b = true → tt1.rel b c = true → tt1.rel a c = true)
        ∧ (∀ a b, 1 ≤ a → a ≤ n → 1 ≤ b → b ≤ n →
            tt1.rel a b = true → tt1.rel b a = true → a = b)) := by
  have hrefl : ∀ a, tt.rel a a = true := fun a => by unfold TypeTable.rel; simp
  have hsimple : Ty.is_simple (t2 : Int) = true := by unfold Ty.is_simple; simp; omega
  have hunf : TypeTable.add_supertype (fuel + 1) tt (t1 : Int) (t2 : Int)
      = match tt.rel t1 t2 with
        | true => .value (true, tt)
        | false =>
          match tt.rel t2 t1 with
          | true => .value (false, tt)
          | false =>
            match TypeTable.add_supertype_outer (fuel + 1) (t1 : Int) (t2 : Int)
                tt.names.length ((List.range tt.names.length).map (· + 1)) tt with
            | .value tt1 => .value (true, tt1)
            | .diverged => .diverged
            | .fault e => .fault e
            | .null => .null := by
    unfold TypeTable.add_supertype
    simp only [hsimple, Bool.not_true, Bool.false_eq_true, if_false]
    rw [is_subtype_simple tt n hs fuel t1 t2 ht1 ht1n ht2 ht2n,
      is_subtype_simple tt n hs fuel t2 t1 ht2 ht2n ht1 ht1n]
    cases tt.rel t1 t2 <;> cases tt.rel t2 t1 <;> rfl
  -- the properties of the extended relation
  have hprops : ∀ tt1 : TypeTable,
      (∀ a b, 1 ≤ a → a ≤ n → 1 ≤ b → b ≤ n →
        tt1.rel a b = (tt.rel a b || (tt.rel a t1 && tt.rel t2 b))) →
      (tt.rel t1 t2 = true ∨ tt.rel t2 t1 = false) →
      tt1.rel t1 t2 = true
      ∧ (∀ a b c, 1 ≤ a → a ≤ n → 1 ≤ b → b ≤ n → 1 ≤ c → c ≤ n →
          tt1.rel a b = true → tt1.rel b c = true → tt1.rel a c = true)
      ∧ (∀ a b, 1 ≤ a → a ≤ n → 1 ≤ b → b ≤ n →
          tt1.rel a b = true → tt1.rel b a = true → a = b) := by
    intro tt1 hr hcase
    have hold : ∀ a b, 1 ≤ a → a ≤ n → 1 ≤ b → b ≤ n →
        tt.rel t1 t2 = true → tt.rel a t1 = true → tt.rel t2 b = true → tt.rel a b = true := by
      intro a b ha han hb hbn h12 h1 h2
      exact htrans a t1 b ha han ht1 ht1n hb hbn h1
        (htrans t1 t2 b ht1 ht1n ht2 ht2n hb hbn h12 h2)
    refine ⟨?_, ?_, ?_⟩
    · rw [hr t1 t2 ht1 ht1n ht2 ht2n, hrefl t1, hrefl t2]; simp
    · intro a b c ha han hb hbn hc hcn hab hbc
      rw [hr a b ha han hb hbn] at hab
      rw [hr b c hb hbn hc hcn] at hbc
      rw [hr a c ha han hc hcn]
      simp only [Bool.or_eq_true, Bool.and_eq_true] at hab hbc ⊢
      rcases hab with hab | ⟨h1, h2⟩
      · rcases hbc with hbc | ⟨h3, h4⟩
        · exact Or.inl (htrans a b c ha han hb hbn hc hcn hab hbc)
        · exact Or.inr ⟨htrans a b t1 ha han hb hbn ht1 ht1n hab h3, h4⟩
      · rcases hbc with hbc | ⟨h3, h4⟩
        · exact Or.inr ⟨h1, htrans t2 b c ht2 ht2n hb hbn hc hcn h2 hbc⟩
        · exact Or.inr ⟨h1, h4⟩
    · intro a b ha han hb hbn hab hba
      rw [hr a b ha han hb hbn] at hab
      rw [hr b a hb hbn ha han] at hba
      simp only [Bool.or_eq_true, Bool.and_eq_true] at hab hba
      rcases hcase with h12 | h21
      · have hab2 : tt.rel a b = true := by
          rcases hab with h | ⟨h1, h2⟩
          · exact h
          · exact hold a b ha han hb hbn h12 h1 h2
        have hba2 : tt.rel b a = true := by
          rcases hba with h | ⟨h1, h2⟩
          · exact h
          · exact hold b a hb hbn ha han h12 h1 h2
        exact hanti a b ha han hb hbn hab2 hba2
      · rcases hab with hab | ⟨h1, h2⟩
        · rcases hba with hba | ⟨h3, h4⟩
          · exact hanti a b ha han hb hbn hab hba
          · exfalso
            have := htrans t2 a t1 ht2 ht2n ha han ht1 ht1n h4
              (htrans a b t1 ha han hb hbn ht1 ht1n hab h3)
            rw [h21] at this
            exact Bool.noConfusion this
        · exfalso
          rcases hba with hba | ⟨h3, h4⟩
          · have := htrans t2 b t1 ht2 ht2n hb hbn ht1 ht1n h2
              (htrans b a t1 hb hbn ha han ht1 ht1n hba h1)
            rw [h21] at this
            exact Bool.noConfusion this
          · have := htrans t2 a t1 ht2 ht2n ha han ht1 ht1n h4 h1
            rw [h21] at this
            exact Bool.noConfusion this
  constructor
  · rintro ⟨h21, hne⟩
    rw [hunf]
    have h12 : tt.rel t1 t2 = false := by
      by_contra hc
      have : tt.rel t1 t2 = true := by simpa using hc
      exact hne (hanti t2 t1 ht2 ht2n ht1 ht1n h21 this)
    rw [h12, h21]
  · intro hnp
    rw [hunf]
    cases h12 : tt.rel t1 t2 with
    | true =>
      simp only
      have hr : ∀ a b, 1 ≤ a → a ≤ n → 1 ≤ b → b ≤ n →
          tt.rel a b = (tt.rel a b || (tt.rel a t1 && tt.rel t2 b)) := by
        intro a b ha han hb hbn
        cases h1 : tt.rel a t1 <;> cases h2 : tt.rel t2 b <;> simp
        exact htrans a t1 b ha han ht1 ht1n hb hbn h1
          (htrans t1 t2 b ht1 ht1n ht2 ht2n hb hbn h12 h2)
      obtain ⟨p1, p2, p3⟩ := hprops tt hr (Or.inl h12)
      exact ⟨tt, rfl, hs, hr, p1, p2, p3⟩
    | false =>
      have h21 : tt.rel t2 t1 = false := by
        by_contra hc
        have h : tt.rel t2 t1 = true := by simpa using hc
        apply hnp
        refine ⟨h, ?_⟩
        intro he
        rw [he, hrefl] at h12
        exact Bool.noConfusion h12
      simp only [h21]
      obtain ⟨tt1, ho, hs1, hr1⟩ := add_supertype_outer_spec n fuel t1 t2 ht1 ht1n ht2 ht2n
        (fun a b => tt.rel a b) h21 (hrefl t2)
        (fun k hk hkn hk1 hk2 => by
          have := htrans t2 k t1 ht2 ht2n hk hkn ht1 ht1n hk2 hk1
          rw [h21] at this
          exact Bool.noConfusion this)
        ((List.range n).map (· + 1)) tt (fun _ => false)
        (fun k hk => (range_succ_mem n k).mp hk) (range_succ_nodup n) (fun _ _ => rfl) hs
        (fun a b _ _ _ _ => by simp)
      rw [hs.names, ho]
      simp only
      have hr : ∀ a b, 1 ≤ a → a ≤ n → 1 ≤ b → b ≤ n →
          tt1.rel a b = (tt.rel a b || (tt.rel a t1 && tt.rel t2 b)) := by
        intro a b ha han hb hbn
        rw [hr1 a b ha han hb hbn]
        have hmem : decide (a ∈ (List.range n).map (· + 1)) = true := by
          simpa using (range_succ_mem n a).mpr ⟨ha, han⟩
        rw [hmem]
        simp only [Bool.false_or, Bool.true_and]
        cases h1 : tt.rel a t1 <;> cases h2 : tt.rel t2 b <;> cases h3 : tt.rel a t2 <;>
          simp
        exact htrans a t2 b ha han ht2 ht2n hb hbn h3 h2
      obtain ⟨p1, p2, p3⟩ := hprops tt1 hr (Or.inr h21)
      exact ⟨tt1, rfl, hs1, hr, p1, p2, p3⟩

theorem tt3_shape : Ex.tt3.Shape 3 := by
  refine ⟨rfl, by decide, rfl, ?_⟩
  intro r row h
  have hr : r < 2 := by
    by_contra hc
    have : Ex.tt3.subtype[r]? = none := List.getElem?_eq_none (by
      show [[false, false], [false, false, false, false]].length ≤ r
      simp; omega)
    rw [this] at h
    exact Option.noConfusion h
  interval_cases r
  · injection h with h; rw [← h]; rfl
  · injection h with h; rw [← h]; rfl

theorem add_supertype_closure_witness :
    ((TypeTable.empty.add_type "a").1.add_type "b").1.add_type "c" = (Ex.tt3, 3)
    ∧ ∃ tt1, TypeTable.add_supertype 1 Ex.tt3 ((1 : Nat) : Int) ((2 : Nat) : Int)
        = .value (true, tt1)
      ∧ tt1.Shape 3 ∧ tt1.rel 1 2 = true ∧ tt1.rel 2 1 = false := by
  refine ⟨by decide, ?_⟩
  obtain ⟨tt1, h1, h2, h3, h4, -, -⟩ :=
    (add_supertype_closure Ex.tt3 3 0 1 2 tt3_shape (by decide) (by decide) (by decide)
      (by decide)
      (by
        intro a b c ha han hb hbn hc hcn
        interval_cases a <;> interval_cases b <;> interval_cases c <;> decide)
      (by
        intro a b ha han hb hbn
        interval_cases a <;> interval_cases b <;> decide)).2 (by decide)
  refine ⟨tt1, h1, h2, h4, ?_⟩
  rw [h3 2 1 (by decide) (by decide) (by decide) (by decide)]
  decide

/-- C38: `FlawSelectionOrder::operator=` rejects the predefined name `MC-Loc-Conf`: the name
stands for the order string `{n,s}LR/[u}MC_add/{l}MC_add`, whose second criterion opens with
a bracket, not a brace (no byte outside the string is read before the exception; the
evaluation is given for NUL and for a slash there). The other predefined names are accepted. -/
theorem flaw_order_mc_loc_conf_rejected :
    named_order "MC-Loc-Conf".toList = some "\x7bn,s\x7dLR/[u\x7dMC_add/\x7bl\x7dMC_add"
    ∧ FlawSelectionOrder.assign (Char.ofNat 0) 2 "MC-Loc-Conf" = .invalid
    ∧ FlawSelectionOrder.assign '/' 2 "MC-Loc-Conf" = .invalid
    ∧ (Ex.order_names.all
        (fun name => (FlawSelectionOrder.assign (Char.ofNat 0) 2 name).accepted)) = true := by
  refine ⟨by decide, by decide, by decide, by decide⟩

theorem select_unsafe_lifo {U M O σ : Type} (uorc : UnsafeOracle U (Flaw U O M) σ)
    (sel : FlawSelection (Flaw U O M) σ) (u : U) (us : List U) :
    Ex.order_ucpop.select_unsafe uorc sel (u :: us) 0 0
      = .ok ({ sel with flaw := some (.unsafe_ u), criterion := 0 }, -1) := by
  cases us <;> rfl

theorem select_unsafe_lifo_second {U M O σ : Type} (uorc : UnsafeOracle U (Flaw U O M) σ)
    (sel : FlawSelection (Flaw U O M) σ) (u : U) (us : List U) :
    Ex.order_dend.select_unsafe uorc sel (u :: us) 1 1
      = .ok ({ sel with flaw := some (.unsafe_ u), criterion := 1 }, 0) := by
  cases us <;> rfl

theorem select_open_cond_lifo {U M O σ : Type} (oorc : OpenCondOracle O (Flaw U O M) σ)
    (sel : FlawSelection (Flaw U O M) σ) (oc : O) (ocs : List O) :
    Ex.order_ucpop.select_open_cond oorc sel (oc :: ocs) 1 1
      = .ok ({ sel with flaw := some (.open_cond oc), criterion := 1 }, 0) := by
  cases ocs <;> rfl

theorem select_open_cond_lifo_first {U M O σ : Type} (oorc : OpenCondOracle O (Flaw U O M) σ)
    (sel : FlawSelection (Flaw U O M) σ) (oc : O) (ocs : List O) :
    Ex.order_dend.select_open_cond oorc sel (oc :: ocs) 0 0
      = .ok ({ sel with flaw := some (.open_cond oc), criterion := 0 }, -1) := by
  cases ocs <;> rfl

theorem select_open_cond_fifo_loop {U M O σ : Type} (oorc : OpenCondOracle O (Flaw U O M) σ) :
    ∀ (ocs : List O) (oc : O) (local_id : Nat) (sel : FlawSelection (Flaw U O M) σ),
      select_open_cond_loop oorc Ex.order_fifo.selection_criteria 1 (oc :: ocs) local_id 1 sel
        = .ok ({ sel with flaw := some (.open_cond ((oc :: ocs).getLast
              (List.cons_ne_nil oc ocs))), criterion := 1 }, 1) := by
  intro ocs
  induction ocs with
  | nil => intro oc local_id sel; rfl
  | cons oc2 ocs ih =>
    intro oc local_id sel
    have step : select_open_cond_loop oorc Ex.order_fifo.selection_criteria 1
          (oc :: oc2 :: ocs) local_id 1 sel
        = select_open_cond_loop oorc Ex.order_fifo.selection_criteria 1 (oc2 :: ocs)
            (if local_id = 0 then oorc.get_step_id oc else local_id) 1
            { sel with flaw := some (.open_cond oc), criterion := 1 } := rfl
    rw [step, ih]
    rfl

/-- C18: with the flaw order `{n,s}LIFO/{o}LIFO`, `select` returns the first threat of the
chain of threats when there is one, otherwise the first open condition, otherwise the head of
the mutex-threat chain; with `{n,s}LIFO/{o}FIFO` and no threats it returns the last open
condition of the chain; with `{o}LIFO/{n,s}LIFO` it returns the first open condition even when
there are threats. This holds whatever the plan answers to the queries of the selection. -/
theorem select_lifo_fifo {U M O σ : Type} (uorc : UnsafeOracle U (Flaw U O M) σ)
    (oorc : OpenCondOracle O (Flaw U O M) σ) (s0 : σ) (u : U) (us : List U) (oc : O)
    (ocs : List O) (m : M) (ms : List M) (any_ocs : List O) (any_us : List U)
    (any_ms : List M) :
    FlawSelectionOrder.assign (Char.ofNat 0) 2 "{n,s}LIFO/{o}LIFO" = .ok Ex.order_ucpop
    ∧ FlawSelectionOrder.assign (Char.ofNat 0) 2 "{n,s}LIFO/{o}FIFO" = .ok Ex.order_fifo
    ∧ FlawSelectionOrder.assign (Char.ofNat 0) 2 "{o}LIFO/{n,s}LIFO" = .ok Ex.order_dend
    ∧ Ex.order_ucpop.select uorc oorc s0 (u :: us) any_ocs any_ms = .ok (.unsafe_ u)
    ∧ Ex.order_ucpop.select uorc oorc s0 [] (oc :: ocs) any_ms = .ok (.open_cond oc)
    ∧ Ex.order_ucpop.select uorc oorc s0 [] [] (m :: ms) = .ok (.mutex_threat m)
    ∧ Ex.order_fifo.select uorc oorc s0 [] (oc :: ocs) any_ms
        = .ok (.open_cond ((oc :: ocs).getLast (List.cons_ne_nil oc ocs)))
    ∧ Ex.order_dend.select uorc oorc s0 any_us (oc :: ocs) any_ms = .ok (.open_cond oc) := by
  refine ⟨by decide, by decide, by decide, ?_, ?_, rfl, ?_, ?_⟩
  · unfold FlawSelectionOrder.select
    have e1 : Ex.order_ucpop.first_unsafe_criterion = 0 := rfl
    have e2 : Ex.order_ucpop.last_unsafe_criterion = 0 := rfl
    rw [e1, e2, select_unsafe_lifo]
    cases any_ocs <;> rfl
  · unfold FlawSelectionOrder.select
    have e0 : Ex.order_ucpop.select_unsafe uorc (⟨none, INT_MAX, s0⟩ :
        FlawSelection (Flaw U O M) σ) [] Ex.order_ucpop.first_unsafe_criterion
        Ex.order_ucpop.last_unsafe_criterion = .ok (⟨none, INT_MAX, s0⟩, INT_MAX) := rfl
    rw [e0]
    have e1 : Ex.order_ucpop.first_open_cond_criterion = 1 := rfl
    have e2 : min Ex.order_ucpop.last_open_cond_criterion INT_MAX = 1 := by decide
    simp only [e1, e2]
    rw [select_open_cond_lifo]
  · unfold FlawSelectionOrder.select
    have e0 : Ex.order_fifo.select_unsafe uorc (⟨none, INT_MAX, s0⟩ :
        FlawSelection (Flaw U O M) σ) [] Ex.order_fifo.first_unsafe_criterion
        Ex.order_fifo.last_unsafe_criterion = .ok (⟨none, INT_MAX, s0⟩, INT_MAX) := rfl
    rw [e0]
    have e1 : Ex.order_fifo.first_open_cond_criterion = 1 := rfl
    have e2 : min Ex.order_fifo.last_open_cond_criterion INT_MAX = 1 := by decide
    simp only [e1, e2]
    have e3 : Ex.order_fifo.select_open_cond oorc (⟨none, INT_MAX, s0⟩ :
        FlawSelection (Flaw U O M) σ) (oc :: ocs) 1 1
        = select_open_cond_loop oorc Ex.order_fifo.selection_criteria 1 (oc :: ocs) 0 1
            ⟨none, INT_MAX, s0⟩ := rfl
    rw [e3, select_open_cond_fifo_loop]
  · unfold FlawSelectionOrder.select
    have e1 : Ex.order_dend.first_unsafe_criterion = 1 := rfl
    have e2 : Ex.order_dend.last_unsafe_criterion = 1 := rfl
    have e3 : Ex.order_dend.first_open_cond_criterion = 0 := rfl
    have e4 : Ex.order_dend.last_open_cond_criterion = 0 := rfl
    rw [e1, e2, e3, e4]
    cases any_us with
    | nil =>
      have e0 : Ex.order_dend.select_unsafe uorc (⟨none, INT_MAX, s0⟩ :
          FlawSelection (Flaw U O M) σ) [] 1 1 = .ok (⟨none, INT_MAX, s0⟩, INT_MAX) := rfl
      rw [e0]
      have e5 : min (0 : Int) INT_MAX = 0 := by decide
      simp only [e5]
      rw [select_open_cond_lifo_first]
    | cons u2 us2 =>
      rw [select_unsafe_lifo_second]
      have e5 : min (0 : Int) 0 = 0 := by decide
      simp only [e5]
      rw [select_open_cond_lifo_first]

theorem same_refl (f : Formula) : f.same f = true := by
  cases f <;> simp [Formula.same]

/-- C25: the laws of `&&` and `||`: TRUE is neutral and FALSE absorbing for `&&`, FALSE is
neutral and TRUE absorbing for `||`, both are idempotent on one object, and for two different
objects neither of which is a constant `f1 && f2` is a new conjunction whose conjunct list is
the concatenation of the conjunct lists of the operands (an operand that is not a conjunction
counting as a one-element list), so it has no conjunction as a direct conjunct when the
conjunct lists of the operands have none; dually for `||`. -/
theorem and_or_laws (f g : Formula) (st : FState) :
    Formula.op_and Formula.TRUE_FORMULA f st = (f, st)
    ∧ Formula.op_and f Formula.TRUE_FORMULA st = (f, st)
    ∧ Formula.op_and Formula.FALSE_FORMULA f st = (Formula.FALSE_FORMULA, st)
    ∧ Formula.op_and f Formula.FALSE_FORMULA st = (Formula.FALSE_FORMULA, st)
    ∧ Formula.op_or Formula.FALSE_FORMULA f st = (f, st)
    ∧ Formula.op_or f Formula.FALSE_FORMULA st = (f, st)
    ∧ Formula.op_or Formula.TRUE_FORMULA f st = (Formula.TRUE_FORMULA, st)
    ∧ Formula.op_or f Formula.TRUE_FORMULA st = (Formula.TRUE_FORMULA, st)
    ∧ Formula.op_and f f st = (f, st)
    ∧ Formula.op_or f f st = (f, st)
    ∧ (f.is_constant = false → g.is_constant = false → f.same g = false →
        Formula.op_and f g st
          = (.conjunction st.next_addr (f.conjunct_list ++ g.conjunct_list),
             { st with next_addr := st.next_addr + 1 })
        ∧ ((∀ c ∈ f.conjunct_list, c.is_conjunction = false) →
           (∀ c ∈ g.conjunct_list, c.is_conjunction = false) →
           ∀ c ∈ (Formula.op_and f g st).1.conjunct_list, c.is_conjunction = false))
    ∧ (f.is_constant = false → g.is_constant = false → f.same g = false →
        Formula.op_or f g st
          = (.disjunction st.next_addr (f.disjunct_list ++ g.disjunct_list),
             { st with next_addr := st.next_addr + 1 })
        ∧ ((∀ c ∈ f.disjunct_list, c.is_disjunction = false) →
           (∀ c ∈ g.disjunct_list, c.is_disjunction = false) →
           ∀ c ∈ (Formula.op_or f g st).1.disjunct_list, c.is_disjunction = false)) := by
  have hs := same_refl f
  refine ⟨?_, ?_, ?_, ?_, ?_, ?_, ?_, ?_, ?_, ?_, ?_, ?_⟩
  · cases f with
    | constant v => cases v <;> rfl
    | _ => rfl
  · cases f with
    | constant v => cases v <;> rfl
    | _ => rfl
  · rfl
  · cases f with
    | constant v => cases v <;> rfl
    | _ => rfl
  · cases f with
    | constant v => cases v <;> rfl
    | _ => rfl
  · cases f with
    | constant v => cases v <;> rfl
    | _ => rfl
  · rfl
  · cases f with
    | constant v => cases v <;> rfl
    | _ => rfl
  · unfold Formula.op_and
    rw [hs]
    cases f with
    | constant v => cases v <;> rfl
    | _ => rfl
  · unfold Formula.op_or
    rw [hs]
    cases f with
    | constant v => cases v <;> rfl
    | _ => rfl
  · intro hf hg hsame
    have e : Formula.op_and f g st
        = (.conjunction st.next_addr (f.conjunct_list ++ g.conjunct_list),
           { st with next_addr := st.next_addr + 1 }) := by
      unfold Formula.op_and
      rw [hsame]
      cases f <;> cases g <;> simp_all [Formula.is_constant, Formula.is_contradiction,
        Formula.is_tautology]
    refine ⟨e, ?_⟩
    intro h1 h2 c hc
    rw [e] at hc
    simp only [Formula.conjunct_list, List.mem_append] at hc
    rcases hc with hc | hc
    · exact h1 c hc
    · exact h2 c hc
  · intro hf hg hsame
    have e : Formula.op_or f g st
        = (.disjunction st.next_addr (f.disjunct_list ++ g.disjunct_list),
           { st with next_addr := st.next_addr + 1 }) := by
      unfold Formula.op_or
      rw [hsame]
      cases f <;> cases g <;> simp_all [Formula.is_constant, Formula.is_contradiction,
        Formula.is_tautology]
    refine ⟨e, ?_⟩
    intro h1 h2 c hc
    rw [e] at hc
    simp only [Formula.disjunct_list, List.mem_append] at hc
    rcases hc with hc | hc
    · exact h1 c hc
    · exact h2 c hc

theorem and_or_laws_witness :
    Formula.op_and (.literal (.atom Ex.atom_p)) (.literal (.atom Ex.atom_r)) Ex.fstate2
      = (.conjunction 3 [.literal (.atom Ex.atom_p), .literal (.atom Ex.atom_r)],
         { Ex.fstate2 with next_addr := 4 })
    ∧ ∀ c ∈ (Formula.op_and (.literal (.atom Ex.atom_p)) (.literal (.atom Ex.atom_r))
        Ex.fstate2).1.conjunct_list, c.is_conjunction = false :=
  ⟨((and_or_laws (.literal (.atom Ex.atom_p)) (.literal (.atom Ex.atom_r))
      Ex.fstate2).2.2.2.2.2.2.2.2.2.2.1 rfl rfl rfl).1,
   ((and_or_laws (.literal (.atom Ex.atom_p)) (.literal (.atom Ex.atom_r))
      Ex.fstate2).2.2.2.2.2.2.2.2.2.2.1 rfl rfl rfl).2
      (by intro c hc; simp [Formula.conjunct_list] at hc; subst hc; rfl)
      (by intro c hc; simp [Formula.conjunct_list] at hc; subst hc; rfl)⟩

/-- C24, evaluated: for the ground atom `a = p(o1)` that `Atom::make` has just made and
nothing else uses, `!a` is the negation at address 1, and `!(!a)` returns the address of
`a` after the negation and then the atom were deleted: no object lives at the address
returned. With one use of `a` registered before, the atom returned is alive. -/
theorem double_negation_deletes_fresh_atom :
    LitHeap.init.atom_make 0 [Ex.o1] = some (0, Ex.heap_a)
    ∧ Ex.heap_a.op_not 0 = some (1, Ex.heap_na)
    ∧ Ex.heap_na.op_not 1 = some (0, ⟨[none, none], 3, [], []⟩)
    ∧ (⟨[none, none], 3, [], []⟩ : LitHeap).get 0 = none
    ∧ (match Ex.heap_a.ref 0 with
       | none => none
       | some h =>
         match h.op_not 0 with
         | none => none
         | some (n, h1) =>
           match h1.op_not n with
           | none => none
           | some (r, h2) => some (r, h2.get r))
        = some (0, some (.atom 1 1 0 [Ex.o1])) := by
  refine ⟨rfl, rfl, rfl, rfl, rfl⟩

/-- C22: for the static predicate p with the single initial atom `p(o1, o2)`, the lifted atom
`p(o1, ?x)` and the empty substitution, `Atom::get_instantiation` returns FALSE although the
initial atom is the instance of the atom under `?x = o2`: `unifiable_atoms` reports the two
atoms as not unifiable. Conversely the atom `p(o2, ?x)`, of which no initial atom is an
instance, is returned as it is and not simplified to FALSE. -/
theorem atom_instantiation_matching_false :
    Atom.get_instantiation Ex.pd [] Ex.lifted_p Ex.fstate_p = .ok (.constant false, Ex.fstate_p)
    ∧ subst_terms [(Ex.x, Ex.o2)] Ex.lifted_p.terms = (Ex.init_p.terms, true)
    ∧ unifiable_atoms Ex.lifted_p Ex.init_p = .ok false
    ∧ Atom.get_instantiation Ex.pd [] ⟨2, 0, 0, [Ex.o2, Ex.x]⟩ Ex.fstate_p
        = .ok (.literal (.atom ⟨2, 0, 0, [Ex.o2, Ex.x]⟩), Ex.fstate_p)
    ∧ unifiable_atoms ⟨2, 0, 0, [Ex.o2, Ex.x]⟩ Ex.init_p = .ok true := by
  refine ⟨rfl, rfl, rfl, rfl, rfl⟩

/-- C23: for the problem with the objects o1, o2 and the single initial atom `p(o1, o2)` of
the static predicate p, the instantiation of `(exists (?x ?y) p(?x, ?y))` is FALSE, although
both parameters have the compatible objects o1, o2 and the body instantiated with the tuple
(o1, o2) is TRUE; under the same conditions the instantiation of
`(forall (?x ?y) p(?x, ?y))` is FALSE as well. -/
theorem exists_instantiation_false :
    (∃ st2, Formula.get_instantiation Ex.tb Ex.pd 10 []
        (.exists_ 4 [Ex.x, Ex.y] (.literal (.atom Ex.lifted_pxy))) Ex.fstate_p
      = .value (.constant false, st2))
    ∧ [Ex.x, Ex.y].map (fun p => Ex.tb.compatible_objects Ex.pd.objects (Ex.tb.type p))
        = [[Ex.o1, Ex.o2], [Ex.o1, Ex.o2]]
    ∧ (∃ st2, Formula.get_instantiation Ex.tb Ex.pd 10 [(Ex.x, Ex.o1), (Ex.y, Ex.o2)]
        (.literal (.atom Ex.lifted_pxy)) Ex.fstate_p = .value (.constant true, st2))
    ∧ (∃ st2, Formula.get_instantiation Ex.tb Ex.pd 10 [(Ex.x, Ex.o1)]
        (.literal (.atom Ex.lifted_pxy)) Ex.fstate_p = .value (.constant false, st2)) := by
  refine ⟨⟨_, rfl⟩, rfl, ⟨_, rfl⟩, ⟨_, rfl⟩⟩

/-- The literal branch of `add_goal` raises the counter by one and the chain by at most one
cell, by exactly one when the call is not a test and static preconditions are kept. -/
theorem add_literal_goal_counter (env : PlanEnv) (sid : Nat) (test_only : Bool) (l : Lit)
    (w : FormulaTime) (st : GoalState) :
    (add_literal_goal env sid test_only l w st).num_open_conds = st.num_open_conds + 1
    ∧ (add_literal_goal env sid test_only l w st).open_conds.length ≤ st.open_conds.length + 1
    ∧ (test_only = false → env.params.strip_static_preconditions = false →
        (add_literal_goal env sid test_only l w st).open_conds.length
          = st.open_conds.length + 1) := by
  unfold add_literal_goal
  refine ⟨?_, ?_, ?_⟩
  · split <;> rfl
  · split <;> simp
  · intro ht hs
    subst ht
    simp [hs]

/-- Along the loop of `add_goal` the counter grows at least as much as the chain, and by
the same amount when the call is not a test and static preconditions are kept. -/
theorem add_goal_loop_counter (env : PlanEnv) (sid : Nat) (test_only : Bool) :
    ∀ (fuel : Nat) (goals : List Formula) (st st1 : GoalState),
      add_goal_loop env sid test_only fuel goals st = .value st1 →
      st1.open_conds.length + st.num_open_conds ≤ st1.num_open_conds + st.open_conds.length
      ∧ (test_only = false → env.params.strip_static_preconditions = false →
          st1.open_conds.length + st.num_open_conds
            = st1.num_open_conds + st.open_conds.length)
  | 0, _, _, _, h => by simp [add_goal_loop] at h
  | fuel + 1, goals, st, st1, h => by
    have ih := add_goal_loop_counter env sid test_only fuel
    unfold add_goal_loop at h
    split at h
    · cases h
      exact ⟨by omega, fun _ _ => by omega⟩
    · rename_i goal hg
      dsimp only at h
      split at h
      · obtain ⟨h1, h2⟩ := ih _ _ _ h
        obtain ⟨a1, a2, a3⟩ := add_literal_goal_counter env sid test_only ‹Lit› ‹FormulaTime› st
        refine ⟨by omega, fun ht hs => ?_⟩
        have := h2 ht hs
        have := a3 ht hs
        omega
      · obtain ⟨h1, h2⟩ := ih _ _ _ h
        obtain ⟨a1, a2, a3⟩ := add_literal_goal_counter env sid test_only ‹Lit› .AT_START_F st
        refine ⟨by omega, fun ht hs => ?_⟩
        have := h2 ht hs
        have := a3 ht hs
        omega
      · split at h
        · cases h
        · obtain ⟨h1, h2⟩ := ih _ _ _ h
          exact ⟨h1, h2⟩
      · obtain ⟨h1, h2⟩ := ih _ _ _ h
        cases test_only
        · simp at h1 h2 ⊢
          refine ⟨by omega, fun hs => ?_⟩
          have := h2 hs
          omega
        · simp at h1 h2 ⊢
          omega
      · obtain ⟨h1, h2⟩ := ih _ _ _ h
        exact ⟨h1, h2⟩
      · obtain ⟨h1, h2⟩ := ih _ _ _ h
        exact ⟨h1, h2⟩
      · split at h
        · cases h
        · obtain ⟨h1, h2⟩ := ih _ _ _ h
          exact ⟨h1, h2⟩
      · split at h
        · cases h
        · obtain ⟨h1, h2⟩ := ih _ _ _ h
          exact ⟨h1, h2⟩
      · cases h

/-- The counter and the chain after `add_goal`. -/
theorem add_goal_counter (env : PlanEnv) (fuel : Nat) (st : GoalState) (goal : Formula)
    (sid : Nat) (test_only : Bool) (added : Bool) (st1 : GoalState)
    (h : add_goal env fuel st goal sid test_only = .value (added, st1)) :
    st1.open_conds.length + st.num_open_conds ≤ st1.num_open_conds + st.open_conds.length
    ∧ (test_only = false → env.params.strip_static_preconditions = false →
        st1.open_conds.length + st.num_open_conds
          = st1.num_open_conds + st.open_conds.length) := by
  unfold add_goal at h
  split at h
  · cases h
    exact ⟨by omega, fun _ _ => by omega⟩
  · split at h
    · cases h
      exact ⟨by omega, fun _ _ => by omega⟩
    · split at h
      · cases h
      · cases h
      · cases h
      · rename_i st2 hl
        cases h
        exact add_goal_loop_counter env sid test_only fuel [goal] st st1 hl

/-- Two steps that `possibly_concurrent` reports as concurrent are distinct, and neither is
the initial step. -/
theorem possibly_concurrent_true (o : Orderings) (id1 id2 : Nat) (junk f : Flags)
    (h : o.possibly_concurrent id1 id2 junk = .ok (true, f)) :
    id1 ≠ id2 ∧ id1 ≠ 0 ∧ id2 ≠ 0 := by
  cases o with
  | binary b =>
    change b.possibly_concurrent id1 id2 junk = _ at h
    unfold BinaryOrderings.possibly_concurrent at h
    by_cases hc : id1 = id2 ∨ id1 = 0 ∨ id1 = GOAL_ID ∨ id2 = 0 ∨ id2 = GOAL_ID
    · rw [if_pos hc] at h
      cases h
    · exact ⟨fun e => hc (Or.inl e), fun e => hc (Or.inr (Or.inl e)),
        fun e => hc (Or.inr (Or.inr (Or.inr (Or.inl e))))⟩
  | temporal store t =>
    change t.possibly_concurrent store id1 id2 junk = _ at h
    unfold TemporalOrderings.possibly_concurrent at h
    by_cases hc : id1 = id2 ∨ id1 = 0 ∨ id1 = GOAL_ID ∨ id2 = 0 ∨ id2 = GOAL_ID
    · rw [if_pos hc] at h
      cases h
    · exact ⟨fun e => hc (Or.inl e), fun e => hc (Or.inr (Or.inl e)),
        fun e => hc (Or.inr (Or.inr (Or.inr (Or.inl e))))⟩

/-- The threats the loop over the effects of the other step adds. -/
theorem mutex_threats_inner_spec (tb : Tables) (fuel : Nat) (bindings : Option Bindings)
    (step s : Step) (f : Flags) (e : Effect) :
    ∀ (es2 : List Effect) (mt r : List MutexThreat),
      mutex_threats_inner tb fuel bindings step s f e es2 mt = .value r →
      ∀ m ∈ r, m ∈ mt ∨ ∃ e2 ∈ es2, ∃ (b : Bindings) (mgu : BindingList),
        m = ⟨step.id, some e, some s.id, some e2⟩ ∧ skip_pair f e e2 = false
        ∧ bindings = some b
        ∧ b.unify tb fuel [] e.literal.atom_view step.id e2.literal.atom_view s.id
            = .value (true, mgu)
  | [], mt, r, h, m, hm => by
    simp only [mutex_threats_inner, Outcome.value.injEq] at h
    subst h
    exact Or.inl hm
  | e2 :: rest, mt, r, h, m, hm => by
    have ih := mutex_threats_inner_spec tb fuel bindings step s f e rest
    unfold mutex_threats_inner at h
    split at h
    · rcases ih _ _ h m hm with h1 | ⟨e3, he3, b, mgu, h3⟩
      · exact Or.inl h1
      · exact Or.inr ⟨e3, List.mem_cons_of_mem _ he3, b, mgu, h3⟩
    · rename_i hskip
      split at h
      · cases h
      · rename_i b
        split at h
        · cases h
        · cases h
        · cases h
        · rename_i mgu hu
          rcases ih _ _ h m hm with h1 | ⟨e3, he3, b3, mgu3, h3⟩
          · rcases List.mem_cons.mp h1 with h2 | h2
            · exact Or.inr ⟨e2, List.mem_cons_self _ _, b, mgu, h2, by simpa using hskip,
                rfl, hu⟩
            · exact Or.inl h2
          · exact Or.inr ⟨e3, List.mem_cons_of_mem _ he3, b3, mgu3, h3⟩
        · rcases ih _ _ h m hm with h1 | ⟨e3, he3, b3, mgu3, h3⟩
          · exact Or.inl h1
          · exact Or.inr ⟨e3, List.mem_cons_of_mem _ he3, b3, mgu3, h3⟩

/-- The threats the loop over the effects of the step adds. -/
theorem mutex_threats_effects_spec (tb : Tables) (fuel : Nat) (bindings : Option Bindings)
    (step s : Step) (f : Flags) :
    ∀ (es : List Effect) (mt r : List MutexThreat),
      mutex_threats_effects tb fuel bindings step s f es mt = .value r →
      ∀ m ∈ r, m ∈ mt ∨ ∃ e ∈ es, ∃ e2 ∈ s.action.effects,
        ∃ (b : Bindings) (mgu : BindingList),
        m = ⟨step.id, some e, some s.id, some e2⟩ ∧ skip_pair f e e2 = false
        ∧ bindings = some b
        ∧ b.unify tb fuel [] e.literal.atom_view step.id e2.literal.atom_view s.id
            = .value (true, mgu)
  | [], mt, r, h, m, hm => by
    simp only [mutex_threats_effects, Outcome.value.injEq] at h
    subst h
    exact Or.inl hm
  | e :: rest, mt, r, h, m, hm => by
    have ih := mutex_threats_effects_spec tb fuel bindings step s f rest
    unfold mutex_threats_effects at h
    split at h
    · rcases ih _ _ h m hm with h1 | ⟨e3, he3, h3⟩
      · exact Or.inl h1
      · exact Or.inr ⟨e3, List.mem_cons_of_mem _ he3, h3⟩
    · cases hin : mutex_threats_inner tb fuel bindings step s f e s.action.effects mt with
      | value mt1 =>
        rw [hin] at h
        rcases ih _ _ h m hm with h1 | ⟨e3, he3, h3⟩
        · rcases mutex_threats_inner_spec tb fuel bindings step s f e _ _ _ hin m h1 with
            h2 | ⟨e2, he2, h4⟩
          · exact Or.inl h2
          · exact Or.inr ⟨e, List.mem_cons_self _ _, e2, he2, h4⟩
        · exact Or.inr ⟨e3, List.mem_cons_of_mem _ he3, h3⟩
      | diverged => simp [hin] at h
      | fault x => simp [hin] at h
      | null => simp [hin] at h

/-- Every threat `mutex_threats` adds for a step is a pair described by `IsMutexThreat`. -/
theorem mutex_threats_spec (tb : Tables) (fuel : Nat) (junk : Flags) (step : Step)
    (orderings : Orderings) (bindings : Option Bindings) :
    ∀ (steps : List Step) (mt r : List MutexThreat),
      mutex_threats tb fuel junk step orderings bindings steps mt = .value r →
      ∀ m ∈ r, m ∈ mt ∨ IsMutexThreat tb fuel junk orderings bindings step steps m
  | [], mt, r, h, m, hm => by
    simp only [mutex_threats, Outcome.value.injEq] at h
    subst h
    exact Or.inl hm
  | s :: sc, mt, r, h, m, hm => by
    have ih := mutex_threats_spec tb fuel junk step orderings bindings sc
    have lift : IsMutexThreat tb fuel junk orderings bindings step sc m →
        IsMutexThreat tb fuel junk orderings bindings step (s :: sc) m := by
      rintro ⟨s1, hs1, rest⟩
      exact ⟨s1, List.mem_cons_of_mem _ hs1, rest⟩
    unfold mutex_threats at h
    split at h
    · cases h
    · rcases ih _ _ h m hm with h1 | h1
      · exact Or.inl h1
      · exact Or.inr (lift h1)
    · rename_i f hpc
      cases hef : mutex_threats_effects tb fuel bindings step s f step.action.effects mt with
      | value mt1 =>
        rw [hef] at h
        rcases ih _ _ h m hm with h1 | h1
        · rcases mutex_threats_effects_spec tb fuel bindings step s f _ _ _ hef m h1 with
            h2 | ⟨e, he, e2, he2, b, mgu, h3, h4, h5, h6⟩
          · exact Or.inl h2
          · obtain ⟨d1, d2, d3⟩ := possibly_concurrent_true orderings step.id s.id junk f hpc
            exact Or.inr ⟨s, List.mem_cons_self _ _, e, he, e2, he2, f, b, mgu, h3, d1, d2,
              d3, hpc, h4, h5, h6⟩
        · exact Or.inr (lift h1)
      | diverged => simp [hef] at h
      | fault x => simp [hef] at h
      | null => simp [hef] at h

/-- The initial step and the goal step are concurrent with no step. -/
theorem possibly_concurrent_ends (o : Orderings) (id1 id2 : Nat) (junk : Flags)
    (h : id1 = 0 ∨ id1 = GOAL_ID) : o.possibly_concurrent id1 id2 junk = .ok (false, junk) := by
  have hc : id1 = id2 ∨ id1 = 0 ∨ id1 = GOAL_ID ∨ id2 = 0 ∨ id2 = GOAL_ID := by
    rcases h with h | h
    · exact Or.inr (Or.inl h)
    · exact Or.inr (Or.inr (Or.inl h))
  cases o with
  | binary b =>
    change b.possibly_concurrent id1 id2 junk = _
    unfold BinaryOrderings.possibly_concurrent
    rw [if_pos hc]
  | temporal store t =>
    change t.possibly_concurrent store id1 id2 junk = _
    unfold TemporalOrderings.possibly_concurrent
    rw [if_pos hc]

/-- The initial step and the goal step have no mutex threats. -/
theorem mutex_threats_ends (tb : Tables) (fuel : Nat) (junk : Flags) (step : Step)
    (orderings : Orderings) (bindings : Option Bindings) (h : step.id = 0 ∨ step.id = GOAL_ID) :
    ∀ (steps : List Step) (mt : List MutexThreat),
      mutex_threats tb fuel junk step orderings bindings steps mt = .value mt
  | [], mt => rfl
  | s :: sc, mt => by
    unfold mutex_threats
    rw [possibly_concurrent_ends orderings step.id s.id junk h]
    exact mutex_threats_ends tb fuel junk step orderings bindings h sc mt

/-- C37 (counterexample): with static preconditions stripped, the initial plan of the
problem whose goal is the static literal `p(o1)` has an empty chain of open conditions and
the counter 1. -/
theorem initial_plan_counter_exceeds_chain :
    ∃ plan fs, Plan.make_initial_plan Ex.env_strip Ex.tb Ex.pd 2 Ex.refine_timed Ex.problem_p
        Ex.fstate2 = .value (plan, fs)
      ∧ Ex.env_strip.params.strip_static_preconditions = true
      ∧ plan.open_conds.length = 0 ∧ plan.num_open_conds = 1 :=
  ⟨_, _, rfl, rfl, rfl, rfl⟩

/-- The loop of `Chain::remove` on an enumerated chain removes the cell of the position. -/
theorem remove_loop_enum_length {T : Type} (i : Nat) (x : T) :
    ∀ (l : List T) (k : Nat), k ≤ i → i < k + l.length →
      (Chain.remove_loop (fun a b => a.1 == b.1) (i, x) (l.enumFrom k)).length + 1 = l.length
  | [], k, h1, h2 => by
    simp at h2
    omega
  | y :: ys, k, h1, h2 => by
    simp only [List.enumFrom, Chain.remove_loop]
    by_cases hk : i = k
    · subst hk
      simp
    · have hb : (i == k) = false := by simp [hk]
      simp only [hb]
      simp only [List.length_cons] at h2 ⊢
      have ih := remove_loop_enum_length i x ys (k + 1) (by omega) (by omega)
      simpa using ih

/-- The chain without the cell of a position is one cell shorter. -/
theorem remove_flaw_length {T : Type} (chain : List T) (flaw : Nat) (r : List T)
    (hi : flaw < chain.length) (h : remove_flaw chain flaw = .ok r) :
    r.length + 1 = chain.length := by
  cases chain with
  | nil => simp at hi
  | cons y ys =>
    simp only [remove_flaw, List.enum, List.enumFrom] at h
    cases h
    simp only [List.length_map, Chain.remove]
    by_cases h0 : flaw = 0
    · subst h0
      simp
    · have hb : (flaw == 0) = false := by simp [h0]
      simp only [hb]
      simp only [List.length_cons] at hi
      cases ys with
      | nil => simp at hi; omega
      | cons z zs =>
        have ih := remove_loop_enum_length flaw y (z :: zs) 1 (by omega)
          (by simp only [List.length_cons] at hi ⊢; omega)
        simp only [List.length_cons] at ih ⊢
        simpa using ih

/-- The chain of open conditions without the cell of a position is one cell shorter. -/
theorem remove_open_cond_length (open_conds : List OpenCondition) (open_cond : Nat)
    (r : List OpenCondition) (hi : open_cond < open_conds.length)
    (h : remove_open_cond open_conds open_cond = .ok r) :
    r.length + 1 = open_conds.length :=
  remove_flaw_length open_conds open_cond r hi
    (by cases open_conds <;> exact h)

/-- The counter and the chain after the removal of an open condition of the chain. -/
theorem counts_remove (env : PlanEnv) (open_conds : List OpenCondition) (n : Nat)
    (open_cond : Nat) (r : List OpenCondition) (hc : CountsOpenConds env open_conds n)
    (hn : n < 2 ^ 64) (hi : open_cond < open_conds.length)
    (h : remove_open_cond open_conds open_cond = .ok r) :
    CountsOpenConds env r (usub n 1) := by
  have hl := remove_open_cond_length open_conds open_cond r hi h
  obtain ⟨h1, h2⟩ := hc
  have hu : usub n 1 = n - 1 := usub_eq n 1 (by omega) hn
  rw [hu]
  refine ⟨by omega, fun hs => ?_⟩
  have := h2 hs
  omega

/-- The counter and the chain after `add_goal`, when the call is not a test. -/
theorem counts_add_goal (env : PlanEnv) (fuel : Nat) (st : GoalState) (goal : Formula)
    (sid : Nat) (added : Bool) (st1 : GoalState)
    (hc : CountsOpenConds env st.open_conds st.num_open_conds)
    (h : add_goal env fuel st goal sid false = .value (added, st1)) :
    CountsOpenConds env st1.open_conds st1.num_open_conds := by
  obtain ⟨h1, h2⟩ := add_goal_counter env fuel st goal sid false added st1 h
  obtain ⟨c1, c2⟩ := hc
  refine ⟨by omega, fun hs => ?_⟩
  have a := h2 rfl hs
  have b := c2 hs
  omega

/-- A list of plans that keep the relation, with one more plan that keeps it. -/
theorem allcount_append (env : PlanEnv) (plans : List Plan) (p : Plan)
    (hp : AllCount env plans) (hc : CountsOpenConds env p.open_conds p.num_open_conds) :
    AllCount env (plans ++ [p]) := by
  intro q hq
  rcases List.mem_append.mp hq with h | h
  · exact hp q h
  · simp only [List.mem_singleton] at h
    subst h
    exact hc

/-- The plan `Plan::new_ordering` adds for an unsafe link has the open conditions and the
counter of its parent. -/
theorem new_ordering_unsafe_counts (env : PlanEnv) (renv : RefineEnv) (plan : Plan)
    (plans : List Plan) (before_id : Nat) (t1 : StepTime) (after_id : Nat) (t2 : StepTime)
    (unsafe_ : Nat) (r : List Plan) (hp : AllCount env plans)
    (hc : CountsOpenConds env plan.open_conds plan.num_open_conds)
    (h : plan.new_ordering_unsafe renv plans before_id t1 after_id t2 unsafe_ = .ok r) :
    AllCount env r := by
  unfold Plan.new_ordering_unsafe at h
  split at h
  · cases h
    exact hp
  · split at h
    · cases h
    · cases h
      exact allcount_append env _ _ hp hc

/-- The plans `Plan::demote` adds for an unsafe link keep the relation. -/
theorem demote_unsafe_counts (env : PlanEnv) (renv : RefineEnv) (plan : Plan)
    (plans : List Plan) (unsafe_ : Nat) (u : Unsafe) (test_only : Bool) (r : Int × List Plan)
    (hp : AllCount env plans) (hc : CountsOpenConds env plan.open_conds plan.num_open_conds)
    (h : plan.demote_unsafe renv plans unsafe_ u test_only = .ok r) : AllCount env r.2 := by
  unfold Plan.demote_unsafe at h
  dsimp only at h
  split at h
  · split at h
    · split at h
      · cases h
      · rename_i plans1 hn
        cases h
        exact new_ordering_unsafe_counts env renv plan plans _ _ _ _ _ _ hp hc hn
    · cases h
      exact hp
  · cases h
    exact hp

/-- The plans `Plan::promote` adds for an unsafe link keep the relation. -/
theorem promote_unsafe_counts (env : PlanEnv) (renv : RefineEnv) (plan : Plan)
    (plans : List Plan) (unsafe_ : Nat) (u : Unsafe) (test_only : Bool) (r : Int × List Plan)
    (hp : AllCount env plans) (hc : CountsOpenConds env plan.open_conds plan.num_open_conds)
    (h : plan.promote_unsafe renv plans unsafe_ u test_only = .ok r) : AllCount env r.2 := by
  unfold Plan.promote_unsafe at h
  dsimp only at h
  split at h
  · split at h
    · split at h
      · cases h
      · rename_i plans1 hn
        cases h
        exact new_ordering_unsafe_counts env renv plan plans _ _ _ _ _ _ hp hc hn
    · cases h
      exact hp
  · cases h
    exact hp

/-- The plans `Plan::separate` adds for an unsafe link keep the relation. -/
theorem separate_unsafe_counts (env : PlanEnv) (renv : RefineEnv) (fuel : Nat) (plan : Plan)
    (plans : List Plan) (unsafe_ : Nat) (u : Unsafe) (unifier : BindingList)
    (test_only : Bool) (calls : Nat) (r : Int × List Plan × Nat) (hp : AllCount env plans)
    (hc : CountsOpenConds env plan.open_conds plan.num_open_conds)
    (h : plan.separate_unsafe env renv fuel plans unsafe_ u unifier test_only calls
      = .value r) : AllCount env r.2.1 := by
  unfold Plan.separate_unsafe at h
  dsimp only at h
  split at h
  · cases h
  · cases h
  · cases h
  · cases h
    exact hp
  · rename_i st hg
    split at h
    · cases h
    · split at h
      · cases h
        exact hp
      · split at h
        · rename_i ht
          have ht2 : test_only = false := by simpa using ht
          subst ht2
          simp only [Bool.false_eq_true, if_false] at hg
          have hst := counts_add_goal env fuel _ _ _ _ _ hc hg
          split at h
          · cases h
            exact hp
          · split at h
            · cases h
            · cases h
              exact allcount_append env _ _ hp hst
        · cases h
          exact hp

/-- The plans `Plan::handle_unsafe` adds keep the relation. -/
theorem handle_unsafe_counts (env : PlanEnv) (renv : RefineEnv) (fuel : Nat) (plan : Plan)
    (plans : List Plan) (unsafe_ : Nat) (calls : Nat) (r : List Plan × Nat)
    (hp : AllCount env plans) (hc : CountsOpenConds env plan.open_conds plan.num_open_conds)
    (h : plan.handle_unsafe env renv fuel plans unsafe_ calls = .value r) :
    AllCount env r.1 := by
  unfold Plan.handle_unsafe at h
  split at h
  · cases h
  · rename_i u hu
    dsimp only at h
    split at h
    · cases h
    · rename_i unifier hun
      split at h
      · cases h
      · cases h
      · cases h
      · rename_i c1 plans1 calls1 hs
        have h1 := separate_unsafe_counts env renv fuel plan plans unsafe_ u unifier false
          calls _ hp hc hs
        split at h
        · cases h
        · rename_i c2 plans2 hpr
          have h2 := promote_unsafe_counts env renv plan plans1 unsafe_ u false _ h1 hc hpr
          split at h
          · cases h
          · rename_i c3 plans3 hd
            have h3 := demote_unsafe_counts env renv plan plans2 unsafe_ u false _ h2 hc hd
            cases h
            exact h3
    · split at h
      · cases h
      · cases h
        exact allcount_append env _ _ hp hc

/-- The plan `Plan::new_ordering` adds for a mutex threat has the open conditions and the
counter of its parent. -/
theorem new_ordering_mutex_counts (env : PlanEnv) (renv : RefineEnv) (plan : Plan)
    (plans : List Plan) (before_id : Nat) (t1 : StepTime) (after_id : Nat) (t2 : StepTime)
    (mutex_threat : Nat) (r : List Plan) (hp : AllCount env plans)
    (hc : CountsOpenConds env plan.open_conds plan.num_open_conds)
    (h : plan.new_ordering_mutex renv plans before_id t1 after_id t2 mutex_threat = .ok r) :
    AllCount env r := by
  unfold Plan.new_ordering_mutex at h
  split at h
  · cases h
    exact hp
  · split at h
    · cases h
    · cases h
      exact allcount_append env _ _ hp hc

/-- The plans `Plan::demote` adds for a mutex threat keep the relation. -/
theorem demote_mutex_counts (env : PlanEnv) (renv : RefineEnv) (plan : Plan)
    (plans : List Plan) (mutex_threat : Nat) (id1 : Nat) (effect1 : Effect) (id2 : Nat)
    (effect2 : Effect) (r : List Plan) (hp : AllCount env plans)
    (hc : CountsOpenConds env plan.open_conds plan.num_open_conds)
    (h : plan.demote_mutex renv plans mutex_threat id1 effect1 id2 effect2 = .ok r) :
    AllCount env r := by
  unfold Plan.demote_mutex at h
  dsimp only at h
  split at h
  · exact new_ordering_mutex_counts env renv plan plans _ _ _ _ _ _ hp hc h
  · cases h
    exact hp

/-- The plans `Plan::promote` adds for a mutex threat keep the relation. -/
theorem promote_mutex_counts (env : PlanEnv) (renv : RefineEnv) (plan : Plan)
    (plans : List Plan) (mutex_threat : Nat) (id1 : Nat) (effect1 : Effect) (id2 : Nat)
    (effect2 : Effect) (r : List Plan) (hp : AllCount env plans)
    (hc : CountsOpenConds env plan.open_conds plan.num_open_conds)
    (h : plan.promote_mutex renv plans mutex_threat id1 effect1 id2 effect2 = .ok r) :
    AllCount env r := by
  unfold Plan.promote_mutex at h
  dsimp only at h
  split at h
  · exact new_ordering_mutex_counts env renv plan plans _ _ _ _ _ _ hp hc h
  · cases h
    exact hp

/-- The plan the first part of `Plan::separate` adds for a mutex threat keeps the relation.
-/
theorem separate_mutex_unifier_counts (env : PlanEnv) (renv : RefineEnv) (fuel : Nat)
    (plan : Plan) (plans : List Plan) (mutex_threat : Nat) (m : MutexThreat)
    (unifier : BindingList) (calls : Nat) (r : List Plan × Nat) (hp : AllCount env plans)
    (hc : CountsOpenConds env plan.open_conds plan.num_open_conds)
    (h : plan.separate_mutex_unifier env renv fuel plans mutex_threat m unifier calls
      = .value r) : AllCount env r.1 := by
  unfold Plan.separate_mutex_unifier at h
  split at h
  · dsimp only at h
    split at h
    · cases h
    · cases h
    · cases h
    · cases h
      exact hp
    · rename_i st hg
      have hst := counts_add_goal env fuel _ _ _ _ _ hc hg
      split at h
      · cases h
      · split at h
        · cases h
          exact hp
        · split at h
          · cases h
          · cases h
            exact allcount_append env _ _ hp hst
  · cases h
    exact hp

/-- The plan a round of the loop of `Plan::separate` adds for a mutex threat keeps the
relation. -/
theorem separate_mutex_effect_counts (env : PlanEnv) (renv : RefineEnv) (fuel : Nat)
    (plan : Plan) (plans : List Plan) (mutex_threat : Nat) (step_id : Nat) (effect : Effect)
    (calls : Nat) (r : List Plan × Nat) (hp : AllCount env plans)
    (hc : CountsOpenConds env plan.open_conds plan.num_open_conds)
    (h : plan.separate_mutex_effect env renv fuel plans mutex_threat step_id effect calls
      = .value r) : AllCount env r.1 := by
  unfold Plan.separate_mutex_effect at h
  split at h
  · dsimp only at h
    split at h
    · cases h
    · cases h
    · cases h
    · cases h
      exact hp
    · rename_i st hg
      have hst := counts_add_goal env fuel _ _ _ _ _ hc hg
      split at h
      · cases h
      · split at h
        · cases h
          exact hp
        · split at h
          · cases h
            exact hp
          · split at h
            · cases h
            · cases h
              exact allcount_append env _ _ hp hst
  · cases h
    exact hp

/-- The plans `Plan::separate` adds for a mutex threat keep the relation. -/
theorem separate_mutex_counts (env : PlanEnv) (renv : RefineEnv) (fuel : Nat) (plan : Plan)
    (plans : List Plan) (mutex_threat : Nat) (m : MutexThreat) (id2 : Nat)
    (effect1 effect2 : Effect) (unifier : BindingList) (calls : Nat) (r : List Plan × Nat)
    (hp : AllCount env plans) (hc : CountsOpenConds env plan.open_conds plan.num_open_conds)
    (h : plan.separate_mutex env renv fuel plans mutex_threat m id2 effect1 effect2 unifier
      calls = .value r) : AllCount env r.1 := by
  unfold Plan.separate_mutex at h
  split at h
  · cases h
  · cases h
  · cases h
  · rename_i plans1 calls1 h1
    have a1 := separate_mutex_unifier_counts env renv fuel plan plans mutex_threat m unifier
      calls _ hp hc h1
    split at h
    · cases h
    · cases h
    · cases h
    · rename_i plans2 calls2 h2
      have a2 := separate_mutex_effect_counts env renv fuel plan plans1 mutex_threat _ _ _ _
        a1 hc h2
      exact separate_mutex_effect_counts env renv fuel plan plans2 mutex_threat _ _ _ _ a2 hc
        h

/-- The plans the part of `Plan::handle_mutex_threat` after the branch of the place holder
adds keep the relation. -/
theorem resolve_mutex_threat_counts (env : PlanEnv) (renv : RefineEnv) (fuel : Nat)
    (mutex_threat : Nat) (calls : Nat) (plan : Plan) (m : MutexThreat) (plans : List Plan)
    (r : List Plan) (hp : AllCount env plans)
    (hc : CountsOpenConds env plan.open_conds plan.num_open_conds)
    (h : plan.resolve_mutex_threat env renv fuel mutex_threat calls m plans = .value r) :
    AllCount env r := by
  unfold Plan.resolve_mutex_threat at h
  split at h
  · rename_i effect1 id2 effect2 he1 hid2 he2
    dsimp only at h
    split at h
    · cases h
    · rename_i unifier hun
      split at h
      · cases h
      · cases h
      · cases h
      · rename_i plans1 calls1 hs
        have h1 := separate_mutex_counts env renv fuel plan plans mutex_threat m id2 effect1
          effect2 unifier calls _ hp hc hs
        split at h
        · cases h
        · rename_i plans2 hpr
          have h2 := promote_mutex_counts env renv plan plans1 mutex_threat _ _ _ _ _ h1 hc hpr
          split at h
          · cases h
          · rename_i plans3 hd
            have h3 := demote_mutex_counts env renv plan plans2 mutex_threat _ _ _ _ _ h2 hc hd
            cases h
            exact h3
    · split at h
      · cases h
      · cases h
        exact allcount_append env _ _ hp hc
  · cases h

/-- The plans `Plan::handle_mutex_threat` adds keep the relation. -/
theorem handle_mutex_threat_counts (env : PlanEnv) (renv : RefineEnv) (tb : Tables)
    (fuel : Nat) (junk : Flags) (mutex_threat : Nat) (calls : Nat) (plan : Plan)
    (m : MutexThreat) (plans : List Plan) (r : List Plan) (hp : AllCount env plans)
    (hc : CountsOpenConds env plan.open_conds plan.num_open_conds)
    (h : plan.handle_mutex_threat tb fuel junk
      (Plan.resolve_mutex_threat env renv fuel mutex_threat calls) plans m = .value r) :
    AllCount env r := by
  unfold Plan.handle_mutex_threat at h
  split at h
  · split at h
    · cases h
    · cases h
    · cases h
    · cases h
      exact allcount_append env _ _ hp hc
  · exact resolve_mutex_threat_counts env renv fuel mutex_threat calls plan m plans r hp hc h

/-- A position that holds a cell is below the length of the chain. -/
theorem position_lt_length {T : Type} (l : List T) (i : Nat) (x : T) (h : l[i]? = some x) :
    i < l.length := by
  rcases Nat.lt_or_ge i l.length with hl | hl
  · exact hl
  · rw [List.getElem?_eq_none hl] at h
    cases h

/-- The plans the loop of `Plan::handle_inequality` adds keep the relation. -/
theorem handle_inequality_loop_counts (env : PlanEnv) (renv : RefineEnv) (plan : Plan)
    (bindings : Bindings) (open_cond : Nat) (var1 : Variable) (id1 : Nat) (var2 : Variable)
    (id2 : Nat) (test_only : Bool)
    (hc : CountsOpenConds env plan.open_conds plan.num_open_conds)
    (hn : plan.num_open_conds < 2 ^ 64) (hi : open_cond < plan.open_conds.length) :
    ∀ (objects : List Object) (plans : List Plan) (count : Int) (r : Int × List Plan),
      AllCount env plans →
      handle_inequality_loop renv plan bindings open_cond var1 id1 var2 id2 test_only objects
        plans count = .ok r →
      AllCount env r.2
  | [], plans, count, r, hp, h => by
    simp only [handle_inequality_loop] at h
    cases h
    exact hp
  | name :: rest, plans, count, r, hp, h => by
    have ih := handle_inequality_loop_counts env renv plan bindings open_cond var1 id1 var2 id2
      test_only hc hn hi rest
    unfold handle_inequality_loop at h
    dsimp only at h
    split at h
    · split at h
      · split at h
        · cases h
        · rename_i new_open_conds hr
          have hnew := counts_remove env _ _ _ _ hc hn hi hr
          exact ih _ _ _ (allcount_append env _ _ hp hnew) h
      · exact ih _ _ _ hp h
    · exact ih _ _ _ hp h

/-- The plans `Plan::handle_inequality` adds keep the relation. -/
theorem handle_inequality_counts (env : PlanEnv) (renv : RefineEnv) (plan : Plan)
    (plans : List Plan) (var : Variable) (nid1 : Nat) (term : Term) (nid2 : Nat)
    (open_cond : Nat) (test_only : Bool) (r : Int × List Plan) (hp : AllCount env plans)
    (hc : CountsOpenConds env plan.open_conds plan.num_open_conds)
    (hn : plan.num_open_conds < 2 ^ 64)
    (h : plan.handle_inequality renv plans var nid1 term nid2 open_cond test_only = .ok r) :
    AllCount env r.2 := by
  unfold Plan.handle_inequality at h
  split at h
  · cases h
  · rename_i oc hoc
    have hi := position_lt_length _ _ _ hoc
    dsimp only at h
    split at h
    · cases h
    · split at h
      · cases h
      · exact handle_inequality_loop_counts env renv plan _ open_cond _ _ _ _ test_only hc hn hi
          _ _ _ _ hp h

/-- The plans the loop of `Plan::handle_disjunction` adds keep the relation. -/
theorem handle_disjunction_loop_counts (env : PlanEnv) (tb : Tables) (fuel : Nat)
    (plan : Plan) (sid : Nat) (open_cond : Nat)
    (hc : CountsOpenConds env plan.open_conds plan.num_open_conds)
    (hn : plan.num_open_conds < 2 ^ 64) (hi : open_cond < plan.open_conds.length) :
    ∀ (disjuncts : List Formula) (plans : List Plan) (count : Int) (calls : Nat)
      (r : Int × List Plan × Nat), AllCount env plans →
      handle_disjunction_loop env tb fuel plan sid open_cond false disjuncts plans count calls
        = .value r →
      AllCount env r.2.1
  | [], plans, count, calls, r, hp, h => by
    simp only [handle_disjunction_loop] at h
    cases h
    exact hp
  | fi :: rest, plans, count, calls, r, hp, h => by
    have ih := handle_disjunction_loop_counts env tb fuel plan sid open_cond hc hn hi rest
    unfold handle_disjunction_loop at h
    simp only [Bool.false_eq_true, if_false] at h
    split at h
    · cases h
    · rename_i new_open_conds hr
      have hnew := counts_remove env _ _ _ _ hc hn hi hr
      split at h
      · cases h
      · cases h
      · cases h
      · exact ih _ _ _ _ hp h
      · rename_i st hg
        have hst := counts_add_goal env fuel _ _ _ _ _ hnew hg
        split at h
        · cases h
        · split at h
          · cases h
          · cases h
          · split at h
            · simp only [Bool.not_false, if_true] at h
              exact ih _ _ _ _ (allcount_append env _ _ hp hst) h
            · exact ih _ _ _ _ hp h

/-- The plans `Plan::handle_disjunction` adds keep the relation. -/
theorem handle_disjunction_counts (env : PlanEnv) (tb : Tables) (fuel : Nat) (plan : Plan)
    (plans : List Plan) (disjuncts : List Formula) (open_cond : Nat) (calls : Nat)
    (r : Int × List Plan × Nat) (hp : AllCount env plans)
    (hc : CountsOpenConds env plan.open_conds plan.num_open_conds)
    (hn : plan.num_open_conds < 2 ^ 64)
    (h : plan.handle_disjunction env tb fuel plans disjuncts open_cond false calls
      = .value r) : AllCount env r.2.1 := by
  unfold Plan.handle_disjunction at h
  split at h
  · cases h
  · rename_i oc hoc
    have hi := position_lt_length _ _ _ hoc
    exact handle_disjunction_loop_counts env tb fuel plan _ open_cond hc hn hi _ _ _ _ _ hp h

/-- The plan the end of `Plan::make_link` adds keeps the relation. -/
theorem make_link_add_counts (env : PlanEnv) (lenv : LinkEnv) (tb : Tables) (fuel : Nat)
    (plan : Plan) (plans : List Plan) (step : Step) (effect : Effect) (open_cond : Nat)
    (test_only : Bool) (bindings_t : Bindings) (new_steps : List Step) (new_num_steps : Nat)
    (st : GoalState) (cond_goal : Formula) (fs : FState) (nv : Nat)
    (r : Int × List Plan × LinkState) (hp : AllCount env plans)
    (hst : test_only = false → CountsOpenConds env st.open_conds st.num_open_conds)
    (h : make_link_add lenv tb fuel plan plans step effect open_cond test_only bindings_t
      new_steps new_num_steps st cond_goal fs nv = .value r) : AllCount env r.2.1 := by
  unfold make_link_add at h
  split at h
  · cases h
  · cases h
  · split at h
    · cases h
      exact hp
    · cases h
      exact hp
  · split at h
    · rename_i ht
      have ht2 : test_only = false := by simpa using ht
      split at h
      · cases h
      · split at h
        · cases h
          exact hp
        · cases h
          exact allcount_append env _ _ hp (hst ht2)
    · cases h
      exact hp

/-- The plan the part of `Plan::make_link` for the step adds keeps the relation. -/
theorem make_link_step_counts (env : PlanEnv) (lenv : LinkEnv) (tb : Tables) (fuel : Nat)
    (plan : Plan) (plans : List Plan) (step : Step) (effect : Effect) (open_cond : Nat)
    (test_only : Bool) (st : GoalState) (cond_goal : Formula) (fs : FState) (nv : Nat)
    (r : Int × List Plan × LinkState) (hp : AllCount env plans)
    (hst : test_only = false → CountsOpenConds env st.open_conds st.num_open_conds)
    (h : make_link_step env lenv tb fuel plan plans step effect open_cond test_only st
      cond_goal fs nv = .value r) : AllCount env r.2.1 := by
  unfold make_link_step at h
  split at h
  · cases h
  · dsimp only at h
    split at h
    · split at h
      · cases h
      · cases h
      · cases h
      · cases h
        exact hp
      · rename_i st1 hg
        have hst1 : test_only = false → CountsOpenConds env st1.open_conds st1.num_open_conds := by
          intro ht
          subst ht
          exact counts_add_goal env fuel _ _ _ _ _ (hst rfl) hg
        split at h
        · cases h
        · cases h
          exact hp
        · exact make_link_add_counts env lenv tb fuel plan plans step effect open_cond test_only
            _ _ _ _ _ _ _ _ hp hst1 h
    · exact make_link_add_counts env lenv tb fuel plan plans step effect open_cond test_only
        _ _ _ _ _ _ _ _ hp hst h

/-- The plan `Plan::make_link` adds keeps the relation. -/
theorem make_link_counts (env : PlanEnv) (lenv : LinkEnv) (tb : Tables) (fuel : Nat)
    (plan : Plan) (plans : List Plan) (step : Step) (effect : Effect) (open_cond : Nat)
    (unifier : BindingList) (test_only : Bool) (ls : LinkState)
    (r : Int × List Plan × LinkState) (hp : AllCount env plans)
    (hc : CountsOpenConds env plan.open_conds plan.num_open_conds)
    (hn : plan.num_open_conds < 2 ^ 64) (hi : open_cond < plan.open_conds.length)
    (h : plan.make_link env lenv tb fuel plans step effect open_cond unifier test_only ls
      = .value r) : AllCount env r.2.1 := by
  unfold Plan.make_link at h
  dsimp only at h
  split at h
  · cases h
  · rename_i new_open_conds hr
    have hst0 : test_only = false →
        CountsOpenConds env new_open_conds
          (if test_only = true then 0 else usub plan.num_open_conds 1) := by
      intro ht
      subst ht
      simp only [Bool.false_eq_true, if_false] at hr ⊢
      exact counts_remove env _ _ _ _ hc hn hi hr
    split at h
    · split at h
      · cases h
      · cases h
      · cases h
      · cases h
        exact hp
      · rename_i st1 hg
        have hst1 : test_only = false → CountsOpenConds env st1.open_conds st1.num_open_conds := by
          intro ht
          subst ht
          exact counts_add_goal env fuel _ _ _ _ _ (hst0 rfl) hg
        exact make_link_step_counts env lenv tb fuel plan plans step effect open_cond test_only
          _ _ _ _ _ hp hst1 h
    · exact make_link_step_counts env lenv tb fuel plan plans step effect open_cond test_only
        _ _ _ _ _ hp hst0 h

/-- The plan `Plan::new_link` adds keeps the relation. -/
theorem new_link_counts (env : PlanEnv) (renv : RefineEnv) (lenv : LinkEnv) (tb : Tables)
    (fuel : Nat) (plan : Plan) (plans : List Plan) (step : Step) (effect : Effect)
    (literal : Lit) (open_cond : Nat) (sid : Nat) (test_only : Bool) (ls : LinkState)
    (r : Int × List Plan × LinkState) (hp : AllCount env plans)
    (hc : CountsOpenConds env plan.open_conds plan.num_open_conds)
    (hn : plan.num_open_conds < 2 ^ 64) (hi : open_cond < plan.open_conds.length)
    (h : plan.new_link env renv lenv tb fuel plans step effect literal open_cond sid test_only
      ls = .value r) : AllCount env r.2.1 := by
  unfold Plan.new_link at h
  split at h
  · cases h
  · split at h
    · exact make_link_counts env lenv tb fuel plan plans step effect open_cond _ test_only ls r
        hp hc hn hi h
    · cases h
      exact hp

/-- The plan `Plan::new_cw_link` adds keeps the relation. -/
theorem new_cw_link_counts (env : PlanEnv) (renv : RefineEnv) (fuel : Nat) (plan : Plan)
    (plans : List Plan) (effects : List Effect) (negation : Lit) (open_cond : Nat)
    (oc : OpenCondition) (calls : Nat) (r : Int × List Plan × Nat) (hp : AllCount env plans)
    (hc : CountsOpenConds env plan.open_conds plan.num_open_conds)
    (hn : plan.num_open_conds < 2 ^ 64) (hi : open_cond < plan.open_conds.length)
    (h : plan.new_cw_link env renv fuel plans effects negation open_cond oc false calls
      = .value r) : AllCount env r.2.1 := by
  unfold Plan.new_cw_link at h
  split at h
  · cases h
  · split at h
    · cases h
      exact hp
    · simp only [Bool.false_eq_true, if_false] at h
      split at h
      · cases h
      · rename_i new_open_conds hr
        have hnew := counts_remove env _ _ _ _ hc hn hi hr
        split at h
        · cases h
        · cases h
        · cases h
        · cases h
          exact hp
        · rename_i st hg
          have hst := counts_add_goal env fuel _ _ _ _ _ hnew hg
          split at h
          · cases h
            exact hp
          · simp only [Bool.not_false, if_true] at h
            cases h
            exact allcount_append env _ _ hp hst

/-- The plans the loop of `Plan::add_step` adds keep the relation. -/
theorem add_step_loop_counts (env : PlanEnv) (renv : RefineEnv) (lenv : LinkEnv)
    (tb : Tables) (fuel : Nat) (plan : Plan) (literal : Lit) (open_cond : Nat) (sid : Nat)
    (hc : CountsOpenConds env plan.open_conds plan.num_open_conds)
    (hn : plan.num_open_conds < 2 ^ 64) (hi : open_cond < plan.open_conds.length) :
    ∀ (achievers : List (Action × Effect)) (plans : List Plan) (ls : LinkState)
      (r : List Plan × LinkState), AllCount env plans →
      Plan.add_step_loop env renv lenv tb fuel plan literal open_cond sid achievers plans ls
        = .value r →
      AllCount env r.1
  | [], plans, ls, r, hp, h => by
    simp only [Plan.add_step_loop] at h
    cases h
    exact hp
  | (action, effect) :: rest, plans, ls, r, hp, h => by
    have ih := add_step_loop_counts env renv lenv tb fuel plan literal open_cond sid hc hn hi
      rest
    unfold Plan.add_step_loop at h
    split at h
    · split at h
      · cases h
      · cases h
      · cases h
      · rename_i c plans1 ls1 hl
        have h1 := new_link_counts env renv lenv tb fuel plan plans _ _ _ _ _ _ _ _ hp hc hn hi
          hl
        exact ih _ _ _ h1 h
    · exact ih _ _ _ hp h

/-- The plans the inner loop of `Plan::reuse_step` adds keep the relation. -/
theorem reuse_step_effects_counts (env : PlanEnv) (renv : RefineEnv) (lenv : LinkEnv)
    (tb : Tables) (fuel : Nat) (plan : Plan) (literal : Lit) (open_cond : Nat) (sid : Nat)
    (gt : StepTime) (step : Step)
    (hc : CountsOpenConds env plan.open_conds plan.num_open_conds)
    (hn : plan.num_open_conds < 2 ^ 64) (hi : open_cond < plan.open_conds.length) :
    ∀ (effects : List Effect) (plans : List Plan) (ls : LinkState)
      (r : List Plan × LinkState), AllCount env plans →
      Plan.reuse_step_effects env renv lenv tb fuel plan literal open_cond sid gt step effects
        plans ls = .value r →
      AllCount env r.1
  | [], plans, ls, r, hp, h => by
    simp only [Plan.reuse_step_effects] at h
    cases h
    exact hp
  | effect :: rest, plans, ls, r, hp, h => by
    have ih := reuse_step_effects_counts env renv lenv tb fuel plan literal open_cond sid gt
      step hc hn hi rest
    unfold Plan.reuse_step_effects at h
    split at h
    · split at h
      · cases h
      · cases h
      · cases h
      · rename_i c plans1 ls1 hl
        have h1 := new_link_counts env renv lenv tb fuel plan plans _ _ _ _ _ _ _ _ hp hc hn hi
          hl
        exact ih _ _ _ h1 h
    · exact ih _ _ _ hp h

/-- The plans the loop of `Plan::reuse_step` adds keep the relation. -/
theorem reuse_step_loop_counts (env : PlanEnv) (renv : RefineEnv) (lenv : LinkEnv)
    (tb : Tables) (fuel : Nat) (plan : Plan) (literal : Lit) (open_cond : Nat) (sid : Nat)
    (gt : StepTime) (achievers : List (Action × Effect))
    (hc : CountsOpenConds env plan.open_conds plan.num_open_conds)
    (hn : plan.num_open_conds < 2 ^ 64) (hi : open_cond < plan.open_conds.length) :
    ∀ (steps : List Step) (plans : List Plan) (ls : LinkState) (r : List Plan × LinkState),
      AllCount env plans →
      Plan.reuse_step_loop env renv lenv tb fuel plan literal open_cond sid gt achievers steps
        plans ls = .value r →
      AllCount env r.1
  | [], plans, ls, r, hp, h => by
    simp only [Plan.reuse_step_loop] at h
    cases h
    exact hp
  | step :: sc, plans, ls, r, hp, h => by
    have ih := reuse_step_loop_counts env renv lenv tb fuel plan literal open_cond sid gt
      achievers hc hn hi sc
    unfold Plan.reuse_step_loop at h
    split at h
    · split at h
      · cases h
      · cases h
      · cases h
      · rename_i plans1 ls1 hl
        have h1 := reuse_step_effects_counts env renv lenv tb fuel plan literal open_cond sid
          gt step hc hn hi _ _ _ _ hp hl
        exact ih _ _ _ h1 h
    · exact ih _ _ _ hp h

/-- The plans `Plan::handle_open_condition` adds for a literal keep the relation. -/
theorem handle_literal_counts (env : PlanEnv) (renv : RefineEnv) (lenv : LinkEnv)
    (tb : Tables) (fuel : Nat) (plan : Plan) (plans : List Plan) (literal : Lit)
    (open_cond : Nat) (oc : OpenCondition) (ls : LinkState) (r : List Plan × LinkState)
    (hp : AllCount env plans) (hc : CountsOpenConds env plan.open_conds plan.num_open_conds)
    (hn : plan.num_open_conds < 2 ^ 64) (hi : open_cond < plan.open_conds.length)
    (h : plan.handle_literal env renv lenv tb fuel plans literal open_cond oc ls = .value r) :
    AllCount env r.1 := by
  unfold Plan.handle_literal at h
  dsimp only at h
  split at h
  · cases h
  · cases h
  · cases h
  · rename_i plans2 ls2 hl
    have h2 : AllCount env plans2 := by
      split at hl
      · split at hl
        · cases hl
        · cases hl
        · cases hl
        · rename_i plans1 ls1 ha
          have h1 := add_step_loop_counts env renv lenv tb fuel plan literal open_cond _ hc hn
            hi _ _ _ _ hp ha
          exact reuse_step_loop_counts env renv lenv tb fuel plan literal open_cond _ _ _ hc hn
            hi _ _ _ _ h1 hl
      · cases hl
        exact hp
    split at h
    · split at h
      · cases h
      · cases h
      · cases h
      · rename_i c plans3 calls3 hcw
        cases h
        exact new_cw_link_counts env renv fuel plan plans2 _ _ open_cond oc _ _ h2 hc hn hi hcw
    · cases h
      exact h2

/-- The plans `Plan::handle_open_condition` adds keep the relation. -/
theorem handle_open_condition_counts (env : PlanEnv) (renv : RefineEnv) (lenv : LinkEnv)
    (tb : Tables) (fuel : Nat) (plan : Plan) (plans : List Plan) (open_cond : Nat)
    (ls : LinkState) (r : List Plan × LinkState) (hp : AllCount env plans)
    (hc : CountsOpenConds env plan.open_conds plan.num_open_conds)
    (hn : plan.num_open_conds < 2 ^ 64)
    (h : plan.handle_open_condition env renv lenv tb fuel plans open_cond ls = .value r) :
    AllCount env r.1 := by
  unfold Plan.handle_open_condition at h
  split at h
  · cases h
  · rename_i oc hoc
    have hi := position_lt_length _ _ _ hoc
    split at h
    · exact handle_literal_counts env renv lenv tb fuel plan plans _ open_cond oc ls r hp hc hn
        hi h
    · split at h
      · cases h
      · cases h
      · cases h
      · rename_i c plans1 calls1 hd
        cases h
        exact handle_disjunction_counts env tb fuel plan plans _ open_cond _ _ hp hc hn hd
    · split at h
      · cases h
      · rename_i c plans1 hq
        cases h
        exact handle_inequality_counts env renv plan plans _ _ _ _ open_cond false _ hp hc hn hq
    · cases h

/-- The plan `Plan::make_initial_plan` returns keeps the relation. -/
theorem make_initial_plan_counts (env : PlanEnv) (tb : Tables) (pd : ProblemData)
    (fuel : Nat) (refine_timed : Orderings → Flt → Step → Option Orderings)
    (problem : Problem) (fs fs1 : FState) (plan : Plan)
    (h : Plan.make_initial_plan env tb pd fuel refine_timed problem fs = .value (plan, fs1)) :
    CountsOpenConds env plan.open_conds plan.num_open_conds := by
  unfold Plan.make_initial_plan at h
  dsimp only at h
  split at h
  · cases h
  · cases h
  · cases h
  · rename_i condition fs2 hc
    split at h
    · cases h
    · cases h
    · cases h
    · cases h
    · rename_i st hg
      have h3 : CountsOpenConds env st.open_conds st.num_open_conds :=
        counts_add_goal env fuel ⟨[], 0, [], 0⟩ _ _ _ _
          ⟨by simp, fun _ => by simp⟩ hg
      split at h
      · split at h
        · cases h
        · cases h
          exact h3
      · cases h
        exact h3

/-- C37 (amended): in every plan produced by `make_initial_plan` and the refinements
(`handle_unsafe`, `handle_open_condition`, `handle_mutex_threat`), the counter
`num_open_conds` is at least the length of the chain of open conditions, and equals it when
static preconditions are not stripped; this holds whatever the calls on the orderings and
the bindings return. -/
theorem produced_plan_open_conds_count (env : PlanEnv) (tb : Tables) (pd : ProblemData)
    (plan : Plan) (h : Plan.Produced env tb pd plan) :
    plan.open_conds.length ≤ plan.num_open_conds
    ∧ (env.params.strip_static_preconditions = false →
        plan.num_open_conds = plan.open_conds.length) := by
  induction h with
  | initial fuel refine_timed problem fs fs1 plan hinit =>
    exact make_initial_plan_counts env tb pd fuel refine_timed problem fs fs1 plan hinit
  | unsafe_ renv fuel parent unsafe_ calls calls1 plans child _ hr hmem ih =>
    exact handle_unsafe_counts env renv fuel parent [] unsafe_ calls _
      (fun _ hq => absurd hq (List.not_mem_nil _)) ih hr child hmem
  | open_condition renv lenv fuel parent open_cond ls ls1 plans child _ hn hr hmem ih =>
    exact handle_open_condition_counts env renv lenv tb fuel parent [] open_cond ls _
      (fun _ hq => absurd hq (List.not_mem_nil _)) ih hn hr child hmem
  | mutex_threat renv fuel junk parent mutex_threat m calls plans child _ hm hr hmem ih =>
    exact handle_mutex_threat_counts env renv tb fuel junk mutex_threat calls parent m [] plans
      (fun _ hq => absurd hq (List.not_mem_nil _)) ih hr child hmem

/-- The amended C37 at the problem with the goal `p(o1) or (p(o1) and r(o2))`: the initial
plan has the disjunction as its open condition, and its refinement for the second disjunct
has two open conditions and the counter 2 when static preconditions are kept, and no open
condition and the counter 2 when they are stripped. -/
theorem produced_plan_open_conds_count_witness :
    Plan.make_initial_plan Ex.env_keep Ex.tb Ex.pd 4 Ex.refine_timed Ex.problem_or Ex.fstate4
        = .value (Ex.plan_or, Ex.fstate4)
    ∧ Ex.plan_or.handle_open_condition Ex.env_keep Ex.renv Ex.lenv Ex.tb 4 [] 0
          ⟨Ex.fstate4, 0, 0⟩
        = .value ([Ex.plan_or_p, Ex.plan_or_and], ⟨Ex.fstate4, 0, 0⟩)
    ∧ Ex.plan_or_and.open_conds.length = 2 ∧ Ex.plan_or_and.num_open_conds = 2
    ∧ (Ex.plan_or_and.open_conds.length ≤ Ex.plan_or_and.num_open_conds
        ∧ (Ex.env_keep.params.strip_static_preconditions = false →
            Ex.plan_or_and.num_open_conds = Ex.plan_or_and.open_conds.length))
    ∧ Ex.plan_or_stripped.open_conds.length = 0 ∧ Ex.plan_or_stripped.num_open_conds = 2
    ∧ (Ex.plan_or_stripped.open_conds.length ≤ Ex.plan_or_stripped.num_open_conds
        ∧ (Ex.env_strip.params.strip_static_preconditions = false →
            Ex.plan_or_stripped.num_open_conds = Ex.plan_or_stripped.open_conds.length)) :=
  ⟨rfl, rfl, rfl, rfl,
   produced_plan_open_conds_count Ex.env_keep Ex.tb Ex.pd Ex.plan_or_and
     (Plan.Produced.open_condition Ex.renv Ex.lenv 4 Ex.plan_or 0 ⟨Ex.fstate4, 0, 0⟩
       ⟨Ex.fstate4, 0, 0⟩ [Ex.plan_or_p, Ex.plan_or_and] Ex.plan_or_and
       (Plan.Produced.initial 4 Ex.refine_timed Ex.problem_or Ex.fstate4 Ex.fstate4 Ex.plan_or
         rfl)
       (by decide) rfl (List.mem_cons_of_mem _ (List.mem_singleton.mpr rfl))),
   rfl, rfl,
   produced_plan_open_conds_count Ex.env_strip Ex.tb Ex.pd Ex.plan_or_stripped
     (Plan.Produced.open_condition Ex.renv Ex.lenv 4 Ex.plan_or 0 ⟨Ex.fstate4, 0, 0⟩
       ⟨Ex.fstate4, 0, 0⟩
       [{ Ex.plan_or with open_conds := [], num_open_conds := 1 }, Ex.plan_or_stripped]
       Ex.plan_or_stripped
       (Plan.Produced.initial 4 Ex.refine_timed Ex.problem_or Ex.fstate4 Ex.fstate4 Ex.plan_or
         rfl)
       (by decide) rfl (List.mem_cons_of_mem _ (List.mem_singleton.mpr rfl)))⟩

/-- In a plan whose only steps are the initial step and the goal step, handling the place
holder appends the plan with an empty chain of mutex threats. -/
theorem handle_place_holder_ends (tb : Tables) (fuel : Nat) (junk : Flags)
    (resolve : Plan → MutexThreat → List Plan → Outcome (List Plan)) (p : Plan)
    (plans : List Plan) (s0 s1 : Step) (hp : p.steps = [s0, s1]) (h0 : s0.id = 0)
    (h1 : s1.id = GOAL_ID) :
    p.handle_mutex_threat tb fuel junk resolve plans MutexThreat.place_holder
      = .value (plans ++ [{ p with mutex_threats := [] }]) := by
  have hen : enumerate_mutex_threats tb fuel junk p p.steps [] = .value [] := by
    rw [hp]
    unfold enumerate_mutex_threats
    rw [mutex_threats_ends tb fuel junk s0 p.orderings p.bindings (Or.inl h0)]
    dsimp only
    unfold enumerate_mutex_threats
    rw [mutex_threats_ends tb fuel junk s1 p.orderings p.bindings (Or.inr h1)]
    rfl
  have e : MutexThreat.place_holder.step_id1 = 0 := rfl
  unfold Plan.handle_mutex_threat
  rw [if_pos e, hen]

/-- The initial plan of a problem with the goal TRUE and no timed initial literals. -/
theorem initial_plan_true_form (env : PlanEnv) (tb : Tables) (pd : ProblemData) (fuel : Nat)
    (refine_timed : Orderings → Flt → Step → Option Orderings) (problem : Problem)
    (fs : FState) (hfuel : 0 < fuel) (hg : problem.goal = Formula.TRUE_FORMULA)
    (ht : problem.timed_actions = []) :
    Plan.make_initial_plan env tb pd fuel refine_timed problem fs
      = .value (⟨[⟨0, problem.init_action⟩,
                  ⟨GOAL_ID, ⟨"", false, if env.params.ground_actions then none else some [],
                    .constant true, []⟩⟩], 0, [], 0,
                 if problem.durative_actions then .temporal [] ⟨[], []⟩ else .binary ⟨[]⟩,
                 some Bindings.EMPTY, [], 0, [], 0, [MutexThreat.place_holder]⟩, fs) := by
  obtain ⟨fuel, rfl⟩ : ∃ k, fuel = k + 1 := ⟨fuel - 1, by omega⟩
  have hgoal : (if env.params.ground_actions = true then
        Formula.get_instantiation tb pd (fuel + 1) [] problem.goal fs
      else Outcome.value (problem.goal, fs)) = .value (.constant true, fs) := by
    rw [hg]
    split <;> rfl
  unfold Plan.make_initial_plan
  simp only [hgoal, ht]
  by_cases hd : problem.durative_actions = true
  · simp only [hd, if_true]
    rfl
  · simp only [hd]
    rfl

/-- C14 (counterexample): the initial plan of the problem with the goal TRUE and no timed
initial literals is not complete. -/
theorem initial_plan_not_complete :
    ∃ plan fs, Plan.make_initial_plan Ex.env_keep Ex.tb Ex.pd 2 Ex.refine_timed
        Ex.problem_true Ex.fstate2 = .value (plan, fs)
      ∧ plan.num_steps = 0 ∧ plan.is_complete = false :=
  ⟨_, _, rfl, rfl, rfl⟩

/-- C14 (amended): for every problem whose goal is TRUE and that has no timed initial
literals, `make_initial_plan` returns a plan with zero non-synthetic steps, the initial and
the goal step, no open conditions, and the place holder as its only mutex threat, for which
`is_complete` is false; handling the place holder gives exactly one child, which has the
same steps and for which `is_complete` is true. -/
theorem initial_plan_true_goal (env : PlanEnv) (tb : Tables) (pd : ProblemData) (fuel : Nat)
    (refine_timed : Orderings → Flt → Step → Option Orderings) (problem : Problem)
    (fs : FState) (junk : Flags)
    (resolve : Plan → MutexThreat → List Plan → Outcome (List Plan))
    (hfuel : 0 < fuel) (hg : problem.goal = Formula.TRUE_FORMULA)
    (ht : problem.timed_actions = []) :
    ∃ plan, Plan.make_initial_plan env tb pd fuel refine_timed problem fs = .value (plan, fs)
      ∧ plan.num_steps = 0 ∧ plan.steps.map (fun s => s.id) = [0, GOAL_ID]
      ∧ plan.open_conds = [] ∧ plan.unsafes = []
      ∧ plan.mutex_threats = [MutexThreat.place_holder]
      ∧ plan.is_complete = false
      ∧ ∃ child, plan.handle_mutex_threat tb fuel junk resolve [] MutexThreat.place_holder
            = .value [child]
          ∧ child.steps = plan.steps ∧ child.num_steps = 0 ∧ child.is_complete = true := by
  exact ⟨_, initial_plan_true_form env tb pd fuel refine_timed problem fs hfuel hg ht,
    rfl, rfl, rfl, rfl, rfl, rfl,
    ⟨_, handle_place_holder_ends tb fuel junk resolve _ [] _ _ rfl rfl rfl, rfl, rfl, rfl⟩⟩

/-- The amended C14 at the problem with the goal TRUE and the default parameters. -/
theorem initial_plan_true_goal_witness :
    ∃ plan, Plan.make_initial_plan Ex.env_keep Ex.tb Ex.pd 2 Ex.refine_timed Ex.problem_true
        Ex.fstate2 = .value (plan, Ex.fstate2)
      ∧ plan.num_steps = 0 ∧ plan.steps.map (fun s => s.id) = [0, GOAL_ID]
      ∧ plan.open_conds = [] ∧ plan.unsafes = []
      ∧ plan.mutex_threats = [MutexThreat.place_holder]
      ∧ plan.is_complete = false
      ∧ ∃ child, plan.handle_mutex_threat Ex.tb 2 Ex.no_flags Ex.resolve []
            MutexThreat.place_holder = .value [child]
          ∧ child.steps = plan.steps ∧ child.num_steps = 0 ∧ child.is_complete = true :=
  initial_plan_true_goal Ex.env_keep Ex.tb Ex.pd 2 Ex.refine_timed Ex.problem_true Ex.fstate2
    Ex.no_flags Ex.resolve (by decide) rfl rfl

/-- C16 (counterexample): for step 1 of two unordered steps that both add the atom `p(o1)`,
the enumeration records a mutex threat between the two effects, which have the same
polarity. -/
theorem mutex_threat_same_polarity :
    mutex_threats Ex.tb 10 Ex.no_flags ⟨1, Ex.action_p⟩ (.binary Ex.two_unordered)
        (some Bindings.EMPTY) Ex.steps_pp []
      = .value [⟨1, some Ex.adds_p, some 2, some Ex.adds_p⟩]
    ∧ Ex.adds_p.literal = .atom Ex.atom_p :=
  ⟨rfl, rfl⟩

/-- C16 (amended): every mutex threat that `mutex_threats` adds for a step pairs one effect
of that step with one effect of a different, possibly concurrent step of the chain, at time
points that may coincide, such that the atoms of the two effect literals unify under the
bindings; the polarity of the two literals is not examined. -/
theorem mutex_threats_pairs (tb : Tables) (fuel : Nat) (junk : Flags) (step : Step)
    (orderings : Orderings) (bindings : Option Bindings) (steps : List Step)
    (mt r : List MutexThreat)
    (h : mutex_threats tb fuel junk step orderings bindings steps mt = .value r) :
    ∀ m ∈ r, m ∈ mt ∨ IsMutexThreat tb fuel junk orderings bindings step steps m :=
  mutex_threats_spec tb fuel junk step orderings bindings steps mt r h

/-- The amended C16 at step 1 of two unordered steps that both add `p(o1)`. -/
theorem mutex_threats_pairs_witness :
    (⟨1, some Ex.adds_p, some 2, some Ex.adds_p⟩ : MutexThreat) ∈ ([] : List MutexThreat)
    ∨ IsMutexThreat Ex.tb 10 Ex.no_flags (.binary Ex.two_unordered)
        (some Bindings.EMPTY) ⟨1, Ex.action_p⟩ Ex.steps_pp
        ⟨1, some Ex.adds_p, some 2, some Ex.adds_p⟩ :=
  mutex_threats_pairs Ex.tb 10 Ex.no_flags ⟨1, Ex.action_p⟩ (.binary Ex.two_unordered)
    (some Bindings.EMPTY) Ex.steps_pp [] _ rfl _ (List.mem_singleton.mpr rfl)

/-- C13 (fails): for the plan whose bindings bind `?y` to `o1` and the open condition
`?y = o1 or ?y = o2`, `handle_disjunction` counts both branches and appends two plans, the
second with a null bindings pointer, although adding `?y = o2` to the bindings of the plan
fails; with `test_only` it counts both branches as well. -/
theorem handle_disjunction_keeps_inconsistent_branch :
    Ex.b_y.add Ex.tb 10 [⟨Ex.y, 2, Ex.o2, 0, true⟩] false = .null
    ∧ (∃ r, Plan.handle_disjunction Ex.env_keep Ex.tb 10 Ex.plan_disj [] Ex.disjuncts_y 0
          false 0 = .value r
        ∧ r.1 = 2 ∧ r.2.1.map (fun p => p.bindings) = [some Ex.b_y, none])
    ∧ (∃ r, Plan.handle_disjunction Ex.env_keep Ex.tb 10 Ex.plan_disj [] Ex.disjuncts_y 0
          true 0 = .value r
        ∧ r.1 = 2 ∧ r.2.1.length = 0) :=
  ⟨rfl, ⟨_, rfl, rfl, rfl⟩, ⟨_, rfl, rfl, rfl⟩⟩

/-- C15 (fails): for one step of an action schema with the parameter `?x` and the empty
bindings, with the object `o1` of the type of `?x`, `step_instantiation` returns the empty
bindings, under which `?x` of the step is a variable. -/
theorem step_instantiation_leaves_variable :
    step_instantiation Ex.tb [Ex.o1] 10 10 [⟨1, Ex.schema_x⟩] 0 Bindings.EMPTY
      = .value Bindings.EMPTY
    ∧ Ex.schema_x.parameters = some [Ex.x]
    ∧ Ex.tb.compatible_objects [Ex.o1] (Ex.tb.type Ex.x) = [Ex.o1]
    ∧ Bindings.EMPTY.get_binding Ex.x 1 = Ex.x
    ∧ (Bindings.EMPTY.get_binding Ex.x 1).is_variable = true :=
  ⟨rfl, rfl, rfl, rfl, rfl⟩

/-- C36 (fails): a link from the effect `p(?x)` of a new step 3 of the action `a(?x)` with
the precondition `?x = o2` to the open condition `p(o1)`, with the unifier `?x = o1`: adding
the collected bindings `?x = o1`, `?x = o2` fails in both modes, `make_link` returns 0 when
`test_only` is false, and 1 when `test_only` is true. -/
theorem make_link_test_only_counts_failed_link :
    Bindings.EMPTY.add Ex.tb 10 [⟨Ex.x, 3, Ex.o1, 0, true⟩, ⟨Ex.x, 3, Ex.o2, 3, true⟩] true
      = .null
    ∧ Bindings.EMPTY.add Ex.tb 10 [⟨Ex.x, 3, Ex.o1, 0, true⟩, ⟨Ex.x, 3, Ex.o2, 3, true⟩] false
      = .null
    ∧ (∃ r, Ex.plan_open_p.make_link Ex.env_keep Ex.lenv Ex.tb 10 [] ⟨3, Ex.schema_eq⟩
          Ex.adds_px 0 Ex.unifier_x false ⟨Ex.fstate2, 5, 0⟩ = .value r
        ∧ r.1 = 0 ∧ r.2.1.length = 0)
    ∧ (∃ r, Ex.plan_open_p.make_link Ex.env_keep Ex.lenv Ex.tb 10 [] ⟨3, Ex.schema_eq⟩
          Ex.adds_px 0 Ex.unifier_x true ⟨Ex.fstate2, 5, 0⟩ = .value r
        ∧ r.1 = 1 ∧ r.2.1.length = 0) :=
  ⟨rfl, rfl, ⟨_, rfl, rfl, rfl⟩, ⟨_, rfl, rfl, rfl⟩⟩

/-- The loop over the children reads the search algorithm only in the test for `IDA_STAR`. -/
theorem add_children_algorithm {P Q : Type} (ops : SearchOps P Q) (p1 p2 : Parameters)
    (hl : p1.search_limits = p2.search_limits)
    (ha : decide (p1.search_algorithm = .IDA_STAR) = decide (p2.search_algorithm = .IDA_STAR))
    (f_limit : Flt) :
    ∀ (cs : List P) (st : SearchState P Q) (added : Bool) (nfl : Flt),
      add_children ops p1 f_limit cs st added nfl = add_children ops p2 f_limit cs st added nfl
  | [], _, _, _ => rfl
  | c :: cs, st, added, nfl => by
    have ih := add_children_algorithm ops p1 p2 hl ha f_limit cs
    unfold add_children
    rw [hl, ha]
    simp only [ih]

/-- The choice of the next flaw order does not read the search algorithm. -/
theorem next_flaw_order_algorithm (p1 p2 : Parameters)
    (hf : p1.flaw_orders = p2.flaw_orders) (hl : p1.search_limits = p2.search_limits)
    (generated_plans : List Nat) :
    ∀ (fuel c n : Nat),
      next_flaw_order p1 generated_plans fuel c n = next_flaw_order p2 generated_plans fuel c n
  | 0, _, _ => rfl
  | fuel + 1, c, n => by
    have ih := next_flaw_order_algorithm p1 p2 hf hl generated_plans fuel
    unfold next_flaw_order
    rw [hf, hl]
    simp only [ih]

/-- The choice of the next plan does not read the search algorithm. -/
theorem process_next_plan_algorithm {P Q : Type} (ops : SearchOps P Q) (p1 p2 : Parameters)
    (hf : p1.flaw_orders = p2.flaw_orders) (hl : p1.search_limits = p2.search_limits)
    (hg : p1.ground_actions = p2.ground_actions) (initial_plan : Option (P × Nat))
    (fuel : Nat) (nfl : Flt) (st : SearchState P Q) :
    process_next_plan ops p1 initial_plan fuel nfl st
      = process_next_plan ops p2 initial_plan fuel nfl st := by
  unfold process_next_plan
  rw [hl, hg]
  simp only [next_flaw_order_algorithm p1 p2 hf hl]

/-- The loop over the plans visited reads the search algorithm only in the test for
`IDA_STAR`. -/
theorem search_loop_algorithm {P Q : Type} (ops : SearchOps P Q) (p1 p2 : Parameters)
    (hf : p1.flaw_orders = p2.flaw_orders) (hl : p1.search_limits = p2.search_limits)
    (hg : p1.ground_actions = p2.ground_actions)
    (ha : decide (p1.search_algorithm = .IDA_STAR) = decide (p2.search_algorithm = .IDA_STAR))
    (initial_plan : Option (P × Nat)) (f_limit : Flt) :
    ∀ (fuel : Nat) (st : SearchState P Q) (nfl : Flt),
      search_loop ops p1 initial_plan f_limit fuel st nfl
        = search_loop ops p2 initial_plan f_limit fuel st nfl
  | 0, _, _ => rfl
  | fuel + 1, st, nfl => by
    have ih := search_loop_algorithm ops p1 p2 hf hl hg ha initial_plan f_limit fuel
    unfold search_loop
    rw [hf]
    simp only [ih, add_children_algorithm ops p1 p2 hl ha f_limit,
      process_next_plan_algorithm ops p1 p2 hf hl hg initial_plan]

/-- The restarts read the search algorithm only in the test for `IDA_STAR`. -/
theorem restart_loop_algorithm {P Q : Type} (ops : SearchOps P Q) (p1 p2 : Parameters)
    (hf : p1.flaw_orders = p2.flaw_orders) (hl : p1.search_limits = p2.search_limits)
    (hg : p1.ground_actions = p2.ground_actions)
    (ha : decide (p1.search_algorithm = .IDA_STAR) = decide (p2.search_algorithm = .IDA_STAR))
    (initial_plan : Option (P × Nat)) :
    ∀ (fuel : Nat) (f_limit : Flt) (st : SearchState P Q),
      restart_loop ops p1 initial_plan fuel f_limit st
        = restart_loop ops p2 initial_plan fuel f_limit st
  | 0, _, _ => rfl
  | fuel + 1, f_limit, st => by
    have ih := restart_loop_algorithm ops p1 p2 hf hl hg ha initial_plan fuel
    unfold restart_loop
    simp only [ih, search_loop_algorithm ops p1 p2 hf hl hg ha initial_plan]

/-- C20 (fails): the search of `Plan::plan` under HILL_CLIMBING is the search under A_STAR:
for all plan operations, parameters, fuel and initial plans the two runs give the same
result, with the same sequence of plans visited and the same queues; and in the run under
HILL_CLIMBING of a plan 0 with the children 1 (rank 1, a dead end) and 2 (rank 2, complete)
both children are queued, the plans 0 and 1 are visited and the plan 2 is returned. -/
theorem hill_climbing_is_a_star :
    (∀ (P Q : Type) (ops : SearchOps P Q) (params : Parameters) (empty_queue : Q)
        (fuel : Nat) (initial_plan : Option (P × Nat)),
      Plan.plan ops { params with search_algorithm := .HILL_CLIMBING } empty_queue fuel
          initial_plan
        = Plan.plan ops { params with search_algorithm := .A_STAR } empty_queue fuel
          initial_plan)
    ∧ (∃ st, Plan.plan Ex.ops Ex.params_hc [] 10 (some (0, 0)) = .value st
        ∧ st.visited = [(0, 0), (1, 1)] ∧ st.current_plan = some (2, 2)
        ∧ st.num_generated_plans = 3 ∧ st.num_dead_ends = 1) := by
  refine ⟨?_, ⟨_, rfl, rfl, rfl, rfl, rfl⟩⟩
  intro P Q ops params empty_queue fuel initial_plan
  unfold Plan.plan
  simp only [restart_loop_algorithm ops { params with search_algorithm := .HILL_CLIMBING }
    { params with search_algorithm := .A_STAR } rfl rfl rfl rfl initial_plan]
  rfl

theorem step_ids_mem (o : BinaryOrderings) (i : Nat) :
    i ∈ o.step_ids ↔ 1 ≤ i ∧ i ≤ o.before.length + 1 := by
  unfold BinaryOrderings.step_ids
  simp only [List.mem_map, List.mem_range]
  constructor
  · rintro ⟨a, ha, rfl⟩
    omega
  · intro h
    exact ⟨i - 1, by omega, by omega⟩

theorem is_before_ok (o : BinaryOrderings) (hwf : o.WellFormed)
    (hsmall : o.before.length + 1 < 2 ^ 24) (j i : Nat) (hj : j ∈ o.step_ids)
    (hi : i ∈ o.step_ids) : ∃ b, o.is_before j i = .ok b := by
  rw [step_ids_mem] at hj hi
  unfold BinaryOrderings.is_before
  by_cases e : j = i
  · exact ⟨false, by simp [e]⟩
  · simp only [e, if_false]
    have rd : ∀ r c, r < o.before.length → c < 2 * r + 2 → ∃ b, index2 o.before r c = .ok b := by
      intro r c hr hc
      unfold index2
      cases h1 : o.before[r]? with
      | none =>
        rw [List.getElem?_eq_none_iff] at h1
        omega
      | some row =>
        have hl := hwf r row h1
        simp only
        cases h2 : row[c]? with
        | none =>
          rw [List.getElem?_eq_none_iff] at h2
          omega
        | some x => exact ⟨x, rfl⟩
    by_cases hlt : j < i
    · simp only [hlt, if_true]
      rw [usub_eq i 2 (by omega) (by omega), usub_eq j 1 (by omega) (by omega)]
      exact rd _ _ (by omega) (by omega)
    · simp only [hlt, if_false]
      rw [umul_two j (by omega), usub_eq j 2 (by omega) (by omega),
        usub_eq (2 * j) 2 (by omega) (by omega), usub_eq (2 * j - 2) i (by omega) (by omega)]
      exact rd _ _ (by omega) (by omega)

theorem before_b_irrefl (o : BinaryOrderings) (i : Nat) : o.before_b i i = false := by
  unfold BinaryOrderings.before_b BinaryOrderings.is_before
  simp

theorem countP_lt {α : Type} (p q : α → Bool) :
    ∀ (l : List α), (∀ x ∈ l, p x = true → q x = true) →
      (∃ x ∈ l, q x = true ∧ p x = false) → l.countP p < l.countP q
  | [], _, h => by
    obtain ⟨x, hx, _⟩ := h
    cases hx
  | a :: l, hpq, hex => by
    have hle : l.countP p ≤ l.countP q := by
      apply List.countP_mono_left
      intro x hx hp
      exact hpq x (List.mem_cons_of_mem _ hx) hp
    rw [List.countP_cons, List.countP_cons]
    obtain ⟨x, hx, hq, hp⟩ := hex
    rcases List.mem_cons.mp hx with rfl | hx
    · simp only [hq, hp, if_true]
      simp
      omega
    · have ih := countP_lt p q l (fun y hy => hpq y (List.mem_cons_of_mem _ hy)) ⟨x, hx, hq, hp⟩
      by_cases hpa : p a = true
      · have := hpq a (List.mem_cons_self _ _) hpa
        simp [hpa, this]
        omega
      · simp [hpa]
        split <;> omega

theorem rank_lt (o : BinaryOrderings) (htr : o.Transitive) (j i : Nat) (hj : j ∈ o.step_ids)
    (hi : i ∈ o.step_ids) (h : o.before_b j i = true) : o.rank j < o.rank i := by
  unfold BinaryOrderings.rank
  apply countP_lt
  · intro k hk hkj
    exact htr k hk j hj i hi hkj h
  · exact ⟨j, hj, h, before_b_irrefl o j⟩
theorem flt_ofNat_lt (a b : Nat) : (Flt.ofNat a).lt (Flt.ofNat b) = decide (a < b) := by
  simp [Flt.ofNat, Flt.lt]

theorem flt_ofNat_inj (a b : Nat) (h : Flt.ofNat a = Flt.ofNat b) : a = b := by
  unfold Flt.ofNat at h
  injection h with h1 _
  exact Int.ofNat.inj h1

theorem find_append (m : List (Nat × Flt)) (i : Nat) (v : Flt) (k : Nat) :
    TimeMap_find (m ++ [(i, v)]) k
      = match TimeMap_find m k with
        | some x => some x
        | none => if i = k then some v else none := by
  induction m with
  | nil => simp [TimeMap_find]
  | cons a m ih =>
    obtain ⟨a1, a2⟩ := a
    simp only [List.cons_append, TimeMap_find]
    split
    · rfl
    · exact ih

theorem find_insert (m : List (Nat × Flt)) (i : Nat) (v : Flt) (h : TimeMap_find m i = none)
    (k : Nat) :
    TimeMap_find (TimeMap_insert m i v) k = if k = i then some v else TimeMap_find m k := by
  unfold TimeMap_insert
  rw [h]
  simp only
  rw [find_append]
  by_cases e : k = i
  · subst e
    simp [h]
  · have e2 : ¬ i = k := fun x => e x.symm
    simp only [e, e2, if_false]
    cases TimeMap_find m k <;> rfl

theorem rank_le (o : BinaryOrderings) (i : Nat) : o.rank i ≤ o.before.length + 1 := by
  unfold BinaryOrderings.rank
  have h := List.countP_le_length (fun k => o.before_b k i) (l := o.step_ids)
  have h2 : o.step_ids.length = o.before.length + 1 := by
    simp [BinaryOrderings.step_ids]
  omega

theorem sched_nil (o : BinaryOrderings) : Sched o [] :=
  ⟨fun _ _ h => by simp [TimeMap_find] at h, fun _ _ h => by simp [TimeMap_find] at h,
   fun _ _ h => by simp [TimeMap_find] at h⟩
theorem schedule_loop_spec (o : BinaryOrderings) (fadd : Flt → Flt → Flt)
    (hwf : o.WellFormed) (hsmall : o.before.length + 1 < 2 ^ 24)
    (hadd : ∀ k : Nat, k < 2 ^ 24 → fadd (.fin 1 0) (Flt.ofNat k) = Flt.ofNat (k + 1))
    (htr : o.Transitive) (i : Nat) (hi : i ∈ o.step_ids)
    (next : List (Nat × Flt) × List (Nat × Flt) → Nat →
      Outcome (Flt × List (Nat × Flt) × List (Nat × Flt)))
    (ih : ∀ (m : List (Nat × Flt)) (j : Nat), Sched o m → j ∈ o.step_ids →
      o.rank j < o.rank i →
      ∃ (t : Nat) (m2 : List (Nat × Flt)),
        next (m, m) j = .value (Flt.ofNat t, m2, m2) ∧ Sched o m2
        ∧ TimeMap_find m2 j = some (Flt.ofNat t) ∧ TimeMap_le m m2
        ∧ (∀ k, TimeMap_find m2 k ≠ none →
            TimeMap_find m k ≠ none ∨ k = j ∨ o.before_b k j = true)) :
    ∀ (js done : List Nat) (s : Nat) (m : List (Nat × Flt)),
      (∀ j ∈ js, j ∈ o.step_ids) → Sched o m → TimeMap_find m i = none →
      1 ≤ s → s ≤ o.rank i + 1 →
      (∀ j ∈ done, o.before_b j i = true →
        ∃ tj : Nat, TimeMap_find m j = some (Flt.ofNat tj) ∧ tj + 1 ≤ s) →
      (s = 1 ∨ ∃ j ∈ o.step_ids, o.before_b j i = true
        ∧ ∃ tj : Nat, TimeMap_find m j = some (Flt.ofNat tj) ∧ s = tj + 1) →
      ∃ (s2 : Nat) (m2 : List (Nat × Flt)),
        schedule_loop o fadd i next js (Flt.ofNat s) (m, m) = .value (Flt.ofNat s2, m2, m2)
        ∧ Sched o m2 ∧ TimeMap_find m2 i = none ∧ TimeMap_le m m2
        ∧ (∀ k, TimeMap_find m2 k ≠ none → TimeMap_find m k ≠ none ∨ o.before_b k i = true)
        ∧ 1 ≤ s2 ∧ s2 ≤ o.rank i + 1
        ∧ (∀ j ∈ done ++ js, o.before_b j i = true →
            ∃ tj : Nat, TimeMap_find m2 j = some (Flt.ofNat tj) ∧ tj + 1 ≤ s2)
        ∧ (s2 = 1 ∨ ∃ j ∈ o.step_ids, o.before_b j i = true
            ∧ ∃ tj : Nat, TimeMap_find m2 j = some (Flt.ofNat tj) ∧ s2 = tj + 1)
  | [], done, s, m, _, hm, hni, h1, h2, hd, ht => by
    refine ⟨s, m, rfl, hm, hni, fun _ _ h => h, fun _ h => Or.inl h, h1, h2, ?_, ht⟩
    intro j hj
    rw [List.append_nil] at hj
    exact hd j hj
  | j :: js, done, s, m, hjs, hm, hni, h1, h2, hd, ht => by
    have hj : j ∈ o.step_ids := hjs j (List.mem_cons_self _ _)
    have hjs2 : ∀ x ∈ js, x ∈ o.step_ids := fun x hx => hjs x (List.mem_cons_of_mem _ hx)
    have rec := schedule_loop_spec o fadd hwf hsmall hadd htr i hi next ih js (done ++ [j])
    have skip : o.before_b j i = false →
        schedule_loop o fadd i next (j :: js) (Flt.ofNat s) (m, m)
          = schedule_loop o fadd i next js (Flt.ofNat s) (m, m) := by
      intro hb
      unfold BinaryOrderings.before_b at hb
      rw [schedule_loop]
      by_cases e : i = j
      · simp [e]
      · simp only [ne_eq, e, not_false_eq_true, if_true]
        obtain ⟨b, hb2⟩ := is_before_ok o hwf hsmall j i hj hi
        rw [hb2] at hb ⊢
        cases b
        · rfl
        · simp at hb
    cases hb : o.before_b j i with
    | false =>
      rw [skip hb]
      have hd2 : ∀ x ∈ done ++ [j], o.before_b x i = true →
          ∃ tj : Nat, TimeMap_find m x = some (Flt.ofNat tj) ∧ tj + 1 ≤ s := by
        intro x hx hbx
        rcases List.mem_append.mp hx with hx | hx
        · exact hd x hx hbx
        · rw [List.mem_singleton] at hx
          subst hx
          rw [hb] at hbx
          cases hbx
      obtain ⟨s2, m2, r1, r2, r3, r4, r5, r6, r7, r8, r9⟩ := rec s m hjs2 hm hni h1 h2 hd2 ht
      refine ⟨s2, m2, r1, r2, r3, r4, r5, r6, r7, ?_, r9⟩
      intro x hx
      apply r8
      simpa using hx
    | true =>
      have hne : i ≠ j := by
        intro e
        subst e
        rw [before_b_irrefl] at hb
        cases hb
      have hrk := rank_lt o htr j i hj hi hb
      obtain ⟨t, m1, n1, n2, n3, n4, n5⟩ := ih m j hm hj hrk
      have hbt : o.is_before j i = .ok true := by
        unfold BinaryOrderings.before_b at hb
        exact of_decide_eq_true hb
      obtain ⟨_, t0, ht0, _, ht2⟩ := n2.keys j _ n3
      have ht3 : t0 = t := flt_ofNat_inj _ _ ht0.symm
      subst ht3
      have htb : t0 < 2 ^ 24 := by
        have := rank_le o i
        omega
      have hni1 : TimeMap_find m1 i = none := by
        by_contra hc
        rcases n5 i hc with h | h | h
        · exact h hni
        · exact hne h
        · have := htr i hi j hj i hi h hb
          rw [before_b_irrefl] at this
          cases this
      have hstep : schedule_loop o fadd i next (j :: js) (Flt.ofNat s) (m, m)
          = schedule_loop o fadd i next js (Flt.ofNat (if s < t0 + 1 then t0 + 1 else s))
              (m1, m1) := by
        rw [schedule_loop]
        simp only [ne_eq, hne, not_false_eq_true, if_true, hbt, n1, hadd t0 htb,
          flt_ofNat_lt]
        by_cases hlt : s < t0 + 1
        · simp [hlt]
        · simp [hlt]
      rw [hstep]
      have hs1 : 1 ≤ (if s < t0 + 1 then t0 + 1 else s) := by
        split <;> omega
      have hs2 : (if s < t0 + 1 then t0 + 1 else s) ≤ o.rank i + 1 := by
        split <;> omega
      have hd2 : ∀ x ∈ done ++ [j], o.before_b x i = true →
          ∃ tj : Nat, TimeMap_find m1 x = some (Flt.ofNat tj)
            ∧ tj + 1 ≤ (if s < t0 + 1 then t0 + 1 else s) := by
        intro x hx hbx
        rcases List.mem_append.mp hx with hx | hx
        · obtain ⟨tj, a1, a2⟩ := hd x hx hbx
          refine ⟨tj, n4 _ _ a1, ?_⟩
          split <;> omega
        · rw [List.mem_singleton] at hx
          subst hx
          refine ⟨t0, n3, ?_⟩
          split <;> omega
      have ht2 : (if s < t0 + 1 then t0 + 1 else s) = 1 ∨ ∃ x ∈ o.step_ids,
          o.before_b x i = true ∧ ∃ tj : Nat, TimeMap_find m1 x = some (Flt.ofNat tj)
            ∧ (if s < t0 + 1 then t0 + 1 else s) = tj + 1 := by
        by_cases hlt : s < t0 + 1
        · right
          exact ⟨j, hj, hb, t0, n3, by simp [hlt]⟩
        · simp only [hlt, if_false]
          rcases ht with h | ⟨x, hx, hbx, tj, a1, a2⟩
          · exact Or.inl h
          · exact Or.inr ⟨x, hx, hbx, tj, n4 _ _ a1, a2⟩
      obtain ⟨s2, m2, r1, r2, r3, r4, r5, r6, r7, r8, r9⟩ :=
        rec _ m1 hjs2 n2 hni1 hs1 hs2 hd2 ht2
      refine ⟨s2, m2, r1, r2, r3, fun k v h => r4 _ _ (n4 _ _ h), ?_, r6, r7, ?_, r9⟩
      · intro k hk
        rcases r5 k hk with h | h
        · rcases n5 k h with h | h | h
          · exact Or.inl h
          · subst h
            exact Or.inr hb
          · right
            have hk1 : k ∈ o.step_ids := by
              cases hf : TimeMap_find m1 k with
              | none => exact absurd hf ‹_›
              | some v => exact (n2.keys k v hf).1
            exact htr k hk1 j hj i hi h hb
        · exact Or.inr h
      · intro x hx
        apply r8
        simpa using hx
theorem sched_insert (o : BinaryOrderings) (m : List (Nat × Flt)) (i s : Nat)
    (hm : Sched o m) (hi : i ∈ o.step_ids) (hni : TimeMap_find m i = none)
    (h1 : 1 ≤ s) (h2 : s ≤ o.rank i + 1)
    (hp : ∀ j ∈ o.step_ids, o.before_b j i = true →
      ∃ tj : Nat, TimeMap_find m j = some (Flt.ofNat tj) ∧ tj + 1 ≤ s)
    (ht : s = 1 ∨ ∃ j ∈ o.step_ids, o.before_b j i = true
      ∧ ∃ tj : Nat, TimeMap_find m j = some (Flt.ofNat tj) ∧ s = tj + 1) :
    Sched o (TimeMap_insert m i (Flt.ofNat s))
    ∧ TimeMap_le m (TimeMap_insert m i (Flt.ofNat s)) := by
  have hle : TimeMap_le m (TimeMap_insert m i (Flt.ofNat s)) := by
    intro k v hk
    rw [find_insert m i _ hni]
    by_cases e : k = i
    · subst e
      rw [hni] at hk
      cases hk
    · simp [e, hk]
  refine ⟨⟨?_, ?_, ?_⟩, hle⟩
  · intro k v hk
    rw [find_insert m i _ hni] at hk
    by_cases e : k = i
    · subst e
      simp only [if_true, Option.some.injEq] at hk
      exact ⟨hi, s, hk.symm, h1, h2⟩
    · simp only [e, if_false] at hk
      exact hm.keys k v hk
  · intro k t hk j hj hb
    rw [find_insert m i _ hni] at hk
    by_cases e : k = i
    · subst e
      simp only [if_true, Option.some.injEq] at hk
      have := flt_ofNat_inj _ _ hk
      subst this
      obtain ⟨tj, a1, a2⟩ := hp j hj hb
      exact ⟨tj, hle _ _ a1, a2⟩
    · simp only [e, if_false] at hk
      obtain ⟨tj, a1, a2⟩ := hm.pred k t hk j hj hb
      exact ⟨tj, hle _ _ a1, a2⟩
  · intro k t hk
    rw [find_insert m i _ hni] at hk
    by_cases e : k = i
    · subst e
      simp only [if_true, Option.some.injEq] at hk
      have := flt_ofNat_inj _ _ hk
      subst this
      rcases ht with h | ⟨j, hj, hb, tj, a1, a2⟩
      · exact Or.inl h
      · exact Or.inr ⟨j, hj, hb, tj, hle _ _ a1, a2⟩
    · simp only [e, if_false] at hk
      rcases hm.tight k t hk with h | ⟨j, hj, hb, tj, a1, a2⟩
      · exact Or.inl h
      · exact Or.inr ⟨j, hj, hb, tj, hle _ _ a1, a2⟩

theorem schedule_step_spec (o : BinaryOrderings) (fadd : Flt → Flt → Flt)
    (hwf : o.WellFormed) (hsmall : o.before.length + 1 < 2 ^ 24)
    (hadd : ∀ k : Nat, k < 2 ^ 24 → fadd (.fin 1 0) (Flt.ofNat k) = Flt.ofNat (k + 1))
    (htr : o.Transitive) :
    ∀ (fuel : Nat) (m : List (Nat × Flt)) (i : Nat), Sched o m → i ∈ o.step_ids →
      o.rank i < fuel →
      ∃ (t : Nat) (m2 : List (Nat × Flt)),
        o.schedule_step fadd fuel (m, m) i = .value (Flt.ofNat t, m2, m2) ∧ Sched o m2
        ∧ TimeMap_find m2 i = some (Flt.ofNat t) ∧ TimeMap_le m m2
        ∧ (∀ k, TimeMap_find m2 k ≠ none →
            TimeMap_find m k ≠ none ∨ k = i ∨ o.before_b k i = true)
  | 0, _, _, _, _, h => absurd h (Nat.not_lt_zero _)
  | fuel + 1, m, i, hm, hi, hr => by
    rw [BinaryOrderings.schedule_step]
    cases hf : TimeMap_find m i with
    | some d =>
      obtain ⟨_, t, rfl, _, _⟩ := hm.keys i d hf
      exact ⟨t, m, rfl, hm, hf, fun _ _ h => h, fun k h => Or.inl h⟩
    | none =>
      have ih : ∀ (m : List (Nat × Flt)) (j : Nat), Sched o m → j ∈ o.step_ids →
          o.rank j < o.rank i →
          ∃ (t : Nat) (m2 : List (Nat × Flt)),
            o.schedule_step fadd fuel (m, m) j = .value (Flt.ofNat t, m2, m2) ∧ Sched o m2
            ∧ TimeMap_find m2 j = some (Flt.ofNat t) ∧ TimeMap_le m m2
            ∧ (∀ k, TimeMap_find m2 k ≠ none →
                TimeMap_find m k ≠ none ∨ k = j ∨ o.before_b k j = true) :=
        fun m j hm hj hlt =>
          schedule_step_spec o fadd hwf hsmall hadd htr fuel m j hm hj (by omega)
      obtain ⟨s2, m2, r1, r2, r3, r4, r5, r6, r7, r8, r9⟩ :=
        schedule_loop_spec o fadd hwf hsmall hadd htr i hi (o.schedule_step fadd fuel) ih
          o.step_ids [] 1 m (fun _ h => h) hm hf (le_refl 1) (by omega)
          (fun _ h => by cases h) (Or.inl rfl)
      have e1 : Flt.ofNat 1 = .fin 1 0 := rfl
      rw [e1] at r1
      simp only [r1]
      have hp : ∀ j ∈ o.step_ids, o.before_b j i = true →
          ∃ tj : Nat, TimeMap_find m2 j = some (Flt.ofNat tj) ∧ tj + 1 ≤ s2 := by
        intro j hj hb
        exact r8 j (by simpa using hj) hb
      obtain ⟨q1, q2⟩ := sched_insert o m2 i s2 r2 hi r3 r6 r7 hp r9
      refine ⟨s2, _, rfl, q1, ?_, fun k v h => q2 _ _ (r4 _ _ h), ?_⟩
      · rw [find_insert m2 i _ r3]
        simp
      · intro k hk
        rw [find_insert m2 i _ r3] at hk
        by_cases e : k = i
        · exact Or.inr (Or.inl e)
        · simp only [e, if_false] at hk
          rcases r5 k hk with h | h
          · exact Or.inl h
          · exact Or.inr (Or.inr h)
theorem schedule_all_spec (o : BinaryOrderings) (fadd : Flt → Flt → Flt)
    (hwf : o.WellFormed) (hsmall : o.before.length + 1 < 2 ^ 24)
    (hadd : ∀ k : Nat, k < 2 ^ 24 → fadd (.fin 1 0) (Flt.ofNat k) = Flt.ofNat (k + 1))
    (htr : o.Transitive) (fuel : Nat) (hfuel : o.before.length + 1 < fuel) :
    ∀ (is done : List Nat) (M : Nat) (m : List (Nat × Flt)),
      (∀ i ∈ is, i ∈ o.step_ids) → Sched o m →
      (∀ i ∈ done, ∃ t : Nat, TimeMap_find m i = some (Flt.ofNat t) ∧ t ≤ M) →
      (M = 0 ∨ ∃ i ∈ o.step_ids, TimeMap_find m i = some (Flt.ofNat M)) →
      ∃ (M2 : Nat) (m2 : List (Nat × Flt)),
        schedule_all o fadd fuel is (Flt.ofNat M) (m, m) = .value (Flt.ofNat M2, m2, m2)
        ∧ Sched o m2
        ∧ (∀ i ∈ done ++ is, ∃ t : Nat, TimeMap_find m2 i = some (Flt.ofNat t) ∧ t ≤ M2)
        ∧ (M2 = 0 ∨ ∃ i ∈ o.step_ids, TimeMap_find m2 i = some (Flt.ofNat M2))
  | [], done, M, m, _, hm, hd, hM => by
    refine ⟨M, m, rfl, hm, ?_, hM⟩
    intro i hi
    rw [List.append_nil] at hi
    exact hd i hi
  | i :: is, done, M, m, his, hm, hd, hM => by
    have hi : i ∈ o.step_ids := his i (List.mem_cons_self _ _)
    have hr : o.rank i < fuel := by
      have := rank_le o i
      omega
    obtain ⟨t, m1, n1, n2, n3, n4, _⟩ :=
      schedule_step_spec o fadd hwf hsmall hadd htr fuel m i hm hi hr
    have hstep : schedule_all o fadd fuel (i :: is) (Flt.ofNat M) (m, m)
        = schedule_all o fadd fuel is (Flt.ofNat (if M < t then t else M)) (m1, m1) := by
      rw [schedule_all]
      simp only [n1, flt_ofNat_lt]
      by_cases hlt : M < t
      · simp [hlt]
      · simp [hlt]
    rw [hstep]
    have hd2 : ∀ x ∈ done ++ [i], ∃ tx : Nat, TimeMap_find m1 x = some (Flt.ofNat tx)
        ∧ tx ≤ (if M < t then t else M) := by
      intro x hx
      rcases List.mem_append.mp hx with hx | hx
      · obtain ⟨tx, a1, a2⟩ := hd x hx
        refine ⟨tx, n4 _ _ a1, ?_⟩
        split <;> omega
      · rw [List.mem_singleton] at hx
        subst hx
        refine ⟨t, n3, ?_⟩
        split <;> omega
    have hM2 : (if M < t then t else M) = 0 ∨ ∃ x ∈ o.step_ids,
        TimeMap_find m1 x = some (Flt.ofNat (if M < t then t else M)) := by
      by_cases hlt : M < t
      · right
        exact ⟨i, hi, by simpa [hlt] using n3⟩
      · simp only [hlt, if_false]
        rcases hM with h | ⟨x, hx, a1⟩
        · exact Or.inl h
        · exact Or.inr ⟨x, hx, n4 _ _ a1⟩
    obtain ⟨M2, m2, r1, r2, r3, r4⟩ :=
      schedule_all_spec o fadd hwf hsmall hadd htr fuel hfuel is (done ++ [i]) _ m1
        (fun x hx => his x (List.mem_cons_of_mem _ hx)) n2 hd2 hM2
    refine ⟨M2, m2, r1, r2, ?_, r4⟩
    intro x hx
    apply r3
    simpa using hx

/-- C33: for every well-formed binary ordering collection with fewer than 2^24 steps whose
before-relation is transitive (it is irreflexive by `is_before`), with float addition exact
on the integers below 2^24 and enough fuel, `schedule(start_times, end_times)` on empty maps
returns; the two maps it fills are equal, every step `i` has an integer time `t` in them
that is at least one more than the time of every step ordered before `i`, and is 1 or
exactly one more than the time of some step ordered before `i`; the value returned is the
largest time assigned. -/
theorem schedule_levels (o : BinaryOrderings) (fadd : Flt → Flt → Flt) (fuel : Nat)
    (hwf : o.WellFormed) (hsmall : o.before.length + 1 < 2 ^ 24)
    (hadd : ∀ k : Nat, k < 2 ^ 24 → fadd (.fin 1 0) (Flt.ofNat k) = Flt.ofNat (k + 1))
    (htr : o.Transitive) (hfuel : o.before.length + 1 < fuel) :
    ∃ (M : Nat) (times : List (Nat × Flt)),
      o.schedule fadd fuel [] [] = .value (Flt.ofNat M, times, times)
      ∧ (∀ i ∈ o.step_ids, ∃ t : Nat,
          TimeMap_find times i = some (Flt.ofNat t) ∧ 1 ≤ t ∧ t ≤ M
          ∧ (∀ j ∈ o.step_ids, o.before_b j i = true →
              ∃ tj : Nat, TimeMap_find times j = some (Flt.ofNat tj) ∧ tj + 1 ≤ t)
          ∧ (t = 1 ∨ ∃ j ∈ o.step_ids, o.before_b j i = true
              ∧ ∃ tj : Nat, TimeMap_find times j = some (Flt.ofNat tj) ∧ t = tj + 1))
      ∧ (∃ i ∈ o.step_ids, TimeMap_find times i = some (Flt.ofNat M)) := by
  obtain ⟨M, m, r1, r2, r3, r4⟩ :=
    schedule_all_spec o fadd hwf hsmall hadd htr fuel hfuel o.step_ids [] 0 []
      (fun _ h => h) (sched_nil o) (fun _ h => by cases h) (Or.inl rfl)
  have hall : ∀ i ∈ o.step_ids, ∃ t : Nat,
      TimeMap_find m i = some (Flt.ofNat t) ∧ 1 ≤ t ∧ t ≤ M
      ∧ (∀ j ∈ o.step_ids, o.before_b j i = true →
          ∃ tj : Nat, TimeMap_find m j = some (Flt.ofNat tj) ∧ tj + 1 ≤ t)
      ∧ (t = 1 ∨ ∃ j ∈ o.step_ids, o.before_b j i = true
          ∧ ∃ tj : Nat, TimeMap_find m j = some (Flt.ofNat tj) ∧ t = tj + 1) := by
    intro i hi
    obtain ⟨t, a1, a2⟩ := r3 i (by simpa using hi)
    obtain ⟨_, t2, b1, b2, _⟩ := r2.keys i _ a1
    have e := flt_ofNat_inj _ _ b1
    subst e
    exact ⟨t, a1, b2, a2, r2.pred i t a1, r2.tight i t a1⟩
  refine ⟨M, m, r1, hall, ?_⟩
  rcases r4 with h | h
  · have h1 : 1 ∈ o.step_ids := by
      rw [step_ids_mem]
      omega
    obtain ⟨t, _, c1, c2, _⟩ := hall 1 h1
    omega
  · exact h

theorem chain3_wf : Ex.chain3.WellFormed := by
  intro r row h
  match r, h with
  | 0, h =>
    simp [Ex.chain3] at h
    subst h
    rfl
  | 1, h =>
    simp [Ex.chain3] at h
    subst h
    rfl
  | r + 2, h => simp [Ex.chain3] at h

theorem chain3_transitive : Ex.chain3.Transitive := by
  unfold BinaryOrderings.Transitive
  decide

theorem ex_fadd_one (k : Nat) (_h : k < 2 ^ 24) :
    Ex.fadd (.fin 1 0) (Flt.ofNat k) = Flt.ofNat (k + 1) := by
  show Flt.fin (1 + (k : Int)) 0 = Flt.fin ((k + 1 : Nat) : Int) 0
  congr 1
  push_cast
  ring

/-- C33 at the three steps ordered 1, 2, 3. -/
theorem schedule_levels_witness :
    ∃ (M : Nat) (times : List (Nat × Flt)),
      Ex.chain3.schedule Ex.fadd 4 [] [] = .value (Flt.ofNat M, times, times)
      ∧ (∀ i ∈ Ex.chain3.step_ids, ∃ t : Nat,
          TimeMap_find times i = some (Flt.ofNat t) ∧ 1 ≤ t ∧ t ≤ M
          ∧ (∀ j ∈ Ex.chain3.step_ids, Ex.chain3.before_b j i = true →
              ∃ tj : Nat, TimeMap_find times j = some (Flt.ofNat tj) ∧ tj + 1 ≤ t)
          ∧ (t = 1 ∨ ∃ j ∈ Ex.chain3.step_ids, Ex.chain3.before_b j i = true
              ∧ ∃ tj : Nat, TimeMap_find times j = some (Flt.ofNat tj) ∧ t = tj + 1))
      ∧ (∃ i ∈ Ex.chain3.step_ids, TimeMap_find times i = some (Flt.ofNat M)) :=
  schedule_levels Ex.chain3 Ex.fadd 4 chain3_wf (by decide) ex_fadd_one
    chain3_transitive (by decide)

theorem flt_nonneg_not_lt (x : Flt) (h : x.nonneg = true) : x.lt (.fin 0 0) = false := by
  cases x <;> simp_all [Flt.nonneg, Flt.lt]

theorem flt_le_refl (x : Flt) (h : x.nonneg = true) : x.le x = true := by
  cases x <;> simp_all [Flt.nonneg, Flt.le, Flt.lt, Flt.eq]

theorem flt_le_trans (a b c : Flt) (ha : a.nonneg = true) (hb : b.nonneg = true)
    (hc : c.nonneg = true) (h1 : a.le b = true) (h2 : b.le c = true) : a.le c = true := by
  cases a <;> cases b <;> cases c <;>
    simp_all [Flt.nonneg, Flt.le, Flt.lt, Flt.eq]
  rename_i m1 e1 m2 e2 m3 e3
  have k1 : (m1 : ℚ) / 2 ^ e1 ≤ (m2 : ℚ) / 2 ^ e2 := by
    rcases h1 with h | h
    · exact le_of_lt ((flt_fin_lt m1 e1 m2 e2).mp (by simpa [Flt.lt] using h))
    · exact le_of_eq ((flt_fin_eq m1 e1 m2 e2).mp (by simpa [Flt.eq] using h))
  have k2 : (m2 : ℚ) / 2 ^ e2 ≤ (m3 : ℚ) / 2 ^ e3 := by
    rcases h2 with h | h
    · exact le_of_lt ((flt_fin_lt m2 e2 m3 e3).mp (by simpa [Flt.lt] using h))
    · exact le_of_eq ((flt_fin_eq m2 e2 m3 e3).mp (by simpa [Flt.eq] using h))
  rcases lt_or_eq_of_le (le_trans k1 k2) with h | h
  · left; have := (flt_fin_lt m1 e1 m3 e3).mpr h; simpa [Flt.lt] using this
  · right; have := (flt_fin_eq m1 e1 m3 e3).mpr h; simpa [Flt.eq] using this

theorem flt_min_threshold (thr ms : Flt) (hthr : thr.nonneg = true) (h : thr.le ms = true) :
    (Flt.min ms thr).eq thr = true := by
  unfold Flt.min
  cases hlt : thr.lt ms
  · simp only [Bool.false_eq_true, if_false]
    cases thr <;> cases ms <;> simp_all [Flt.nonneg, Flt.le, Flt.lt, Flt.eq]
    omega
  · simp only [if_true]
    cases thr <;> simp_all [Flt.nonneg, Flt.eq]

theorem good_zero (thr : Flt) (hthr : thr.nonneg = true) : (HeuristicValue.ZERO thr).Good := by
  refine ⟨by simp [HeuristicValue.ZERO, Flt.lt], by simp [HeuristicValue.ZERO],
    by simp [HeuristicValue.ZERO, INT_MAX], hthr⟩

theorem good_zero_cost_unit_work (thr : Flt) (hthr : thr.nonneg = true) :
    (HeuristicValue.ZERO_COST_UNIT_WORK thr).Good := by
  refine ⟨by simp [HeuristicValue.ZERO_COST_UNIT_WORK, Flt.lt],
    by simp [HeuristicValue.ZERO_COST_UNIT_WORK],
    by simp [HeuristicValue.ZERO_COST_UNIT_WORK, INT_MAX], hthr⟩

theorem good_infinite : HeuristicValue.INFINITE.Good := by
  refine ⟨by simp [HeuristicValue.INFINITE, Flt.lt], by simp [HeuristicValue.INFINITE, INT_MAX],
    by simp [HeuristicValue.INFINITE], by simp [HeuristicValue.INFINITE, Flt.nonneg]⟩

theorem good_add (fadd : Flt → Flt → Flt)
    (haddc : ∀ x y, x.lt (.fin 0 0) = false → y.lt (.fin 0 0) = false →
      (fadd x y).lt (.fin 0 0) = false)
    (h v r : HeuristicValue) (hh : h.Good) (hv : v.Good)
    (hr : h.op_add_assign fadd v = some r) :
    r.Good ∧ (h.makespan.le r.makespan = true) := by
  obtain ⟨h1, h2, h3, h4⟩ := hh
  obtain ⟨v1, v2, v3, v4⟩ := hv
  unfold HeuristicValue.op_add_assign at hr
  rw [sum_eq _ _ h2 h3 v2 v3] at hr
  simp only [Option.some.injEq] at hr
  subst hr
  refine ⟨⟨haddc _ _ h1 v1, ?_, ?_, ?_⟩, ?_⟩
  · show 0 ≤ min (h.add_work + v.add_work) INT_MAX
    unfold INT_MAX at *; omega
  · show min (h.add_work + v.add_work) INT_MAX ≤ INT_MAX
    unfold INT_MAX at *; omega
  · show (if h.makespan.lt v.makespan then v.makespan else h.makespan).nonneg = true
    split <;> assumption
  · show h.makespan.le (if h.makespan.lt v.makespan then v.makespan else h.makespan) = true
    split
    · rename_i hlt; simp [Flt.le, hlt]
    · exact flt_le_refl _ h4

theorem good_increment (h r : HeuristicValue) (hh : h.Good) (hr : h.increment_work = some r) :
    r.Good ∧ 1 ≤ r.add_work ∧ r.add_cost = h.add_cost ∧ r.makespan = h.makespan := by
  obtain ⟨h1, h2, h3, h4⟩ := hh
  unfold HeuristicValue.increment_work at hr
  rw [sum_eq _ _ h2 h3 (by decide) (by decide)] at hr
  simp only [Option.some.injEq] at hr
  subst hr
  refine ⟨⟨h1, ?_, ?_, h4⟩, ?_, rfl, rfl⟩
  · show 0 ≤ min (h.add_work + 1) INT_MAX
    unfold INT_MAX at *; omega
  · show min (h.add_work + 1) INT_MAX ≤ INT_MAX
    unfold INT_MAX at *; omega
  · show 1 ≤ min (h.add_work + 1) INT_MAX
    unfold INT_MAX at *; omega

theorem flt_min_nonneg (a b : Flt) (ha : a.nonneg = true) (hb : b.nonneg = true) :
    (Flt.min a b).nonneg = true := by
  unfold Flt.min; split <;> assumption

theorem good_min (v1 v2 : HeuristicValue) (h1 : v1.Good) (h2 : v2.Good) :
    (HeuristicValue.min v1 v2).Good := by
  obtain ⟨a1, a2, a3, a4⟩ := h1
  obtain ⟨b1, b2, b3, b4⟩ := h2
  unfold HeuristicValue.min
  refine ⟨?_, ?_, ?_, flt_min_nonneg _ _ a4 b4⟩
  · dsimp only; split
    · exact a1
    · split
      · exact a1
      · exact b1
  · dsimp only; split
    · dsimp only; split <;> assumption
    · split <;> assumption
  · dsimp only; split
    · dsimp only; split <;> assumption
    · split <;> assumption

theorem min_initial (thr : Flt) (nv : HeuristicValue) (w : Int) (hw : w ≤ 1)
    (gw : 1 ≤ nv.add_work) (hc : nv.add_cost.lt (.fin 0 0) = false)
    (hm : (Flt.min nv.makespan thr).eq thr = true) :
    (HeuristicValue.min nv ⟨.fin 0 0, w, thr⟩).ne ⟨.fin 0 0, w, thr⟩ = false := by
  have h0 : (Flt.fin 0 0).eq (.fin 0 0) = true := by simp [Flt.eq]
  cases he : nv.add_cost.eq (.fin 0 0)
  · simp only [HeuristicValue.min, HeuristicValue.ne, he, hc, hm, h0, Bool.false_eq_true,
      if_false, Bool.not_true, Bool.false_or, Bool.or_false, ne_eq, not_true_eq_false,
      decide_False]
  · simp only [HeuristicValue.min, HeuristicValue.ne, he, hm, if_true, Bool.not_true,
      Bool.false_or, Bool.or_false, ne_eq, decide_eq_false_iff_not, not_not]
    split <;> omega

/-- The value written for an initial atom at level 0 is not replaced. -/
theorem achieved_earlier_initial (thr : Flt) (hthr : thr.nonneg = true)
    (cond_value old_value : HeuristicValue) (new_values : List (Atom × HeuristicValue))
    (atom : Atom) (changed : Bool) (r : List (Atom × HeuristicValue) × Bool)
    (hold : old_value = HeuristicValue.ZERO thr
      ∨ old_value = HeuristicValue.ZERO_COST_UNIT_WORK thr)
    (hg : cond_value.Good) (hms : thr.le cond_value.makespan = true)
    (hr : achieved_earlier cond_value old_value new_values atom changed = .value r) :
    r = (new_values, changed) := by
  unfold achieved_earlier at hr
  cases hi : cond_value.increment_work with
  | none => rw [hi] at hr; simp at hr
  | some nv =>
    rw [hi] at hr
    obtain ⟨⟨g1, g2, g3, g4⟩, gw, gc, gm⟩ := good_increment _ _ hg hi
    have hm : (Flt.min nv.makespan thr).eq thr = true :=
      flt_min_threshold thr nv.makespan hthr (by rw [gm]; exact hms)
    have hne : (HeuristicValue.min nv old_value).ne old_value = false := by
      rcases hold with ho | ho <;> subst ho
      · exact min_initial thr nv 0 (by decide) gw g1 hm
      · exact min_initial thr nv 1 (by decide) gw g1 hm
    dsimp only at hr
    rw [hne] at hr
    simp at hr
    exact hr.symm

theorem avm_find_addr (m : List (Atom × HeuristicValue)) (a b : Atom) (h : a.addr = b.addr) :
    AtomValueMap_find m a = AtomValueMap_find m b := by
  unfold AtomValueMap_find; rw [h]

theorem avm_find_cons (x : Atom × HeuristicValue) (m : List (Atom × HeuristicValue))
    (a : Atom) :
    AtomValueMap_find (x :: m) a
      = if x.1.addr = a.addr then some x.2 else AtomValueMap_find m a := by
  unfold AtomValueMap_find
  rw [List.find?_cons]
  by_cases h : x.1.addr = a.addr
  · have hb : (x.1.addr == a.addr) = true := by simp [h]
    rw [hb, if_pos h]
  · have hb : (x.1.addr == a.addr) = false := by simp [h]
    rw [hb, if_neg h]

theorem avm_find_none (m : List (Atom × HeuristicValue)) (a : Atom) :
    AtomValueMap_find m a = none ↔ ∀ x ∈ m, x.1.addr ≠ a.addr := by
  induction m with
  | nil => simp [AtomValueMap_find]
  | cons x m ih =>
    rw [avm_find_cons]
    by_cases h : x.1.addr = a.addr
    · simp [h]
    · simp [h, ih]

theorem avm_find_mem (m : List (Atom × HeuristicValue)) (a : Atom) (v : HeuristicValue)
    (h : AtomValueMap_find m a = some v) : ∃ x ∈ m, x.1.addr = a.addr ∧ x.2 = v := by
  induction m with
  | nil => simp [AtomValueMap_find] at h
  | cons x m ih =>
    rw [avm_find_cons] at h
    by_cases hx : x.1.addr = a.addr
    · rw [if_pos hx] at h
      exact ⟨x, List.mem_cons_self _ _, hx, Option.some.inj h⟩
    · rw [if_neg hx] at h
      obtain ⟨y, hy, h1, h2⟩ := ih h
      exact ⟨y, List.mem_cons_of_mem _ hy, h1, h2⟩

theorem avm_find_append (m l : List (Atom × HeuristicValue)) (a : Atom) :
    AtomValueMap_find (m ++ l) a
      = match AtomValueMap_find m a with
        | some v => some v
        | none => AtomValueMap_find l a := by
  induction m with
  | nil => simp [AtomValueMap_find]
  | cons x m ih =>
    rw [List.cons_append, avm_find_cons, avm_find_cons]
    by_cases hx : x.1.addr = a.addr
    · simp [hx]
    · simp [hx, ih]

theorem avm_insert_keep (m : List (Atom × HeuristicValue)) (a b : Atom) (v w : HeuristicValue)
    (h : AtomValueMap_find m a = some v) :
    AtomValueMap_find (AtomValueMap_insert m b w) a = some v := by
  unfold AtomValueMap_insert
  cases hb : AtomValueMap_find m b with
  | some _ => exact h
  | none => show AtomValueMap_find (m ++ _) a = _; rw [avm_find_append, h]

theorem avm_insert_other (m : List (Atom × HeuristicValue)) (a b : Atom) (w : HeuristicValue)
    (h : b.addr ≠ a.addr) :
    AtomValueMap_find (AtomValueMap_insert m b w) a = AtomValueMap_find m a := by
  unfold AtomValueMap_insert
  cases hb : AtomValueMap_find m b with
  | some _ => rfl
  | none =>
    show AtomValueMap_find (m ++ _) a = _
    rw [avm_find_append]
    cases AtomValueMap_find m a with
    | some _ => rfl
    | none => show AtomValueMap_find [(b, w)] a = none; rw [avm_find_cons, if_neg h]; rfl

theorem avm_insert_some (m : List (Atom × HeuristicValue)) (b : Atom) (w : HeuristicValue) :
    ∃ v, AtomValueMap_find (AtomValueMap_insert m b w) b = some v := by
  unfold AtomValueMap_insert
  cases hb : AtomValueMap_find m b with
  | some v => exact ⟨v, hb⟩
  | none =>
    refine ⟨w, ?_⟩
    show AtomValueMap_find (m ++ _) b = _
    rw [avm_find_append, hb]
    show AtomValueMap_find [(b, w)] b = _
    rw [avm_find_cons, if_pos rfl]

theorem avm_insert_mem (m : List (Atom × HeuristicValue)) (b : Atom) (w : HeuristicValue)
    (x : Atom × HeuristicValue) (h : x ∈ AtomValueMap_insert m b w) : x ∈ m ∨ x = (b, w) := by
  unfold AtomValueMap_insert at h
  cases hb : AtomValueMap_find m b with
  | some v => rw [hb] at h; exact Or.inl h
  | none =>
    rw [hb] at h
    rcases List.mem_append.mp h with h1 | h1
    · exact Or.inl h1
    · exact Or.inr (List.mem_singleton.mp h1)

theorem avm_map_other (m : List (Atom × HeuristicValue)) (a b : Atom) (w : HeuristicValue)
    (h : b.addr ≠ a.addr) :
    AtomValueMap_find (m.map (fun e => if e.1.addr == b.addr then (e.1, w) else e)) a
      = AtomValueMap_find m a := by
  induction m with
  | nil => rfl
  | cons x m ih =>
    rw [List.map_cons, avm_find_cons, avm_find_cons, ih]
    by_cases hx : x.1.addr = b.addr
    · have h1 : ¬ x.1.addr = a.addr := by rw [hx]; exact h
      simp [hx, h1, h]
    · simp [hx]

theorem avm_set_other (m : List (Atom × HeuristicValue)) (a b : Atom) (w : HeuristicValue)
    (h : b.addr ≠ a.addr) :
    AtomValueMap_find (AtomValueMap_set m b w) a = AtomValueMap_find m a := by
  unfold AtomValueMap_set
  cases hb : AtomValueMap_find m b with
  | some _ => exact avm_map_other m a b w h
  | none =>
    show AtomValueMap_find (m ++ _) a = _
    rw [avm_find_append]
    cases AtomValueMap_find m a with
    | some _ => rfl
    | none => show AtomValueMap_find [(b, w)] a = none; rw [avm_find_cons, if_neg h]; rfl

theorem avm_set_mem (m : List (Atom × HeuristicValue)) (b : Atom) (w : HeuristicValue)
    (x : Atom × HeuristicValue) (h : x ∈ AtomValueMap_set m b w) : x ∈ m ∨ x.2 = w := by
  unfold AtomValueMap_set at h
  cases hb : AtomValueMap_find m b with
  | some v =>
    rw [hb] at h
    obtain ⟨y, hy, hxy⟩ := List.mem_map.mp h
    by_cases hc : (y.1.addr == b.addr) = true
    · rw [if_pos hc] at hxy; right; rw [← hxy]
    · rw [if_neg hc] at hxy; left; rw [← hxy]; exact hy
  | none =>
    rw [hb] at h
    rcases List.mem_append.mp h with h1 | h1
    · exact Or.inl h1
    · right; rw [List.mem_singleton.mp h1]

theorem merge_other (new_values : List (Atom × HeuristicValue)) :
    ∀ (values : List (Atom × HeuristicValue)) (a : Atom),
      (∀ x ∈ new_values, x.1.addr ≠ a.addr) →
      AtomValueMap_find (merge_values values new_values) a = AtomValueMap_find values a := by
  induction new_values with
  | nil => intro values a _; rfl
  | cons x rest ih =>
    intro values a h
    show AtomValueMap_find (merge_values (AtomValueMap_set values x.1 x.2) rest) a = _
    rw [ih _ a (fun y hy => h y (List.mem_cons_of_mem _ hy)),
      avm_set_other _ _ _ _ (h x (List.mem_cons_self _ _))]

theorem merge_good (new_values : List (Atom × HeuristicValue)) :
    ∀ (values : List (Atom × HeuristicValue)), AllGood values → AllGood new_values →
      AllGood (merge_values values new_values) := by
  induction new_values with
  | nil => intro values h _; exact h
  | cons x rest ih =>
    intro values h hn
    show AllGood (merge_values (AtomValueMap_set values x.1 x.2) rest)
    refine ih _ ?_ (fun y hy => hn y (List.mem_cons_of_mem _ hy))
    intro y hy
    rcases avm_set_mem _ _ _ _ hy with h1 | h1
    · exact h y h1
    · rw [h1]; exact hn x (List.mem_cons_self _ _)

theorem avm_find_good (m : List (Atom × HeuristicValue)) (a : Atom) (v : HeuristicValue)
    (hm : AllGood m) (h : AtomValueMap_find m a = some v) : v.Good := by
  obtain ⟨x, hx, _, h2⟩ := avm_find_mem m a v h
  rw [← h2]; exact hm x hx

theorem avm_insert_good (m : List (Atom × HeuristicValue)) (b : Atom) (w : HeuristicValue)
    (hm : AllGood m) (hw : w.Good) : AllGood (AtomValueMap_insert m b w) := by
  intro x hx
  rcases avm_insert_mem _ _ _ _ hx with h | h
  · exact hm x h
  · rw [h]; exact hw

theorem avm_set_good (m : List (Atom × HeuristicValue)) (b : Atom) (w : HeuristicValue)
    (hm : AllGood m) (hw : w.Good) : AllGood (AtomValueMap_set m b w) := by
  intro x hx
  rcases avm_set_mem _ _ _ _ hx with h | h
  · exact hm x h
  · rw [h]; exact hw

theorem conjunction_value_good (fadd : Flt → Flt → Flt)
    (haddc : ∀ x y, x.lt (.fin 0 0) = false → y.lt (.fin 0 0) = false →
      (fadd x y).lt (.fin 0 0) = false)
    (eval : Formula → Outcome (HeuristicValue × HeuristicValue))
    (heval : ∀ f r, eval f = .value r → r.1.Good ∧ r.2.Good) :
    ∀ (fs : List Formula) (h hs : HeuristicValue) (r : HeuristicValue × HeuristicValue),
      h.Good → hs.Good → conjunction_value fadd eval fs h hs = .value r →
      r.1.Good ∧ r.2.Good := by
  intro fs
  induction fs with
  | nil =>
    intro h hs r gh ghs hr
    simp only [conjunction_value, Outcome.value.injEq] at hr
    subst hr; exact ⟨gh, ghs⟩
  | cons f fs ih =>
    intro h hs r gh ghs hr
    unfold conjunction_value at hr
    split at hr
    · simp only [Outcome.value.injEq] at hr
      subst hr; exact ⟨gh, ghs⟩
    · cases he : eval f with
      | diverged => rw [he] at hr; simp at hr
      | fault e => rw [he] at hr; simp at hr
      | null => rw [he] at hr; simp at hr
      | value p =>
        obtain ⟨hi, hsi⟩ := p
        rw [he] at hr
        obtain ⟨g1, g2⟩ := heval f _ he
        dsimp only at hr
        cases h1 : h.op_add_assign fadd hi with
        | none => rw [h1] at hr; simp at hr
        | some h1v =>
          rw [h1] at hr
          dsimp only at hr
          cases h2 : hs.op_add_assign fadd hsi with
          | none => rw [h2] at hr; simp at hr
          | some h2v =>
            rw [h2] at hr
            dsimp only at hr
            exact ih _ _ r (good_add fadd haddc _ _ _ gh g1 h1).1
              (good_add fadd haddc _ _ _ ghs g2 h2).1 hr

theorem disjunction_value_good (eval : Formula → Outcome (HeuristicValue × HeuristicValue))
    (heval : ∀ f r, eval f = .value r → r.1.Good ∧ r.2.Good) :
    ∀ (fs : List Formula) (h hs : HeuristicValue) (r : HeuristicValue × HeuristicValue),
      h.Good → hs.Good → disjunction_value eval fs h hs = .value r →
      r.1.Good ∧ r.2.Good := by
  intro fs
  induction fs with
  | nil =>
    intro h hs r gh ghs hr
    simp only [disjunction_value, Outcome.value.injEq] at hr
    subst hr; exact ⟨gh, ghs⟩
  | cons f fs ih =>
    intro h hs r gh ghs hr
    unfold disjunction_value at hr
    split at hr
    · simp only [Outcome.value.injEq] at hr
      subst hr; exact ⟨gh, ghs⟩
    · cases he : eval f with
      | diverged => rw [he] at hr; simp at hr
      | fault e => rw [he] at hr; simp at hr
      | null => rw [he] at hr; simp at hr
      | value p =>
        obtain ⟨hi, hsi⟩ := p
        rw [he] at hr
        obtain ⟨g1, g2⟩ := heval f _ he
        dsimp only at hr
        exact ih _ _ r (good_min _ _ gh g1) (good_min _ _ ghs g2) hr

theorem atom_value_good (pg : PlanningGraph) (a : Atom) (hav : AllGood pg.atom_values) :
    (pg.atom_value a).Good := by
  unfold PlanningGraph.atom_value
  cases h : AtomValueMap_find pg.atom_values a with
  | some v => exact avm_find_good _ _ _ hav h
  | none => exact good_infinite

theorem negation_value_good (tb : Tables) (fuel : Nat) (thr : Flt) (hthr : thr.nonneg = true)
    (pg : PlanningGraph) (a : Atom) (hnv : AllGood pg.negation_values) (v : HeuristicValue)
    (h : pg.heuristic_value_negation tb fuel thr a 0 none = .value v) : v.Good := by
  unfold PlanningGraph.heuristic_value_negation at h
  dsimp only at h
  cases h1 : AtomValueMap_find pg.negation_values a with
  | some w =>
    rw [h1] at h
    simp only [Outcome.value.injEq] at h
    subst h; exact avm_find_good _ _ _ hnv h1
  | none =>
    rw [h1] at h
    dsimp only at h
    cases h2 : AtomValueMap_find pg.atom_values a with
    | none =>
      rw [h2] at h
      simp only [Outcome.value.injEq] at h
      subst h; exact good_zero_cost_unit_work thr hthr
    | some w =>
      rw [h2] at h
      dsimp only at h
      split at h
      · simp only [Outcome.value.injEq] at h
        subst h; exact good_zero_cost_unit_work thr hthr
      · simp only [Outcome.value.injEq] at h
        subst h; exact good_infinite

theorem literal_value_good (fadd : Flt → Flt → Flt) (thr : Flt) (hthr : thr.nonneg = true)
    (universal_base : Formula → Formula) (tb : Tables) (pg : PlanningGraph)
    (hav : AllGood pg.atom_values) (hnv : AllGood pg.negation_values) (fuel : Nat) (l : Lit)
    (r : HeuristicValue × HeuristicValue)
    (h : Formula.get_heuristic_value fadd thr universal_base tb pg (fuel + 1) (.literal l)
      = .value r) : r.1.Good ∧ r.2.Good := by
  cases l with
  | atom a =>
    simp only [Formula.get_heuristic_value, PlanningGraph.heuristic_value,
      Outcome.value.injEq] at h
    subst h
    exact ⟨atom_value_good pg a hav, atom_value_good pg a hav⟩
  | neg ad i a =>
    simp only [Formula.get_heuristic_value] at h
    cases hn : pg.heuristic_value_negation tb fuel thr a 0 none with
    | diverged => rw [hn] at h; simp at h
    | fault e => rw [hn] at h; simp at h
    | null => rw [hn] at h; simp at h
    | value v =>
      rw [hn] at h
      simp only [Outcome.value.injEq] at h
      subst h
      have g := negation_value_good tb fuel thr hthr pg a hnv v hn
      exact ⟨g, g⟩

theorem get_heuristic_value_good (fadd : Flt → Flt → Flt)
    (haddc : ∀ x y, x.lt (.fin 0 0) = false → y.lt (.fin 0 0) = false →
      (fadd x y).lt (.fin 0 0) = false)
    (thr : Flt) (hthr : thr.nonneg = true)
    (universal_base : Formula → Formula) (tb : Tables) (pg : PlanningGraph)
    (hav : AllGood pg.atom_values) (hnv : AllGood pg.negation_values) :
    ∀ (fuel : Nat) (f : Formula) (r : HeuristicValue × HeuristicValue),
      Formula.get_heuristic_value fadd thr universal_base tb pg fuel f = .value r →
      r.1.Good ∧ r.2.Good := by
  intro fuel
  induction fuel with
  | zero => intro f r h; simp [Formula.get_heuristic_value] at h
  | succ fuel ih =>
    intro f r h
    have gz := good_zero thr hthr
    cases f with
    | constant b =>
      simp only [Formula.get_heuristic_value, Outcome.value.injEq] at h
      subst h; exact ⟨gz, gz⟩
    | literal l => exact literal_value_good fadd thr hthr universal_base tb pg hav hnv fuel l r h
    | equality a v i t j =>
      simp only [Formula.get_heuristic_value, Outcome.value.injEq] at h
      subst h; exact ⟨gz, gz⟩
    | inequality a v i t j =>
      simp only [Formula.get_heuristic_value, Outcome.value.injEq] at h
      subst h; exact ⟨gz, gz⟩
    | conjunction a cs =>
      simp only [Formula.get_heuristic_value] at h
      exact conjunction_value_good fadd haddc _ ih cs _ _ r gz gz h
    | disjunction a ds =>
      simp only [Formula.get_heuristic_value] at h
      exact disjunction_value_good _ ih ds _ _ r good_infinite good_infinite h
    | exists_ a ps body =>
      simp only [Formula.get_heuristic_value] at h
      exact ih _ r h
    | forall_ a ps body =>
      simp only [Formula.get_heuristic_value] at h
      exact ih _ r h
    | timed_literal a l w =>
      simp only [Formula.get_heuristic_value] at h
      cases hl : Formula.get_heuristic_value fadd thr universal_base tb pg fuel (.literal l) with
      | diverged => rw [hl] at h; simp at h
      | fault e => rw [hl] at h; simp at h
      | null => rw [hl] at h; simp at h
      | value lit =>
        rw [hl] at h
        simp only [Outcome.value.injEq] at h
        obtain ⟨g1, g2⟩ := ih _ _ hl
        subst h
        unfold TimedLiteral.get_heuristic_value
        split
        · exact ⟨g1, gz⟩
        · exact ⟨g1, g2⟩

theorem duration_factor_find_good (m : List (Nat × Flt)) (l : Lit) (f : Flt)
    (hm : DurationFactorsGood m) (h : DurationFactor_find m l = some f) : f.nonneg = true := by
  unfold DurationFactor_find at h
  cases hf : m.find? (fun e => e.1 == l.addr) with
  | none => rw [hf] at h; simp at h
  | some e =>
    rw [hf] at h
    simp only [Option.some.injEq] at h
    rw [← h]; exact hm e (List.mem_of_find?_eq_some hf)

theorem duration_factor_set_good (m : List (Nat × Flt)) (l : Lit) (d : Flt)
    (hm : DurationFactorsGood m) (hd : d.nonneg = true) :
    DurationFactorsGood (DurationFactor_set m l d) := by
  intro e he
  unfold DurationFactor_set at he
  obtain ⟨y, hy, hxy⟩ := List.mem_map.mp he
  by_cases hc : (y.1 == l.addr) = true
  · rw [if_pos hc] at hxy; rw [← hxy]; exact hd
  · rw [if_neg hc] at hxy; rw [← hxy]; exact hm y hy

theorem duration_factor_effects_good (d : Flt) (hd : d.nonneg = true) (es : List Effect) :
    ∀ m, DurationFactorsGood m → DurationFactorsGood (duration_factor_effects d es m) := by
  induction es with
  | nil => intro m hm; exact hm
  | cons e es ih =>
    intro m hm
    unfold duration_factor_effects
    cases hf : DurationFactor_find m e.literal with
    | none =>
      dsimp only
      apply ih
      intro x hx
      rcases List.mem_append.mp hx with h | h
      · exact hm x h
      · rw [List.mem_singleton.mp h]; exact hd
    | some d2 =>
      dsimp only
      split
      · exact ih _ (duration_factor_set_good m e.literal d hm hd)
      · exact ih _ hm

theorem flt_max_nonneg (a b : Flt) (ha : a.nonneg = true) (hb : b.nonneg = true) :
    (Flt.max a b).nonneg = true := by
  unfold Flt.max; split <;> assumption

theorem duration_factor_actions_good (thr : Flt) (hthr : thr.nonneg = true)
    (actions : List GroundAction) :
    ∀ m r, (∀ a ∈ actions, ∀ d, a.min_duration = some d → d.nonneg = true) →
      DurationFactorsGood m → duration_factor_actions thr actions m = .ok r →
      DurationFactorsGood r := by
  induction actions with
  | nil =>
    intro m r _ hm h
    simp only [duration_factor_actions, Except.ok.injEq] at h
    subst h; exact hm
  | cons a rest ih =>
    intro m r hdur hm h
    unfold duration_factor_actions at h
    cases hd : a.min_duration with
    | none => rw [hd] at h; simp at h
    | some min_v =>
      rw [hd] at h
      dsimp only at h
      refine ih _ r (fun b hb => hdur b (List.mem_cons_of_mem _ hb)) ?_ h
      exact duration_factor_effects_good _
        (flt_max_nonneg _ _ hthr (hdur a (List.mem_cons_self _ _) _ hd)) _ m hm

theorem duration_factor_timed_good (timed : List (Flt × Action)) :
    ∀ m, (∀ ta ∈ timed, ta.1.nonneg = true) → DurationFactorsGood m →
      DurationFactorsGood (duration_factor_timed timed m) := by
  induction timed with
  | nil => intro m _ hm; exact hm
  | cons ta rest ih =>
    intro m ht hm
    obtain ⟨d, action⟩ := ta
    unfold duration_factor_timed
    refine ih _ (fun b hb => ht b (List.mem_cons_of_mem _ hb)) ?_
    exact duration_factor_effects_good d (ht (d, action) (List.mem_cons_self _ _)) _ m hm

theorem duration_factors_good (thr : Flt) (hthr : thr.nonneg = true)
    (action_cost : ActionCost) (actions : List GroundAction) (timed : List (Flt × Action))
    (hdur : ∀ a ∈ actions, ∀ d, a.min_duration = some d → d.nonneg = true)
    (htime : ∀ ta ∈ timed, ta.1.nonneg = true) (r : List (Nat × Flt))
    (h : duration_factors thr action_cost actions timed = .ok r) : DurationFactorsGood r := by
  unfold duration_factors at h
  split at h
  · cases ha : duration_factor_actions thr actions [] with
    | error e => rw [ha] at h; simp at h
    | ok m =>
      rw [ha] at h
      simp only [Except.ok.injEq] at h
      subst h
      refine duration_factor_timed_good timed m htime ?_
      exact duration_factor_actions_good thr hthr actions [] m hdur
        (fun e he => absurd he (List.not_mem_nil e)) ha
  · simp only [Except.ok.injEq] at h
    subst h
    exact fun e he => absurd he (List.not_mem_nil e)

theorem effect_cost_good (fdiv : Flt → Flt → Flt)
    (hdiv : ∀ x y, x.nonneg = true → y.nonneg = true → (fdiv x y).lt (.fin 0 0) = false)
    (df : List (Nat × Flt)) (hdf : DurationFactorsGood df) (l : Lit) (d0 : Flt)
    (hd : d0.nonneg = true) : (effect_cost fdiv df l d0).lt (.fin 0 0) = false := by
  unfold effect_cost
  cases hf : DurationFactor_find df l with
  | none => exact flt_nonneg_not_lt d0 hd
  | some f => exact hdiv d0 f hd (duration_factor_find_good df l f hdf hf)

theorem initial_value_good (is_static : Int → Bool) (thr : Flt) (hthr : thr.nonneg = true)
    (a : Atom) : (initial_value is_static thr a).Good := by
  unfold initial_value
  split
  · exact good_zero thr hthr
  · exact good_zero_cost_unit_work thr hthr

theorem initial_values_spec (is_static : Int → Bool) (thr : Flt) (es : List Effect) :
    ∀ m r, initial_values is_static thr es m = .ok r →
      (∀ x ∈ r, x ∈ m ∨ ∃ e ∈ es, e.literal = .atom x.1 ∧ x.2 = initial_value is_static thr x.1)
      ∧ (∀ e ∈ es, ∃ atom, e.literal = .atom atom ∧ ∃ v, AtomValueMap_find r atom = some v)
      ∧ (∀ a v, AtomValueMap_find m a = some v → AtomValueMap_find r a = some v) := by
  induction es with
  | nil =>
    intro m r h
    simp only [initial_values, Except.ok.injEq] at h
    subst h
    exact ⟨fun x hx => Or.inl hx, fun e he => absurd he (List.not_mem_nil e),
      fun a v h => h⟩
  | cons e es ih =>
    intro m r h
    unfold initial_values at h
    cases hl : e.literal with
    | neg ad i a => rw [hl] at h; simp at h
    | atom atom =>
      rw [hl] at h
      dsimp only at h
      obtain ⟨h1, h2, h3⟩ := ih _ r h
      refine ⟨?_, ?_, ?_⟩
      · intro x hx
        rcases h1 x hx with k | ⟨e2, he2, k1, k2⟩
        · rcases avm_insert_mem _ _ _ _ k with k3 | k3
          · exact Or.inl k3
          · right
            refine ⟨e, List.mem_cons_self _ _, ?_, ?_⟩
            · rw [k3]; exact hl
            · rw [k3]; rfl
        · exact Or.inr ⟨e2, List.mem_cons_of_mem _ he2, k1, k2⟩
      · intro e2 he2
        rcases List.mem_cons.mp he2 with k | k
        · subst k
          obtain ⟨v, hv⟩ := avm_insert_some m atom
            (if is_static atom.predicate then HeuristicValue.ZERO thr
             else HeuristicValue.ZERO_COST_UNIT_WORK thr)
          exact ⟨atom, hl, v, h3 _ _ hv⟩
        · exact h2 e2 k
      · intro a v hv
        exact h3 a v (avm_insert_keep m a atom v _ hv)

theorem initial_values_inv (is_static : Int → Bool) (thr : Flt) (hthr : thr.nonneg = true)
    (init : List Effect)
    (hheap : ∀ e1 ∈ init, ∀ e2 ∈ init, e1.literal.addr = e2.literal.addr →
      e1.literal = e2.literal)
    (r : List (Atom × HeuristicValue)) (h : initial_values is_static thr init [] = .ok r) :
    GraphInv is_static thr init ⟨r, [], [], []⟩ := by
  obtain ⟨h1, h2, _⟩ := initial_values_spec is_static thr init [] r h
  have key : ∀ x ∈ r, ∃ e ∈ init, e.literal = .atom x.1
      ∧ x.2 = initial_value is_static thr x.1 := by
    intro x hx
    rcases h1 x hx with k | k
    · exact absurd k (List.not_mem_nil x)
    · exact k
  refine ⟨?_, fun e he => absurd he (List.not_mem_nil e), ?_⟩
  · intro x hx
    obtain ⟨_, _, _, k⟩ := key x hx
    rw [k]; exact initial_value_good is_static thr hthr _
  · intro e he
    obtain ⟨atom, ha, v, hv⟩ := h2 e he
    refine ⟨atom, ha, ?_⟩
    show AtomValueMap_find r atom = _
    obtain ⟨x, hx, hx1, hx2⟩ := avm_find_mem r atom v hv
    obtain ⟨e2, he2, k1, k2⟩ := key x hx
    have hadr : e2.literal.addr = e.literal.addr := by rw [k1, ha]; exact hx1
    have hsame := hheap e2 he2 e he hadr
    rw [k1, ha] at hsame
    have hx3 : x.1 = atom := Lit.atom.inj hsame
    rw [hv, ← hx2, k2, hx3]

theorem timed_effects_inv (fdiv : Flt → Flt → Flt)
    (hdiv : ∀ x y, x.nonneg = true → y.nonneg = true → (fdiv x y).lt (.fin 0 0) = false)
    (action_cost : ActionCost) (df : List (Nat × Flt)) (hdf : DurationFactorsGood df)
    (is_static : Int → Bool) (thr : Flt) (init : List Effect) (time : Flt)
    (htime : time.nonneg = true) (es : List Effect) :
    ∀ pg, GraphInv is_static thr init pg →
      GraphInv is_static thr init (timed_effects fdiv action_cost df time es pg) := by
  induction es with
  | nil => intro pg h; exact h
  | cons e es ih =>
    intro pg h
    obtain ⟨h1, h2, h3⟩ := h
    have hd0 : (if action_cost = .UNIT_COST then Flt.fin 1 0 else time).nonneg = true := by
      split
      · rfl
      · exact htime
    have hg : ∀ l : Lit, (HeuristicValue.mk (effect_cost fdiv df l
        (if action_cost = .UNIT_COST then Flt.fin 1 0 else time)) 1 time).Good :=
      fun l => ⟨effect_cost_good fdiv hdiv df hdf l _ hd0, by show (0 : Int) ≤ 1; decide,
        by show (1 : Int) ≤ INT_MAX; decide, htime⟩
    unfold timed_effects
    dsimp only
    cases hl : e.literal with
    | atom atom =>
      dsimp only
      cases hf : AtomValueMap_find pg.atom_values atom with
      | some v => exact ih pg ⟨h1, h2, h3⟩
      | none =>
        dsimp only
        apply ih
        refine ⟨avm_insert_good _ _ _ h1 (hg _), h2, ?_⟩
        intro e2 he2
        obtain ⟨a2, k1, k2⟩ := h3 e2 he2
        exact ⟨a2, k1, avm_insert_keep _ _ _ _ _ k2⟩
    | neg ad i atom =>
      dsimp only
      split
      · apply ih
        exact ⟨h1, avm_insert_good _ _ _ h2 (hg _), h3⟩
      · exact ih pg ⟨h1, h2, h3⟩

theorem timed_values_inv (fdiv : Flt → Flt → Flt)
    (hdiv : ∀ x y, x.nonneg = true → y.nonneg = true → (fdiv x y).lt (.fin 0 0) = false)
    (action_cost : ActionCost) (df : List (Nat × Flt)) (hdf : DurationFactorsGood df)
    (is_static : Int → Bool) (thr : Flt) (init : List Effect) (timed : List (Flt × Action)) :
    ∀ pg, (∀ ta ∈ timed, ta.1.nonneg = true) → GraphInv is_static thr init pg →
      GraphInv is_static thr init (timed_values fdiv action_cost df timed pg) := by
  induction timed with
  | nil => intro pg _ h; exact h
  | cons ta rest ih =>
    intro pg ht h
    obtain ⟨time, action⟩ := ta
    unfold timed_values
    refine ih _ (fun b hb => ht b (List.mem_cons_of_mem _ hb)) ?_
    exact timed_effects_inv fdiv hdiv action_cost df hdf is_static thr init time
      (ht (time, action) (List.mem_cons_self _ _)) _ pg h

theorem first_achieved_spec (cond_value : HeuristicValue)
    (new_values : List (Atom × HeuristicValue)) (atom : Atom)
    (r : List (Atom × HeuristicValue) × Bool) (hg : cond_value.Good) (hn : AllGood new_values)
    (h : first_achieved cond_value new_values atom = .value r) :
    AllGood r.1 ∧ ∀ a : Atom, atom.addr ≠ a.addr →
      AtomValueMap_find r.1 a = AtomValueMap_find new_values a := by
  unfold first_achieved at h
  cases hi : cond_value.increment_work with
  | none => rw [hi] at h; simp at h
  | some nv =>
    rw [hi] at h
    simp only [Outcome.value.injEq] at h
    subst h
    exact ⟨avm_insert_good _ _ _ hn (good_increment _ _ hg hi).1,
      fun a ha => avm_insert_other _ _ _ _ ha⟩

theorem achieved_earlier_spec (cond_value old_value : HeuristicValue)
    (new_values : List (Atom × HeuristicValue)) (atom : Atom) (changed : Bool)
    (r : List (Atom × HeuristicValue) × Bool) (hg : cond_value.Good) (ho : old_value.Good)
    (hn : AllGood new_values)
    (h : achieved_earlier cond_value old_value new_values atom changed = .value r) :
    AllGood r.1 ∧ ∀ a : Atom, atom.addr ≠ a.addr →
      AtomValueMap_find r.1 a = AtomValueMap_find new_values a := by
  unfold achieved_earlier at h
  cases hi : cond_value.increment_work with
  | none => rw [hi] at h; simp at h
  | some nv =>
    rw [hi] at h
    dsimp only at h
    split at h
    · simp only [Outcome.value.injEq] at h
      subst h
      exact ⟨avm_set_good _ _ _ hn (good_min _ _ (good_increment _ _ hg hi).1 ho),
        fun a ha => avm_set_other _ _ _ _ ha⟩
    · simp only [Outcome.value.injEq] at h
      subst h
      exact ⟨hn, fun a _ => rfl⟩

theorem update_literal_inv (is_static : Int → Bool) (thr : Flt) (hthr : thr.nonneg = true)
    (init : List Effect) (pg : PlanningGraph) (hpg : GraphInv is_static thr init pg)
    (literal : Lit) (cond_value : HeuristicValue) (hg : cond_value.Good)
    (hms : thr.le cond_value.makespan = true) (st st1 : LevelState) (hst : LevelInv init st)
    (h : update_literal pg literal cond_value st = .value st1) : LevelInv init st1 := by
  obtain ⟨p1, p2, p3⟩ := hpg
  obtain ⟨s1, s2, s3⟩ := hst
  unfold update_literal at h
  cases literal with
  | atom b =>
    dsimp only at h
    by_cases hinit : ∃ e ∈ init, ∃ a, e.literal = .atom a ∧ a.addr = b.addr
    · obtain ⟨e, he, a, ha, hab⟩ := hinit
      obtain ⟨a2, k1, k2⟩ := p3 e he
      rw [ha] at k1
      have ha2 : a = a2 := Lit.atom.inj k1
      subst ha2
      have hnew : AtomValueMap_find st.new_atom_values b = none := by
        rw [← avm_find_addr _ a b hab]; exact s3 e he a ha
      have hold : AtomValueMap_find pg.atom_values b = some (initial_value is_static thr a) := by
        rw [← avm_find_addr _ a b hab]; exact k2
      rw [hnew, hold] at h
      dsimp only at h
      cases hr : achieved_earlier cond_value (initial_value is_static thr a) st.new_atom_values b
          st.changed with
      | diverged => rw [hr] at h; simp at h
      | fault e => rw [hr] at h; simp at h
      | null => rw [hr] at h; simp at h
      | value r =>
        rw [hr] at h
        have hiv : initial_value is_static thr a = HeuristicValue.ZERO thr
            ∨ initial_value is_static thr a = HeuristicValue.ZERO_COST_UNIT_WORK thr := by
          unfold initial_value
          split
          · exact Or.inl rfl
          · exact Or.inr rfl
        have hreq := achieved_earlier_initial thr hthr cond_value _ _ b _ r hiv hg hms hr
        subst hreq
        simp only [Outcome.value.injEq] at h
        subst h
        exact ⟨s1, s2, s3⟩
    · have hother : ∀ e ∈ init, ∀ a, e.literal = .atom a → b.addr ≠ a.addr := by
        intro e he a ha hba
        exact hinit ⟨e, he, a, ha, hba.symm⟩
      have fin : ∀ r : List (Atom × HeuristicValue) × Bool,
          (AllGood r.1 ∧ ∀ a : Atom, b.addr ≠ a.addr →
            AtomValueMap_find r.1 a = AtomValueMap_find st.new_atom_values a) →
          LevelInv init { st with new_atom_values := r.1, changed := r.2 } := by
        intro r hr
        refine ⟨hr.1, s2, ?_⟩
        intro e he a ha
        show AtomValueMap_find r.1 a = none
        rw [hr.2 a (hother e he a ha)]
        exact s3 e he a ha
      cases hn : AtomValueMap_find st.new_atom_values b with
      | some old =>
        rw [hn] at h
        dsimp only at h
        cases hr : achieved_earlier cond_value old st.new_atom_values b st.changed with
        | diverged => rw [hr] at h; simp at h
        | fault e => rw [hr] at h; simp at h
        | null => rw [hr] at h; simp at h
        | value r =>
          rw [hr] at h
          simp only [Outcome.value.injEq] at h
          subst h
          exact fin r (achieved_earlier_spec _ _ _ _ _ r hg (avm_find_good _ _ _ s1 hn) s1 hr)
      | none =>
        rw [hn] at h
        dsimp only at h
        cases ho : AtomValueMap_find pg.atom_values b with
        | none =>
          rw [ho] at h
          dsimp only at h
          cases hr : first_achieved cond_value st.new_atom_values b with
          | diverged => rw [hr] at h; simp at h
          | fault e => rw [hr] at h; simp at h
          | null => rw [hr] at h; simp at h
          | value r =>
            rw [hr] at h
            simp only [Outcome.value.injEq] at h
            subst h
            exact fin r (first_achieved_spec _ _ _ r hg s1 hr)
        | some old =>
          rw [ho] at h
          dsimp only at h
          cases hr : achieved_earlier cond_value old st.new_atom_values b st.changed with
          | diverged => rw [hr] at h; simp at h
          | fault e => rw [hr] at h; simp at h
          | null => rw [hr] at h; simp at h
          | value r =>
            rw [hr] at h
            simp only [Outcome.value.injEq] at h
            subst h
            exact fin r (achieved_earlier_spec _ _ _ _ _ r hg (avm_find_good _ _ _ p1 ho) s1 hr)
  | neg ad i b =>
    dsimp only at h
    have fin : ∀ r : List (Atom × HeuristicValue) × Bool, AllGood r.1 →
        LevelInv init { st with new_negation_values := r.1, changed := r.2 } :=
      fun r hr => ⟨s1, hr, s3⟩
    cases hn : AtomValueMap_find st.new_negation_values b with
    | some old =>
      rw [hn] at h
      dsimp only at h
      cases hr : achieved_earlier cond_value old st.new_negation_values b st.changed with
      | diverged => rw [hr] at h; simp at h
      | fault e => rw [hr] at h; simp at h
      | null => rw [hr] at h; simp at h
      | value r =>
        rw [hr] at h
        simp only [Outcome.value.injEq] at h
        subst h
        exact fin r (achieved_earlier_spec _ _ _ _ _ r hg (avm_find_good _ _ _ s2 hn) s2 hr).1
    | none =>
      rw [hn] at h
      dsimp only at h
      cases ho : AtomValueMap_find pg.negation_values b with
      | none =>
        rw [ho] at h
        dsimp only at h
        by_cases hz : (pg.atom_value b).is_zero = true
        · rw [if_pos hz] at h
          cases hr : first_achieved cond_value st.new_negation_values b with
          | diverged => rw [hr] at h; simp at h
          | fault e => rw [hr] at h; simp at h
          | null => rw [hr] at h; simp at h
          | value r =>
            rw [hr] at h
            simp only [Outcome.value.injEq] at h
            subst h
            exact fin r (first_achieved_spec _ _ _ r hg s2 hr).1
        · rw [if_neg hz] at h
          simp only [Outcome.value.injEq] at h
          subst h
          exact ⟨s1, s2, s3⟩
      | some old =>
        rw [ho] at h
        dsimp only at h
        cases hr : achieved_earlier cond_value old st.new_negation_values b st.changed with
        | diverged => rw [hr] at h; simp at h
        | fault e => rw [hr] at h; simp at h
        | null => rw [hr] at h; simp at h
        | value r =>
          rw [hr] at h
          simp only [Outcome.value.injEq] at h
          subst h
          exact fin r (achieved_earlier_spec _ _ _ _ _ r hg (avm_find_good _ _ _ p2 ho) s2 hr).1

theorem level_effect_inv (fadd fdiv : Flt → Flt → Flt)
    (hadd : ∀ x y, x.nonneg = true → y.nonneg = true →
      (fadd x y).nonneg = true ∧ x.le (fadd x y) = true ∧ y.le (fadd x y) = true)
    (haddc : ∀ x y, x.lt (.fin 0 0) = false → y.lt (.fin 0 0) = false →
      (fadd x y).lt (.fin 0 0) = false)
    (hdiv : ∀ x y, x.nonneg = true → y.nonneg = true → (fdiv x y).lt (.fin 0 0) = false)
    (thr : Flt) (hthr : thr.nonneg = true) (action_cost : ActionCost)
    (df : List (Nat × Flt)) (hdf : DurationFactorsGood df)
    (eval : Formula → Outcome (HeuristicValue × HeuristicValue))
    (heval : ∀ f r, eval f = .value r → r.1.Good ∧ r.2.Good)
    (is_static : Int → Bool) (init : List Effect) (pg : PlanningGraph)
    (hpg : GraphInv is_static thr init pg) (action : GroundAction)
    (hdur : ∀ d, action.min_duration = some d → d.nonneg = true)
    (pre_value start_value : HeuristicValue) (hpre : pre_value.Good)
    (hstart : start_value.Good) (effect : Effect) (st st1 : LevelState)
    (hst : LevelInv init st)
    (h : level_effect fadd fdiv thr action_cost df eval pg action pre_value start_value effect
      st = .value st1) : LevelInv init st1 := by
  unfold level_effect at h
  split at h
  · simp only [Outcome.value.injEq] at h
    subst h; exact hst
  · cases he : eval effect.condition with
    | diverged => rw [he] at h; simp at h
    | fault e => rw [he] at h; simp at h
    | null => rw [he] at h; simp at h
    | value p =>
      obtain ⟨cv0, cvs⟩ := p
      rw [he] at h
      dsimp only at h
      obtain ⟨g0, _⟩ := heval _ _ he
      split at h
      · have gother : (if effect.when = .AT_START then start_value else pre_value).Good := by
          split
          · exact hstart
          · exact hpre
        cases h1 : cv0.op_add_assign fadd
            (if effect.when = .AT_START then start_value else pre_value) with
        | none => rw [h1] at h; simp at h
        | some cv1 =>
          rw [h1] at h
          dsimp only at h
          obtain ⟨g1, _⟩ := good_add fadd haddc _ _ _ g0 gother h1
          cases hd : action.min_duration with
          | none => rw [hd] at h; simp at h
          | some min_v =>
            rw [hd] at h
            dsimp only at h
            have hmin := hdur min_v hd
            obtain ⟨x1, x2, _⟩ := hadd thr min_v hthr hmin
            obtain ⟨c1, c2, c3, c4⟩ := g1
            obtain ⟨y1, _, y3⟩ := hadd cv1.makespan (fadd thr min_v) c4 x1
            have hd0 : (if action_cost = .UNIT_COST then Flt.fin 1 0
                else fadd thr min_v).nonneg = true := by
              split
              · rfl
              · exact x1
            refine update_literal_inv is_static thr hthr init pg hpg effect.literal _ ?_ ?_
              st st1 hst h
            · exact ⟨haddc _ _ c1 (effect_cost_good fdiv hdiv df hdf _ _ hd0), c2, c3, y1⟩
            · exact flt_le_trans _ _ _ hthr x1 y1 x2 y3
      · simp only [Outcome.value.injEq] at h
        subst h; exact hst

theorem level_effects_inv (fadd fdiv : Flt → Flt → Flt)
    (hadd : ∀ x y, x.nonneg = true → y.nonneg = true →
      (fadd x y).nonneg = true ∧ x.le (fadd x y) = true ∧ y.le (fadd x y) = true)
    (haddc : ∀ x y, x.lt (.fin 0 0) = false → y.lt (.fin 0 0) = false →
      (fadd x y).lt (.fin 0 0) = false)
    (hdiv : ∀ x y, x.nonneg = true → y.nonneg = true → (fdiv x y).lt (.fin 0 0) = false)
    (thr : Flt) (hthr : thr.nonneg = true) (action_cost : ActionCost)
    (df : List (Nat × Flt)) (hdf : DurationFactorsGood df)
    (eval : Formula → Outcome (HeuristicValue × HeuristicValue))
    (heval : ∀ f r, eval f = .value r → r.1.Good ∧ r.2.Good)
    (is_static : Int → Bool) (init : List Effect) (pg : PlanningGraph)
    (hpg : GraphInv is_static thr init pg) (action : GroundAction)
    (hdur : ∀ d, action.min_duration = some d → d.nonneg = true)
    (pre_value start_value : HeuristicValue) (hpre : pre_value.Good)
    (hstart : start_value.Good) (effects : List Effect) :
    ∀ (st st1 : LevelState), LevelInv init st →
      level_effects fadd fdiv thr action_cost df eval pg action pre_value start_value effects
        st = .value st1 → LevelInv init st1 := by
  induction effects with
  | nil =>
    intro st st1 hst h
    simp only [level_effects, Outcome.value.injEq] at h
    subst h; exact hst
  | cons effect rest ih =>
    intro st st1 hst h
    unfold level_effects at h
    cases he : level_effect fadd fdiv thr action_cost df eval pg action pre_value start_value
        effect st with
    | diverged => rw [he] at h; simp at h
    | fault e => rw [he] at h; simp at h
    | null => rw [he] at h; simp at h
    | value st2 =>
      rw [he] at h
      dsimp only at h
      exact ih st2 st1 (level_effect_inv fadd fdiv hadd haddc hdiv thr hthr action_cost df hdf
        eval heval is_static init pg hpg action hdur pre_value start_value hpre hstart effect
        st st2 hst he) h

theorem level_actions_inv (fadd fdiv : Flt → Flt → Flt)
    (hadd : ∀ x y, x.nonneg = true → y.nonneg = true →
      (fadd x y).nonneg = true ∧ x.le (fadd x y) = true ∧ y.le (fadd x y) = true)
    (haddc : ∀ x y, x.lt (.fin 0 0) = false → y.lt (.fin 0 0) = false →
      (fadd x y).lt (.fin 0 0) = false)
    (hdiv : ∀ x y, x.nonneg = true → y.nonneg = true → (fdiv x y).lt (.fin 0 0) = false)
    (thr : Flt) (hthr : thr.nonneg = true) (action_cost : ActionCost)
    (df : List (Nat × Flt)) (hdf : DurationFactorsGood df)
    (eval : Formula → Outcome (HeuristicValue × HeuristicValue))
    (heval : ∀ f r, eval f = .value r → r.1.Good ∧ r.2.Good)
    (is_static : Int → Bool) (init : List Effect) (pg : PlanningGraph)
    (hpg : GraphInv is_static thr init pg) (actions : List GroundAction) :
    ∀ (st st1 : LevelState),
      (∀ a ∈ actions, ∀ d, a.min_duration = some d → d.nonneg = true) → LevelInv init st →
      level_actions fadd fdiv thr action_cost df eval pg actions st = .value st1 →
      LevelInv init st1 := by
  induction actions with
  | nil =>
    intro st st1 _ hst h
    simp only [level_actions, Outcome.value.injEq] at h
    subst h; exact hst
  | cons action rest ih =>
    intro st st1 hdur hst h
    have hdur2 : ∀ a ∈ rest, ∀ d, a.min_duration = some d → d.nonneg = true :=
      fun a ha => hdur a (List.mem_cons_of_mem _ ha)
    unfold level_actions at h
    cases he : eval action.action.condition with
    | diverged => rw [he] at h; simp at h
    | fault e => rw [he] at h; simp at h
    | null => rw [he] at h; simp at h
    | value p =>
      obtain ⟨pre_value, start_value⟩ := p
      rw [he] at h
      dsimp only at h
      obtain ⟨gp, gs⟩ := heval _ _ he
      split at h
      · cases hl : level_effects fadd fdiv thr action_cost df eval pg action pre_value
            start_value action.action.effects st with
        | diverged => rw [hl] at h; simp at h
        | fault e => rw [hl] at h; simp at h
        | null => rw [hl] at h; simp at h
        | value st2 =>
          rw [hl] at h
          dsimp only at h
          exact ih st2 st1 hdur2 (level_effects_inv fadd fdiv hadd haddc hdiv thr hthr
            action_cost df hdf eval heval is_static init pg hpg action
            (hdur action (List.mem_cons_self _ _)) pre_value start_value gp gs _ st st2 hst hl) h
      · exact ih st st1 hdur2 hst h

theorem level_loop_inv (fadd fdiv : Flt → Flt → Flt)
    (hadd : ∀ x y, x.nonneg = true → y.nonneg = true →
      (fadd x y).nonneg = true ∧ x.le (fadd x y) = true ∧ y.le (fadd x y) = true)
    (haddc : ∀ x y, x.lt (.fin 0 0) = false → y.lt (.fin 0 0) = false →
      (fadd x y).lt (.fin 0 0) = false)
    (hdiv : ∀ x y, x.nonneg = true → y.nonneg = true → (fdiv x y).lt (.fin 0 0) = false)
    (thr : Flt) (hthr : thr.nonneg = true) (action_cost : ActionCost)
    (df : List (Nat × Flt)) (hdf : DurationFactorsGood df)
    (universal_base : Formula → Formula) (tb : Tables) (fuel_f : Nat)
    (is_static : Int → Bool) (init : List Effect) (actions : List GroundAction)
    (hdur : ∀ a ∈ actions, ∀ d, a.min_duration = some d → d.nonneg = true) :
    ∀ (fuel : Nat) (pg pg1 : PlanningGraph), GraphInv is_static thr init pg →
      level_loop fadd fdiv thr action_cost df universal_base tb fuel_f actions fuel pg
        = .value pg1 → GraphInv is_static thr init pg1 := by
  intro fuel
  induction fuel with
  | zero => intro pg pg1 _ h; simp [level_loop] at h
  | succ fuel ih =>
    intro pg pg1 hpg h
    unfold level_loop at h
    cases hl : level_actions fadd fdiv thr action_cost df
        (Formula.get_heuristic_value fadd thr universal_base tb pg fuel_f) pg actions
        ⟨[], [], false⟩ with
    | diverged => rw [hl] at h; simp at h
    | fault e => rw [hl] at h; simp at h
    | null => rw [hl] at h; simp at h
    | value st =>
      rw [hl] at h
      dsimp only at h
      have hst0 : LevelInv init ⟨[], [], false⟩ :=
        ⟨fun e he => absurd he (List.not_mem_nil e), fun e he => absurd he (List.not_mem_nil e),
          fun _ _ _ _ => rfl⟩
      obtain ⟨s1, s2, s3⟩ := level_actions_inv fadd fdiv hadd haddc hdiv thr hthr action_cost
        df hdf _ (get_heuristic_value_good fadd haddc thr hthr universal_base tb pg hpg.1
          hpg.2.1 fuel_f) is_static init pg hpg actions _ st hdur hst0 hl
      have hnext : GraphInv is_static thr init
          { pg with
            atom_values := merge_values pg.atom_values st.new_atom_values
            negation_values := merge_values pg.negation_values st.new_negation_values } := by
        obtain ⟨p1, p2, p3⟩ := hpg
        refine ⟨merge_good _ _ p1 s1, merge_good _ _ p2 s2, ?_⟩
        intro e he
        obtain ⟨a, k1, k2⟩ := p3 e he
        refine ⟨a, k1, ?_⟩
        show AtomValueMap_find (merge_values pg.atom_values st.new_atom_values) a = _
        rw [merge_other _ _ a ((avm_find_none _ a).mp (s3 e he a k1))]
        exact k2
      split at h
      · exact ih _ pg1 hnext h
      · simp only [Outcome.value.injEq] at h
        subst h; exact hnext

/-- C28: if `PlanningGraph::PlanningGraph` returns a planning graph, then for every effect of
the action of the initial conditions the literal is an atom and
`heuristic_value(atom, 0)` without bindings is `ZERO` if the predicate of the atom is static
and `ZERO_COST_UNIT_WORK` if it is dynamic, whatever the later levels added. The threshold,
the minimum durations of the ground actions and the times of the timed initial literals are
floats that are not negative; the sum of two floats that are not negative is not negative
and not less than either, the sum of two floats neither of which is less than zero is not
less than zero, and neither is the quotient of two floats that are not negative; two
initial effects whose literals have one address have one literal. -/
theorem initial_atom_value_kept (fadd fdiv : Flt → Flt → Flt) (threshold : Flt)
    (is_static : Int → Bool) (universal_base : Formula → Formula) (tb : Tables)
    (fuel_f fuel fuel_h : Nat) (problem : Problem) (actions : List GroundAction)
    (action_cost : ActionCost) (pg : PlanningGraph) (e : Effect)
    (hthr : threshold.nonneg = true)
    (hadd : ∀ x y, x.nonneg = true → y.nonneg = true →
      (fadd x y).nonneg = true ∧ x.le (fadd x y) = true ∧ y.le (fadd x y) = true)
    (haddc : ∀ x y, x.lt (.fin 0 0) = false → y.lt (.fin 0 0) = false →
      (fadd x y).lt (.fin 0 0) = false)
    (hdiv : ∀ x y, x.nonneg = true → y.nonneg = true → (fdiv x y).lt (.fin 0 0) = false)
    (hdur : ∀ a ∈ actions, ∀ d, a.min_duration = some d → d.nonneg = true)
    (htime : ∀ ta ∈ problem.timed_actions, ta.1.nonneg = true)
    (hheap : ∀ e1 ∈ problem.init_action.effects, ∀ e2 ∈ problem.init_action.effects,
      e1.literal.addr = e2.literal.addr → e1.literal = e2.literal)
    (hmake : PlanningGraph.make fadd fdiv threshold is_static universal_base tb fuel_f fuel
      problem actions action_cost = .value pg)
    (he : e ∈ problem.init_action.effects) :
    ∃ atom, e.literal = .atom atom
      ∧ pg.heuristic_value tb fuel_h atom 0 none
        = .value (if is_static atom.predicate then HeuristicValue.ZERO threshold
                  else HeuristicValue.ZERO_COST_UNIT_WORK threshold) := by
  unfold PlanningGraph.make at hmake
  cases hd : duration_factors threshold action_cost actions problem.timed_actions with
  | error x => rw [hd] at hmake; simp at hmake
  | ok df =>
    rw [hd] at hmake
    dsimp only at hmake
    have hdf := duration_factors_good threshold hthr action_cost actions problem.timed_actions
      hdur htime df hd
    cases hi : initial_values is_static threshold problem.init_action.effects [] with
    | error x => rw [hi] at hmake; simp at hmake
    | ok av =>
      rw [hi] at hmake
      dsimp only at hmake
      have h0 := initial_values_inv is_static threshold hthr _ hheap av hi
      have h1 := timed_values_inv fdiv hdiv action_cost df hdf is_static threshold
        problem.init_action.effects problem.timed_actions _ htime h0
      cases hl : level_loop fadd fdiv threshold action_cost df universal_base tb fuel_f
          actions fuel (timed_values fdiv action_cost df problem.timed_actions
            ⟨av, [], [], []⟩) with
      | diverged => rw [hl] at hmake; simp at hmake
      | fault x => rw [hl] at hmake; simp at hmake
      | null => rw [hl] at hmake; simp at hmake
      | value pg1 =>
        rw [hl] at hmake
        simp only [Outcome.value.injEq] at hmake
        obtain ⟨_, _, h3⟩ := level_loop_inv fadd fdiv hadd haddc hdiv threshold hthr
          action_cost df hdf universal_base tb fuel_f is_static problem.init_action.effects
          actions hdur fuel _ pg1 h1 hl
        obtain ⟨atom, k1, k2⟩ := h3 e he
        refine ⟨atom, k1, ?_⟩
        subst hmake
        show Outcome.value (PlanningGraph.atom_value _ atom) = _
        unfold PlanningGraph.atom_value
        dsimp only
        rw [k2]
        rfl

theorem ex_fadd_exact_nonneg (x y : Flt) (hx : x.nonneg = true) (hy : y.nonneg = true) :
    (Ex.fadd_exact x y).nonneg = true ∧ x.le (Ex.fadd_exact x y) = true
      ∧ y.le (Ex.fadd_exact x y) = true := by
  cases x <;> cases y <;> simp [Flt.nonneg] at hx hy <;>
    try (simp [Ex.fadd_exact, Flt.nonneg, Flt.le, Flt.lt, Flt.eq]; done)
  rename_i a ea b eb
  have hP : (0 : Int) < 2 ^ ea := by positivity
  have hQ : (0 : Int) < 2 ^ eb := by positivity
  have h1 : 0 ≤ a * 2 ^ eb + b * 2 ^ ea := by positivity
  have e1 : (2 : Int) ^ (ea + eb) = 2 ^ ea * 2 ^ eb := pow_add 2 ea eb
  have h2 : a * 2 ^ (ea + eb) ≤ (a * 2 ^ eb + b * 2 ^ ea) * 2 ^ ea := by
    rw [e1]
    have : 0 ≤ b * 2 ^ ea * 2 ^ ea := by positivity
    nlinarith
  have h3 : b * 2 ^ (ea + eb) ≤ (a * 2 ^ eb + b * 2 ^ ea) * 2 ^ eb := by
    rw [e1]
    have : 0 ≤ a * 2 ^ eb * 2 ^ eb := by positivity
    nlinarith
  refine ⟨?_, ?_, ?_⟩
  · simpa [Ex.fadd_exact, Flt.nonneg] using h1
  · simp only [Ex.fadd_exact, Flt.le, Flt.lt, Flt.eq, Bool.or_eq_true, decide_eq_true_eq]
    exact lt_or_eq_of_le h2
  · simp only [Ex.fadd_exact, Flt.le, Flt.lt, Flt.eq, Bool.or_eq_true, decide_eq_true_eq]
    exact lt_or_eq_of_le h3

theorem ex_fadd_exact_cost (x y : Flt) (hx : x.lt (.fin 0 0) = false)
    (hy : y.lt (.fin 0 0) = false) : (Ex.fadd_exact x y).lt (.fin 0 0) = false := by
  cases x <;> cases y <;> simp [Flt.lt] at hx hy <;>
    try (simp [Ex.fadd_exact, Flt.lt]; done)
  rename_i a ea b eb
  have h1 : 0 ≤ a * 2 ^ eb + b * 2 ^ ea := by positivity
  simpa [Ex.fadd_exact, Flt.lt] using h1

theorem ex_fdiv_one_cost (x y : Flt) (hx : x.nonneg = true) (_hy : y.nonneg = true) :
    (Ex.fdiv_one x y).lt (.fin 0 0) = false := by
  unfold Ex.fdiv_one
  split
  · exact flt_nonneg_not_lt x hx
  · rfl

theorem ex_make_ps :
    PlanningGraph.make Ex.fadd_exact Ex.fdiv_one Ex.threshold Ex.static_s id Ex.tb
      3 3 Ex.problem_ps [Ex.action_pr] .RELATIVE = .value Ex.pg_ps := by
  rfl

/-- C28 at the problem with the initial atoms `p(o1)` and `s(o1)` and the action with the
precondition `p(o1)` that adds `p(o1)` and `r(o2)`: the graph is built in two levels, and
the dynamic atom `p(o1)`, which the action adds again, keeps `ZERO_COST_UNIT_WORK`. -/
theorem initial_atom_value_kept_witness :
    PlanningGraph.make Ex.fadd_exact Ex.fdiv_one Ex.threshold Ex.static_s id Ex.tb
      3 3 Ex.problem_ps [Ex.action_pr] .RELATIVE = .value Ex.pg_ps
    ∧ ∃ atom, Ex.adds_p.literal = .atom atom
      ∧ Ex.pg_ps.heuristic_value Ex.tb 0 atom 0 none
        = .value (if Ex.static_s atom.predicate then HeuristicValue.ZERO Ex.threshold
                  else HeuristicValue.ZERO_COST_UNIT_WORK Ex.threshold) :=
  ⟨ex_make_ps,
    initial_atom_value_kept Ex.fadd_exact Ex.fdiv_one Ex.threshold Ex.static_s id
      Ex.tb 3 3 0 Ex.problem_ps [Ex.action_pr] .RELATIVE Ex.pg_ps Ex.adds_p (by decide)
      ex_fadd_exact_nonneg ex_fadd_exact_cost ex_fdiv_one_cost
      (by
        intro a ha d hd
        rw [List.mem_singleton.mp ha] at hd
        cases hd
        rfl)
      (fun ta h => absurd h (List.not_mem_nil ta))
      (by
        intro e1 h1 e2 h2 hadr
        simp only [Ex.problem_ps, Ex.init_ps, List.mem_cons, List.mem_singleton,
          List.not_mem_nil, or_false] at h1 h2
        rcases h1 with h1 | h1 <;> rcases h2 with h2 | h2 <;> subst h1 <;> subst h2 <;>
          first | rfl | (exact absurd hadr (by decide)))
      ex_make_ps (List.mem_cons_self _ _)⟩

/-- C28 fails for a timed initial literal at a negative time: with the threshold `0.01f`,
the initial atoms `p(o1)` (dynamic) and `s(o1)`, the literal `r(o2)` at the time `-0.02f` and
the action of duration 0 with the precondition `r(o2)` and the effect `p(o1)`, the graph is
built, and level 1 replaces the value `ZERO_COST_UNIT_WORK` of `p(o1)` by a value of cost
`-0.01f` and work 2. -/
theorem negative_time_replaces_initial_value :
    PlanningGraph.make Ex.fadd_exact Ex.fdiv_one Ex.threshold_src Ex.static_s id Ex.tb 3 3
        Ex.problem_neg [Ex.action_rp] .DURATION = .value Ex.pg_neg
      ∧ Ex.adds_p ∈ Ex.problem_neg.init_action.effects
      ∧ Ex.adds_p.literal = .atom Ex.atom_p
      ∧ Ex.static_s Ex.atom_p.predicate = false
      ∧ Ex.pg_neg.heuristic_value Ex.tb 0 Ex.atom_p 0 none
          = .value ⟨.fin (-1441151848546304) 57, 2, .fin 5368709 29⟩
      ∧ Ex.pg_neg.heuristic_value Ex.tb 0 Ex.atom_p 0 none
          ≠ .value (HeuristicValue.ZERO_COST_UNIT_WORK Ex.threshold_src)
      ∧ (HeuristicValue.mk (.fin (-1441151848546304) 57) 2 (.fin 5368709 29)).add_cost.lt
          (.fin 0 0) = true :=
  ⟨rfl, List.mem_cons_self _ _, rfl, rfl, rfl, by decide, by decide⟩

end VHDPOP
